import Mathlib

/-!
# B-tree of order `B` (`src/03-btree/localtest/btree.hpp`)

A shallow embedding of `BTree<int, B>` and `BTreeNode<int, B>`.

* A node is a value `BTreeNode.mk type n keys edges`.  The two `std::array`s are lists of
  slots: `keys` has `2 * B - 1` slots and `edges` has `2 * B` slots.  A slot is `none` while
  it has never been written (an indeterminate `int`, an indeterminate or null pointer) and
  `some v` afterwards.  Slots at index `>= n` keep whatever was stored there last, exactly as
  in the C++ arrays.
* A pointer to a child is modelled by the child itself; a call that mutates a child through
  the pointer (`edges[idx]->insert(t)`) is modelled by writing the mutated child back into
  the slot it was read from.
* A `delete` statement runs the destructor `~BTreeNode`, which deletes the children in the
  slots `0 .. n` of an internal node.  A pointer that is still stored somewhere to a node
  deleted in this way can no longer be used.  `delete sibling` in `merge_children` deletes
  the children of an internal sibling after they have been copied into the merged node: the
  slots of the merged node that received them read as `none` from then on (`wrDeleted`).
  `delete prev_root` in `BTree::remove` deletes the child in slot 0 of the old root, which is
  the node `root` has just been set to: the tree is then marked `deleted`, and every member
  function that goes through `root` is undefined on it.  The nodes that a `delete` statement
  releases are listed by `BTreeNode.destroy`.
* Every operation returns `Option`: `none` stands for undefined behaviour of the C++ code
  (reading a slot that was never written, dereferencing a null pointer or a pointer to a
  released node, indexing outside an array) and for an exhausted recursion budget.  The
  model is strict about slots that read as `none`: a loop that only copies such a slot is
  undefined as well.  The results saying that a call on released nodes is undefined are
  stated on runs whose first undefined step dereferences the pointer to a released node.  Recursive member functions take that budget
  as their first argument `fuel`; one unit is consumed per level of the tree.
* `size_t` subtraction wraps around (`szSub`); the `int` loop counters of the source are
  integers.
-/

/-- Node kind, `enum class NodeType`. -/
inductive NodeType where
  | LEAF
  | INTERNAL
  deriving DecidableEq, Repr

/-- The struct `BTreeNode<int, B>`: kind, live key count, key slots, child slots. -/
inductive BTreeNode where
  | mk (type : NodeType) (n : Nat) (keys : List (Option Int)) (edges : List (Option BTreeNode))

namespace BTreeNode

/-- Field `type`. -/
def type : BTreeNode → NodeType
  | mk t _ _ _ => t

/-- Field `n`. -/
def n : BTreeNode → Nat
  | mk _ n _ _ => n

/-- Field `keys`. -/
def keys : BTreeNode → List (Option Int)
  | mk _ _ ks _ => ks

/-- Field `edges`. -/
def edges : BTreeNode → List (Option BTreeNode)
  | mk _ _ _ es => es

end BTreeNode

/-- The struct `BTree<int, B>`: the pointer `root` (`nullptr` is `none`), given by the node
it points to, and whether that node has been released by a `delete` statement; `deleted`
says nothing while `root` is null. -/
structure BTree where
  make ::
  root : Option BTreeNode
  deleted : Bool

/-- A tree object whose `root` is null or points to a node that has not been released. -/
@[reducible] def BTree.mk (root : Option BTreeNode) : BTree :=
  BTree.make root false

/-- Subtraction on `size_t` (64 bit): wraps around below zero. -/
def szSub (a b : Nat) : Nat :=
  if b ≤ a then a - b else a + 2 ^ 64 - b

/-- Read of array slot `i`: undefined outside the array and on a slot never written. -/
def rd {α : Type} (a : List (Option α)) (i : Nat) : Option α :=
  a[i]?.join

/-- Write of `v` to array slot `i`: undefined outside the array. -/
def wr {α : Type} (a : List (Option α)) (i : Nat) (v : α) : Option (List (Option α)) :=
  if i < a.length then some (a.set i (some v)) else none

/-- Write of `nullptr` to pointer slot `i`. -/
def wrNull {α : Type} (a : List (Option α)) (i : Nat) : Option (List (Option α)) :=
  if i < a.length then some (a.set i none) else none

/-- The node that the pointer in slot `i` points to has been deleted: like a slot that was
never written, the slot cannot be read from then on. -/
def wrDeleted {α : Type} (a : List (Option α)) (i : Nat) : Option (List (Option α)) :=
  if i < a.length then some (a.set i none) else none

/-- Worker of `forUp`: `c` iterations starting at index `i`. -/
def forUpAux {σ : Type} (body : Nat → σ → Option σ) : Nat → Nat → σ → Option σ
  | 0, _, s => some s
  | c + 1, i, s => (body i s).bind (forUpAux body c (i + 1))

/-- The loop `for (i = lo; i < hi; ++i) body`. -/
def forUp {σ : Type} (lo hi : Nat) (body : Nat → σ → Option σ) (s : σ) : Option σ :=
  forUpAux body (hi - lo) lo s

/-- Worker of `forDown`: `c` iterations starting at index `j`. -/
def forDownAux {σ : Type} (body : Int → σ → Option σ) : Nat → Int → σ → Option σ
  | 0, _, s => some s
  | c + 1, j, s => (body j s).bind (forDownAux body c (j - 1))

/-- The loop `for (int j = hi; j >= lo; j--) body`. -/
def forDown {σ : Type} (hi lo : Int) (body : Int → σ → Option σ) (s : σ) : Option σ :=
  forDownAux body (hi - lo + 1).toNat hi s

/-- Loop body `a[j + 1] = a[j]` with an `int` counter. -/
def shiftUpBody {α : Type} (j : Int) (a : List (Option α)) : Option (List (Option α)) :=
  (rd a j.toNat).bind (fun v => wr a (j + 1).toNat v)

/-- Loop body `a[i] = a[i + 1]`. -/
def shiftDownBody {α : Type} (i : Nat) (a : List (Option α)) : Option (List (Option α)) :=
  (rd a (i + 1)).bind (fun v => wr a i v)

/-- Loop body `a[i - 1] = a[i]` with a `size_t` counter. -/
def shiftDownBody1 {α : Type} (i : Nat) (a : List (Option α)) : Option (List (Option α)) :=
  (rd a i).bind (fun v => wr a (szSub i 1) v)

/-- Loop body `dst[i + off] = src[i]`. -/
def copyToBody {α : Type} (src : List (Option α)) (off : Nat) (i : Nat) (dst : List (Option α)) :
    Option (List (Option α)) :=
  (rd src i).bind (fun v => wr dst (off + i) v)

/-- Loop body `dst[j] = src[j + off]`. -/
def copyFromBody {α : Type} (src : List (Option α)) (off : Nat) (j : Nat) (dst : List (Option α)) :
    Option (List (Option α)) :=
  (rd src (j + off)).bind (fun v => wr dst j v)

namespace BTreeNode

/-- Constructor `BTreeNode()`: an empty leaf; neither array is initialised. -/
def new (B : Nat) : BTreeNode :=
  mk NodeType.LEAF 0 (List.replicate (2 * B - 1) none) (List.replicate (2 * B) none)

/-- Constructor `BTreeNode(const T& t)`: a leaf holding `t` in slot 0. -/
def singleton (B : Nat) (t : Int) : Option BTreeNode :=
  (wr (List.replicate (2 * B - 1) none) 0 t).map
    (fun ks => mk NodeType.LEAF 1 ks (List.replicate (2 * B) none))

/-- The loop of `get_index`: `while (idx < n && keys[idx] < t) idx++`. -/
def get_index_loop (keys : List (Option Int)) (n : Nat) (t : Int) : Nat → Nat → Option Nat
  | 0, idx => if idx < n then none else some idx
  | c + 1, idx =>
    if idx < n then
      (rd keys idx).bind (fun k => if k < t then get_index_loop keys n t c (idx + 1) else some idx)
    else some idx

/-- Member `get_index`: the position of the first live key that is not below `t`. -/
def get_index (node : BTreeNode) (t : Int) : Option Nat :=
  get_index_loop node.keys node.n t node.n 0

/-- Member `for_all` with the visitor collecting the keys it is handed, in order. -/
def for_all : Nat → BTreeNode → Option (List Int)
  | 0, _ => none
  | fuel + 1, node =>
    if node.type = NodeType.LEAF then
      forUp 0 node.n (fun j acc => (rd node.keys j).map (fun k => acc ++ [k])) []
    else if node.n < 1 then some []
    else do
      let acc ← forUp 0 node.n (fun j acc => do
        let c ← rd node.edges j
        let l ← for_all fuel c
        let k ← rd node.keys j
        some (acc ++ l ++ [k])) []
      let c ← rd node.edges node.n
      let l ← for_all fuel c
      some (acc ++ l)

/-- Static member `split_child(parent, idx)`. -/
def split_child (B : Nat) (parent : BTreeNode) (idx : Nat) : Option BTreeNode := do
  let y ← rd parent.edges idx
  let z := new B
  let zkeys ← forUp 0 (B - 1) (copyFromBody y.keys B) z.keys
  let zedges ←
    if y.type = NodeType.INTERNAL then forUp 0 B (copyFromBody y.edges B) z.edges
    else some z.edges
  let pedges ← forDown (parent.n : Int) ((idx + 1 : Nat) : Int) shiftUpBody parent.edges
  let pkeys ← forDown ((parent.n : Int) - 1) (idx : Int) shiftUpBody parent.keys
  let pedges ← wr pedges (idx + 1) (mk y.type (B - 1) zkeys zedges)
  let median ← rd y.keys (B - 1)
  let pkeys ← wr pkeys idx median
  let pedges ← wr pedges idx (mk y.type (B - 1) y.keys y.edges)
  some (mk parent.type (parent.n + 1) pkeys pedges)

/-- Member `insert`. -/
def insert (B : Nat) : Nat → BTreeNode → Int → Option (Bool × BTreeNode)
  | 0, _, _ => none
  | fuel + 1, node, t => do
    let idx ← get_index node t
    if node.type = NodeType.INTERNAL then
      let c ← rd node.edges idx
      let node1 ← if c.n = 2 * B - 1 then split_child B node idx else some node
      let idx1 ← if c.n = 2 * B - 1 then get_index node1 t else some idx
      let c1 ← rd node1.edges idx1
      let r ← insert B fuel c1 t
      let edges1 ← wr node1.edges idx1 r.2
      some (r.1, mk node1.type node1.n node1.keys edges1)
    else
      let keys1 ← forDown ((node.n : Int) - 1) (idx : Int) shiftUpBody node.keys
      let keys2 ← wr keys1 idx t
      some (true, mk node.type (node.n + 1) keys2 node.edges)

/-- Static member `find_rightmost_key`. -/
def find_rightmost_key : Nat → BTreeNode → Option Int
  | 0, _ => none
  | fuel + 1, node =>
    if node.type = NodeType.LEAF then rd node.keys (szSub node.n 1)
    else (rd node.edges node.n).bind (find_rightmost_key fuel)

/-- Static member `find_leftmost_key`. -/
def find_leftmost_key : Nat → BTreeNode → Option Int
  | 0, _ => none
  | fuel + 1, node =>
    if node.type = NodeType.LEAF then rd node.keys 0
    else (rd node.edges 0).bind (find_leftmost_key fuel)

/-- Static member `borrow_from_right(node, e)`; its constant result `true` is left out. -/
def borrow_from_right (node : BTreeNode) (e : Nat) : Option BTreeNode := do
  let child ← rd node.edges e
  let sibling ← rd node.edges (e + 1)
  let sep ← rd node.keys e
  let ckeys ← wr child.keys child.n sep
  let cedges ←
    if child.type = NodeType.INTERNAL then
      (rd sibling.edges 0).bind (fun s0 => wr child.edges (child.n + 1) s0)
    else some child.edges
  let first ← rd sibling.keys 0
  let nkeys ← wr node.keys e first
  let skeys ← forUp 0 (szSub sibling.n 1) shiftDownBody sibling.keys
  let sedges ←
    if sibling.type = NodeType.INTERNAL then forUp 0 sibling.n shiftDownBody sibling.edges
    else some sibling.edges
  let nedges ← wr node.edges e (mk child.type (child.n + 1) ckeys cedges)
  let nedges ← wr nedges (e + 1) (mk sibling.type (szSub sibling.n 1) skeys sedges)
  some (mk node.type node.n nkeys nedges)

/-- Static member `borrow_from_left(node, e)`; its constant result `true` is left out. -/
def borrow_from_left (node : BTreeNode) (e : Nat) : Option BTreeNode := do
  let child ← rd node.edges e
  let sibling ← rd node.edges (szSub e 1)
  let ckeys ← forDown ((child.n : Int) - 1) 0 shiftUpBody child.keys
  let cedges ←
    if child.type = NodeType.INTERNAL then forDown (child.n : Int) 0 shiftUpBody child.edges
    else some child.edges
  let sep ← rd node.keys (szSub e 1)
  let ckeys ← wr ckeys 0 sep
  let cedges ←
    if child.type = NodeType.INTERNAL then
      (rd sibling.edges sibling.n).bind (fun sl => wr cedges 0 sl)
    else some cedges
  let last ← rd sibling.keys (szSub sibling.n 1)
  let nkeys ← wr node.keys (szSub e 1) last
  let nedges ← wr node.edges e (mk child.type (child.n + 1) ckeys cedges)
  let nedges ← wr nedges (szSub e 1) (mk sibling.type (szSub sibling.n 1) sibling.keys sibling.edges)
  some (mk node.type node.n nkeys nedges)

/-- Static member `merge_children(node, idx)`; its constant result `true` is left out.
`delete sibling` runs the destructor of the sibling as it stands before the call: when the
sibling is internal, the children in its slots `0 .. n` are deleted, and the copies of these
pointers in the slots `child.n + 1 ..` of the merged child (made when the child is internal
too) have lost their targets. -/
def merge_children (node : BTreeNode) (idx : Nat) : Option BTreeNode := do
  let child ← rd node.edges idx
  let sibling ← rd node.edges (idx + 1)
  let sep ← rd node.keys idx
  let ckeys ← wr child.keys child.n sep
  let ckeys ← forUp 0 sibling.n (copyToBody sibling.keys (child.n + 1)) ckeys
  let cedges ←
    if child.type = NodeType.INTERNAL then
      forUp 0 (sibling.n + 1) (copyToBody sibling.edges (child.n + 1)) child.edges
    else some child.edges
  let nkeys ← forUp (idx + 1) node.n shiftDownBody1 node.keys
  let nedges ← forUp (idx + 2) (node.n + 1) shiftDownBody1 node.edges
  let cedges ←
    if sibling.type = NodeType.INTERNAL ∧ child.type = NodeType.INTERNAL then
      forUp 0 (sibling.n + 1) (fun i es => wrDeleted es (child.n + 1 + i)) cedges
    else some cedges
  let nedges ← wr nedges idx (mk child.type (child.n + (sibling.n + 1)) ckeys cedges)
  let nedges ← wrNull nedges (szSub node.n 1 + 1)
  some (mk node.type (szSub node.n 1) nkeys nedges)

/-- The short-circuit condition `guard && edges[e]->n >= B` of `remove`: the sibling in slot
`e` is only looked at when `guard` holds. -/
def has_spare (B : Nat) (node : BTreeNode) (guard : Bool) (e : Nat) : Option Bool :=
  if guard then (rd node.edges e).map (fun l => decide (B ≤ l.n)) else some false

/-- The block of `remove` that runs before descending from an internal node in which the
key was not found (source lines 300 to 309): a child with fewer than `B` keys borrows a key
from a sibling or is merged with one. -/
def remove_fix (B : Nat) (node : BTreeNode) (idx : Nat) : Option BTreeNode := do
  let c ← rd node.edges idx
  if c.n < B then
    let fromLeft ← has_spare B node (decide (idx ≠ 0)) (szSub idx 1)
    if fromLeft then borrow_from_left node idx
    else
      let fromRight ← has_spare B node (decide (idx ≠ node.n)) (idx + 1)
      if fromRight then borrow_from_right node idx
      else if idx ≠ node.n then merge_children node idx
      else merge_children node (szSub idx 1)
  else some node

/-- The short-circuit condition `idx < n && keys[idx] == t` of `remove`. -/
def found_at (node : BTreeNode) (idx : Nat) (t : Int) : Option Bool :=
  if idx < node.n then (rd node.keys idx).map (fun k => decide (k = t)) else some false

/-- Member `remove`.  The result `false` of the branch for a key found in an internal node is
the `return false` that this branch falls through to at the end of the function. -/
def remove (B : Nat) : Nat → BTreeNode → Int → Option (Bool × BTreeNode)
  | 0, _, _ => none
  | fuel + 1, node, t => do
    let idx ← get_index node t
    let found ← found_at node idx t
    if found then
      if node.type = NodeType.LEAF then
        let keys1 ← forUp idx (szSub node.n 1) shiftDownBody node.keys
        some (true, mk node.type (szSub node.n 1) keys1 node.edges)
      else
        let left ← rd node.edges idx
        if B ≤ left.n then
          let pred_key ← find_rightmost_key fuel left
          let keys1 ← wr node.keys idx pred_key
          let r ← remove B fuel left pred_key
          let edges1 ← wr node.edges idx r.2
          some (false, mk node.type node.n keys1 edges1)
        else
          let right ← rd node.edges (idx + 1)
          if B ≤ right.n then
            let succ_key ← find_leftmost_key fuel right
            let keys1 ← wr node.keys idx succ_key
            let r ← remove B fuel right succ_key
            let edges1 ← wr node.edges (idx + 1) r.2
            some (false, mk node.type node.n keys1 edges1)
          else
            let node1 ← merge_children node idx
            let c ← rd node1.edges idx
            let r ← remove B fuel c t
            let edges1 ← wr node1.edges idx r.2
            some (false, mk node1.type node1.n node1.keys edges1)
    else
      if node.type = NodeType.LEAF then some (false, node)
      else
        let node1 ← remove_fix B node idx
        let idx1 ← get_index node1 t
        let c1 ← rd node1.edges idx1
        let r ← remove B fuel c1 t
        let edges1 ← wr node1.edges idx1 r.2
        some (true, mk node1.type node1.n node1.keys edges1)

/-- The leaf loop of `search`: `for (i = 0; i < keys.size(); i++) if (t == keys[i]) return i`. -/
def search_leaf (keys : List (Option Int)) (t : Int) : Nat → Nat → Option (Option Nat)
  | 0, _ => some none
  | c + 1, i => (rd keys i).bind (fun k => if t = k then some (some i) else search_leaf keys t c (i + 1))

/-- The loop of `search` on an internal node; the result is `Sum.inl i` for a hit at key `i`
and `Sum.inr i` for a descent into child `i`. -/
def search_internal (keys : List (Option Int)) (n : Nat) (t : Int) : Nat → Nat → Option (Nat ⊕ Nat)
  | 0, i => if i < n then none else some (Sum.inr i)
  | c + 1, i =>
    if i < n then
      (rd keys i).bind (fun k =>
        if t = k then some (Sum.inl i)
        else if t < k then some (Sum.inr i)
        else search_internal keys n t c (i + 1))
    else some (Sum.inr i)

/-- Static member `search(node, t)`: `some (node, i)` for a hit, `none` for `{nullptr, -1}`. -/
def search : Nat → BTreeNode → Int → Option (Option (BTreeNode × Nat))
  | 0, _, _ => none
  | fuel + 1, node, t =>
    if node.type = NodeType.LEAF then
      (search_leaf node.keys t node.keys.length 0).map (fun r => r.map (fun i => (node, i)))
    else
      (search_internal node.keys node.n t node.n 0).bind (fun r =>
        match r with
        | Sum.inl i => some (some (node, i))
        | Sum.inr i => (rd node.edges i).bind (fun c => search fuel c t))

/-- Member `depth`. -/
def depth : Nat → BTreeNode → Option Nat
  | 0, _ => none
  | fuel + 1, node =>
    if node.type = NodeType.LEAF then some 0
    else ((rd node.edges 0).bind (depth fuel)).map (fun d => 1 + d)

end BTreeNode

namespace BTree

/-- Member `BTree::insert`; undefined when the node `root` points to has been deleted. -/
def insert (B : Nat) (fuel : Nat) (tree : BTree) (t : Int) : Option (Bool × BTree) :=
  match tree.root with
  | none => (BTreeNode.singleton B t).map (fun r => (true, BTree.mk (some r)))
  | some root =>
    if tree.deleted = true then none
    else do
      let root1 ←
        if 2 * B - 1 ≤ root.n then do
          let edges0 ← wr (BTreeNode.new B).edges 0 root
          BTreeNode.split_child B
            (BTreeNode.mk NodeType.INTERNAL (BTreeNode.new B).n (BTreeNode.new B).keys edges0) 0
        else some root
      let r ← BTreeNode.insert B fuel root1 t
      some (r.1, BTree.mk (some r.2))

/-- Member `BTree::remove`; undefined when the node `root` points to has been deleted.  In
the branch of the root collapse, `root = root->edges[0]` is followed by `delete prev_root`:
the old root is internal with `n = 0`, so its destructor deletes the child in its slot 0,
which is the node `root` now points to. -/
def remove (B : Nat) (fuel : Nat) (tree : BTree) (t : Int) : Option (Bool × BTree) :=
  match tree.root with
  | none => some (false, tree)
  | some root =>
    if tree.deleted = true then none
    else do
      let r ← BTreeNode.remove B fuel root t
      let root1 := r.2
      if root1.n = 0 ∧ root1.type = NodeType.INTERNAL then
        let child ← rd root1.edges 0
        some (true, BTree.make (some child) true)
      else some (true, BTree.mk (some root1))

/-- Member `BTree::for_all` with the visitor collecting the keys; undefined when the node
`root` points to has been deleted. -/
def for_all (fuel : Nat) (tree : BTree) : Option (List Int) :=
  match tree.root with
  | none => some []
  | some root => if tree.deleted = true then none else BTreeNode.for_all fuel root

/-- Member `BTree::depth`: the inner `none` is `std::nullopt`; undefined when the node `root`
points to has been deleted. -/
def depth (fuel : Nat) (tree : BTree) : Option (Option Nat) :=
  match tree.root with
  | none => some none
  | some root => if tree.deleted = true then none else (BTreeNode.depth fuel root).map some

/-- Member `BTree::find_rightmost_key`: the inner `none` is `std::nullopt`; undefined when the
node `root` points to has been deleted. -/
def find_rightmost_key (fuel : Nat) (tree : BTree) : Option (Option Int) :=
  match tree.root with
  | none => some none
  | some root =>
    if tree.deleted = true then none else (BTreeNode.find_rightmost_key fuel root).map some

/-- Member `BTree::find_leftmost_key`: the inner `none` is `std::nullopt`; undefined when the
node `root` points to has been deleted. -/
def find_leftmost_key (fuel : Nat) (tree : BTree) : Option (Option Int) :=
  match tree.root with
  | none => some none
  | some root =>
    if tree.deleted = true then none else (BTreeNode.find_leftmost_key fuel root).map some

end BTree

/-! ## Reading a tree: one-level views and in-order sequences -/

open BTreeNode

/-- Position of the first element of `ks` that is not below `t`. -/
def lowerIdx (ks : List Int) (t : Int) : Nat :=
  (ks.takeWhile (fun x => decide (x < t))).length

/-- One-level reading of a node: kind `ty`, live keys `ks`, live children `cs`. -/
structure View (B : Nat) (c : BTreeNode) (ty : NodeType) (ks : List Int)
    (cs : List BTreeNode) : Prop where
  type_eq : c.type = ty
  n_eq : c.n = ks.length
  n_le : ks.length ≤ 2 * B - 1
  keys_len : c.keys.length = 2 * B - 1
  edges_len : c.edges.length = 2 * B
  keys_rd : ∀ i, i < ks.length → rd c.keys i = ks[i]?
  edges_rd : ∀ i, i < cs.length → rd c.edges i = cs[i]?
  cs_len : cs.length = if ty = NodeType.INTERNAL then ks.length + 1 else 0

/-- Keys and subtrees interleaved, ending with a key: `l0 ++ k0 :: l1 ++ k1 :: ...`. -/
def interL : List (List Int) → List Int → List Int
  | l :: ls, k :: ks => l ++ k :: interL ls ks
  | _, _ => []

/-- Keys and subtrees interleaved, starting with a key: `k0 :: l0 ++ k1 :: l1 ++ ...`. -/
def interR : List Int → List (List Int) → List Int
  | k :: ks, l :: ls => k :: (l ++ interR ks ls)
  | _, _ => []

/-- In-order sequence of an internal node from the sequences `ls` of its children and its
keys `ks`. -/
def inter : List (List Int) → List Int → List Int
  | [], _ => []
  | l :: ls, ks => l ++ interR ks ls

/-- Subtree of height `h` rooted at `c`, holding at least `lo` keys in `c` and between `B - 1`
and `2 * B - 1` keys in every node below `c`, with in-order key sequence `l`. -/
def T (B : Nat) : Nat → Nat → BTreeNode → List Int → Prop
  | 0, lo, c, l => View B c NodeType.LEAF l [] ∧ lo ≤ l.length
  | h + 1, lo, c, l => ∃ ks cs ls, View B c NodeType.INTERNAL ks cs ∧ lo ≤ ks.length ∧
      List.Forall₂ (T B h (B - 1)) cs ls ∧ l = inter ls ks

/-- Sequence `l` with `k` put in front of its first element that is not below `k`, for an
increasing `l`: the elements below `k`, then `k`, then the others. -/
def insSpec (k : Int) (l : List Int) : List Int :=
  l.filter (fun x => decide (x < k)) ++ k :: l.filter (fun x => decide (¬ x < k))

/-- Sequence `l` without the elements equal to `k`. -/
def delSpec (k : Int) (l : List Int) : List Int :=
  l.filter (fun x => decide (x ≠ k))

/-! ## The B-tree invariants -/

/-- The two arrays of a node have their declared sizes `2 * B - 1` and `2 * B`. -/
def ArraysOK (B : Nat) (c : BTreeNode) : Prop :=
  c.keys.length = 2 * B - 1 ∧ c.edges.length = 2 * B

/-- The live keys `keys[0 .. n)` of a node have been written and are strictly increasing. -/
def KeysSorted (c : BTreeNode) : Prop :=
  (∀ i, i < c.n → ∃ x, rd c.keys i = some x) ∧
  ∀ i j x y, i < j → j < c.n → rd c.keys i = some x → rd c.keys j = some y → x < y

/-- The B-tree invariants on the subtree rooted at `c`, all of whose leaves are `h` levels
below `c`: every node is of the right kind with arrays of the declared sizes, holds at most
`2 * B - 1` keys and, unless it is the root, at least `B - 1`; its live keys are strictly
increasing; an internal node holds at least one key and has a child in each of the slots
`0 .. n`; and every key of the subtree in slot `i` (the keys `for_all` visits there) lies
strictly between the separators `keys[i - 1]` and `keys[i]`. -/
def WellFormedNode (B : Nat) (isRoot : Bool) : Nat → BTreeNode → Prop
  | 0, c => c.type = NodeType.LEAF ∧ ArraysOK B c ∧ (isRoot = true ∨ B - 1 ≤ c.n) ∧
      c.n ≤ 2 * B - 1 ∧ KeysSorted c
  | h + 1, c => c.type = NodeType.INTERNAL ∧ ArraysOK B c ∧ (isRoot = true ∨ B - 1 ≤ c.n) ∧
      1 ≤ c.n ∧ c.n ≤ 2 * B - 1 ∧ KeysSorted c ∧
      ∀ i, i ≤ c.n → ∃ d l, rd c.edges i = some d ∧ WellFormedNode B false h d ∧
        for_all (h + 1) d = some l ∧
        ∀ x ∈ l, (∀ y, i < c.n → rd c.keys i = some y → x < y) ∧
          (∀ y, 0 < i → rd c.keys (i - 1) = some y → y < x)

/-- A tree is well formed at height `h`: it is empty, or its root has not been deleted and
satisfies the B-tree invariants with all leaves `h` levels below the root. -/
def BTree.WellFormedAt (B : Nat) (h : Nat) (t : BTree) : Prop :=
  match t.root with
  | none => True
  | some r => t.deleted = false ∧ WellFormedNode B true h r

/-- The removal of `k` never meets a child with fewer than `B` keys on its way down from
`node`: at every internal node on the path, the child it descends into holds at least `B`
keys, so `remove_fix` leaves the node as it is. -/
def no_fix_path (B : Nat) (k : Int) : Nat → BTreeNode → Prop
  | 0, _ => False
  | fuel + 1, node => node.type = NodeType.LEAF ∨
      ∃ idx c, get_index node k = some idx ∧ rd node.edges idx = some c ∧ B ≤ c.n ∧
        no_fix_path B k fuel c

/-- Trees that can be built from the empty tree by `insert` of a key that is not stored and
by `remove`; a step is the result the operation gives with every large enough budget. -/
inductive BTree.Reachable (B : Nat) : BTree → Prop
  | empty : BTree.Reachable B (BTree.mk none)
  | insert {t t1 : BTree} (k : Int) : BTree.Reachable B t →
      (∃ fuel0, ∀ fuel, fuel0 ≤ fuel → ∃ l r, BTree.for_all fuel t = some l ∧ k ∉ l ∧
        BTree.insert B fuel t k = some (r, t1)) → BTree.Reachable B t1
  | remove {t t1 : BTree} (k : Int) : BTree.Reachable B t →
      (∃ fuel0, ∀ fuel, fuel0 ≤ fuel → ∃ r, BTree.remove B fuel t k = some (r, t1)) →
      BTree.Reachable B t1

/-! ## Sample trees for `B = 2` -/

/-- A leaf of a `B = 2` tree holding the keys `ks` (at most three). -/
def sampleLeaf (ks : List Int) : BTreeNode :=
  BTreeNode.mk NodeType.LEAF ks.length (ks.map some ++ List.replicate (3 - ks.length) none)
    (List.replicate 4 none)

/-- The `B = 2` tree with root `[2]` over the leaves `[1]` and `[3]`. -/
def sampleTreeA : BTree :=
  BTree.mk (some (BTreeNode.mk NodeType.INTERNAL 1 [some 2, none, none]
    [some (sampleLeaf [1]), some (sampleLeaf [3]), none, none]))

/-- The `B = 2` tree with root `[3]` over the leaves `[1, 2]` and `[4, 5]`. -/
def sampleTreeB : BTree :=
  BTree.mk (some (BTreeNode.mk NodeType.INTERNAL 1 [some 3, none, none]
    [some (sampleLeaf [1, 2]), some (sampleLeaf [4, 5]), none, none]))

/-- The `B = 2` node with the key `x` over the leaves `a` and `b`. -/
def sampleRoot (x : Int) (a b : List Int) : BTreeNode :=
  BTreeNode.mk NodeType.INTERNAL 1 [some x, none, none]
    [some (sampleLeaf a), some (sampleLeaf b), none, none]

/-- The `B = 2` node `[4]` over the internal nodes `[2]`, with the leaves `[1]` and `[3]`, and
`[6]`, with the leaves `[5]` and `[7]`. -/
def sampleInner : BTreeNode :=
  BTreeNode.mk NodeType.INTERNAL 1 [some 4, none, none]
    [some (sampleRoot 2 [1] [3]), some (sampleRoot 6 [5] [7]), none, none]

/-- The `B = 2` internal node with the keys `ks` (at most three) over the children `cs` (at
most four). -/
def sampleNode (ks : List Int) (cs : List BTreeNode) : BTreeNode :=
  BTreeNode.mk NodeType.INTERNAL ks.length
    (ks.map some ++ List.replicate (3 - ks.length) none)
    (cs.map some ++ List.replicate (4 - cs.length) none)

/-- The `B = 2` node of height 3 with the key 12 over two internal nodes: the node `[4, 8]`
over `[2]`, `[6]` and `[10]`, whose leaves are `[1]`, `[3]`, `[5]`, `[7]`, `[9]`, `[11]`, and
the node `[20]` over `[16]` and `[24]`, whose leaves are `[14]`, `[18]`, `[22]`, `[26]`. -/
def sampleDeep : BTreeNode :=
  sampleNode [12]
    [sampleNode [4, 8] [sampleRoot 2 [1] [3], sampleRoot 6 [5] [7], sampleRoot 10 [9] [11]],
     sampleNode [20] [sampleRoot 16 [14] [18], sampleRoot 24 [22] [26]]]

/-! ## The test driver and the release of nodes -/

/-- The loop `for (int key : keys) btree.insert(key);` of the test driver `main`
(`src/03-btree/localtest/btree_test.cpp`); the results of the calls are dropped, as in the
driver. -/
def BTree.insert_keys (B fuel : Nat) : BTree → List Int → Option BTree
  | t, [] => some t
  | t, k :: ks => (BTree.insert B fuel t k).bind (fun r => BTree.insert_keys B fuel r.2 ks)

/-- The loop `for (int key : delkeys) btree.remove(key);` of the test driver `main`; the
results of the calls are dropped, as in the driver. -/
def BTree.remove_keys (B fuel : Nat) : BTree → List Int → Option BTree
  | t, [] => some t
  | t, k :: ks => (BTree.remove B fuel t k).bind (fun r => BTree.remove_keys B fuel r.2 ks)

/-- The expression `delete node`: the destructor `~BTreeNode` runs and the node is released.
The result lists the released nodes.  A leaf releases itself only; an internal node first
deletes the child in each of the slots `0 .. n` that holds a pointer (a slot that holds none
is passed over, as a null pointer is), then releases itself.  It is only applied to nodes
whose slots `0 .. n` all hold a pointer to a node that has not been released. -/
def BTreeNode.destroy : Nat → BTreeNode → Option (List BTreeNode)
  | 0, _ => none
  | fuel + 1, node =>
    if node.type = NodeType.LEAF then some [node]
    else
      (forUp 0 (node.n + 1) (fun i acc =>
        match node.edges[i]? with
        | none => none
        | some none => some acc
        | some (some c) => (BTreeNode.destroy fuel c).map (fun d => acc ++ d)) []).map
        (fun d => d ++ [node])

/-- The statement `delete sibling` of `merge_children(node, idx)`: the nodes it releases.
The sibling is deleted as it stands before the call; `merge_children` changes neither its
kind, nor its `n`, nor its child slots. -/
def BTreeNode.merge_children_deleted (fuel : Nat) (node : BTreeNode) (idx : Nat) :
    Option (List BTreeNode) :=
  (rd node.edges (idx + 1)).bind (BTreeNode.destroy fuel)

/-- The statement `delete prev_root` of `BTree::remove`: the nodes it releases; none when the
root does not collapse. -/
def BTree.remove_root_deleted (B fuel : Nat) (tree : BTree) (t : Int) :
    Option (List BTreeNode) :=
  match tree.root with
  | none => some []
  | some root =>
    if tree.deleted = true then none
    else
      (BTreeNode.remove B fuel root t).bind (fun r =>
        if r.2.n = 0 ∧ r.2.type = NodeType.INTERNAL then BTreeNode.destroy fuel r.2
        else some [])

/-! ## `get_index` -/

/-- Whether key slot `j` of a node has been written and holds a key strictly smaller than
`t`. -/
def BTreeNode.key_below (node : BTreeNode) (t : Int) (j : Nat) : Bool :=
  match rd node.keys j with
  | some x => decide (x < t)
  | none => false

/-- Number of live keys of a node that are strictly smaller than `t`. -/
def BTreeNode.count_below (node : BTreeNode) (t : Int) : Nat :=
  ((List.range node.n).filter (node.key_below t)).length

/-- The node `[ 3 | 9 | 13 | 27 ]` of the comment above `get_index`, as a leaf of a `B = 3`
tree. -/
def get_index_example : BTreeNode :=
  BTreeNode.mk NodeType.LEAF 4 [some 3, some 9, some 13, some 27, none] (List.replicate 6 none)

/-! # Binary search tree (`src/02-BST/include/BST.hpp`)

`std::unique_ptr<TreeNode<int>>` is either null or owns one node, which in turn owns its two
subtrees; a tree of nodes held by such pointers is a value of `TreePtr`.  The recursive
private members take the pointer by reference and may reseat it: they return the pointer
they leave behind together with their result.  All recursion is on the structure of the
tree, so no recursion budget is needed. -/

/-- The type `std::unique_ptr<TreeNode<int>>` with what it owns: `null`, or a node with its
`element`, `left` and `right`. -/
inductive TreePtr where
  | null
  | node (element : Int) (left right : TreePtr)

/-- The class `BST<int>`: the pointer `root`. -/
structure BST where
  root : TreePtr

namespace TreePtr

/-- The test `!t` on a pointer. -/
def isNull : TreePtr → Bool
  | null => true
  | node _ _ _ => false

/-- Private member `BST::insert(t, key)`. -/
def insert : TreePtr → Int → Bool × TreePtr
  | null, key => (true, node key null null)
  | node e l r, key =>
    if key = e then (false, node e l r)
    else if key < e then ((insert l key).1, node e (insert l key).2 r)
    else ((insert r key).1, node e l (insert r key).2)

/-- Private member `BST::search(t, key)`. -/
def search : TreePtr → Int → Bool
  | null, _ => false
  | node e l r, key =>
    if key = e then true
    else if key < e then search l key
    else search r key

/-- Private member `BST::find_rightmost_key(t)`; dereferencing a null `t` is undefined. -/
def find_rightmost_key : TreePtr → Option Int
  | null => none
  | node e _ r => if r.isNull then some e else find_rightmost_key r

/-- Private member `BST::remove(t, key)`; the result of the call on the left subtree in the
last branch is dropped, as in the source. -/
def remove : TreePtr → Int → Option (Bool × TreePtr)
  | null, _ => some (false, null)
  | node e l r, key =>
    if key ≠ e then
      if key < e then (remove l key).map (fun p => (p.1, node e p.2 r))
      else (remove r key).map (fun p => (p.1, node e l p.2))
    else if l.isNull ∧ r.isNull then some (true, null)
    else if l.isNull then some (true, r)
    else if r.isNull then some (true, l)
    else
      (find_rightmost_key l).bind (fun next_element =>
        (remove l next_element).map (fun p => (true, node next_element p.2 r)))

/-- The elements stored in a tree, left subtree first. -/
def elements : TreePtr → List Int
  | null => []
  | node e l r => elements l ++ e :: elements r

/-- The BST ordering: at every node, all elements of the left subtree are smaller and all
elements of the right subtree are larger than the element of the node. -/
def Ordered : TreePtr → Prop
  | null => True
  | node e l r => (∀ x ∈ elements l, x < e) ∧ (∀ x ∈ elements r, e < x) ∧ Ordered l ∧ Ordered r

end TreePtr

namespace BST

/-- Public member `BST::insert(key)`. -/
def insert (t : BST) (key : Int) : Bool × BST :=
  ((TreePtr.insert t.root key).1, BST.mk (TreePtr.insert t.root key).2)

/-- Public member `BST::search(key)`. -/
def search (t : BST) (key : Int) : Bool :=
  TreePtr.search t.root key

/-- Public member `BST::remove(key)`. -/
def remove (t : BST) (key : Int) : Option (Bool × BST) :=
  (TreePtr.remove t.root key).map (fun p => (p.1, BST.mk p.2))

end BST

/-- The tree with 5 at the root, 3 and 8 below it, and 4 below 3. -/
def sampleBST : BST :=
  BST.mk (TreePtr.node 5 (TreePtr.node 3 TreePtr.null (TreePtr.node 4 TreePtr.null TreePtr.null))
    (TreePtr.node 8 TreePtr.null TreePtr.null))

/-! # Which nodes the recursion of `insert` enters

The functions below follow the control flow of `insert` and record, instead of the tree, what
is called on the way down. -/

/-- Record of one run of `insert`: the key count of every node on which
`BTreeNode::insert` is invoked, in the order of the calls; for every call of `split_child`,
the key count of the parent and of the child it splits; and the highest key slot written by
the leaf branch (it writes the slots `idx + 1 .. n`, then the slot `idx`). -/
structure InsertCalls where
  nodes : List Nat
  splits : List (Nat × Nat)
  slot : Nat

/-- The run of `BTreeNode::insert(t)` on `node`. -/
def BTreeNode.insert_calls (B : Nat) : Nat → BTreeNode → Int → Option InsertCalls
  | 0, _, _ => none
  | fuel + 1, node, t => do
    let idx ← BTreeNode.get_index node t
    if node.type = NodeType.INTERNAL then
      let c ← rd node.edges idx
      let node1 ← if c.n = 2 * B - 1 then BTreeNode.split_child B node idx else some node
      let idx1 ← if c.n = 2 * B - 1 then BTreeNode.get_index node1 t else some idx
      let c1 ← rd node1.edges idx1
      let rest ← BTreeNode.insert_calls B fuel c1 t
      some (InsertCalls.mk (node.n :: rest.nodes)
        ((if c.n = 2 * B - 1 then [(node.n, c.n)] else []) ++ rest.splits) rest.slot)
    else
      some (InsertCalls.mk [node.n] [] (max idx node.n))

/-- The run of `BTree::insert(t)`; on the empty tree nothing is called, the constructor
writes slot 0. -/
def BTree.insert_calls (B : Nat) (fuel : Nat) (tree : BTree) (t : Int) : Option InsertCalls :=
  match tree.root with
  | none => some (InsertCalls.mk [] [] 0)
  | some root =>
    if tree.deleted = true then none
    else do
      let root1 ←
        if 2 * B - 1 ≤ root.n then do
          let edges0 ← wr (BTreeNode.new B).edges 0 root
          BTreeNode.split_child B
            (BTreeNode.mk NodeType.INTERNAL (BTreeNode.new B).n (BTreeNode.new B).keys edges0) 0
        else some root
      let rest ← BTreeNode.insert_calls B fuel root1 t
      some (InsertCalls.mk rest.nodes
        ((if 2 * B - 1 ≤ root.n then [((BTreeNode.new B).n, root.n)] else []) ++ rest.splits)
        rest.slot)

/-! # Red-black tree (`src/04-rbtree/localtest/rbtree1649.hpp`)

`std::unique_ptr<RBNode<int>>` is either null or owns one node, which owns its two subtrees;
a tree of nodes held by such pointers is a value of `RBPtr`.  The static members of `RBNode`
take the pointer `n` by reference and end with `return n.release()`: `release` hands the
node to the caller as a plain pointer and leaves `n` null.  They are modelled by functions
that return the pair of what `n` holds afterwards and the pointer returned; a caller that
drops the returned pointer loses the node.  `none` stands for undefined behaviour
(dereferencing a null pointer) and for an exhausted recursion budget. -/

/-- The type `color_t`. -/
abbrev color_t := Bool

/-- The constant `RED`. -/
abbrev RED : color_t := false

/-- The constant `BLK`. -/
abbrev BLK : color_t := true

/-- The type `std::unique_ptr<RBNode<int>>` with what it owns: `null`, or a node with its
`key`, `color`, `left` and `right`. -/
inductive RBPtr where
  | null
  | node (key : Int) (color : color_t) (left right : RBPtr)

/-- The struct `RBTree<int>`: the pointer `root`. -/
structure RBTree where
  root : RBPtr

namespace RBPtr

/-- The test `!n` on a pointer. -/
def isNull : RBPtr → Bool
  | null => true
  | node _ _ _ _ => false

/-- The read `n->key`. -/
def get_key : RBPtr → Option Int
  | null => none
  | node k _ _ _ => some k

/-- The read `n->color`. -/
def get_color : RBPtr → Option color_t
  | null => none
  | node _ c _ _ => some c

/-- The read `n->left`. -/
def get_left : RBPtr → Option RBPtr
  | null => none
  | node _ _ l _ => some l

/-- The read `n->right`. -/
def get_right : RBPtr → Option RBPtr
  | null => none
  | node _ _ _ r => some r

/-- The write `n->left = l`. -/
def set_left : RBPtr → RBPtr → Option RBPtr
  | null, _ => none
  | node k c _ r, l => some (node k c l r)

/-- The write `n->right = r`. -/
def set_right : RBPtr → RBPtr → Option RBPtr
  | null, _ => none
  | node k c l _, r => some (node k c l r)

/-- The write `n->color = c`. -/
def set_color : RBPtr → color_t → Option RBPtr
  | null, _ => none
  | node k _ l r, c => some (node k c l r)

/-- The statement `if (p) p->color = !p->color;`. -/
def negate : RBPtr → RBPtr
  | null => null
  | node k c l r => node k (!c) l r

end RBPtr

namespace RBNode

/-- Static member `is_red(n)`: `n && n->color == RED`. -/
def is_red : RBPtr → Bool
  | RBPtr.null => false
  | RBPtr.node _ c _ _ => c == RED

/-- Member `flip_color`, called as `n->flip_color()`. -/
def flip_color : RBPtr → Option RBPtr
  | RBPtr.null => none
  | RBPtr.node k c l r => some (RBPtr.node k (!c) l.negate r.negate)

/-- Static member `rotate_right(n)`: what `n` holds afterwards, and the pointer returned.
The node `x` is the former `n->left`; after `n = std::move(x)` the function ends with
`return n.release()`. -/
def rotate_right : RBPtr → Option (RBPtr × RBPtr)
  | RBPtr.node k c (RBPtr.node xk _ xl xr) r =>
    some (RBPtr.null, RBPtr.node xk c xl (RBPtr.node k RED xr r))
  | _ => none

/-- Static member `rotate_left(n)`: what `n` holds afterwards, and the pointer returned. -/
def rotate_left : RBPtr → Option (RBPtr × RBPtr)
  | RBPtr.node k c l (RBPtr.node xk _ xl xr) =>
    some (RBPtr.null, RBPtr.node xk c (RBPtr.node k RED l xl) xr)
  | _ => none

/-- The statement `if (is_red(n->left) && is_red(n->right)) n->flip_color();` of `insert`. -/
def insert_flip (n : RBPtr) : Option RBPtr :=
  n.get_left.bind (fun l => n.get_right.bind (fun r =>
    if is_red l && is_red r then flip_color n else some n))

/-- The statement `if (is_red(n->right) && !is_red(n->left)) rotate_left(n);` of `insert`
and of `fix_up`; the pointer that `rotate_left` returns is dropped. -/
def insert_rotate_left (n : RBPtr) : Option RBPtr :=
  n.get_right.bind (fun r => n.get_left.bind (fun l =>
    if is_red r && !is_red l then (rotate_left n).map (fun p => p.1) else some n))

/-- The statement `if (is_red(n->left) && is_red(n->left->left)) rotate_right(n);` of
`insert` and of `fix_up`; the pointer that `rotate_right` returns is dropped. -/
def insert_rotate_right (n : RBPtr) : Option RBPtr :=
  n.get_left.bind (fun l =>
    (if is_red l then l.get_left.map is_red else some false).bind (fun both =>
      if both then (rotate_right n).map (fun p => p.1) else some n))

/-- Static member `insert(n, t)`: what `n` holds afterwards, and the pointer returned.  The
pointers returned by the two recursive calls are dropped, as in the source; the last trace
statement reads `n->key`. -/
def insert : Nat → RBPtr → Int → Option (RBPtr × RBPtr)
  | 0, _, _ => none
  | fuel + 1, n, t =>
    if n.isNull then some (RBPtr.null, RBPtr.node t RED RBPtr.null RBPtr.null)
    else
      (insert_flip n).bind (fun n1 =>
      n1.get_key.bind (fun k1 =>
      (if t < k1 then
        n1.get_left.bind (fun l => (insert fuel l t).bind (fun p => n1.set_left p.1))
       else some n1).bind (fun n2 =>
      n2.get_key.bind (fun k2 =>
      (if t > k2 then
        n2.get_right.bind (fun r => (insert fuel r t).bind (fun p => n2.set_right p.1))
       else some n2).bind (fun n3 =>
      (insert_rotate_left n3).bind (fun n4 =>
      (insert_rotate_right n4).bind (fun n5 =>
      n5.get_key.bind (fun _ => some (RBPtr.null, n5)))))))))

/-- Member `contains`; the case of a null pointer stands for the tests `left &&`,
`right &&` and `!root` that come before every call. -/
def contains : RBPtr → Int → Bool
  | RBPtr.null, _ => false
  | RBPtr.node k _ l r, t =>
    if t = k then true
    else if t < k then contains l t
    else contains r t

end RBNode

namespace RBTree

/-- Member `RBTree::insert`: `root.reset(RBNode<T>::insert(root, t))` puts the returned
pointer into `root`, whatever `root` held after the call; the trace statement and the test
that follow read `root->color`. -/
def insert (fuel : Nat) (tree : RBTree) (t : Int) : Option (Bool × RBTree) :=
  if tree.root.isNull then some (true, RBTree.mk (RBPtr.node t BLK RBPtr.null RBPtr.null))
  else
    (RBNode.insert fuel tree.root t).bind (fun p =>
      p.2.get_color.bind (fun c =>
        if c = RED then (p.2.set_color BLK).map (fun r => (true, RBTree.mk r))
        else some (true, RBTree.mk p.2)))

/-- Member `RBTree::contains`. -/
def contains (tree : RBTree) (t : Int) : Bool :=
  if tree.root.isNull then false else RBNode.contains tree.root t

/-- The loop `for (int key : keys) rbtree.insert(key);` of the test driver
(`src/04-rbtree/localtest/rbtree_test.cpp`), without the checks of the loop body. -/
def insert_keys (fuel : Nat) : RBTree → List Int → Option RBTree
  | t, [] => some t
  | t, k :: ks => (RBTree.insert fuel t k).bind (fun r => insert_keys fuel r.2 ks)

/-- The tree with the one black node `k`. -/
def single (k : Int) : RBTree :=
  RBTree.mk (RBPtr.node k BLK RBPtr.null RBPtr.null)

end RBTree

/-! ## Array slots: reads, writes and the copy loops -/

theorem szSub_of_le {a b : Nat} (h : b ≤ a) : szSub a b = a - b := by
  simp [szSub, h]

theorem rd_set_self {α : Type} (a : List (Option α)) (i : Nat) (v : Option α) (h : i < a.length) :
    rd (a.set i v) i = v := by
  simp [rd, List.getElem?_set, h]

theorem rd_set_other {α : Type} (a : List (Option α)) (i j : Nat) (v : Option α) (h : j ≠ i) :
    rd (a.set i v) j = rd a j := by
  simp [rd, List.getElem?_set, h.symm]

theorem rd_isSome_lt {α : Type} {a : List (Option α)} {i : Nat} {v : α} (h : rd a i = some v) :
    i < a.length := by
  by_contra hc
  simp [rd, List.getElem?_eq_none (Nat.le_of_not_lt hc)] at h

theorem wr_eq {α : Type} {a : List (Option α)} {i : Nat} (v : α) (h : i < a.length) :
    wr a i v = some (a.set i (some v)) := by
  simp [wr, h]

theorem forUp_copyFrom {α : Type} (src : List (Option α)) (off : Nat) :
    ∀ (c lo : Nat) (dst : List (Option α)), lo + c ≤ dst.length →
      (∀ j, lo ≤ j → j < lo + c → (rd src (j + off)).isSome) →
      ∃ dst1, forUpAux (copyFromBody src off) c lo dst = some dst1 ∧ dst1.length = dst.length ∧
        ∀ i, rd dst1 i = if lo ≤ i ∧ i < lo + c then rd src (i + off) else rd dst i := by
  intro c
  induction c with
  | zero =>
    intro lo dst _ _
    refine ⟨dst, rfl, rfl, ?_⟩
    intro i
    have : ¬ (lo ≤ i ∧ i < lo + 0) := by omega
    rw [if_neg this]
  | succ c ih =>
    intro lo dst hlen hsrc
    obtain ⟨v, hv⟩ := Option.isSome_iff_exists.mp (hsrc lo (le_refl _) (by omega))
    have hlo : lo < dst.length := by omega
    obtain ⟨dst1, h1, h2, h3⟩ := ih (lo + 1) (dst.set lo (some v)) (by simp; omega)
      (fun j hj1 hj2 => hsrc j (by omega) (by omega))
    refine ⟨dst1, ?_, by simpa using h2, ?_⟩
    · simp [forUpAux, copyFromBody, hv, wr_eq v hlo, h1]
    · intro i
      rw [h3 i]
      by_cases hi : i = lo
      · subst hi
        have : ¬ (i + 1 ≤ i ∧ i < i + 1 + c) := by omega
        have h' : (i ≤ i ∧ i < i + (c + 1)) := by omega
        simp [this, h', rd_set_self _ _ _ hlo, hv]
      · rw [rd_set_other _ _ _ _ hi]
        by_cases hr : lo + 1 ≤ i ∧ i < lo + 1 + c
        · have h' : (lo ≤ i ∧ i < lo + (c + 1)) := by omega
          simp [hr, h']
        · have h' : ¬ (lo ≤ i ∧ i < lo + (c + 1)) := by omega
          simp [hr, h']

theorem forUp_copyTo {α : Type} (src : List (Option α)) (off : Nat) :
    ∀ (c lo : Nat) (dst : List (Option α)), off + lo + c ≤ dst.length →
      (∀ j, lo ≤ j → j < lo + c → (rd src j).isSome) →
      ∃ dst1, forUpAux (copyToBody src off) c lo dst = some dst1 ∧ dst1.length = dst.length ∧
        ∀ i, rd dst1 i = if off + lo ≤ i ∧ i < off + lo + c then rd src (i - off) else rd dst i := by
  intro c
  induction c with
  | zero =>
    intro lo dst _ _
    refine ⟨dst, rfl, rfl, ?_⟩
    intro i
    have : ¬ (off + lo ≤ i ∧ i < off + lo + 0) := by omega
    rw [if_neg this]
  | succ c ih =>
    intro lo dst hlen hsrc
    obtain ⟨v, hv⟩ := Option.isSome_iff_exists.mp (hsrc lo (le_refl _) (by omega))
    have hlo : off + lo < dst.length := by omega
    obtain ⟨dst1, h1, h2, h3⟩ := ih (lo + 1) (dst.set (off + lo) (some v)) (by simp; omega)
      (fun j hj1 hj2 => hsrc j (by omega) (by omega))
    refine ⟨dst1, ?_, by simpa using h2, ?_⟩
    · simp [forUpAux, copyToBody, hv, wr_eq v hlo, h1]
    · intro i
      rw [h3 i]
      by_cases hi : i = off + lo
      · subst hi
        have : ¬ (off + (lo + 1) ≤ off + lo ∧ off + lo < off + (lo + 1) + c) := by omega
        have h' : (off + lo ≤ off + lo ∧ off + lo < off + lo + (c + 1)) := by omega
        simp [this, h', rd_set_self _ _ _ hlo, hv]
      · rw [rd_set_other _ _ _ _ hi]
        by_cases hr : off + (lo + 1) ≤ i ∧ i < off + (lo + 1) + c
        · have h' : (off + lo ≤ i ∧ i < off + lo + (c + 1)) := by omega
          simp [hr, h']
        · have h' : ¬ (off + lo ≤ i ∧ i < off + lo + (c + 1)) := by omega
          simp [hr, h']

theorem forUp_shiftDown {α : Type} :
    ∀ (c lo : Nat) (a : List (Option α)), (c = 0 ∨ lo + c < a.length) →
      (∀ j, lo < j → j ≤ lo + c → (rd a j).isSome) →
      ∃ a1, forUpAux shiftDownBody c lo a = some a1 ∧ a1.length = a.length ∧
        ∀ i, rd a1 i = if lo ≤ i ∧ i < lo + c then rd a (i + 1) else rd a i := by
  intro c
  induction c with
  | zero =>
    intro lo a _ _
    refine ⟨a, rfl, rfl, ?_⟩
    intro i
    have : ¬ (lo ≤ i ∧ i < lo + 0) := by omega
    rw [if_neg this]
  | succ c ih =>
    intro lo a hlen hsrc
    have hlen : lo + (c + 1) < a.length := by omega
    obtain ⟨v, hv⟩ := Option.isSome_iff_exists.mp (hsrc (lo + 1) (by omega) (by omega))
    have hlo : lo < a.length := by omega
    obtain ⟨a1, h1, h2, h3⟩ := ih (lo + 1) (a.set lo (some v)) (by simp; omega)
      (fun j hj1 hj2 => by
        rw [rd_set_other _ _ _ _ (by omega)]
        exact hsrc j (by omega) (by omega))
    refine ⟨a1, ?_, by simpa using h2, ?_⟩
    · simp [forUpAux, shiftDownBody, hv, wr_eq v hlo, h1]
    · intro i
      rw [h3 i]
      by_cases hi : i = lo
      · subst hi
        have : ¬ (i + 1 ≤ i ∧ i < i + 1 + c) := by omega
        have h' : (i ≤ i ∧ i < i + (c + 1)) := by omega
        simp [this, h', rd_set_self _ _ _ hlo, hv]
      · rw [rd_set_other _ _ _ _ hi]
        by_cases hr : lo + 1 ≤ i ∧ i < lo + 1 + c
        · have h' : (lo ≤ i ∧ i < lo + (c + 1)) := by omega
          simp [hr, h']
          exact rd_set_other _ _ _ _ (by omega)
        · have h' : ¬ (lo ≤ i ∧ i < lo + (c + 1)) := by omega
          simp [hr, h']

theorem forUp_shiftDown1 {α : Type} :
    ∀ (c lo : Nat) (a : List (Option α)), 1 ≤ lo → lo + c ≤ a.length →
      (∀ j, lo ≤ j → j < lo + c → (rd a j).isSome) →
      ∃ a1, forUpAux shiftDownBody1 c lo a = some a1 ∧ a1.length = a.length ∧
        ∀ i, rd a1 i = if lo ≤ i + 1 ∧ i + 1 < lo + c then rd a (i + 1) else rd a i := by
  intro c
  induction c with
  | zero =>
    intro lo a _ _ _
    refine ⟨a, rfl, rfl, ?_⟩
    intro i
    have : ¬ (lo ≤ i + 1 ∧ i + 1 < lo + 0) := by omega
    rw [if_neg this]
  | succ c ih =>
    intro lo a hlo1 hlen hsrc
    obtain ⟨v, hv⟩ := Option.isSome_iff_exists.mp (hsrc lo (by omega) (by omega))
    have hlo : lo - 1 < a.length := by omega
    have hsz : szSub lo 1 = lo - 1 := szSub_of_le hlo1
    obtain ⟨a1, h1, h2, h3⟩ := ih (lo + 1) (a.set (lo - 1) (some v)) (by omega) (by simp; omega)
      (fun j hj1 hj2 => by
        rw [rd_set_other _ _ _ _ (by omega)]
        exact hsrc j (by omega) (by omega))
    refine ⟨a1, ?_, by simpa using h2, ?_⟩
    · simp [forUpAux, shiftDownBody1, hv, hsz, wr_eq v hlo, h1]
    · intro i
      rw [h3 i]
      by_cases hi : i = lo - 1
      · have e1 : i + 1 = lo := by omega
        have : ¬ (lo + 1 ≤ i + 1 ∧ i + 1 < lo + 1 + c) := by omega
        have h' : (lo ≤ i + 1 ∧ i + 1 < lo + (c + 1)) := by omega
        rw [if_neg this, if_pos h', hi, rd_set_self _ _ _ hlo, ← hv]
        congr 1
        omega
      · rw [rd_set_other _ _ _ _ hi]
        by_cases hr : lo + 1 ≤ i + 1 ∧ i + 1 < lo + 1 + c
        · have h' : (lo ≤ i + 1 ∧ i + 1 < lo + (c + 1)) := by omega
          rw [if_pos hr, if_pos h']
          exact rd_set_other _ _ _ _ (by omega)
        · have h' : ¬ (lo ≤ i + 1 ∧ i + 1 < lo + (c + 1)) := by omega
          rw [if_neg hr, if_neg h']

theorem forDown_shiftUp {α : Type} :
    ∀ (c lo : Nat) (a : List (Option α)), (c = 0 ∨ lo + c < a.length) →
      (∀ j, lo ≤ j → j < lo + c → (rd a j).isSome) →
      ∃ a1, forDownAux shiftUpBody c (((lo + c : Nat) : Int) - 1) a = some a1 ∧
        a1.length = a.length ∧
        ∀ i, rd a1 i = if lo < i ∧ i ≤ lo + c then rd a (i - 1) else rd a i := by
  intro c
  induction c with
  | zero =>
    intro lo a _ _
    refine ⟨a, rfl, rfl, ?_⟩
    intro i
    have : ¬ (lo < i ∧ i ≤ lo + 0) := by omega
    rw [if_neg this]
  | succ c ih =>
    intro lo a hlen hsrc
    have hlen : lo + (c + 1) < a.length := by omega
    obtain ⟨v, hv⟩ := Option.isSome_iff_exists.mp (hsrc (lo + c) (by omega) (by omega))
    obtain ⟨a1, h1, h2, h3⟩ := ih lo (a.set (lo + c + 1) (some v)) (by simp; omega)
      (fun j hj1 hj2 => by
        rw [rd_set_other _ _ _ _ (by omega)]
        exact hsrc j (by omega) (by omega))
    refine ⟨a1, ?_, by simpa using h2, ?_⟩
    · have e1 : ((((lo + (c + 1) : Nat) : Int) - 1)).toNat = lo + c := by omega
      have e2 : ((((lo + (c + 1) : Nat) : Int) - 1) + 1).toNat = lo + c + 1 := by omega
      have e3 : (((lo + (c + 1) : Nat) : Int) - 1) - 1 = ((lo + c : Nat) : Int) - 1 := by omega
      simp only [forDownAux, shiftUpBody, e1, e2, e3, hv, Option.some_bind,
        wr_eq v (show lo + c + 1 < a.length by omega), h1]
    · intro i
      rw [h3 i]
      by_cases hi : i = lo + c + 1
      · have : ¬ (lo < i ∧ i ≤ lo + c) := by omega
        have h' : (lo < i ∧ i ≤ lo + (c + 1)) := by omega
        rw [if_neg this, if_pos h', hi, rd_set_self _ _ _ (by omega), ← hv]
        congr 1
      · rw [rd_set_other _ _ _ _ hi]
        by_cases hr : lo < i ∧ i ≤ lo + c
        · have h' : (lo < i ∧ i ≤ lo + (c + 1)) := by omega
          rw [if_pos hr, if_pos h']
          exact rd_set_other _ _ _ _ (by omega)
        · have h' : ¬ (lo < i ∧ i ≤ lo + (c + 1)) := by omega
          rw [if_neg hr, if_neg h']

theorem lowerIdx_le (ks : List Int) (t : Int) : lowerIdx ks t ≤ ks.length := by
  unfold lowerIdx
  exact (List.takeWhile_sublist _).length_le

theorem lowerIdx_cons (x : Int) (ks : List Int) (t : Int) :
    lowerIdx (x :: ks) t = if x < t then lowerIdx ks t + 1 else 0 := by
  unfold lowerIdx
  by_cases h : x < t <;> simp [List.takeWhile_cons, h]

theorem get_index_loop_spec (keys : List (Option Int)) (ks : List Int) (t : Int)
    (hrd : ∀ i, i < ks.length → rd keys i = ks[i]?) :
    ∀ (c idx : Nat), c + idx = ks.length →
      get_index_loop keys ks.length t c idx = some (idx + lowerIdx (ks.drop idx) t) := by
  intro c
  induction c with
  | zero =>
    intro idx h
    have : ¬ idx < ks.length := by omega
    simp [get_index_loop, this, lowerIdx, List.drop_eq_nil_of_le (show ks.length ≤ idx by omega)]
  | succ c ih =>
    intro idx h
    have hlt : idx < ks.length := by omega
    have h1 := hrd idx hlt
    rw [List.getElem?_eq_getElem hlt] at h1
    rw [List.drop_eq_getElem_cons hlt, lowerIdx_cons]
    simp only [get_index_loop, hlt, if_true, h1, Option.some_bind]
    by_cases hx : ks[idx] < t
    · rw [if_pos hx, if_pos hx, ih (idx + 1) (by omega)]
      congr 1
      omega
    · rw [if_neg hx, if_neg hx]
      rfl

theorem get_index_spec {B : Nat} {c : BTreeNode} {ty : NodeType} {ks : List Int}
    {cs : List BTreeNode} (v : View B c ty ks cs) (t : Int) :
    get_index c t = some (lowerIdx ks t) := by
  unfold get_index
  rw [v.n_eq, get_index_loop_spec c.keys ks t v.keys_rd ks.length 0 (by omega)]
  simp

theorem lowerIdx_take_lt (ks : List Int) (t : Int) :
    ∀ x ∈ ks.take (lowerIdx ks t), x < t := by
  induction ks with
  | nil => simp
  | cons a ks ih =>
    rw [lowerIdx_cons]
    by_cases h : a < t
    · rw [if_pos h]
      intro x hx
      rw [List.take_succ_cons, List.mem_cons] at hx
      rcases hx with rfl | hx
      · exact h
      · exact ih x hx
    · rw [if_neg h]
      simp

theorem lowerIdx_get_ge (ks : List Int) (t : Int) (x : Int)
    (h : ks[lowerIdx ks t]? = some x) : t ≤ x := by
  induction ks with
  | nil => simp at h
  | cons a ks ih =>
    rw [lowerIdx_cons] at h
    by_cases ha : a < t
    · rw [if_pos ha] at h
      simp at h
      exact ih h
    · rw [if_neg ha] at h
      simp at h
      omega

theorem interL_append (ls1 : List (List Int)) (ks1 : List Int) (ls2 : List (List Int))
    (ks2 : List Int) (h : ls1.length = ks1.length) :
    interL (ls1 ++ ls2) (ks1 ++ ks2) = interL ls1 ks1 ++ interL ls2 ks2 := by
  induction ls1 generalizing ks1 with
  | nil =>
    cases ks1 with
    | nil => simp [interL]
    | cons k ks1 => simp at h
  | cons l ls1 ih =>
    cases ks1 with
    | nil => simp at h
    | cons k ks1 =>
      simp only [List.length_cons, Nat.add_right_cancel_iff] at h
      simp [interL, ih ks1 h]

theorem interR_append (ks1 : List Int) (ls1 : List (List Int)) (ks2 : List Int)
    (ls2 : List (List Int)) (h : ls1.length = ks1.length) :
    interR (ks1 ++ ks2) (ls1 ++ ls2) = interR ks1 ls1 ++ interR ks2 ls2 := by
  induction ls1 generalizing ks1 with
  | nil =>
    cases ks1 with
    | nil => simp [interR]
    | cons k ks1 => simp at h
  | cons l ls1 ih =>
    cases ks1 with
    | nil => simp at h
    | cons k ks1 =>
      simp only [List.length_cons, Nat.add_right_cancel_iff] at h
      simp [interR, ih ks1 h]

theorem inter_zip (ls1 : List (List Int)) (ks1 : List Int) (l : List Int)
    (ls2 : List (List Int)) (ks2 : List Int) (h : ls1.length = ks1.length) :
    inter (ls1 ++ l :: ls2) (ks1 ++ ks2) = interL ls1 ks1 ++ l ++ interR ks2 ls2 := by
  induction ls1 generalizing ks1 with
  | nil =>
    cases ks1 with
    | nil => simp [inter, interL]
    | cons k ks1 => simp at h
  | cons l1 ls1 ih =>
    cases ks1 with
    | nil => simp at h
    | cons k ks1 =>
      simp only [List.length_cons, Nat.add_right_cancel_iff] at h
      have := ih ks1 h
      cases ls1 with
      | nil =>
        cases ks1 with
        | nil => simp [inter, interL, interR]
        | cons _ _ => simp at h
      | cons l2 ls1 =>
        simp only [inter, List.cons_append] at this
        simp [inter, interL, interR, this]


theorem forDown_shiftUp_range {α : Type} (a : List (Option α)) (m l : Nat) (hi lo : Int)
    (hhi : hi = (m : Int) - 1) (hlo : lo = (l : Int)) (hlen : m ≤ l ∨ m < a.length)
    (hsome : ∀ j, l ≤ j → j < m → (rd a j).isSome) :
    ∃ a1, forDown hi lo shiftUpBody a = some a1 ∧ a1.length = a.length ∧
      ∀ i, rd a1 i = if l < i ∧ i ≤ m then rd a (i - 1) else rd a i := by
  subst hhi hlo
  unfold forDown
  by_cases hml : m ≤ l
  · have e : ((m : Int) - 1 - (l : Int) + 1).toNat = 0 := by omega
    rw [e]
    refine ⟨a, rfl, rfl, fun i => ?_⟩
    rw [if_neg (by omega)]
  · have e : ((m : Int) - 1 - (l : Int) + 1).toNat = m - l := by omega
    rw [e]
    obtain ⟨a1, h1, h2, h3⟩ := forDown_shiftUp (m - l) l a (by omega)
      (fun j hj1 hj2 => hsome j hj1 (by omega))
    have e2 : l + (m - l) = m := by omega
    rw [e2] at h1 h3
    exact ⟨a1, h1, h2, h3⟩

theorem forUp_shiftDown_range {α : Type} (a : List (Option α)) (lo hi : Nat)
    (hlen : hi ≤ lo ∨ hi < a.length) (hsome : ∀ j, lo < j → j ≤ hi → (rd a j).isSome) :
    ∃ a1, forUp lo hi shiftDownBody a = some a1 ∧ a1.length = a.length ∧
      ∀ i, rd a1 i = if lo ≤ i ∧ i < hi then rd a (i + 1) else rd a i := by
  unfold forUp
  by_cases hml : hi ≤ lo
  · rw [Nat.sub_eq_zero_of_le hml]
    refine ⟨a, rfl, rfl, fun i => ?_⟩
    rw [if_neg (by omega)]
  · obtain ⟨a1, h1, h2, h3⟩ := forUp_shiftDown (hi - lo) lo a (by omega)
      (fun j hj1 hj2 => hsome j hj1 (by omega))
    have e2 : lo + (hi - lo) = hi := by omega
    rw [e2] at h3
    exact ⟨a1, h1, h2, h3⟩

theorem forUp_shiftDown1_range {α : Type} (a : List (Option α)) (lo hi : Nat) (hlo : 1 ≤ lo)
    (hlen : hi ≤ lo ∨ hi ≤ a.length) (hsome : ∀ j, lo ≤ j → j < hi → (rd a j).isSome) :
    ∃ a1, forUp lo hi shiftDownBody1 a = some a1 ∧ a1.length = a.length ∧
      ∀ i, rd a1 i = if lo ≤ i + 1 ∧ i + 1 < hi then rd a (i + 1) else rd a i := by
  unfold forUp
  by_cases hml : hi ≤ lo
  · rw [Nat.sub_eq_zero_of_le hml]
    refine ⟨a, rfl, rfl, fun i => ?_⟩
    rw [if_neg (by omega)]
  · obtain ⟨a1, h1, h2, h3⟩ := forUp_shiftDown1 (hi - lo) lo a hlo (by omega)
      (fun j hj1 hj2 => hsome j hj1 (by omega))
    have e2 : lo + (hi - lo) = hi := by omega
    rw [e2] at h3
    exact ⟨a1, h1, h2, h3⟩

theorem forUp_copyFrom_range {α : Type} (src : List (Option α)) (off cnt : Nat)
    (dst : List (Option α)) (hlen : cnt ≤ dst.length)
    (hsome : ∀ j, j < cnt → (rd src (j + off)).isSome) :
    ∃ dst1, forUp 0 cnt (copyFromBody src off) dst = some dst1 ∧ dst1.length = dst.length ∧
      ∀ i, rd dst1 i = if i < cnt then rd src (i + off) else rd dst i := by
  unfold forUp
  obtain ⟨a1, h1, h2, h3⟩ := forUp_copyFrom src off cnt 0 dst (by omega)
    (fun j _ hj2 => hsome j (by omega))
  refine ⟨a1, h1, h2, fun i => ?_⟩
  rw [h3 i]
  by_cases h : i < cnt
  · rw [if_pos h, if_pos (by omega)]
  · rw [if_neg h, if_neg (by omega)]

theorem forUp_copyTo_range {α : Type} (src : List (Option α)) (off cnt : Nat)
    (dst : List (Option α)) (hlen : off + cnt ≤ dst.length)
    (hsome : ∀ j, j < cnt → (rd src j).isSome) :
    ∃ dst1, forUp 0 cnt (copyToBody src off) dst = some dst1 ∧ dst1.length = dst.length ∧
      ∀ i, rd dst1 i = if off ≤ i ∧ i < off + cnt then rd src (i - off) else rd dst i := by
  unfold forUp
  obtain ⟨a1, h1, h2, h3⟩ := forUp_copyTo src off cnt 0 dst (by omega)
    (fun j _ hj2 => hsome j (by omega))
  refine ⟨a1, h1, h2, fun i => ?_⟩
  rw [h3 i]
  by_cases h : off ≤ i ∧ i < off + cnt
  · rw [if_pos h, if_pos (by omega)]
  · rw [if_neg h, if_neg (by omega)]

@[simp] theorem BTreeNode.type_mk (t : NodeType) (n : Nat) (ks : List (Option Int))
    (es : List (Option BTreeNode)) : (BTreeNode.mk t n ks es).type = t := rfl

@[simp] theorem BTreeNode.n_mk (t : NodeType) (n : Nat) (ks : List (Option Int))
    (es : List (Option BTreeNode)) : (BTreeNode.mk t n ks es).n = n := rfl

@[simp] theorem BTreeNode.keys_mk (t : NodeType) (n : Nat) (ks : List (Option Int))
    (es : List (Option BTreeNode)) : (BTreeNode.mk t n ks es).keys = ks := rfl

@[simp] theorem BTreeNode.edges_mk (t : NodeType) (n : Nat) (ks : List (Option Int))
    (es : List (Option BTreeNode)) : (BTreeNode.mk t n ks es).edges = es := rfl

theorem BTreeNode.eta (c : BTreeNode) : BTreeNode.mk c.type c.n c.keys c.edges = c := by
  cases c
  rfl

theorem wr_spec {α : Type} {a : List (Option α)} {i : Nat} (v : α) (h : i < a.length) :
    ∃ a1, wr a i v = some a1 ∧ a1.length = a.length ∧
      ∀ j, rd a1 j = if j = i then some v else rd a j := by
  refine ⟨a.set i (some v), wr_eq v h, by simp, fun j => ?_⟩
  by_cases hj : j = i
  · rw [if_pos hj, hj, rd_set_self _ _ _ h]
  · rw [if_neg hj, rd_set_other _ _ _ _ hj]

theorem View.rd_key_isSome {B : Nat} {c : BTreeNode} {ty : NodeType} {ks : List Int}
    {cs : List BTreeNode} (v : View B c ty ks cs) (j : Nat) (h : j < ks.length) :
    (rd c.keys j).isSome := by
  rw [v.keys_rd j h, List.getElem?_eq_getElem h]
  rfl

theorem View.rd_edge_isSome {B : Nat} {c : BTreeNode} {ty : NodeType} {ks : List Int}
    {cs : List BTreeNode} (v : View B c ty ks cs) (j : Nat) (h : j < cs.length) :
    (rd c.edges j).isSome := by
  rw [v.edges_rd j h, List.getElem?_eq_getElem h]
  rfl

/-- Leaf branch of `insert`: the keys from position `kL.length` on move up by one slot and
`t` is stored in the gap. -/
theorem leaf_insert_view {B : Nat} {c : BTreeNode} {kL kR : List Int} (t : Int)
    (v : View B c NodeType.LEAF (kL ++ kR) []) (hlt : (kL ++ kR).length < 2 * B - 1) :
    ∃ keys1 keys2, forDown ((c.n : Int) - 1) (kL.length : Int) shiftUpBody c.keys = some keys1 ∧
      wr keys1 kL.length t = some keys2 ∧
      View B (BTreeNode.mk c.type (c.n + 1) keys2 c.edges) NodeType.LEAF (kL ++ t :: kR) [] := by
  have hn := v.n_eq
  have hkl := v.keys_len
  simp only [List.length_append] at hn hlt
  obtain ⟨keys1, h1, h2, h3⟩ := forDown_shiftUp_range c.keys c.n kL.length _ _ rfl rfl
    (by omega) (fun j _ hj2 => v.rd_key_isSome j (by simp; omega))
  obtain ⟨keys2, h4, h5, h6⟩ := wr_spec (a := keys1) (i := kL.length) t (by omega)
  refine ⟨keys1, keys2, h1, h4, ?_⟩
  refine ⟨by simp [v.type_eq], by simp; omega, by simp; omega, by simp; omega,
    by simp [v.edges_len], ?_, by simp, by simp⟩
  intro i hi
  simp only [List.length_append, List.length_cons] at hi
  simp only [BTreeNode.keys_mk]
  rw [h6 i]
  by_cases e : i = kL.length
  · rw [if_pos e, e, List.getElem?_append_right (le_refl _)]
    simp
  · rw [if_neg e, h3 i]
    by_cases hlt2 : i < kL.length
    · rw [if_neg (by omega), v.keys_rd i (by simp; omega),
        List.getElem?_append_left hlt2, List.getElem?_append_left hlt2]
    · rw [if_pos (by omega), v.keys_rd (i - 1) (by simp; omega),
        List.getElem?_append_right (by omega), List.getElem?_append_right (by omega)]
      have e3 : i - kL.length = (i - 1 - kL.length) + 1 := by omega
      rw [e3, List.getElem?_cons_succ]


theorem getElem?_zip_mid {α : Type} (L R : List α) (x : α) :
    (L ++ x :: R)[L.length]? = some x := by
  rw [List.getElem?_append_right (le_refl _)]
  simp

theorem getElem?_zip_left {α : Type} (L R : List α) (i : Nat) (h : i < L.length) :
    (L ++ R)[i]? = L[i]? := List.getElem?_append_left h

theorem getElem?_zip_right {α : Type} (L R : List α) (x : α) (i : Nat) (h : L.length < i) :
    (L ++ x :: R)[i]? = R[i - L.length - 1]? := by
  obtain ⟨k, rfl⟩ : ∃ k, i = L.length + 1 + k := ⟨i - L.length - 1, by omega⟩
  rw [List.getElem?_append_right (by omega)]
  have e3 : L.length + 1 + k - L.length = k + 1 := by omega
  rw [e3, List.getElem?_cons_succ]
  congr 1


theorem getElem?_ins_mid {α : Type} (L R : List α) (m : α) (i : Nat) :
    (L ++ m :: R)[i]? = if i = L.length then some m
      else if L.length < i then (L ++ R)[i - 1]? else (L ++ R)[i]? := by
  by_cases h1 : i = L.length
  · rw [if_pos h1, h1, getElem?_zip_mid]
  · rw [if_neg h1]
    by_cases h2 : L.length < i
    · rw [if_pos h2, getElem?_zip_right _ _ _ _ h2, List.getElem?_append_right (by omega)]
      congr 1
      omega
    · rw [if_neg h2, getElem?_zip_left _ _ _ (by omega), getElem?_zip_left _ _ _ (by omega)]

theorem getElem?_split_mid {α : Type} (L R : List α) (a b y : α) (i : Nat) :
    (L ++ a :: b :: R)[i]? = if i = L.length then some a
      else if i = L.length + 1 then some b
      else if L.length + 1 < i then (L ++ y :: R)[i - 1]? else (L ++ y :: R)[i]? := by
  by_cases h1 : i = L.length
  · rw [if_pos h1, h1, getElem?_zip_mid]
  · rw [if_neg h1]
    by_cases h2 : i = L.length + 1
    · rw [if_pos h2, h2, getElem?_zip_right _ _ _ _ (by omega)]
      simp
    · rw [if_neg h2]
      by_cases h3 : L.length + 1 < i
      · rw [if_pos h3, getElem?_zip_right _ _ _ _ (by omega),
          getElem?_zip_right _ _ _ _ (by omega)]
        obtain ⟨k, rfl⟩ : ∃ k, i = L.length + 2 + k := ⟨i - L.length - 2, by omega⟩
        have e : L.length + 2 + k - L.length - 1 = k + 1 := by omega
        rw [e, List.getElem?_cons_succ]
        congr 1
        omega
      · rw [if_neg h3, getElem?_zip_left _ _ _ (by omega), getElem?_zip_left _ _ _ (by omega)]

theorem split_child_view {B : Nat} (hB : 1 ≤ B) {p y : BTreeNode} {kL kR : List Int}
    {cL cR : List BTreeNode} {ty : NodeType} {yks : List Int} {ycs : List BTreeNode}
    (v : View B p NodeType.INTERNAL (kL ++ kR) (cL ++ y :: cR)) (hc : cL.length = kL.length)
    (hlt : (kL ++ kR).length < 2 * B - 1)
    (vy : View B y ty yks ycs) (hfull : yks.length = 2 * B - 1) :
    ∃ p1 y1 z m, split_child B p kL.length = some p1 ∧ yks[B - 1]? = some m ∧
      View B p1 NodeType.INTERNAL (kL ++ m :: kR) (cL ++ y1 :: z :: cR) ∧
      View B y1 ty (yks.take (B - 1)) (ycs.take B) ∧
      View B z ty (yks.drop B) (ycs.drop B) := by
  have hn := v.n_eq
  have hcs := v.cs_len
  have hycs := vy.cs_len
  simp only [List.length_append, List.length_cons, if_true] at hn hlt hcs
  have hrdy : rd p.edges kL.length = some y := by
    rw [v.edges_rd _ (by simp; omega), ← hc, getElem?_zip_mid]
  obtain ⟨zkeys, hz1, hz2, hz3⟩ := forUp_copyFrom_range y.keys B (B - 1) (new B).keys
    (by simp [new]; omega) (fun j hj => vy.rd_key_isSome _ (by omega))
  have hze : ∃ zedges, (if y.type = NodeType.INTERNAL then
      forUp 0 B (copyFromBody y.edges B) (new B).edges else some (new B).edges) = some zedges ∧
      zedges.length = 2 * B ∧ ∀ i, i < (ycs.drop B).length → rd zedges i = (ycs.drop B)[i]? := by
    by_cases hty : ty = NodeType.INTERNAL
    · rw [if_pos hty] at hycs
      obtain ⟨ze, h1, h2, h3⟩ := forUp_copyFrom_range y.edges B B (new B).edges
        (by simp [new]; omega) (fun j hj => vy.rd_edge_isSome _ (by omega))
      refine ⟨ze, by rw [if_pos (vy.type_eq.trans hty)]; exact h1, by simpa [new] using h2, ?_⟩
      intro i hi
      simp only [List.length_drop] at hi
      rw [h3 i, if_pos (by omega), vy.edges_rd _ (by omega), List.getElem?_drop]
      congr 1
      omega
    · rw [if_neg hty] at hycs
      refine ⟨(new B).edges, by rw [if_neg (by rw [vy.type_eq]; exact hty)], by simp [new], ?_⟩
      intro i hi
      simp [hycs] at hi
  obtain ⟨zedges, hze1, hze2, hze3⟩ := hze
  obtain ⟨pe1, hpe1, hpe2, hpe3⟩ := forDown_shiftUp_range p.edges (p.n + 1) (kL.length + 1)
    (p.n : Int) ((kL.length + 1 : Nat) : Int) (by push_cast; omega) rfl
    (by right; rw [v.edges_len]; omega)
    (fun j _ hj2 => v.rd_edge_isSome j (by simp; omega))
  obtain ⟨pk1, hpk1, hpk2, hpk3⟩ := forDown_shiftUp_range p.keys p.n kL.length
    ((p.n : Int) - 1) (kL.length : Int) rfl rfl
    (by right; rw [v.keys_len]; omega)
    (fun j _ hj2 => v.rd_key_isSome j (by simp; omega))
  obtain ⟨pe2, hpe4, hpe5, hpe6⟩ := wr_spec (a := pe1) (i := kL.length + 1)
    (BTreeNode.mk y.type (B - 1) zkeys zedges) (by rw [hpe2, v.edges_len]; omega)
  have hmed : rd y.keys (B - 1) = some ((yks.get ⟨B - 1, by omega⟩)) := by
    rw [vy.keys_rd _ (by omega), List.getElem?_eq_getElem]; rfl
  obtain ⟨pk2, hpk4, hpk5, hpk6⟩ := wr_spec (a := pk1) (i := kL.length)
    ((yks.get ⟨B - 1, by omega⟩)) (by rw [hpk2, v.keys_len]; omega)
  obtain ⟨pe3, hpe7, hpe8, hpe9⟩ := wr_spec (a := pe2) (i := kL.length)
    (BTreeNode.mk y.type (B - 1) y.keys y.edges) (by rw [hpe5, hpe2, v.edges_len]; omega)
  refine ⟨BTreeNode.mk p.type (p.n + 1) pk2 pe3, BTreeNode.mk y.type (B - 1) y.keys y.edges,
    BTreeNode.mk y.type (B - 1) zkeys zedges, (yks.get ⟨B - 1, by omega⟩), ?_,
    List.getElem?_eq_getElem _, ?_, ?_, ?_⟩
  · simp only [split_child, hrdy, Option.bind_eq_bind, Option.some_bind, hz1, hpe1, hpk1,
      hmed, hpk4]
    by_cases hty : y.type = NodeType.INTERNAL
    · rw [if_pos hty] at hze1 ⊢
      simp only [hze1, Option.some_bind, hpe4, hpe7]
    · rw [if_neg hty] at hze1 ⊢
      simp only [Option.some.injEq] at hze1
      simp only [hze1, Option.some_bind, hpe4, hpe7]
  · have lenpk2 : pk2.length = 2 * B - 1 := by rw [hpk5, hpk2, v.keys_len]
    have lenpe3 : pe3.length = 2 * B := by rw [hpe8, hpe5, hpe2, v.edges_len]
    refine ⟨by simp [v.type_eq], by simp; omega, by simp; omega, by simp [lenpk2],
      by simp [lenpe3], ?_, ?_, by simp; omega⟩
    · intro i hi
      simp only [List.length_append, List.length_cons] at hi
      simp only [BTreeNode.keys_mk]
      rw [hpk6 i, hpk3 i, getElem?_ins_mid]
      by_cases h1 : i = kL.length
      · rw [if_pos h1, if_pos h1]
      · rw [if_neg h1, if_neg h1]
        by_cases h2 : kL.length < i
        · rw [if_pos h2, if_pos (by omega), v.keys_rd _ (by simp; omega)]
        · rw [if_neg h2, if_neg (by omega), v.keys_rd _ (by simp; omega)]
    · intro i hi
      simp only [List.length_append, List.length_cons] at hi
      simp only [BTreeNode.edges_mk]
      rw [hpe9 i, hpe6 i, hpe3 i, getElem?_split_mid _ _ _ _ y, hc]
      by_cases h1 : i = kL.length
      · rw [if_pos h1, if_pos h1]
      · rw [if_neg h1, if_neg h1]
        by_cases h2 : i = kL.length + 1
        · rw [if_pos h2, if_pos h2]
        · rw [if_neg h2, if_neg h2]
          by_cases h3 : kL.length + 1 < i
          · rw [if_pos h3, if_pos (by omega), v.edges_rd _ (by simp; omega)]
          · rw [if_neg h3, if_neg (by omega), v.edges_rd _ (by simp; omega)]
  · refine ⟨by simp [vy.type_eq], by simp; omega, by simp; omega, by simp [vy.keys_len],
      by simp [vy.edges_len], ?_, ?_, ?_⟩
    · intro i hi
      simp only [List.length_take] at hi
      simp only [BTreeNode.keys_mk]
      rw [vy.keys_rd _ (by omega), List.getElem?_take_of_lt (by omega)]
    · intro i hi
      simp only [List.length_take] at hi
      simp only [BTreeNode.edges_mk]
      rw [vy.edges_rd _ (by omega), List.getElem?_take_of_lt (by omega)]
    · simp only [List.length_take]
      by_cases hty : ty = NodeType.INTERNAL
      · rw [if_pos hty] at hycs ⊢
        omega
      · rw [if_neg hty] at hycs ⊢
        omega
  · refine ⟨by simp [vy.type_eq], by simp; omega, by simp; omega, by simp [hz2, new],
      by simp [hze2], ?_, ?_, ?_⟩
    · intro i hi
      simp only [List.length_drop] at hi
      simp only [BTreeNode.keys_mk]
      rw [hz3 i, if_pos (by omega), vy.keys_rd _ (by omega), List.getElem?_drop]
      congr 1
      omega
    · intro i hi
      simp only [BTreeNode.edges_mk]
      exact hze3 i hi
    · simp only [List.length_drop]
      by_cases hty : ty = NodeType.INTERNAL
      · rw [if_pos hty] at hycs ⊢
        omega
      · rw [if_neg hty] at hycs ⊢
        omega


theorem forall₂_zip_left {α β : Type} {R : α → β → Prop} {cL : List α} {y : α} {cR : List α}
    {ls : List β} (h : List.Forall₂ R (cL ++ y :: cR) ls) :
    ∃ lL ly lR, ls = lL ++ ly :: lR ∧ lL.length = cL.length ∧ List.Forall₂ R cL lL ∧ R y ly ∧
      List.Forall₂ R cR lR := by
  induction cL generalizing ls with
  | nil =>
    obtain ⟨ly, lR, h1, h2, rfl⟩ := List.forall₂_cons_left_iff.mp h
    exact ⟨[], ly, lR, rfl, rfl, List.Forall₂.nil, h1, h2⟩
  | cons c cL ih =>
    obtain ⟨l0, ls', h1, h2, rfl⟩ := List.forall₂_cons_left_iff.mp h
    obtain ⟨lL, ly, lR, e, hl, f1, r, f2⟩ := ih h2
    exact ⟨l0 :: lL, ly, lR, by rw [e]; rfl, by simp [hl], List.Forall₂.cons h1 f1, r, f2⟩

theorem forall₂_zip_join {α β : Type} {R : α → β → Prop} {cL : List α} {cR : List α}
    {lL lR : List β} (h1 : List.Forall₂ R cL lL) (h2 : List.Forall₂ R cR lR) :
    List.Forall₂ R (cL ++ cR) (lL ++ lR) := by
  induction h1 with
  | nil => simpa using h2
  | cons r _ ih => exact List.Forall₂.cons r ih

theorem inter_split (lsA lsB : List (List Int)) (ksA ksB : List Int) (m : Int)
    (hA : lsA.length = ksA.length + 1) (hB : lsB ≠ []) :
    inter (lsA ++ lsB) (ksA ++ m :: ksB) = inter lsA ksA ++ m :: inter lsB ksB := by
  cases lsA with
  | nil => simp at hA
  | cons l lsA =>
    simp only [List.length_cons, Nat.add_right_cancel_iff] at hA
    cases lsB with
    | nil => exact absurd rfl hB
    | cons l2 lsB =>
      simp only [List.cons_append, inter]
      rw [interR_append _ _ _ _ hA]
      simp [interR]

theorem T_zero {B lo : Nat} {c : BTreeNode} {l : List Int} :
    T B 0 lo c l ↔ (View B c NodeType.LEAF l [] ∧ lo ≤ l.length) := by
  rw [T]

theorem T_succ {B h lo : Nat} {c : BTreeNode} {l : List Int} :
    T B (h + 1) lo c l ↔ ∃ ks cs ls, View B c NodeType.INTERNAL ks cs ∧ lo ≤ ks.length ∧
      List.Forall₂ (T B h (B - 1)) cs ls ∧ l = inter ls ks := by
  rw [T]

theorem T_n {B h lo : Nat} {c : BTreeNode} {l : List Int} (t : T B h lo c l) :
    lo ≤ c.n ∧ c.n ≤ 2 * B - 1 := by
  cases h with
  | zero =>
    obtain ⟨v, h1⟩ := t
    exact ⟨by rw [v.n_eq]; exact h1, by rw [v.n_eq]; exact v.n_le⟩
  | succ h =>
    obtain ⟨ks, cs, ls, v, h1, _, _⟩ := t
    exact ⟨by rw [v.n_eq]; exact h1, by rw [v.n_eq]; exact v.n_le⟩

theorem T_relo {B h lo : Nat} {c : BTreeNode} {l : List Int} (t : T B h lo c l) (lo1 : Nat)
    (hlo : lo1 ≤ c.n) : T B h lo1 c l := by
  cases h with
  | zero =>
    obtain ⟨v, _⟩ := t
    exact ⟨v, by rw [← v.n_eq]; exact hlo⟩
  | succ h =>
    obtain ⟨ks, cs, ls, v, _, h2, h3⟩ := t
    exact ⟨ks, cs, ls, v, by rw [← v.n_eq]; exact hlo, h2, h3⟩

theorem T_type {B h lo : Nat} {c : BTreeNode} {l : List Int} (t : T B h lo c l) :
    c.type = if h = 0 then NodeType.LEAF else NodeType.INTERNAL := by
  cases h with
  | zero => exact t.1.type_eq
  | succ h =>
    obtain ⟨ks, cs, ls, v, _, _, _⟩ := t
    simpa using v.type_eq

theorem take_mid_drop {α : Type} (l : List α) (i j : Nat) (x : α) (hj : j = i + 1)
    (hx : l[i]? = some x) : l = l.take i ++ x :: l.drop j := by
  subst hj
  obtain ⟨h, rfl⟩ := List.getElem?_eq_some.mp hx
  rw [← List.drop_eq_getElem_cons h, List.take_append_drop]

/-- Splitting a full child of a node seen as `kL ++ kR` / `cL ++ y :: cR`. -/
theorem split_child_T {B h : Nat} (hB : 1 ≤ B) {p y : BTreeNode} {kL kR : List Int}
    {cL cR : List BTreeNode} {ly : List Int}
    (v : View B p NodeType.INTERNAL (kL ++ kR) (cL ++ y :: cR)) (hc : cL.length = kL.length)
    (hlt : (kL ++ kR).length < 2 * B - 1)
    (hy : T B h (B - 1) y ly) (hfull : y.n = 2 * B - 1) :
    ∃ p1 y1 z m l1 l2, split_child B p kL.length = some p1 ∧
      View B p1 NodeType.INTERNAL (kL ++ m :: kR) (cL ++ y1 :: z :: cR) ∧
      T B h (B - 1) y1 l1 ∧ T B h (B - 1) z l2 ∧ ly = l1 ++ m :: l2 ∧
      y1.n = B - 1 ∧ z.n = B - 1 := by
  cases h with
  | zero =>
    obtain ⟨vy, _⟩ := T_zero.mp hy
    have hlen : ly.length = 2 * B - 1 := by rw [← vy.n_eq]; exact hfull
    obtain ⟨p1, y1, z, m, h1, h2, h3, h4, h5⟩ := split_child_view hB v hc hlt vy hlen
    simp only [List.take_nil, List.drop_nil] at h4 h5
    refine ⟨p1, y1, z, m, _, _, h1, h3, T_zero.mpr ⟨h4, by simp; omega⟩,
      T_zero.mpr ⟨h5, by simp; omega⟩, ?_,
      by rw [h4.n_eq]; simp; omega, by rw [h5.n_eq]; simp; omega⟩
    exact take_mid_drop ly (B - 1) B m (by omega) h2
  | succ h =>
    obtain ⟨yks, ycs, yls, vy, _, hf, hl⟩ := T_succ.mp hy
    have hlen : yks.length = 2 * B - 1 := by rw [← vy.n_eq]; exact hfull
    have hycs := vy.cs_len
    rw [if_pos rfl] at hycs
    have hyls := hf.length_eq
    obtain ⟨p1, y1, z, m, h1, h2, h3, h4, h5⟩ := split_child_view hB v hc hlt vy hlen
    refine ⟨p1, y1, z, m, inter (yls.take B) (yks.take (B - 1)),
      inter (yls.drop B) (yks.drop B), h1, h3,
      T_succ.mpr ⟨_, _, _, h4, by simp; omega, List.forall₂_take B hf, rfl⟩,
      T_succ.mpr ⟨_, _, _, h5, by simp; omega, List.forall₂_drop B hf, rfl⟩, ?_,
      by rw [h4.n_eq]; simp; omega, by rw [h5.n_eq]; simp; omega⟩
    have e1 := take_mid_drop yks (B - 1) B m (by omega) h2
    rw [hl]
    conv_lhs => rw [← List.take_append_drop B yls, e1]
    rw [inter_split _ _ _ _ _ (by simp; omega) (by
      intro hnil
      have := congrArg List.length hnil
      simp at this
      omega)]


theorem for_all_leaf_loop (keys : List (Option Int)) (ks : List Int)
    (hrd : ∀ i, i < ks.length → rd keys i = ks[i]?) :
    ∀ (c lo : Nat) (acc : List Int), lo + c = ks.length →
      forUpAux (fun j acc => (rd keys j).map (fun k => acc ++ [k])) c lo acc
        = some (acc ++ ks.drop lo) := by
  intro c
  induction c with
  | zero =>
    intro lo acc h
    simp [forUpAux, List.drop_eq_nil_of_le (show ks.length ≤ lo by omega)]
  | succ c ih =>
    intro lo acc h
    have hlt : lo < ks.length := by omega
    have h1 := hrd lo hlt
    rw [List.getElem?_eq_getElem hlt] at h1
    simp only [forUpAux, h1, Option.map_some', Option.some_bind]
    rw [ih (lo + 1) _ (by omega), List.drop_eq_getElem_cons hlt]
    simp

theorem for_all_internal_loop (f : BTreeNode → Option (List Int)) (keys : List (Option Int))
    (edges : List (Option BTreeNode)) (ks : List Int) (cs : List BTreeNode)
    (ls : List (List Int)) (hk : ∀ i, i < ks.length → rd keys i = ks[i]?)
    (he : ∀ i, i < cs.length → rd edges i = cs[i]?)
    (hf : List.Forall₂ (fun c l => f c = some l) cs ls) (hlen : cs.length = ks.length + 1) :
    ∀ (c lo : Nat) (acc : List Int), lo + c = ks.length →
      forUpAux (fun j acc => (rd edges j).bind fun c => (f c).bind fun l =>
        (rd keys j).bind fun k => some (acc ++ l ++ [k])) c lo acc
        = some (acc ++ interL ((ls.drop lo).take c) (ks.drop lo)) := by
  have hls := hf.length_eq
  intro c
  induction c with
  | zero =>
    intro lo acc h
    simp [forUpAux, interL]
  | succ c ih =>
    intro lo acc h
    have hlt : lo < ks.length := by omega
    have hlt2 : lo < cs.length := by omega
    have hlt3 : lo < ls.length := by omega
    have h1 := hk lo hlt
    rw [List.getElem?_eq_getElem hlt] at h1
    have h2 := he lo hlt2
    rw [List.getElem?_eq_getElem hlt2] at h2
    have h3 : f cs[lo] = some ls[lo] := hf.get hlt2 hlt3
    simp only [forUpAux, h1, h2, h3, Option.some_bind]
    rw [ih (lo + 1) _ (by omega), List.drop_eq_getElem_cons hlt, List.drop_eq_getElem_cons hlt3,
      List.take_succ_cons]
    simp [interL]

theorem T_for_all {B : Nat} (hB : 2 ≤ B) : ∀ (h lo : Nat) (c : BTreeNode) (l : List Int), T B h lo c l →
    (h = 0 ∨ 1 ≤ c.n) → ∀ fuel, h < fuel → for_all fuel c = some l := by
  intro h
  induction h with
  | zero =>
    intro lo c l t _ fuel hf
    obtain ⟨v, _⟩ := T_zero.mp t
    obtain ⟨f, rfl⟩ : ∃ f, fuel = f + 1 := ⟨fuel - 1, by omega⟩
    simp only [for_all, v.type_eq, if_true, forUp, v.n_eq, Nat.sub_zero]
    rw [for_all_leaf_loop c.keys l v.keys_rd l.length 0 [] (by omega)]
    simp
  | succ h ih =>
    intro lo c l t hn fuel hf
    obtain ⟨ks, cs, ls, v, _, hfa, hl⟩ := T_succ.mp t
    obtain ⟨f, rfl⟩ : ∃ f, fuel = f + 1 := ⟨fuel - 1, by omega⟩
    have hcs := v.cs_len
    rw [if_pos rfl] at hcs
    have hls := hfa.length_eq
    have hn1 : 1 ≤ c.n := by omega
    have hfa2 : List.Forall₂ (fun c l => for_all f c = some l) cs ls := by
      refine hfa.imp ?_
      intro c1 l1 t1
      refine ih (B - 1) c1 l1 t1 ?_ f (by omega)
      right
      have := (T_n t1).1
      omega
    have hlast : ∃ cl ll, cs[ks.length]? = some cl ∧ ls[ks.length]? = some ll ∧
        for_all f cl = some ll := by
      refine ⟨(cs.get ⟨ks.length, by omega⟩), (ls.get ⟨ks.length, by omega⟩), List.getElem?_eq_getElem _,
        List.getElem?_eq_getElem _, hfa2.get _ _⟩
    obtain ⟨cl, ll, hc1, hc2, hc3⟩ := hlast
    have hnot : ¬ c.n < 1 := by omega
    have hty : ¬ NodeType.INTERNAL = NodeType.LEAF := by decide
    simp only [for_all, v.type_eq, hty, if_false, hnot, forUp, Nat.sub_zero,
      Option.bind_eq_bind]
    rw [v.n_eq, for_all_internal_loop (for_all f) c.keys c.edges ks cs ls v.keys_rd v.edges_rd
      hfa2 hcs ks.length 0 [] (by omega)]
    simp only [Option.some_bind, v.edges_rd ks.length (by omega), hc1, hc3, List.nil_append,
      List.drop_zero]
    rw [hl]
    have e := take_mid_drop ls ks.length (ks.length + 1) ll rfl hc2
    have e2 : ls.drop (ks.length + 1) = [] := List.drop_eq_nil_of_le (by omega)
    rw [e2] at e
    conv_rhs => rw [e, ← List.append_nil ks]
    rw [inter_zip _ _ _ _ _ (by simp; omega)]
    simp [interR]


theorem insSpec_zip (k : Int) (A m C : List Int) (hA : ∀ x ∈ A, x < k) (hC : ∀ x ∈ C, k ≤ x) :
    insSpec k (A ++ m ++ C) = A ++ insSpec k m ++ C := by
  have a1 : A.filter (fun x => decide (x < k)) = A :=
    List.filter_eq_self.mpr (fun x hx => by simpa using hA x hx)
  have a2 : A.filter (fun x => decide (¬ x < k)) = [] :=
    List.filter_eq_nil_iff.mpr (fun x hx => by simpa using hA x hx)
  have c1 : C.filter (fun x => decide (x < k)) = [] :=
    List.filter_eq_nil_iff.mpr (fun x hx => by simpa using hC x hx)
  have c2 : C.filter (fun x => decide (¬ x < k)) = C :=
    List.filter_eq_self.mpr (fun x hx => by simpa using hC x hx)
  simp only [insSpec, List.filter_append, a1, a2, c1, c2, List.append_nil, List.nil_append,
    List.append_assoc, List.cons_append]

theorem insSpec_nil (k : Int) : insSpec k [] = [k] := rfl

theorem insSpec_zip_nil (k : Int) (A C : List Int) (hA : ∀ x ∈ A, x < k) (hC : ∀ x ∈ C, k ≤ x) :
    insSpec k (A ++ C) = A ++ k :: C := by
  have := insSpec_zip k A [] C hA hC
  simpa [insSpec_nil] using this

theorem lowerIdx_append (kL R : List Int) (k : Int) (h : ∀ x ∈ kL, x < k) :
    lowerIdx (kL ++ R) k = kL.length + lowerIdx R k := by
  induction kL with
  | nil => simp
  | cons a kL ih =>
    rw [List.cons_append, lowerIdx_cons, if_pos (h a (List.mem_cons_self _ _)),
      ih (fun x hx => h x (List.mem_cons_of_mem _ hx))]
    simp
    omega

theorem lowerIdx_eq_zero (R : List Int) (k : Int) (h : ∀ x, R.head? = some x → k ≤ x) :
    lowerIdx R k = 0 := by
  cases R with
  | nil => rfl
  | cons a R =>
    rw [lowerIdx_cons, if_neg]
    have := h a rfl
    omega

theorem lowerIdx_zip (ks : List Int) (k : Int) :
    ∃ kL kR, ks = kL ++ kR ∧ kL.length = lowerIdx ks k ∧ (∀ x ∈ kL, x < k) ∧
      (∀ x, kR.head? = some x → k ≤ x) := by
  refine ⟨ks.take (lowerIdx ks k), ks.drop (lowerIdx ks k), (List.take_append_drop _ _).symm,
    by simp [lowerIdx_le], lowerIdx_take_lt ks k, ?_⟩
  intro x hx
  apply lowerIdx_get_ge ks k x
  rw [← hx, List.head?_drop]

theorem pairwise_head_le {R : List Int} {k : Int} (hp : R.Pairwise (· < ·))
    (h : ∀ x, R.head? = some x → k ≤ x) : ∀ x ∈ R, k ≤ x := by
  cases R with
  | nil => simp
  | cons a R =>
    intro x hx
    have ha := h a rfl
    rcases List.mem_cons.mp hx with rfl | hx
    · exact ha
    · have := (List.pairwise_cons.mp hp).1 x hx
      omega

theorem interL_lt {lL : List (List Int)} {kL : List Int} {k : Int}
    (hp : (interL lL kL).Pairwise (· < ·)) (hk : ∀ y ∈ kL, y < k) :
    ∀ x ∈ interL lL kL, x < k := by
  induction lL generalizing kL with
  | nil => simp [interL]
  | cons l lL ih =>
    cases kL with
    | nil => simp [interL]
    | cons k0 kL =>
      simp only [interL] at hp ⊢
      intro x hx
      rw [List.pairwise_append] at hp
      obtain ⟨_, hp2, hp3⟩ := hp
      rcases List.mem_append.mp hx with hx | hx
      · have := hp3 x hx k0 (List.mem_cons_self _ _)
        have := hk k0 (List.mem_cons_self _ _)
        omega
      · rcases List.mem_cons.mp hx with rfl | hx
        · exact hk _ (List.mem_cons_self _ _)
        · exact ih (List.pairwise_cons.mp hp2).2 (fun y hy => hk y (List.mem_cons_of_mem _ hy))
            x hx

theorem interR_head (kR : List Int) (lR : List (List Int)) :
    (interR kR lR).head? = none ∨ (interR kR lR).head? = kR.head? := by
  cases kR with
  | nil => left; simp [interR]
  | cons k0 kR =>
    cases lR with
    | nil => left; simp [interR]
    | cons l lR => right; simp [interR]

theorem interR_ge {kR : List Int} {lR : List (List Int)} {k : Int}
    (hp : (interR kR lR).Pairwise (· < ·)) (hk : ∀ y, kR.head? = some y → k ≤ y) :
    ∀ x ∈ interR kR lR, k ≤ x := by
  apply pairwise_head_le hp
  intro x hx
  rcases interR_head kR lR with h | h
  · rw [h] at hx
    cases hx
  · rw [h] at hx
    exact hk x hx

theorem rd_zip_mid {B : Nat} {p y : BTreeNode} {ty : NodeType} {ks : List Int}
    {cL cR : List BTreeNode} (v : View B p ty ks (cL ++ y :: cR)) :
    rd p.edges cL.length = some y := by
  rw [v.edges_rd _ (by simp), getElem?_zip_mid]

/-- Writing a mutated child back into the slot it was read from. -/
theorem set_child_view {B : Nat} {p y : BTreeNode} {ks : List Int} {cL cR : List BTreeNode}
    (v : View B p NodeType.INTERNAL ks (cL ++ y :: cR)) (y1 : BTreeNode) :
    ∃ edges1, wr p.edges cL.length y1 = some edges1 ∧
      View B (BTreeNode.mk p.type p.n p.keys edges1) NodeType.INTERNAL ks (cL ++ y1 :: cR) := by
  have hcs := v.cs_len
  rw [if_pos rfl] at hcs
  simp only [List.length_append, List.length_cons] at hcs
  have hn := v.n_le
  obtain ⟨e1, h1, h2, h3⟩ := wr_spec (a := p.edges) (i := cL.length) y1
    (rd_isSome_lt (rd_zip_mid v))
  refine ⟨e1, h1, ⟨by simp [v.type_eq], by simp [v.n_eq], v.n_le, by simp [v.keys_len],
    by simp [h2, v.edges_len], by simpa using v.keys_rd, ?_,
    by rw [if_pos rfl]; simp only [List.length_append, List.length_cons]; omega⟩⟩
  intro i hi
  simp only [List.length_append, List.length_cons] at hi
  simp only [BTreeNode.edges_mk]
  rw [h3 i]
  by_cases e : i = cL.length
  · rw [if_pos e, e, getElem?_zip_mid]
  · rw [if_neg e, v.edges_rd i (by simp; omega)]
    by_cases hlt : i < cL.length
    · rw [getElem?_zip_left _ _ _ hlt, getElem?_zip_left _ _ _ hlt]
    · rw [getElem?_zip_right _ _ _ _ (by omega), getElem?_zip_right _ _ _ _ (by omega)]



theorem insert_descend {B h : Nat} (k : Int) {node1 c1 c2 : BTreeNode} {kL kR : List Int}
    {cL cR : List BTreeNode} {lL lR : List (List Int)} {l1 : List Int}
    (v : View B node1 NodeType.INTERNAL (kL ++ kR) (cL ++ c1 :: cR))
    (hc : cL.length = kL.length) (hlL : lL.length = kL.length)
    (fL : List.Forall₂ (T B h (B - 1)) cL lL) (fR : List.Forall₂ (T B h (B - 1)) cR lR)
    (hp : (interL lL kL ++ l1 ++ interR kR lR).Pairwise (· < ·))
    (hkL : ∀ x ∈ kL, x < k) (hkR : ∀ x, kR.head? = some x → k ≤ x)
    (t1 : T B h (B - 1) c2 (insSpec k l1)) (lo : Nat) (hlo : lo ≤ (kL ++ kR).length) :
    ∃ edges1, wr node1.edges kL.length c2 = some edges1 ∧
      T B (h + 1) lo (BTreeNode.mk node1.type node1.n node1.keys edges1)
        (insSpec k (interL lL kL ++ l1 ++ interR kR lR)) := by
  obtain ⟨edges1, h1, h2⟩ := set_child_view v c2
  rw [hc] at h1
  refine ⟨edges1, h1, T_succ.mpr ⟨kL ++ kR, cL ++ c2 :: cR, lL ++ insSpec k l1 :: lR, h2, hlo,
    forall₂_zip_join fL (List.Forall₂.cons t1 fR), ?_⟩⟩
  rw [inter_zip _ _ _ _ _ hlL]
  rw [List.pairwise_append] at hp
  obtain ⟨hp1, hp2, _⟩ := hp
  rw [List.pairwise_append] at hp1
  exact insSpec_zip k _ _ _ (interL_lt hp1.1 hkL) (interR_ge hp2 hkR)

theorem insert_tail {B h f : Nat} (k : Int)
    (ih : ∀ (c : BTreeNode) (l : List Int), T B h (B - 1) c l → c.n < 2 * B - 1 →
      l.Pairwise (· < ·) → ∃ c1, BTreeNode.insert B f c k = some (true, c1) ∧
        T B h (B - 1) c1 (insSpec k l) ∧ c1.n ≤ c.n + 1)
    {node1 c1 : BTreeNode} {kL kR : List Int}
    {cL cR : List BTreeNode} {lL lR : List (List Int)} {l1 : List Int}
    (v : View B node1 NodeType.INTERNAL (kL ++ kR) (cL ++ c1 :: cR))
    (hc : cL.length = kL.length) (hlL : lL.length = kL.length)
    (fL : List.Forall₂ (T B h (B - 1)) cL lL) (fR : List.Forall₂ (T B h (B - 1)) cR lR)
    (t1 : T B h (B - 1) c1 l1) (hn1 : c1.n < 2 * B - 1)
    (hp : (interL lL kL ++ l1 ++ interR kR lR).Pairwise (· < ·))
    (hkL : ∀ x ∈ kL, x < k) (hkR : ∀ x, kR.head? = some x → k ≤ x)
    (lo : Nat) (hlo : lo ≤ (kL ++ kR).length) :
    ∃ c2, ((rd node1.edges kL.length).bind fun c1 => (BTreeNode.insert B f c1 k).bind fun r =>
        (wr node1.edges kL.length r.2).bind fun e =>
          some (r.1, BTreeNode.mk node1.type node1.n node1.keys e)) = some (true, c2) ∧
      T B (h + 1) lo c2 (insSpec k (interL lL kL ++ l1 ++ interR kR lR)) ∧ c2.n = node1.n := by
  have hrd : rd node1.edges kL.length = some c1 := by rw [← hc]; exact rd_zip_mid v
  have hp1 : l1.Pairwise (· < ·) :=
    (List.pairwise_append.mp (List.pairwise_append.mp hp).1).2.1
  obtain ⟨c2, hi1, hi2, _⟩ := ih c1 l1 t1 hn1 hp1
  obtain ⟨e1, hw, ht⟩ := insert_descend k v hc hlL fL fR hp hkL hkR hi2 lo hlo
  refine ⟨_, ?_, ht, by simp⟩
  simp only [hrd, Option.some_bind, hi1, hw]

theorem insert_T {B : Nat} (hB : 2 ≤ B) (k : Int) :
    ∀ (h lo : Nat) (c : BTreeNode) (l : List Int), T B h lo c l → c.n < 2 * B - 1 →
      l.Pairwise (· < ·) → ∀ fuel, h < fuel →
      ∃ c1, BTreeNode.insert B fuel c k = some (true, c1) ∧ T B h lo c1 (insSpec k l) ∧
        c1.n ≤ c.n + 1 := by
  intro h
  induction h with
  | zero =>
    intro lo c l t hn hp fuel hf
    obtain ⟨v, hlo⟩ := T_zero.mp t
    obtain ⟨f, rfl⟩ : ∃ f, fuel = f + 1 := ⟨fuel - 1, by omega⟩
    obtain ⟨kL, kR, rfl, hkL, hlt, hge⟩ := lowerIdx_zip l k
    have hn2 : (kL ++ kR).length < 2 * B - 1 := by rw [← v.n_eq]; exact hn
    obtain ⟨keys1, keys2, h1, h2, h3⟩ := leaf_insert_view k v hn2
    have hty : ¬ NodeType.LEAF = NodeType.INTERNAL := by decide
    refine ⟨BTreeNode.mk c.type (c.n + 1) keys2 c.edges, ?_, T_zero.mpr ⟨?_, ?_⟩, ?_⟩
    · simp only [BTreeNode.insert, get_index_spec v k, Option.bind_eq_bind, Option.some_bind, v.type_eq,
        hty, if_false, ← hkL, h1, h2]
    · rw [insSpec_zip_nil k kL kR hlt
        (pairwise_head_le (List.pairwise_append.mp hp).2.1 hge)]
      exact h3
    · rw [insSpec_zip_nil k kL kR hlt
        (pairwise_head_le (List.pairwise_append.mp hp).2.1 hge)]
      simp only [List.length_append, List.length_cons] at hlo ⊢
      omega
    · simp
  | succ h ih =>
    intro lo c l t hn hp fuel hf
    obtain ⟨ks, cs, ls, v, hlo, hfa, hl⟩ := T_succ.mp t
    obtain ⟨f, rfl⟩ : ∃ f, fuel = f + 1 := ⟨fuel - 1, by omega⟩
    obtain ⟨kL, kR, rfl, hkL, hlt, hge⟩ := lowerIdx_zip ks k
    have hcs := v.cs_len
    rw [if_pos rfl] at hcs
    simp only [List.length_append] at hcs
    obtain ⟨cL, y, cR, rfl, hcL⟩ : ∃ cL y cR, cs = cL ++ y :: cR ∧ cL.length = kL.length :=
      ⟨cs.take kL.length, (cs.get ⟨kL.length, by omega⟩), cs.drop (kL.length + 1),
        take_mid_drop cs kL.length _ _ rfl (List.getElem?_eq_getElem _), by simp; omega⟩
    obtain ⟨lL, ly, lR, rfl, hlL, fL, ty, fR⟩ := forall₂_zip_left hfa
    rw [hcL] at hlL
    rw [inter_zip _ _ _ _ _ hlL] at hl
    subst hl
    have hn2 : (kL ++ kR).length < 2 * B - 1 := by rw [← v.n_eq]; exact hn
    have hrdy : rd c.edges (lowerIdx (kL ++ kR) k) = some y := by
      rw [← hkL, ← hcL]; exact rd_zip_mid v
    simp only [BTreeNode.insert, get_index_spec v k, Option.bind_eq_bind, Option.some_bind, v.type_eq,
      if_true, hrdy]
    have hpy : ly.Pairwise (· < ·) :=
      (List.pairwise_append.mp (List.pairwise_append.mp hp).1).2.1
    have ih2 := fun c l t hn hp => ih (B - 1) c l t hn hp f (by omega)
    by_cases hfull : y.n = 2 * B - 1
    · simp only [if_pos hfull]
      obtain ⟨p1, y1, z, m, l1, l2, hs, v1, ty1, tz, hly, hy1, hz⟩ :=
        split_child_T (by omega) v hcL hn2 ty hfull
      rw [← hkL, hs]
      simp only [Option.some_bind, get_index_spec v1 k]
      subst hly
      by_cases hm : m < k
      · have e1 : lowerIdx (kL ++ m :: kR) k = (kL ++ [m]).length := by
          rw [lowerIdx_append _ _ _ hlt, lowerIdx_cons, if_pos hm, lowerIdx_eq_zero _ _ hge]
          simp
        have v2 : View B p1 NodeType.INTERNAL ((kL ++ [m]) ++ kR) ((cL ++ [y1]) ++ z :: cR) := by
          simpa using v1
        have el : interL (lL ++ [l1]) (kL ++ [m]) ++ l2 ++ interR kR lR
            = interL lL kL ++ (l1 ++ m :: l2) ++ interR kR lR := by
          rw [interL_append _ _ _ _ hlL]
          simp [interL]
        obtain ⟨c2, hc2, ht2, hn3⟩ := insert_tail k ih2 v2 (by simp [hcL]) (by simp [hlL])
          (forall₂_zip_join fL (List.Forall₂.cons ty1 List.Forall₂.nil)) fR tz (by omega)
          (by rw [el]; exact hp)
          (by
            intro x hx
            rcases List.mem_append.mp hx with hx | hx
            · exact hlt x hx
            · simp at hx
              omega)
          hge lo (by simp at hlo ⊢; omega)
        rw [el] at ht2
        rw [e1]
        refine ⟨c2, hc2, ht2, ?_⟩
        rw [hn3, v1.n_eq, v.n_eq]
        simp only [List.length_append, List.length_cons]
        omega
      · have e1 : lowerIdx (kL ++ m :: kR) k = kL.length := by
          rw [lowerIdx_append _ _ _ hlt, lowerIdx_cons, if_neg hm]
          simp
        have el : interL lL kL ++ l1 ++ interR (m :: kR) (l2 :: lR)
            = interL lL kL ++ (l1 ++ m :: l2) ++ interR kR lR := by
          simp [interR]
        obtain ⟨c2, hc2, ht2, hn3⟩ := insert_tail k ih2 v1 hcL hlL fL
          (List.Forall₂.cons tz fR) ty1 (by omega)
          (by rw [el]; exact hp) hlt
          (by
            intro x hx
            simp at hx
            omega)
          lo (by simp at hlo ⊢; omega)
        rw [el] at ht2
        rw [e1]
        refine ⟨c2, hc2, ht2, ?_⟩
        rw [hn3, v1.n_eq, v.n_eq]
        simp only [List.length_append, List.length_cons]
        omega
    · simp only [if_neg hfull]
      have hyn := (T_n ty).2
      obtain ⟨c2, hc2, ht2, hn3⟩ := insert_tail k ih2 v hcL hlL fL fR ty (by omega) hp hlt hge
        lo hlo
      rw [← hkL] at hrdy ⊢
      rw [hrdy, v.type_eq] at hc2
      simp only [Option.some_bind] at hc2
      refine ⟨c2, hc2, ht2, by omega⟩


/-- Leaf branch of `remove`: the keys after position `kL.length` move down by one slot. -/
theorem leaf_remove_view {B : Nat} {c : BTreeNode} {kL kR : List Int} {x : Int}
    (v : View B c NodeType.LEAF (kL ++ x :: kR) []) :
    ∃ keys1, forUp kL.length (szSub c.n 1) shiftDownBody c.keys = some keys1 ∧
      View B (BTreeNode.mk c.type (szSub c.n 1) keys1 c.edges) NodeType.LEAF (kL ++ kR) [] := by
  have hn := v.n_eq
  have hle := v.n_le
  simp only [List.length_append, List.length_cons] at hn hle
  have hsz : szSub c.n 1 = c.n - 1 := szSub_of_le (by omega)
  rw [hsz]
  obtain ⟨keys1, h1, h2, h3⟩ := forUp_shiftDown_range c.keys kL.length (c.n - 1)
    (by right; rw [v.keys_len]; omega) (fun j _ hj2 => v.rd_key_isSome j (by simp; omega))
  refine ⟨keys1, h1, ⟨by simp [v.type_eq], by simp; omega, by simp; omega,
    by simp [h2, v.keys_len], by simp [v.edges_len], ?_, by simp, by simp⟩⟩
  intro i hi
  simp only [List.length_append] at hi
  simp only [BTreeNode.keys_mk]
  rw [h3 i]
  by_cases hlt : i < kL.length
  · rw [if_neg (by omega), v.keys_rd i (by simp; omega), getElem?_zip_left _ _ _ hlt,
      getElem?_zip_left _ _ _ hlt]
  · rw [if_pos (by omega), v.keys_rd (i + 1) (by simp; omega),
      getElem?_zip_right _ _ _ _ (by omega), List.getElem?_append_right (by omega)]
    congr 1
    omega

/-- The assignment `keys[idx] = v` on a live slot. -/
theorem set_key_view {B : Nat} {c : BTreeNode} {ty : NodeType} {kL kR : List Int} {x : Int}
    {cs : List BTreeNode} (v : View B c ty (kL ++ x :: kR) cs) (x1 : Int) :
    ∃ keys1, wr c.keys kL.length x1 = some keys1 ∧
      View B (BTreeNode.mk c.type c.n keys1 c.edges) ty (kL ++ x1 :: kR) cs := by
  have hn := v.n_eq
  have hle := v.n_le
  simp only [List.length_append, List.length_cons] at hn hle
  obtain ⟨keys1, h1, h2, h3⟩ := wr_spec (a := c.keys) (i := kL.length) x1
    (by rw [v.keys_len]; omega)
  refine ⟨keys1, h1, ⟨by simp [v.type_eq], by simp; omega, by simp; omega,
    by simp [h2, v.keys_len], by simp [v.edges_len], ?_, by simpa using v.edges_rd,
    by simpa using v.cs_len⟩⟩
  intro i hi
  simp only [List.length_append, List.length_cons] at hi
  simp only [BTreeNode.keys_mk]
  rw [h3 i]
  by_cases e : i = kL.length
  · rw [if_pos e, e, getElem?_zip_mid]
  · rw [if_neg e, v.keys_rd i (by simp; omega)]
    by_cases hlt : i < kL.length
    · rw [getElem?_zip_left _ _ _ hlt, getElem?_zip_left _ _ _ hlt]
    · rw [getElem?_zip_right _ _ _ _ (by omega), getElem?_zip_right _ _ _ _ (by omega)]

theorem rd_key_mid {B : Nat} {p : BTreeNode} {ty : NodeType} {kL kR : List Int} {x : Int}
    {cs : List BTreeNode} (v : View B p ty (kL ++ x :: kR) cs) :
    rd p.keys kL.length = some x := by
  rw [v.keys_rd _ (by simp), getElem?_zip_mid]

theorem rd_edge_mid2 {B : Nat} {p a b : BTreeNode} {ty : NodeType} {ks : List Int}
    {cL cR : List BTreeNode} (v : View B p ty ks (cL ++ a :: b :: cR)) :
    rd p.edges (cL.length + 1) = some b := by
  rw [v.edges_rd _ (by simp), getElem?_zip_right _ _ _ _ (by omega)]
  simp

theorem wrNull_spec {α : Type} {a : List (Option α)} {i : Nat} (h : i < a.length) :
    ∃ a1, wrNull a i = some a1 ∧ a1.length = a.length ∧
      ∀ j, j ≠ i → rd a1 j = rd a j := by
  refine ⟨a.set i none, by simp [wrNull, h], by simp, fun j hj => rd_set_other _ _ _ _ hj⟩

theorem merge_children_view {B : Nat} {p a b : BTreeNode} {kL kR : List Int} {s : Int}
    {cL cR : List BTreeNode} {ty : NodeType} {aks bks : List Int} {acs bcs : List BTreeNode}
    (v : View B p NodeType.INTERNAL (kL ++ s :: kR) (cL ++ a :: b :: cR))
    (hc : cL.length = kL.length)
    (va : View B a ty aks acs) (vb : View B b ty bks bcs)
    (hsum : aks.length + 1 + bks.length ≤ 2 * B - 1) (hleaf : ty = NodeType.LEAF) :
    ∃ p1 ab, merge_children p kL.length = some p1 ∧
      View B p1 NodeType.INTERNAL (kL ++ kR) (cL ++ ab :: cR) ∧
      View B ab ty (aks ++ s :: bks) (acs ++ bcs) := by
  have hn := v.n_eq
  have hle := v.n_le
  have hcs := v.cs_len
  have hacs := va.cs_len
  have hbcs := vb.cs_len
  simp only [List.length_append, List.length_cons, if_true] at hn hle hcs
  have hrda : rd p.edges kL.length = some a := by rw [← hc]; exact rd_zip_mid v
  have hrdb : rd p.edges (kL.length + 1) = some b := by rw [← hc]; exact rd_edge_mid2 v
  have hsep : rd p.keys kL.length = some s := rd_key_mid v
  obtain ⟨ck1, hck1, hck2, hck3⟩ := wr_spec (a := a.keys) (i := a.n) s
    (by rw [va.keys_len, va.n_eq]; omega)
  obtain ⟨ck2, hck4, hck5, hck6⟩ := forUp_copyTo_range b.keys (a.n + 1) b.n ck1
    (by rw [hck2, va.keys_len, va.n_eq, vb.n_eq]; omega)
    (fun j hj => vb.rd_key_isSome j (by rw [← vb.n_eq]; exact hj))
  have hce : ∃ ce, (if a.type = NodeType.INTERNAL then
      forUp 0 (b.n + 1) (copyToBody b.edges (a.n + 1)) a.edges else some a.edges) = some ce ∧
      ce.length = 2 * B ∧ ∀ i, i < (acs ++ bcs).length → rd ce i = (acs ++ bcs)[i]? := by
    by_cases hty : ty = NodeType.INTERNAL
    · rw [if_pos hty] at hacs hbcs
      obtain ⟨ce, h1, h2, h3⟩ := forUp_copyTo_range b.edges (a.n + 1) (b.n + 1) a.edges
        (by rw [va.edges_len, va.n_eq, vb.n_eq]; omega)
        (fun j hj => vb.rd_edge_isSome j (by rw [vb.n_eq] at hj; omega))
      refine ⟨ce, by rw [if_pos (va.type_eq.trans hty)]; exact h1, by rw [h2, va.edges_len], ?_⟩
      intro i hi
      simp only [List.length_append] at hi
      rw [h3 i, va.n_eq, vb.n_eq]
      by_cases hlt : i < acs.length
      · rw [if_neg (by omega), va.edges_rd i hlt, getElem?_zip_left _ _ _ hlt]
      · rw [if_pos (by omega), vb.edges_rd _ (by omega), List.getElem?_append_right (by omega)]
        congr 1
        omega
    · rw [if_neg hty] at hacs hbcs
      refine ⟨a.edges, by rw [if_neg (by rw [va.type_eq]; exact hty)], va.edges_len, ?_⟩
      intro i hi
      simp [hacs, hbcs] at hi
  obtain ⟨ce, hce1, hce2, hce3⟩ := hce
  obtain ⟨nk, hnk1, hnk2, hnk3⟩ := forUp_shiftDown1_range p.keys (kL.length + 1) p.n (by omega)
    (by right; rw [v.keys_len]; omega) (fun j _ hj2 => v.rd_key_isSome j (by simp; omega))
  obtain ⟨ne1, hne1, hne2, hne3⟩ := forUp_shiftDown1_range p.edges (kL.length + 2) (p.n + 1)
    (by omega) (by right; rw [v.edges_len]; omega)
    (fun j _ hj2 => v.rd_edge_isSome j (by simp; omega))
  obtain ⟨ne2, hne4, hne5, hne6⟩ := wr_spec (a := ne1) (i := kL.length)
    (BTreeNode.mk a.type (a.n + (b.n + 1)) ck2 ce) (by rw [hne2, v.edges_len]; omega)
  have hsz : szSub p.n 1 = p.n - 1 := szSub_of_le (by omega)
  obtain ⟨ne3, hne7, hne8, hne9⟩ := wrNull_spec (a := ne2) (i := p.n - 1 + 1)
    (by rw [hne5, hne2, v.edges_len]; omega)
  refine ⟨BTreeNode.mk p.type (p.n - 1) nk ne3, BTreeNode.mk a.type (a.n + (b.n + 1)) ck2 ce,
    ?_, ?_, ?_⟩
  · have hty : ¬ a.type = NodeType.INTERNAL := by
      rw [va.type_eq, hleaf]
      decide
    have hty2 : ¬ (b.type = NodeType.INTERNAL ∧ a.type = NodeType.INTERNAL) := fun hc => hty hc.2
    simp only [merge_children, hrda, hrdb, hsep, Option.bind_eq_bind, Option.some_bind, hck1,
      hck4, hnk1, hne1, hsz, if_neg hty2]
    rw [if_neg hty] at hce1 ⊢
    simp only [Option.some.injEq] at hce1
    simp only [hce1, Option.some_bind, hne4, hne7]
  · refine ⟨by simp [v.type_eq], by simp; omega, by simp; omega, by simp [hnk2, v.keys_len],
      by simp [hne8, hne5, hne2, v.edges_len], ?_, ?_,
      by rw [if_pos rfl]; simp only [List.length_append, List.length_cons]; omega⟩
    · intro i hi
      simp only [List.length_append] at hi
      simp only [BTreeNode.keys_mk]
      rw [hnk3 i]
      by_cases hlt : i < kL.length
      · rw [if_neg (by omega), v.keys_rd i (by simp; omega), getElem?_zip_left _ _ _ hlt,
          getElem?_zip_left _ _ _ hlt]
      · rw [if_pos (by omega), v.keys_rd (i + 1) (by simp; omega),
          getElem?_zip_right _ _ _ _ (by omega), List.getElem?_append_right (by omega)]
        congr 1
        omega
    · intro i hi
      simp only [List.length_append, List.length_cons] at hi
      simp only [BTreeNode.edges_mk]
      rw [hne9 i (by omega), hne6 i]
      by_cases e : i = kL.length
      · rw [if_pos e, e, ← hc, getElem?_zip_mid]
      · rw [if_neg e, hne3 i]
        by_cases hlt : i < kL.length
        · rw [if_neg (by omega), v.edges_rd i (by simp; omega),
            getElem?_zip_left _ _ _ (by omega), getElem?_zip_left _ _ _ (by omega)]
        · rw [if_pos (by omega), v.edges_rd (i + 1) (by simp; omega),
            getElem?_zip_right _ _ _ _ (by omega), getElem?_zip_right _ _ _ _ (by omega)]
          obtain ⟨j, rfl⟩ : ∃ j, i = cL.length + 1 + j := ⟨i - cL.length - 1, by omega⟩
          have e1 : cL.length + 1 + j + 1 - cL.length - 1 = j + 1 := by omega
          have e2 : cL.length + 1 + j - cL.length - 1 = j := by omega
          rw [e1, e2, List.getElem?_cons_succ]
  · refine ⟨by simp [va.type_eq], by simp [va.n_eq, vb.n_eq], by simp; omega,
      by simp [hck5, hck2, va.keys_len], by simp [hce2], ?_, ?_, ?_⟩
    · intro i hi
      simp only [List.length_append, List.length_cons] at hi
      simp only [BTreeNode.keys_mk]
      rw [hck6 i, va.n_eq, vb.n_eq]
      by_cases h1 : i < aks.length
      · rw [if_neg (by omega), hck3 i, if_neg (by rw [va.n_eq]; omega), va.keys_rd i h1,
          getElem?_zip_left _ _ _ h1]
      · by_cases h2 : i = aks.length
        · rw [if_neg (by omega), hck3 i, if_pos (by rw [va.n_eq]; exact h2), h2,
            getElem?_zip_mid]
        · rw [if_pos (by omega), vb.keys_rd _ (by omega),
            getElem?_zip_right _ _ _ _ (by omega)]
          congr 1
    · intro i hi
      simp only [BTreeNode.edges_mk]
      exact hce3 i hi
    · simp only [List.length_append, List.length_cons]
      by_cases hty : ty = NodeType.INTERNAL
      · rw [if_pos hty] at hacs hbcs ⊢
        omega
      · rw [if_neg hty] at hacs hbcs ⊢
        omega


theorem getElem?_set2 {α : Type} (L R : List α) (a1 b1 a b : α) (i : Nat) :
    (L ++ a1 :: b1 :: R)[i]? = if i = L.length then some a1
      else if i = L.length + 1 then some b1 else (L ++ a :: b :: R)[i]? := by
  by_cases h1 : i = L.length
  · rw [if_pos h1, h1, getElem?_zip_mid]
  · rw [if_neg h1]
    by_cases h2 : i = L.length + 1
    · rw [if_pos h2, h2, getElem?_zip_right _ _ _ _ (by omega)]
      simp
    · rw [if_neg h2]
      by_cases h3 : i < L.length
      · rw [getElem?_zip_left _ _ _ h3, getElem?_zip_left _ _ _ h3]
      · rw [getElem?_zip_right _ _ _ _ (by omega), getElem?_zip_right _ _ _ _ (by omega)]
        obtain ⟨j, rfl⟩ : ∃ j, i = L.length + 2 + j := ⟨i - L.length - 2, by omega⟩
        have e1 : L.length + 2 + j - L.length - 1 = j + 1 := by omega
        rw [e1, List.getElem?_cons_succ, List.getElem?_cons_succ]

theorem set2_view {B : Nat} {p a b : BTreeNode} {kL kR : List Int} {s : Int}
    {cL cR : List BTreeNode} (v : View B p NodeType.INTERNAL (kL ++ s :: kR) (cL ++ a :: b :: cR))
    (hc : cL.length = kL.length) (s1 : Int) (a1 b1 : BTreeNode) :
    ∃ nk ne1 ne2, wr p.keys kL.length s1 = some nk ∧ wr p.edges kL.length a1 = some ne1 ∧
      wr ne1 (kL.length + 1) b1 = some ne2 ∧
      View B (BTreeNode.mk p.type p.n nk ne2) NodeType.INTERNAL (kL ++ s1 :: kR)
        (cL ++ a1 :: b1 :: cR) := by
  have hn := v.n_eq
  have hle := v.n_le
  have hcs := v.cs_len
  simp only [List.length_append, List.length_cons, if_true] at hn hle hcs
  obtain ⟨nk, hk1, hk2⟩ := set_key_view v s1
  obtain ⟨ne1, h1, h2, h3⟩ := wr_spec (a := p.edges) (i := kL.length) a1
    (by rw [v.edges_len]; omega)
  obtain ⟨ne2, h4, h5, h6⟩ := wr_spec (a := ne1) (i := kL.length + 1) b1
    (by rw [h2, v.edges_len]; omega)
  refine ⟨nk, ne1, ne2, hk1, h1, h4, ⟨by simp [v.type_eq], by simpa using hk2.n_eq, hk2.n_le,
    by simpa using hk2.keys_len, by simp [h5, h2, v.edges_len], by simpa using hk2.keys_rd, ?_,
    by rw [if_pos rfl]; simp only [List.length_append, List.length_cons]; omega⟩⟩
  intro i hi
  simp only [List.length_append, List.length_cons] at hi
  simp only [BTreeNode.edges_mk]
  rw [h6 i, getElem?_set2 _ _ _ _ a b, hc]
  by_cases e1 : i = kL.length + 1
  · rw [if_pos e1, if_neg (by omega), if_pos e1]
  · rw [if_neg e1, h3 i]
    by_cases e2 : i = kL.length
    · rw [if_pos e2, if_pos e2]
    · rw [if_neg e2, if_neg e2, if_neg e1, v.edges_rd i (by simp; omega)]

theorem borrow_from_right_view {B : Nat} {p a b : BTreeNode} {kL kR : List Int} {s : Int}
    {cL cR : List BTreeNode} {ty : NodeType} {aks bks : List Int} {bk : Int}
    {acs bcs : List BTreeNode}
    (v : View B p NodeType.INTERNAL (kL ++ s :: kR) (cL ++ a :: b :: cR))
    (hc : cL.length = kL.length)
    (va : View B a ty aks acs) (vb : View B b ty (bk :: bks) bcs)
    (hlt : aks.length < 2 * B - 1) :
    ∃ p1 a1 b1, borrow_from_right p kL.length = some p1 ∧
      View B p1 NodeType.INTERNAL (kL ++ bk :: kR) (cL ++ a1 :: b1 :: cR) ∧
      View B a1 ty (aks ++ [s]) (acs ++ bcs.take 1) ∧
      View B b1 ty bks (bcs.drop 1) := by
  have hacs := va.cs_len
  have hbcs := vb.cs_len
  have hbn := vb.n_eq
  have hble := vb.n_le
  simp only [List.length_cons] at hbn hble hbcs
  have hrda : rd p.edges kL.length = some a := by rw [← hc]; exact rd_zip_mid v
  have hrdb : rd p.edges (kL.length + 1) = some b := by rw [← hc]; exact rd_edge_mid2 v
  have hsep : rd p.keys kL.length = some s := rd_key_mid v
  obtain ⟨ck, hck1, hck2, hck3⟩ := wr_spec (a := a.keys) (i := a.n) s
    (by rw [va.keys_len, va.n_eq]; omega)
  have hce : ∃ ce, (if a.type = NodeType.INTERNAL then
      (rd b.edges 0).bind (fun s0 => wr a.edges (a.n + 1) s0) else some a.edges) = some ce ∧
      ce.length = 2 * B ∧
      ∀ i, i < (acs ++ bcs.take 1).length → rd ce i = (acs ++ bcs.take 1)[i]? := by
    by_cases hty : ty = NodeType.INTERNAL
    · rw [if_pos hty] at hacs hbcs
      have h0 : rd b.edges 0 = some ((bcs.get ⟨0, by omega⟩)) := by
        rw [vb.edges_rd 0 (by omega), List.getElem?_eq_getElem]; rfl
      obtain ⟨ce, h1, h2, h3⟩ := wr_spec (a := a.edges) (i := a.n + 1) ((bcs.get ⟨0, by omega⟩))
        (by rw [va.edges_len, va.n_eq]; omega)
      refine ⟨ce, by rw [if_pos (va.type_eq.trans hty), h0]; exact h1,
        by rw [h2, va.edges_len], ?_⟩
      intro i hi
      simp only [List.length_append, List.length_take] at hi
      rw [h3 i, va.n_eq]
      by_cases hlt : i < acs.length
      · rw [if_neg (by omega), va.edges_rd i hlt, getElem?_zip_left _ _ _ hlt]
      · have e : i = acs.length := by omega
        rw [if_pos (by omega), e, List.getElem?_append_right (le_refl _), Nat.sub_self,
          List.getElem?_take_of_lt (by omega), List.getElem?_eq_getElem]; rfl
    · rw [if_neg hty] at hacs hbcs
      refine ⟨a.edges, by rw [if_neg (by rw [va.type_eq]; exact hty)], va.edges_len, ?_⟩
      intro i hi
      simp [hacs, List.length_eq_zero.mp hbcs] at hi
  obtain ⟨ce, hce1, hce2, hce3⟩ := hce
  have hfirst : rd b.keys 0 = some bk := by
    rw [vb.keys_rd 0 (by simp)]
    simp
  have hsz : szSub b.n 1 = b.n - 1 := szSub_of_le (by omega)
  obtain ⟨sk, hsk1, hsk2, hsk3⟩ := forUp_shiftDown_range b.keys 0 (b.n - 1)
    (by right; rw [vb.keys_len]; omega) (fun j _ hj2 => vb.rd_key_isSome j (by simp; omega))
  have hse : ∃ se, (if b.type = NodeType.INTERNAL then forUp 0 b.n shiftDownBody b.edges
      else some b.edges) = some se ∧ se.length = 2 * B ∧
      ∀ i, i < (bcs.drop 1).length → rd se i = (bcs.drop 1)[i]? := by
    by_cases hty : ty = NodeType.INTERNAL
    · rw [if_pos hty] at hbcs
      obtain ⟨se, h1, h2, h3⟩ := forUp_shiftDown_range b.edges 0 b.n
        (by right; rw [vb.edges_len]; omega) (fun j _ hj2 => vb.rd_edge_isSome j (by omega))
      refine ⟨se, by rw [if_pos (vb.type_eq.trans hty)]; exact h1, by rw [h2, vb.edges_len], ?_⟩
      intro i hi
      simp only [List.length_drop] at hi
      rw [h3 i, if_pos (by omega), vb.edges_rd _ (by omega), List.getElem?_drop]
      congr 1
      omega
    · rw [if_neg hty] at hbcs
      refine ⟨b.edges, by rw [if_neg (by rw [vb.type_eq]; exact hty)], vb.edges_len, ?_⟩
      intro i hi
      simp [List.length_eq_zero.mp hbcs] at hi
  obtain ⟨se, hse1, hse2, hse3⟩ := hse
  obtain ⟨nk, ne1, ne2, hw1, hw2, hw3, vp⟩ := set2_view v hc bk
    (BTreeNode.mk a.type (a.n + 1) ck ce) (BTreeNode.mk b.type (b.n - 1) sk se)
  refine ⟨_, _, _, ?_, vp, ?_, ?_⟩
  · simp only [borrow_from_right, hrda, hrdb, hsep, Option.bind_eq_bind, Option.some_bind, hck1,
      hfirst, hw1, hsz, hsk1]
    by_cases hty : a.type = NodeType.INTERNAL
    · have htb : b.type = NodeType.INTERNAL := by rw [vb.type_eq, ← va.type_eq]; exact hty
      rw [if_pos hty] at hce1
      rw [if_pos htb] at hse1
      simp only [if_pos hty, if_pos htb, hce1, hse1, Option.some_bind, hw2, hw3]
    · have htb : ¬ b.type = NodeType.INTERNAL := by rw [vb.type_eq, ← va.type_eq]; exact hty
      rw [if_neg hty] at hce1
      rw [if_neg htb] at hse1
      simp only [Option.some.injEq] at hce1 hse1
      simp only [if_neg hty, if_neg htb, hce1, hse1, Option.some_bind, hw2, hw3]
  · refine ⟨by simp [va.type_eq], by simp [va.n_eq], by simp; omega,
      by simp [hck2, va.keys_len], by simp [hce2], ?_, ?_, ?_⟩
    · intro i hi
      simp only [List.length_append, List.length_cons, List.length_nil] at hi
      simp only [BTreeNode.keys_mk]
      rw [hck3 i, va.n_eq]
      by_cases h1 : i = aks.length
      · rw [if_pos h1, h1, getElem?_zip_mid]
      · rw [if_neg h1, va.keys_rd i (by omega), getElem?_zip_left _ _ _ (by omega)]
    · intro i hi
      simp only [BTreeNode.edges_mk]
      exact hce3 i hi
    · simp only [List.length_append, List.length_cons, List.length_nil, List.length_take]
      by_cases hty : ty = NodeType.INTERNAL
      · rw [if_pos hty] at hacs hbcs ⊢
        omega
      · rw [if_neg hty] at hacs hbcs ⊢
        omega
  · refine ⟨by simp [vb.type_eq], by simp; omega, by omega,
      by simp [hsk2, vb.keys_len], by simp [hse2], ?_, ?_, ?_⟩
    · intro i hi
      simp only [BTreeNode.keys_mk]
      rw [hsk3 i, if_pos (by omega), vb.keys_rd _ (by simp; omega), List.getElem?_cons_succ]
    · intro i hi
      simp only [BTreeNode.edges_mk]
      exact hse3 i hi
    · simp only [List.length_drop]
      by_cases hty : ty = NodeType.INTERNAL
      · rw [if_pos hty] at hbcs ⊢
        omega
      · rw [if_neg hty] at hbcs ⊢
        omega


theorem set2_view_rev {B : Nat} {p a b : BTreeNode} {kL kR : List Int} {s : Int}
    {cL cR : List BTreeNode} (v : View B p NodeType.INTERNAL (kL ++ s :: kR) (cL ++ a :: b :: cR))
    (hc : cL.length = kL.length) (s1 : Int) (a1 b1 : BTreeNode) :
    ∃ nk ne1 ne2, wr p.keys kL.length s1 = some nk ∧ wr p.edges (kL.length + 1) b1 = some ne1 ∧
      wr ne1 kL.length a1 = some ne2 ∧
      View B (BTreeNode.mk p.type p.n nk ne2) NodeType.INTERNAL (kL ++ s1 :: kR)
        (cL ++ a1 :: b1 :: cR) := by
  have hn := v.n_eq
  have hle := v.n_le
  have hcs := v.cs_len
  simp only [List.length_append, List.length_cons, if_true] at hn hle hcs
  obtain ⟨nk, hk1, hk2⟩ := set_key_view v s1
  obtain ⟨ne1, h1, h2, h3⟩ := wr_spec (a := p.edges) (i := kL.length + 1) b1
    (by rw [v.edges_len]; omega)
  obtain ⟨ne2, h4, h5, h6⟩ := wr_spec (a := ne1) (i := kL.length) a1
    (by rw [h2, v.edges_len]; omega)
  refine ⟨nk, ne1, ne2, hk1, h1, h4, ⟨by simp [v.type_eq], by simpa using hk2.n_eq, hk2.n_le,
    by simpa using hk2.keys_len, by simp [h5, h2, v.edges_len], by simpa using hk2.keys_rd, ?_,
    by rw [if_pos rfl]; simp only [List.length_append, List.length_cons]; omega⟩⟩
  intro i hi
  simp only [List.length_append, List.length_cons] at hi
  simp only [BTreeNode.edges_mk]
  rw [h6 i, getElem?_set2 _ _ _ _ a b, hc]
  by_cases e2 : i = kL.length
  · rw [if_pos e2, if_pos e2]
  · rw [if_neg e2, if_neg e2, h3 i]
    by_cases e1 : i = kL.length + 1
    · rw [if_pos e1, if_pos e1]
    · rw [if_neg e1, if_neg e1, v.edges_rd i (by simp; omega)]

theorem borrow_from_left_view {B : Nat} {p a b : BTreeNode} {kL kR : List Int} {s : Int}
    {cL cR : List BTreeNode} {ty : NodeType} {aks bks : List Int} {bk : Int}
    {acs bcs : List BTreeNode}
    (v : View B p NodeType.INTERNAL (kL ++ s :: kR) (cL ++ b :: a :: cR))
    (hc : cL.length = kL.length)
    (va : View B a ty aks acs) (vb : View B b ty (bks ++ [bk]) bcs)
    (hlt : aks.length < 2 * B - 1) :
    ∃ p1 a1 b1, borrow_from_left p (kL.length + 1) = some p1 ∧
      View B p1 NodeType.INTERNAL (kL ++ bk :: kR) (cL ++ b1 :: a1 :: cR) ∧
      View B a1 ty (s :: aks) (bcs.drop (bks.length + 1) ++ acs) ∧
      View B b1 ty bks (bcs.take (bks.length + 1)) := by
  have hacs := va.cs_len
  have hbcs := vb.cs_len
  have hbn := vb.n_eq
  have hble := vb.n_le
  simp only [List.length_append, List.length_cons, List.length_nil] at hbn hble hbcs
  have hrdb : rd p.edges kL.length = some b := by rw [← hc]; exact rd_zip_mid v
  have hrda : rd p.edges (kL.length + 1) = some a := by rw [← hc]; exact rd_edge_mid2 v
  have hsep : rd p.keys kL.length = some s := rd_key_mid v
  have hsz : szSub (kL.length + 1) 1 = kL.length := by rw [szSub_of_le (by omega)]; omega
  have hszb : szSub b.n 1 = b.n - 1 := szSub_of_le (by omega)
  obtain ⟨ck1, hck1, hck2, hck3⟩ := forDown_shiftUp_range a.keys a.n 0 ((a.n : Int) - 1) 0
    rfl rfl (by right; rw [va.keys_len, va.n_eq]; omega)
    (fun j _ hj2 => va.rd_key_isSome j (by rw [← va.n_eq]; exact hj2))
  obtain ⟨ck2, hck4, hck5, hck6⟩ := wr_spec (a := ck1) (i := 0) s
    (by rw [hck2, va.keys_len]; omega)
  have hce : ∃ ce1 ce2, (if a.type = NodeType.INTERNAL then
        forDown (a.n : Int) 0 shiftUpBody a.edges else some a.edges) = some ce1 ∧
      (if a.type = NodeType.INTERNAL then (rd b.edges b.n).bind (fun sl => wr ce1 0 sl)
        else some ce1) = some ce2 ∧ ce2.length = 2 * B ∧
      ∀ i, i < (bcs.drop (bks.length + 1) ++ acs).length →
        rd ce2 i = (bcs.drop (bks.length + 1) ++ acs)[i]? := by
    by_cases hty : ty = NodeType.INTERNAL
    · rw [if_pos hty] at hacs hbcs
      obtain ⟨ce1, h1, h2, h3⟩ := forDown_shiftUp_range a.edges (a.n + 1) 0 (a.n : Int) 0
        (by push_cast; omega) rfl (by right; rw [va.edges_len, va.n_eq]; omega)
        (fun j _ hj2 => va.rd_edge_isSome j (by rw [va.n_eq] at hj2; omega))
      have hlast : rd b.edges b.n = some ((bcs.get ⟨bks.length + 1, by omega⟩)) := by
        rw [vb.edges_rd _ (by omega), hbn, List.getElem?_eq_getElem]; rfl
      obtain ⟨ce2, h4, h5, h6⟩ := wr_spec (a := ce1) (i := 0) ((bcs.get ⟨bks.length + 1, by omega⟩))
        (by rw [h2, va.edges_len]; omega)
      refine ⟨ce1, ce2, by rw [if_pos (va.type_eq.trans hty)]; exact h1,
        by rw [if_pos (va.type_eq.trans hty), hlast]; exact h4,
        by rw [h5, h2, va.edges_len], ?_⟩
      intro i hi
      simp only [List.length_append, List.length_drop] at hi
      have hd : bcs.drop (bks.length + 1) = [(bcs.get ⟨bks.length + 1, by omega⟩)] := by
        rw [List.drop_eq_getElem_cons (by omega), List.drop_eq_nil_of_le (by omega)]; rfl
      rw [h6 i, hd]
      by_cases h0 : i = 0
      · rw [if_pos h0, h0]
        simp
      · rw [if_neg h0, h3 i, if_pos (by rw [va.n_eq]; omega), va.edges_rd _ (by omega)]
        obtain ⟨j, rfl⟩ : ∃ j, i = j + 1 := ⟨i - 1, by omega⟩
        simp
    · rw [if_neg hty] at hacs hbcs
      have hna : ¬ a.type = NodeType.INTERNAL := by rw [va.type_eq]; exact hty
      refine ⟨a.edges, a.edges, by rw [if_neg hna], by rw [if_neg hna], va.edges_len, ?_⟩
      intro i hi
      simp [List.length_eq_zero.mp hacs, List.length_eq_zero.mp hbcs] at hi
  obtain ⟨ce1, ce2, hce1, hce2, hce3, hce4⟩ := hce
  have hlast : rd b.keys (b.n - 1) = some bk := by
    rw [vb.keys_rd _ (by simp; omega), hbn]
    simp
  obtain ⟨nk, ne1, ne2, hw1, hw2, hw3, vp⟩ := set2_view_rev v hc bk
    (BTreeNode.mk b.type (b.n - 1) b.keys b.edges) (BTreeNode.mk a.type (a.n + 1) ck2 ce2)
  refine ⟨_, _, _, ?_, vp, ?_, ?_⟩
  · simp only [borrow_from_left, hrda, hrdb, hsep, hsz, hszb, Option.bind_eq_bind,
      Option.some_bind, hck1]
    by_cases hty : a.type = NodeType.INTERNAL
    · rw [if_pos hty] at hce1 hce2
      simp only [if_pos hty, hce1, Option.some_bind, hck4]
      obtain ⟨sl, hsl⟩ : ∃ sl, rd b.edges b.n = some sl := by
        cases hr : rd b.edges b.n with
        | none => rw [hr] at hce2; cases hce2
        | some sl => exact ⟨sl, rfl⟩
      rw [hsl] at hce2 ⊢
      simp only [Option.some_bind] at hce2 ⊢
      simp only [hce2, Option.some_bind, hlast, hw1, hw2, hw3]
    · rw [if_neg hty] at hce1 hce2
      simp only [Option.some.injEq] at hce1 hce2
      simp only [if_neg hty, hce1, hce2, Option.some_bind, hck4, hlast, hw1, hw2, hw3]
  · refine ⟨by simp [va.type_eq], by simp [va.n_eq], by simp; omega,
      by simp [hck5, hck2, va.keys_len], by simp [hce3], ?_, ?_, ?_⟩
    · intro i hi
      simp only [List.length_cons] at hi
      simp only [BTreeNode.keys_mk]
      rw [hck6 i]
      by_cases h0 : i = 0
      · rw [if_pos h0, h0]
        simp
      · rw [if_neg h0, hck3 i, if_pos (by rw [va.n_eq]; omega), va.keys_rd _ (by omega)]
        obtain ⟨j, rfl⟩ : ∃ j, i = j + 1 := ⟨i - 1, by omega⟩
        simp
    · intro i hi
      simp only [BTreeNode.edges_mk]
      exact hce4 i hi
    · simp only [List.length_append, List.length_cons, List.length_drop]
      by_cases hty : ty = NodeType.INTERNAL
      · rw [if_pos hty] at hacs hbcs ⊢
        omega
      · rw [if_neg hty] at hacs hbcs ⊢
        omega
  · refine ⟨by simp [vb.type_eq], by simp; omega, by omega,
      by simp [vb.keys_len], by simp [vb.edges_len], ?_, ?_, ?_⟩
    · intro i hi
      simp only [BTreeNode.keys_mk]
      rw [vb.keys_rd _ (by simp; omega), getElem?_zip_left _ _ _ hi]
    · intro i hi
      simp only [List.length_take] at hi
      simp only [BTreeNode.edges_mk]
      rw [vb.edges_rd _ (by omega), List.getElem?_take_of_lt (by omega)]
    · simp only [List.length_take]
      by_cases hty : ty = NodeType.INTERNAL
      · rw [if_pos hty] at hbcs ⊢
        omega
      · rw [if_neg hty] at hbcs ⊢
        omega


theorem merge_children_T {B h : Nat} {p a b : BTreeNode} {kL kR : List Int} {s : Int}
    {cL cR : List BTreeNode} {la lb : List Int}
    (v : View B p NodeType.INTERNAL (kL ++ s :: kR) (cL ++ a :: b :: cR))
    (hc : cL.length = kL.length)
    (ta : T B h (B - 1) a la) (tb : T B h (B - 1) b lb)
    (hsum : a.n + 1 + b.n ≤ 2 * B - 1) (hh : h = 0) :
    ∃ p1 ab, merge_children p kL.length = some p1 ∧
      View B p1 NodeType.INTERNAL (kL ++ kR) (cL ++ ab :: cR) ∧
      T B h (B - 1) ab (la ++ s :: lb) ∧ ab.n = a.n + 1 + b.n := by
  subst hh
  obtain ⟨va, _⟩ := T_zero.mp ta
  obtain ⟨vb, _⟩ := T_zero.mp tb
  obtain ⟨p1, ab, h1, h2, h3⟩ := merge_children_view v hc va vb
    (by rw [← va.n_eq, ← vb.n_eq]; exact hsum) rfl
  simp only [List.append_nil] at h3
  refine ⟨p1, ab, h1, h2, T_zero.mpr ⟨h3, by simp; omega⟩, ?_⟩
  rw [h3.n_eq, va.n_eq, vb.n_eq]
  simp
  omega


theorem borrow_from_right_T {B h : Nat} (hB : 1 ≤ B) {p a b : BTreeNode} {kL kR : List Int}
    {s : Int} {cL cR : List BTreeNode} {la lb : List Int}
    (v : View B p NodeType.INTERNAL (kL ++ s :: kR) (cL ++ a :: b :: cR))
    (hc : cL.length = kL.length)
    (ta : T B h (B - 1) a la) (tb : T B h (B - 1) b lb)
    (han : a.n < 2 * B - 1) (hbn : B ≤ b.n) :
    ∃ p1 a1 b1 bk lpre lb1, borrow_from_right p kL.length = some p1 ∧
      View B p1 NodeType.INTERNAL (kL ++ bk :: kR) (cL ++ a1 :: b1 :: cR) ∧
      lb = lpre ++ bk :: lb1 ∧
      T B h (B - 1) a1 (la ++ s :: lpre) ∧ T B h (B - 1) b1 lb1 ∧ a1.n = a.n + 1 := by
  cases h with
  | zero =>
    obtain ⟨va, _⟩ := T_zero.mp ta
    obtain ⟨vb, _⟩ := T_zero.mp tb
    have hbl : lb.length = b.n := vb.n_eq.symm
    obtain ⟨bk, bks, rfl⟩ : ∃ bk bks, lb = bk :: bks := by
      cases lb with
      | nil => simp at hbl; omega
      | cons x xs => exact ⟨x, xs, rfl⟩
    obtain ⟨p1, a1, b1, h1, h2, h3, h4⟩ := borrow_from_right_view v hc va vb
      (by rw [← va.n_eq]; exact han)
    simp only [List.take_nil, List.drop_nil, List.append_nil] at h3 h4
    simp only [List.length_cons] at hbl
    refine ⟨p1, a1, b1, bk, [], bks, h1, h2, rfl, T_zero.mpr ⟨h3, by simp; omega⟩,
      T_zero.mpr ⟨h4, by omega⟩, ?_⟩
    rw [h3.n_eq, va.n_eq]
    simp
  | succ h =>
    obtain ⟨aks, acs, als, va, hloa, fa, hla⟩ := T_succ.mp ta
    obtain ⟨bks0, bcs, bls, vb, hlob, fb, hlb⟩ := T_succ.mp tb
    have hbl : bks0.length = b.n := vb.n_eq.symm
    obtain ⟨bk, bks, rfl⟩ : ∃ bk bks, bks0 = bk :: bks := by
      cases bks0 with
      | nil => simp at hbl; omega
      | cons x xs => exact ⟨x, xs, rfl⟩
    obtain ⟨p1, a1, b1, h1, h2, h3, h4⟩ := borrow_from_right_view v hc va vb
      (by rw [← va.n_eq]; exact han)
    have hacs := va.cs_len
    have hbcs := vb.cs_len
    rw [if_pos rfl] at hacs hbcs
    have hals := fa.length_eq
    have hbls := fb.length_eq
    simp only [List.length_cons] at hbl hbcs
    obtain ⟨bl0, bl1, bls2, rfl⟩ : ∃ bl0 bl1 bls2, bls = bl0 :: bl1 :: bls2 := by
      rcases bls with _ | ⟨x, _ | ⟨y, r⟩⟩
      · simp only [List.length_nil] at hbls
        omega
      · simp only [List.length_cons, List.length_nil] at hbls
        omega
      · exact ⟨x, y, r, rfl⟩
    obtain ⟨bc0, bcs1, rfl⟩ : ∃ bc0 bcs1, bcs = bc0 :: bcs1 := by
      cases bcs with
      | nil => simp at hbcs
      | cons x xs => exact ⟨x, xs, rfl⟩
    have fb0 := (List.forall₂_cons.mp fb).1
    have fb1 := (List.forall₂_cons.mp fb).2
    simp only [List.take_succ_cons, List.take_zero, List.drop_succ_cons, List.drop_zero] at h3 h4
    refine ⟨p1, a1, b1, bk, bl0, inter (bl1 :: bls2) bks, h1, h2, ?_,
      T_succ.mpr ⟨_, _, als ++ [bl0], h3, by simp; omega,
        forall₂_zip_join fa (List.Forall₂.cons fb0 List.Forall₂.nil), ?_⟩,
      T_succ.mpr ⟨_, _, _, h4, by omega, fb1, rfl⟩, ?_⟩
    · rw [hlb]
      simp [inter, interR]
    · rw [inter_split als [bl0] aks [] s (by omega) (by simp), hla]
      simp [inter, interR]
    · rw [h3.n_eq, va.n_eq]
      simp

theorem borrow_from_left_T {B h : Nat} (hB : 1 ≤ B) {p a b : BTreeNode} {kL kR : List Int}
    {s : Int} {cL cR : List BTreeNode} {la lb : List Int}
    (v : View B p NodeType.INTERNAL (kL ++ s :: kR) (cL ++ b :: a :: cR))
    (hc : cL.length = kL.length)
    (ta : T B h (B - 1) a la) (tb : T B h (B - 1) b lb)
    (han : a.n < 2 * B - 1) (hbn : B ≤ b.n) :
    ∃ p1 a1 b1 bk lb1 lsuf, borrow_from_left p (kL.length + 1) = some p1 ∧
      View B p1 NodeType.INTERNAL (kL ++ bk :: kR) (cL ++ b1 :: a1 :: cR) ∧
      lb = lb1 ++ bk :: lsuf ∧
      T B h (B - 1) a1 (lsuf ++ s :: la) ∧ T B h (B - 1) b1 lb1 ∧ a1.n = a.n + 1 := by
  cases h with
  | zero =>
    obtain ⟨va, _⟩ := T_zero.mp ta
    obtain ⟨vb, _⟩ := T_zero.mp tb
    have hbl : lb.length = b.n := vb.n_eq.symm
    obtain ⟨bks, bk, rfl⟩ : ∃ bks bk, lb = bks ++ [bk] := by
      rcases List.eq_nil_or_concat lb with h | ⟨bks, bk, h⟩
      · rw [h] at hbl; simp at hbl; omega
      · exact ⟨bks, bk, by rw [h, List.concat_eq_append]⟩
    obtain ⟨p1, a1, b1, h1, h2, h3, h4⟩ := borrow_from_left_view v hc va vb
      (by rw [← va.n_eq]; exact han)
    simp only [List.take_nil, List.drop_nil, List.append_nil] at h3 h4
    simp only [List.length_append, List.length_cons, List.length_nil] at hbl
    refine ⟨p1, a1, b1, bk, bks, [], h1, h2, rfl, T_zero.mpr ⟨h3, by simp; omega⟩,
      T_zero.mpr ⟨h4, by omega⟩, ?_⟩
    rw [h3.n_eq, va.n_eq]
    simp
  | succ h =>
    obtain ⟨aks, acs, als, va, hloa, fa, hla⟩ := T_succ.mp ta
    obtain ⟨bks0, bcs, bls, vb, hlob, fb, hlb⟩ := T_succ.mp tb
    have hbl : bks0.length = b.n := vb.n_eq.symm
    obtain ⟨bks, bk, rfl⟩ : ∃ bks bk, bks0 = bks ++ [bk] := by
      rcases List.eq_nil_or_concat bks0 with h | ⟨bks, bk, h⟩
      · rw [h] at hbl; simp at hbl; omega
      · exact ⟨bks, bk, by rw [h, List.concat_eq_append]⟩
    obtain ⟨p1, a1, b1, h1, h2, h3, h4⟩ := borrow_from_left_view v hc va vb
      (by rw [← va.n_eq]; exact han)
    have hacs := va.cs_len
    have hbcs := vb.cs_len
    rw [if_pos rfl] at hacs hbcs
    have hals := fa.length_eq
    have hbls := fb.length_eq
    simp only [List.length_append, List.length_cons, List.length_nil] at hbl hbcs
    have fb1 := List.forall₂_take (bks.length + 1) fb
    have fb2 := List.forall₂_drop (bks.length + 1) fb
    obtain ⟨bll, hbll⟩ : ∃ bll, bls.drop (bks.length + 1) = [bll] := by
      refine ⟨(bls.get ⟨bks.length + 1, by omega⟩), ?_⟩
      rw [List.drop_eq_getElem_cons (by omega), List.drop_eq_nil_of_le (by omega)]; rfl
    rw [hbll] at fb2
    obtain ⟨al0, als1, rfl⟩ : ∃ al0 als1, als = al0 :: als1 := by
      cases als with
      | nil =>
        simp only [List.length_nil] at hals
        omega
      | cons x xs => exact ⟨x, xs, rfl⟩
    refine ⟨p1, a1, b1, bk, inter (bls.take (bks.length + 1)) bks, bll, h1, h2, ?_,
      T_succ.mpr ⟨_, _, [bll] ++ al0 :: als1, h3, by simp; omega,
        forall₂_zip_join fb2 fa, ?_⟩,
      T_succ.mpr ⟨_, _, _, h4, by omega, fb1, rfl⟩, ?_⟩
    · rw [hlb]
      conv_lhs => rw [← List.take_append_drop (bks.length + 1) bls, hbll]
      rw [inter_split (bls.take (bks.length + 1)) [bll] bks [] bk (by simp; omega) (by simp)]
      simp [inter, interR]
    · rw [hla]
      simp [inter, interR]
    · rw [h3.n_eq, va.n_eq]
      simp


theorem delSpec_append (k : Int) (A C : List Int) :
    delSpec k (A ++ C) = delSpec k A ++ delSpec k C := by
  simp [delSpec]

theorem delSpec_of_ne (k : Int) (A : List Int) (h : ∀ x ∈ A, x ≠ k) : delSpec k A = A :=
  List.filter_eq_self.mpr (fun x hx => by simpa using h x hx)

theorem delSpec_cons_self (k : Int) (A : List Int) : delSpec k (k :: A) = delSpec k A := by
  simp [delSpec]

theorem delSpec_zip (k : Int) (A m C : List Int) (hA : ∀ x ∈ A, x < k) (hC : ∀ x ∈ C, k < x) :
    delSpec k (A ++ m ++ C) = A ++ delSpec k m ++ C := by
  rw [delSpec_append, delSpec_append, delSpec_of_ne k A (fun x hx => by have := hA x hx; omega),
    delSpec_of_ne k C (fun x hx => by have := hC x hx; omega)]

theorem pairwise_head_lt {R : List Int} {k : Int} (hp : R.Pairwise (· < ·))
    (h : ∀ x, R.head? = some x → k < x) : ∀ x ∈ R, k < x := by
  cases R with
  | nil => simp
  | cons a R =>
    intro x hx
    have ha := h a rfl
    rcases List.mem_cons.mp hx with rfl | hx
    · exact ha
    · have := (List.pairwise_cons.mp hp).1 x hx
      omega

theorem interR_gt {kR : List Int} {lR : List (List Int)} {k : Int}
    (hp : (interR kR lR).Pairwise (· < ·)) (hk : ∀ y, kR.head? = some y → k < y) :
    ∀ x ∈ interR kR lR, k < x := by
  apply pairwise_head_lt hp
  intro x hx
  rcases interR_head kR lR with h | h
  · rw [h] at hx
    cases hx
  · rw [h] at hx
    exact hk x hx

theorem T_rightmost {B : Nat} (hB : 2 ≤ B) : ∀ (h lo : Nat) (c : BTreeNode) (l : List Int),
    T B h lo c l → 1 ≤ c.n → ∀ fuel, h < fuel →
      ∃ x l1, l = l1 ++ [x] ∧ find_rightmost_key fuel c = some x := by
  intro h
  induction h with
  | zero =>
    intro lo c l t hn fuel hf
    obtain ⟨v, _⟩ := T_zero.mp t
    obtain ⟨f, rfl⟩ : ∃ f, fuel = f + 1 := ⟨fuel - 1, by omega⟩
    have hl : l.length = c.n := v.n_eq.symm
    obtain ⟨l1, x, rfl⟩ : ∃ l1 x, l = l1 ++ [x] := by
      rcases List.eq_nil_or_concat l with h | ⟨l1, x, h⟩
      · rw [h] at hl
        simp only [List.length_nil] at hl
        omega
      · exact ⟨l1, x, by rw [h, List.concat_eq_append]⟩
    refine ⟨x, l1, rfl, ?_⟩
    simp only [List.length_append, List.length_cons, List.length_nil] at hl
    simp only [find_rightmost_key, v.type_eq, if_true, szSub_of_le hn]
    rw [v.keys_rd _ (by simp; omega), ← hl]
    simp
  | succ h ih =>
    intro lo c l t hn fuel hf
    obtain ⟨ks, cs, ls, v, _, hfa, hl⟩ := T_succ.mp t
    obtain ⟨f, rfl⟩ : ∃ f, fuel = f + 1 := ⟨fuel - 1, by omega⟩
    have hcs := v.cs_len
    rw [if_pos rfl] at hcs
    have hls := hfa.length_eq
    have hty : ¬ NodeType.INTERNAL = NodeType.LEAF := by decide
    have e := take_mid_drop cs ks.length (ks.length + 1) ((cs.get ⟨ks.length, by omega⟩)) rfl
      (List.getElem?_eq_getElem _)
    rw [List.drop_eq_nil_of_le (by omega)] at e
    rw [e] at hfa v
    obtain ⟨lL, ly, lR, rfl, hlL, fL, ty, fR⟩ := forall₂_zip_left hfa
    have hlR : lR = [] := List.forall₂_nil_left_iff.mp fR
    subst hlR
    have hyn := (T_n ty).1
    obtain ⟨x, l1, hx1, hx2⟩ := ih (B - 1) _ ly ty (by omega) f (by omega)
    have hlL2 : lL.length = ks.length := by
      rw [hlL]
      simp
      omega
    refine ⟨x, interL lL ks ++ l1, ?_, ?_⟩
    · rw [hl]
      conv_lhs => rw [← List.append_nil ks]
      rw [inter_zip _ _ _ _ _ hlL2, hx1]
      simp [interR]
    · simp only [find_rightmost_key, v.type_eq, hty, if_false, v.n_eq]
      have : rd c.edges ks.length = some ((cs.get ⟨ks.length, by omega⟩)) := by
        have := rd_zip_mid v
        rw [List.length_take, Nat.min_eq_left (by omega)] at this
        exact this
      rw [this]
      exact hx2

theorem T_leftmost {B : Nat} (hB : 2 ≤ B) : ∀ (h lo : Nat) (c : BTreeNode) (l : List Int),
    T B h lo c l → 1 ≤ c.n → ∀ fuel, h < fuel →
      ∃ x l1, l = x :: l1 ∧ find_leftmost_key fuel c = some x := by
  intro h
  induction h with
  | zero =>
    intro lo c l t hn fuel hf
    obtain ⟨v, _⟩ := T_zero.mp t
    obtain ⟨f, rfl⟩ : ∃ f, fuel = f + 1 := ⟨fuel - 1, by omega⟩
    have hl : l.length = c.n := v.n_eq.symm
    obtain ⟨x, l1, rfl⟩ : ∃ x l1, l = x :: l1 := by
      cases l with
      | nil =>
        simp only [List.length_nil] at hl
        omega
      | cons x l1 => exact ⟨x, l1, rfl⟩
    refine ⟨x, l1, rfl, ?_⟩
    simp only [find_leftmost_key, v.type_eq, if_true]
    rw [v.keys_rd _ (by simp)]
    simp
  | succ h ih =>
    intro lo c l t hn fuel hf
    obtain ⟨ks, cs, ls, v, _, hfa, hl⟩ := T_succ.mp t
    obtain ⟨f, rfl⟩ : ∃ f, fuel = f + 1 := ⟨fuel - 1, by omega⟩
    have hcs := v.cs_len
    rw [if_pos rfl] at hcs
    have hty : ¬ NodeType.INTERNAL = NodeType.LEAF := by decide
    obtain ⟨y, cR, rfl⟩ : ∃ y cR, cs = y :: cR := by
      cases cs with
      | nil => simp at hcs
      | cons y cR => exact ⟨y, cR, rfl⟩
    obtain ⟨ly, lR, ty, fR, rfl⟩ := List.forall₂_cons_left_iff.mp hfa
    have hyn := (T_n ty).1
    obtain ⟨x, l1, hx1, hx2⟩ := ih (B - 1) _ ly ty (by omega) f (by omega)
    refine ⟨x, l1 ++ interR ks lR, ?_, ?_⟩
    · rw [hl, inter, hx1]
      simp
    · simp only [find_leftmost_key, v.type_eq, hty, if_false]
      have : rd c.edges 0 = some y := rd_zip_mid (show View B _ _ _ ([] ++ _ :: _) from v)
      rw [this]
      exact hx2


theorem pw_lt {l P Q R : List Int} {x y : Int} (hp : l.Pairwise (· < ·))
    (e : l = P ++ x :: (Q ++ y :: R)) : x < y := by
  subst e
  have h1 := (List.pairwise_append.mp hp).2.1
  exact (List.pairwise_cons.mp h1).1 y (by simp)

theorem exists_concat {α : Type} (l : List α) (h : l ≠ []) : ∃ l1 x, l = l1 ++ [x] := by
  rcases List.eq_nil_or_concat l with h1 | ⟨l1, x, h1⟩
  · exact absurd h1 h
  · exact ⟨l1, x, by rw [h1, List.concat_eq_append]⟩

theorem exists_concat_of_length {α : Type} (l : List α) (n : Nat) (h : l.length = n + 1) :
    ∃ l1 x, l = l1 ++ [x] ∧ l1.length = n := by
  obtain ⟨l1, x, rfl⟩ := exists_concat l (by
    intro hnil
    rw [hnil] at h
    simp at h)
  refine ⟨l1, x, rfl, ?_⟩
  simpa using h

theorem exists_cons_of_length {α : Type} (l : List α) (n : Nat) (h : l.length = n + 1) :
    ∃ x l1, l = x :: l1 ∧ l1.length = n := by
  cases l with
  | nil => simp at h
  | cons x l1 => exact ⟨x, l1, rfl, by simpa using h⟩

theorem forall₂_concat_left {α β : Type} {R : α → β → Prop} {cL : List α} {y : α}
    {ls : List β} (h : List.Forall₂ R (cL ++ [y]) ls) :
    ∃ lL ly, ls = lL ++ [ly] ∧ lL.length = cL.length ∧ List.Forall₂ R cL lL ∧ R y ly := by
  obtain ⟨lL, ly, lR, rfl, h1, h2, h3, h4⟩ := forall₂_zip_left h
  rw [List.forall₂_nil_left_iff.mp h4]
  exact ⟨lL, ly, rfl, h1, h2, h3⟩

/-- What `remove_fix` achieves on the way down to a key that is not in the node. -/
theorem remove_fix_T {B h : Nat} (hB : 2 ≤ B) (k : Int) {c y : BTreeNode} {kL kR : List Int}
    {cL cR : List BTreeNode} {lL lR : List (List Int)} {ly : List Int}
    (v : View B c NodeType.INTERNAL (kL ++ kR) (cL ++ y :: cR))
    (hcL : cL.length = kL.length) (hlL : lL.length = kL.length)
    (fL : List.Forall₂ (T B h (B - 1)) cL lL) (fR : List.Forall₂ (T B h (B - 1)) cR lR)
    (ty : T B h (B - 1) y ly)
    (hp : (interL lL kL ++ ly ++ interR kR lR).Pairwise (· < ·))
    (hkL : ∀ x ∈ kL, x < k) (hkR : ∀ x, kR.head? = some x → k < x) (hn1 : 1 ≤ c.n)
    (hh : h = 0) :
    ∃ node1 kL1 kR1 cL1 c1 cR1 lL1 l1 lR1, remove_fix B c kL.length = some node1 ∧
      View B node1 NodeType.INTERNAL (kL1 ++ kR1) (cL1 ++ c1 :: cR1) ∧
      cL1.length = kL1.length ∧ lL1.length = kL1.length ∧
      List.Forall₂ (T B h (B - 1)) cL1 lL1 ∧ List.Forall₂ (T B h (B - 1)) cR1 lR1 ∧
      T B h (B - 1) c1 l1 ∧ B ≤ c1.n ∧
      interL lL1 kL1 ++ l1 ++ interR kR1 lR1 = interL lL kL ++ ly ++ interR kR lR ∧
      (∀ x ∈ kL1, x < k) ∧ (∀ x, kR1.head? = some x → k < x) ∧
      c.n ≤ node1.n + 1 ∧ node1.n ≤ c.n := by
  have hrdy : rd c.edges kL.length = some y := by rw [← hcL]; exact rd_zip_mid v
  have hcs := v.cs_len
  rw [if_pos rfl] at hcs
  have hn := v.n_eq
  simp only [List.length_append, List.length_cons] at hcs hn
  have hcR : cR.length = kR.length := by omega
  have hlR : lR.length = kR.length := by rw [← fR.length_eq]; exact hcR
  have hyn := T_n ty
  simp only [remove_fix, hrdy, Option.bind_eq_bind, Option.some_bind]
  by_cases hlow : y.n < B
  swap
  · rw [if_neg hlow]
    exact ⟨c, kL, kR, cL, y, cR, lL, ly, lR, rfl, v, hcL, hlL, fL, fR, ty, by omega, rfl, hkL,
      hkR, by omega, le_refl _⟩
  rw [if_pos hlow]
  -- the left sibling, when there is one
  by_cases hleft : kL.length ≠ 0 ∧ ∃ b, rd c.edges (szSub kL.length 1) = some b ∧ B ≤ b.n
  · obtain ⟨h0, b0, hb1, hb2⟩ := hleft
    obtain ⟨kL', s, rfl, hkL'⟩ := exists_concat_of_length kL (kL.length - 1) (by omega)
    obtain ⟨cL', b, rfl, hcL'⟩ := exists_concat_of_length cL (kL'.length)
      (by rw [hcL]; simp)
    obtain ⟨lL', lb, rfl, hlL', fL', tb⟩ := forall₂_concat_left fL
    have v' : View B c NodeType.INTERNAL (kL' ++ s :: kR) (cL' ++ b :: y :: cR) := by
      simpa using v
    have hsz : szSub (kL' ++ [s]).length 1 = kL'.length := by
      rw [szSub_of_le (by simp)]
      simp
    have hrdb : rd c.edges kL'.length = some b := by rw [← hcL']; exact rd_zip_mid v'
    rw [hsz, hrdb] at hb1
    cases hb1
    obtain ⟨p1, a1, b1, bk, lb1, lsuf, hbo, vp, hlb, ta1, tb1, ha1⟩ :=
      borrow_from_left_T (by omega) v' hcL' ty tb (by omega) hb2
    have hlen : (kL' ++ [s]).length = kL'.length + 1 := by simp
    have etr : interL (lL' ++ [lb1]) (kL' ++ [bk]) ++ (lsuf ++ s :: ly) ++ interR kR lR
        = interL (lL' ++ [lb]) (kL' ++ [s]) ++ ly ++ interR kR lR := by
      rw [interL_append _ _ _ _ (by omega), interL_append _ _ _ _ (by omega), hlb]
      simp [interL]
    have hbks : bk < s := by
      refine pw_lt hp (P := interL lL' kL' ++ lb1) (Q := lsuf) (R := ly ++ interR kR lR) ?_
      rw [interL_append _ _ _ _ (by omega), hlb]
      simp [interL]
    refine ⟨p1, kL' ++ [bk], kR, cL' ++ [b1], a1, cR, lL' ++ [lb1], lsuf ++ s :: ly, lR, ?_,
      by simpa using vp, by simp [hcL'], by simp; omega,
      forall₂_zip_join fL' (List.Forall₂.cons tb1 List.Forall₂.nil), fR, ta1, by omega, etr,
      ?_, hkR, ?_, ?_⟩
    · rw [hlen] at hsz h0 ⊢
      simp only [has_spare, decide_eq_true h0, if_true, hsz, hrdb, Option.map_some',
        Option.some_bind, decide_eq_true hb2]
      exact hbo
    · intro x hx
      rcases List.mem_append.mp hx with hx | hx
      · exact hkL x (List.mem_append_left _ hx)
      · have := hkL s (by simp)
        simp at hx
        omega
    · rw [vp.n_eq, hn]
      simp only [List.length_append, List.length_cons, List.length_nil]
      omega
    · rw [vp.n_eq, hn]
      simp only [List.length_append, List.length_cons, List.length_nil]
      omega
  have hfl : has_spare B c (decide (kL.length ≠ 0)) (szSub kL.length 1) = some false := by
    by_cases h0 : kL.length ≠ 0
    · obtain ⟨kL', s, rfl, hkL'⟩ := exists_concat_of_length kL (kL.length - 1) (by omega)
      obtain ⟨cL', b, rfl, hcL'⟩ := exists_concat_of_length cL (kL'.length)
        (by rw [hcL]; simp)
      have v' : View B c NodeType.INTERNAL (kL' ++ s :: kR) (cL' ++ b :: y :: cR) := by
        simpa using v
      have hsz : szSub (kL' ++ [s]).length 1 = kL'.length := by
        rw [szSub_of_le (by simp)]
        simp
      have hrdb : rd c.edges kL'.length = some b := by rw [← hcL']; exact rd_zip_mid v'
      have hbn : ¬ B ≤ b.n := fun hb => hleft ⟨h0, b, by rw [hsz]; exact hrdb, hb⟩
      simp only [has_spare, decide_eq_true h0, if_true, hsz, hrdb, Option.map_some',
        decide_eq_false hbn]
    · simp only [has_spare, decide_eq_false h0, Bool.false_eq_true, if_false]
  simp only [hfl, Option.some_bind, Bool.false_eq_true, if_false]
  by_cases hne : kL.length ≠ c.n
  · -- there is a right sibling
    obtain ⟨s, kR', rfl, hkR'⟩ := exists_cons_of_length kR (kR.length - 1) (by omega)
    obtain ⟨b, cR', rfl, hcR'⟩ := exists_cons_of_length cR kR'.length
      (by rw [hcR]; simp)
    obtain ⟨lb, lR', tb, fR', rfl⟩ := List.forall₂_cons_left_iff.mp fR
    have hrdb : rd c.edges (kL.length + 1) = some b := by rw [← hcL]; exact rd_edge_mid2 v
    have hks : k < s := hkR s rfl
    have hlR' : lR'.length = kR'.length := by rw [← fR'.length_eq]; exact hcR'
    simp only [has_spare, decide_eq_true hne, if_true, hrdb, Option.map_some', Option.some_bind]
    by_cases hb2 : B ≤ b.n
    · simp only [decide_eq_true hb2, if_true]
      obtain ⟨p1, a1, b1, bk, lpre, lb1, hbo, vp, hlb, ta1, tb1, ha1⟩ :=
        borrow_from_right_T (by omega) v hcL ty tb (by omega) hb2
      have etr : interL lL kL ++ (ly ++ s :: lpre) ++ interR (bk :: kR') (lb1 :: lR')
          = interL lL kL ++ ly ++ interR (s :: kR') (lb :: lR') := by
        rw [hlb]
        simp [interR]
      have hsbk : s < bk := by
        refine pw_lt hp (P := interL lL kL ++ ly) (Q := lpre)
          (R := lb1 ++ interR kR' lR') ?_
        rw [hlb]
        simp [interR]
      refine ⟨p1, kL, bk :: kR', cL, a1, b1 :: cR', lL, ly ++ s :: lpre, lb1 :: lR', hbo, vp,
        hcL, hlL, fL, List.Forall₂.cons tb1 fR', ta1, by omega, etr, hkL, ?_, ?_, ?_⟩
      · intro x hx
        simp at hx
        omega
      · rw [vp.n_eq, hn]
        simp only [List.length_append, List.length_cons, List.length_nil]
        omega
      · rw [vp.n_eq, hn]
        simp only [List.length_append, List.length_cons, List.length_nil]
        omega
    · simp only [decide_eq_false hb2, Bool.false_eq_true, if_false, if_pos hne]
      have hbn := T_n tb
      obtain ⟨p1, ab, hm, vp, tab, hab⟩ := merge_children_T v hcL ty tb (by omega) hh
      have etr : interL lL kL ++ (ly ++ s :: lb) ++ interR kR' lR'
          = interL lL kL ++ ly ++ interR (s :: kR') (lb :: lR') := by
        simp [interR]
      refine ⟨p1, kL, kR', cL, ab, cR', lL, ly ++ s :: lb, lR', hm, vp, hcL, hlL, fL, fR', tab,
        by omega, etr, hkL, ?_, ?_, ?_⟩
      · intro x hx
        cases kR' with
        | nil => simp at hx
        | cons x' kR'' =>
          simp at hx
          subst hx
          cases lR' with
          | nil => simp at hlR'
          | cons l0 lR'' =>
            have : s < x' := by
              refine pw_lt hp (P := interL lL kL ++ ly) (Q := lb)
                (R := l0 ++ interR kR'' lR'') ?_
              simp [interR]
            omega
      · rw [vp.n_eq, hn]
        simp only [List.length_append, List.length_cons, List.length_nil]
        omega
      · rw [vp.n_eq, hn]
        simp only [List.length_append, List.length_cons, List.length_nil]
        omega
  · -- the child is the last one: merge with the left sibling
    have hne2 : kL.length = c.n := by omega
    simp only [has_spare, decide_eq_false hne, Bool.false_eq_true, if_false, Option.some_bind,
      if_neg hne]
    have hkR0 : kR = [] := List.length_eq_zero.mp (by omega)
    subst hkR0
    have hcR0 : cR = [] := List.length_eq_zero.mp (by simpa using hcR)
    subst hcR0
    have hlR0 : lR = [] := List.forall₂_nil_left_iff.mp fR
    subst hlR0
    obtain ⟨kL', s, rfl, hkL'⟩ := exists_concat_of_length kL (kL.length - 1) (by omega)
    obtain ⟨cL', b, rfl, hcL'⟩ := exists_concat_of_length cL (kL'.length)
      (by rw [hcL]; simp)
    obtain ⟨lL', lb, rfl, hlL', fL', tb⟩ := forall₂_concat_left fL
    have v' : View B c NodeType.INTERNAL (kL' ++ s :: []) (cL' ++ b :: y :: []) := by
      simpa using v
    have hsz : szSub (kL' ++ [s]).length 1 = kL'.length := by
      rw [szSub_of_le (by simp)]
      simp
    have hrdb : rd c.edges kL'.length = some b := by rw [← hcL']; exact rd_zip_mid v'
    have hbn : ¬ B ≤ b.n := fun hb => hleft ⟨by simp, b, by rw [hsz]; exact hrdb, hb⟩
    have hbn2 := T_n tb
    obtain ⟨p1, ab, hm, vp, tab, hab⟩ := merge_children_T v' hcL' tb ty (by omega) hh
    rw [hsz]
    have etr : interL lL' kL' ++ (lb ++ s :: ly) ++ interR [] []
        = interL (lL' ++ [lb]) (kL' ++ [s]) ++ ly ++ interR [] [] := by
      rw [interL_append _ _ _ _ (by omega)]
      simp [interL, interR]
    refine ⟨p1, kL', [], cL', ab, [], lL', lb ++ s :: ly, [], hm, vp, hcL', by omega, fL',
      List.Forall₂.nil, tab, by omega, etr, ?_, by simp, ?_, ?_⟩
    · intro x hx
      exact hkL x (List.mem_append_left _ hx)
    · rw [vp.n_eq, hn]
      simp only [List.length_append, List.length_cons, List.length_nil]
      omega
    · rw [vp.n_eq, hn]
      simp only [List.length_append, List.length_cons, List.length_nil]
      omega


theorem remove_tail {B h f : Nat} (k : Int) (bres : Bool)
    (ih : ∀ (c : BTreeNode) (l : List Int), T B h B c l → l.Pairwise (· < ·) →
      ∃ r c1, BTreeNode.remove B f c k = some (r, c1) ∧ T B h (B - 1) c1 (delSpec k l))
    {node1 c1 : BTreeNode} {kL kR : List Int}
    {cL cR : List BTreeNode} {lL lR : List (List Int)} {l1 : List Int}
    (v : View B node1 NodeType.INTERNAL (kL ++ kR) (cL ++ c1 :: cR))
    (hc : cL.length = kL.length) (hlL : lL.length = kL.length)
    (fL : List.Forall₂ (T B h (B - 1)) cL lL) (fR : List.Forall₂ (T B h (B - 1)) cR lR)
    (t1 : T B h (B - 1) c1 l1) (hn1 : B ≤ c1.n)
    (hp : (interL lL kL ++ l1 ++ interR kR lR).Pairwise (· < ·))
    (hkL : ∀ x ∈ kL, x < k) (hkR : ∀ x, kR.head? = some x → k < x)
    (lo : Nat) (hlo : lo ≤ (kL ++ kR).length) :
    ∃ c2, ((rd node1.edges kL.length).bind fun c1 => (BTreeNode.remove B f c1 k).bind fun r =>
        (wr node1.edges kL.length r.2).bind fun e =>
          some (bres, BTreeNode.mk node1.type node1.n node1.keys e)) = some (bres, c2) ∧
      T B (h + 1) lo c2 (delSpec k (interL lL kL ++ l1 ++ interR kR lR)) ∧ c2.n = node1.n := by
  have hrd : rd node1.edges kL.length = some c1 := by rw [← hc]; exact rd_zip_mid v
  have hp1 : l1.Pairwise (· < ·) :=
    (List.pairwise_append.mp (List.pairwise_append.mp hp).1).2.1
  obtain ⟨r, c2, hi1, hi2⟩ := ih c1 l1 (T_relo t1 B hn1) hp1
  obtain ⟨e1, hw, hv⟩ := set_child_view v c2
  rw [hc] at hw
  refine ⟨_, ?_, T_succ.mpr ⟨kL ++ kR, cL ++ c2 :: cR, lL ++ delSpec k l1 :: lR, hv, hlo,
    forall₂_zip_join fL (List.Forall₂.cons hi2 fR), ?_⟩, by simp⟩
  · simp only [hrd, Option.some_bind, hi1, hw]
  · rw [inter_zip _ _ _ _ _ hlL]
    rw [List.pairwise_append] at hp
    obtain ⟨hp1, hp2, _⟩ := hp
    rw [List.pairwise_append] at hp1
    exact delSpec_zip k _ _ _ (interL_lt hp1.1 hkL) (interR_gt hp2 hkR)

/-- The node-level `remove` on a leaf, or on an internal node over leaves: the only nodes
that `merge_children` merges there are leaves, whose `delete` releases nothing else. -/
theorem remove_T {B : Nat} (hB : 2 ≤ B) :
    ∀ (h lo : Nat) (c : BTreeNode) (l : List Int) (k : Int), h ≤ 1 → T B h lo c l →
      l.Pairwise (· < ·) → (h = 0 ∨ 1 ≤ c.n) → ∀ fuel, h < fuel →
      ∃ r c1, BTreeNode.remove B fuel c k = some (r, c1) ∧ T B h (lo - 1) c1 (delSpec k l) ∧
        c.n ≤ c1.n + 1 ∧ c1.n ≤ c.n := by
  intro h
  induction h with
  | zero =>
    intro lo c l k _ t hp _ fuel hf
    obtain ⟨v, hlo⟩ := T_zero.mp t
    obtain ⟨f, rfl⟩ : ∃ f, fuel = f + 1 := ⟨fuel - 1, by omega⟩
    obtain ⟨kL, kR, rfl, hkL, hlt, hge⟩ := lowerIdx_zip l k
    have hn := v.n_eq
    simp only [List.length_append] at hn hlo
    have hge2 := pairwise_head_le (List.pairwise_append.mp hp).2.1 hge
    simp only [BTreeNode.remove, get_index_spec v k, Option.bind_eq_bind, Option.some_bind,
      v.type_eq, if_true, ← hkL, found_at]
    cases kR with
    | nil =>
      have hnlt : ¬ kL.length < c.n := by simp at hn; omega
      simp only [if_neg hnlt, Option.some_bind]
      refine ⟨false, c, by simp, T_zero.mpr ⟨?_, ?_⟩, by omega, by omega⟩
      · rw [delSpec_of_ne]
        · exact v
        · intro x hx
          have := hlt x (by simpa using hx)
          omega
      · rw [delSpec_of_ne]
        · simp; omega
        · intro x hx
          have := hlt x (by simpa using hx)
          omega
    | cons x kR =>
      have hnlt : kL.length < c.n := by simp at hn; omega
      have hrdx : rd c.keys kL.length = some x := rd_key_mid v
      simp only [if_pos hnlt, hrdx, Option.map_some', Option.some_bind]
      have hpR := (List.pairwise_append.mp hp).2.1
      by_cases hx : x = k
      · subst hx
        obtain ⟨keys1, h1, h2⟩ := leaf_remove_view v
        have hd : delSpec x (kL ++ x :: kR) = kL ++ kR := by
          rw [delSpec_append, delSpec_cons_self,
            delSpec_of_ne x kL (fun y hy => by have := hlt y hy; omega),
            delSpec_of_ne x kR (fun y hy => by
              have := (List.pairwise_cons.mp hpR).1 y hy
              omega)]
        refine ⟨true, BTreeNode.mk c.type (szSub c.n 1) keys1 c.edges, by simp [h1, v.type_eq],
          T_zero.mpr ⟨by rw [hd]; exact h2, ?_⟩, ?_, ?_⟩
        · rw [hd]
          simp at hlo ⊢
          omega
        · simp [szSub_of_le (show 1 ≤ c.n by omega)]
          omega
        · simp [szSub_of_le (show 1 ≤ c.n by omega)]
      · have hd : delSpec k (kL ++ x :: kR) = kL ++ x :: kR := by
          apply delSpec_of_ne
          intro y hy
          rcases List.mem_append.mp hy with hy | hy
          · have := hlt y hy
            omega
          · have := hge2 y hy
            rcases List.mem_cons.mp hy with rfl | hy2
            · exact hx
            · have := (List.pairwise_cons.mp hpR).1 y hy2
              have := hge2 x (List.mem_cons_self _ _)
              omega
        refine ⟨false, c, by simp [hx], T_zero.mpr ⟨by rw [hd]; exact v, ?_⟩, by omega,
          by omega⟩
        rw [hd]
        simp at hlo ⊢
        omega
  | succ h ih =>
    intro lo c l k hh t hp hn1 fuel hf
    have hh0 : h = 0 := by omega
    obtain ⟨ks, cs, ls, v, hlo, hfa, hl⟩ := T_succ.mp t
    obtain ⟨f, rfl⟩ : ∃ f, fuel = f + 1 := ⟨fuel - 1, by omega⟩
    have hn1 : 1 ≤ c.n := by omega
    obtain ⟨kL, kR, rfl, hkL, hlt, hge⟩ := lowerIdx_zip ks k
    have hcs := v.cs_len
    rw [if_pos rfl] at hcs
    have hn := v.n_eq
    simp only [List.length_append] at hcs hn hlo
    obtain ⟨cL, y, cR, rfl, hcL⟩ : ∃ cL y cR, cs = cL ++ y :: cR ∧ cL.length = kL.length :=
      ⟨cs.take kL.length, (cs.get ⟨kL.length, by omega⟩), cs.drop (kL.length + 1),
        take_mid_drop cs kL.length _ _ rfl (List.getElem?_eq_getElem _), by simp; omega⟩
    obtain ⟨lL, ly, lR, rfl, hlL, fL, ty, fR⟩ := forall₂_zip_left hfa
    rw [hcL] at hlL
    rw [inter_zip _ _ _ _ _ hlL] at hl
    subst hl
    have hrdy : rd c.edges kL.length = some y := by rw [← hcL]; exact rd_zip_mid v
    have hty : ¬ NodeType.INTERNAL = NodeType.LEAF := by decide
    have ih2 : ∀ (k : Int) (c : BTreeNode) (l : List Int), T B h B c l → l.Pairwise (· < ·) →
        ∃ r c1, BTreeNode.remove B f c k = some (r, c1) ∧ T B h (B - 1) c1 (delSpec k l) := by
      intro k c l t hp
      obtain ⟨r, c1, h1, h2, _⟩ := ih B c l k (by omega) t hp
        (Or.inr (by have := (T_n t).1; omega)) f (by omega)
      exact ⟨r, c1, h1, h2⟩
    have hcR : cR.length = kR.length := by
      simp only [List.length_append, List.length_cons] at hcs
      omega
    have hlR : lR.length = kR.length := by rw [← fR.length_eq]; exact hcR
    have hfound : found_at c kL.length k = some (decide (kR.head? = some k)) := by
      cases kR with
      | nil =>
        have hnlt : ¬ kL.length < c.n := by simp at hn; omega
        simp [found_at, hnlt]
      | cons x kR =>
        have hnlt : kL.length < c.n := by simp at hn; omega
        have hrdx : rd c.keys kL.length = some x := rd_key_mid v
        simp [found_at, hnlt, hrdx]
    simp only [BTreeNode.remove, get_index_spec v k, Option.bind_eq_bind, Option.some_bind,
      v.type_eq, hty, if_false, ← hkL, hfound]
    by_cases hfd : kR.head? = some k
    · -- the key is in this node
      simp only [decide_eq_true hfd, if_true, hrdy, Option.some_bind]
      obtain ⟨kR', rfl⟩ : ∃ kR', kR = k :: kR' := by
        cases kR with
        | nil => simp at hfd
        | cons x kR' =>
          simp at hfd
          exact ⟨kR', by rw [hfd]⟩
      obtain ⟨b, cR', rfl, hcR'⟩ := exists_cons_of_length cR kR'.length (by rw [hcR]; simp)
      obtain ⟨lb, lR', tb, fR', rfl⟩ := List.forall₂_cons_left_iff.mp fR
      have hlR' : lR'.length = kR'.length := by rw [← fR'.length_eq]; exact hcR'
      have hrdb : rd c.edges (kL.length + 1) = some b := by rw [← hcL]; exact rd_edge_mid2 v
      have el : interL lL kL ++ ly ++ interR (k :: kR') (lb :: lR')
          = (interL lL kL ++ ly) ++ k :: (lb ++ interR kR' lR') := by
        simp [interR]
      have hpre : ∀ x ∈ interL lL kL ++ ly, x < k := by
        rw [el] at hp
        intro x hx
        exact (List.pairwise_append.mp hp).2.2 x hx k (List.mem_cons_self _ _)
      have hpost : ∀ x ∈ lb ++ interR kR' lR', k < x := by
        rw [el] at hp
        exact (List.pairwise_cons.mp (List.pairwise_append.mp hp).2.1).1
      have hdel : delSpec k (interL lL kL ++ ly ++ interR (k :: kR') (lb :: lR'))
          = interL lL kL ++ ly ++ lb ++ interR kR' lR' := by
        rw [el, delSpec_append, delSpec_cons_self,
          delSpec_of_ne k _ (fun x hx => by have := hpre x hx; omega),
          delSpec_of_ne k _ (fun x hx => by have := hpost x hx; omega)]
        simp
      have hpy : ly.Pairwise (· < ·) :=
        (List.pairwise_append.mp (List.pairwise_append.mp hp).1).2.1
      have hpb : lb.Pairwise (· < ·) := by
        rw [el] at hp
        exact (List.pairwise_append.mp
          (List.pairwise_cons.mp (List.pairwise_append.mp hp).2.1).2).1
      have hyn := T_n ty
      have hbn := T_n tb
      by_cases hy : B ≤ y.n
      · simp only [if_pos hy]
        obtain ⟨x, l1, hx1, hx2⟩ := T_rightmost hB h (B - 1) y ly ty (by omega) f (by omega)
        obtain ⟨keys1, hk1, vk⟩ := set_key_view v x
        obtain ⟨r, y1, hr1, hr2⟩ := ih2 x y ly (T_relo ty B hy) hpy
        obtain ⟨e1, he1, ve⟩ := set_child_view vk y1
        simp only [BTreeNode.edges_mk, BTreeNode.type_mk, BTreeNode.n_mk, BTreeNode.keys_mk,
          hcL] at he1 ve
        have hd1 : delSpec x ly = l1 := by
          rw [hx1, delSpec_append, delSpec_cons_self]
          rw [hx1] at hpy
          rw [delSpec_of_ne x l1 (fun z hz => by
            have := (List.pairwise_append.mp hpy).2.2 z hz x (by simp)
            omega)]
          simp [delSpec]
        rw [hd1] at hr2
        refine ⟨false, BTreeNode.mk c.type c.n keys1 e1, ?_, T_succ.mpr ⟨kL ++ x :: kR',
          cL ++ y1 :: b :: cR', lL ++ l1 :: lb :: lR', ve, by simp at hlo ⊢; omega,
          forall₂_zip_join fL (List.Forall₂.cons hr2 (List.Forall₂.cons tb fR')), ?_⟩,
          by simp, by simp⟩
        · simp only [hx2, Option.some_bind, hk1, hr1, he1, v.type_eq]
        · rw [hdel, inter_zip _ _ _ _ _ hlL, hx1]
          simp [interR]
      · simp only [if_neg hy, hrdb, Option.some_bind]
        by_cases hb : B ≤ b.n
        · simp only [if_pos hb]
          obtain ⟨x, l1, hx1, hx2⟩ := T_leftmost hB h (B - 1) b lb tb (by omega) f (by omega)
          obtain ⟨keys1, hk1, vk⟩ := set_key_view v x
          obtain ⟨r, b1, hr1, hr2⟩ := ih2 x b lb (T_relo tb B hb) hpb
          have vk2 : View B (BTreeNode.mk c.type c.n keys1 c.edges) NodeType.INTERNAL
              (kL ++ x :: kR') ((cL ++ [y]) ++ b :: cR') := by simpa using vk
          obtain ⟨e1, he1, ve⟩ := set_child_view vk2 b1
          simp only [BTreeNode.edges_mk, BTreeNode.type_mk, BTreeNode.n_mk, BTreeNode.keys_mk,
            List.length_append, List.length_cons, List.length_nil, hcL] at he1 ve
          have hd1 : delSpec x lb = l1 := by
            rw [hx1, delSpec_cons_self]
            rw [hx1] at hpb
            exact delSpec_of_ne x l1 (fun z hz => by
              have := (List.pairwise_cons.mp hpb).1 z hz
              omega)
          rw [hd1] at hr2
          refine ⟨false, BTreeNode.mk c.type c.n keys1 e1, ?_, T_succ.mpr ⟨kL ++ x :: kR',
            (cL ++ [y]) ++ b1 :: cR', (lL ++ [ly]) ++ l1 :: lR', ve, by simp at hlo ⊢; omega,
            forall₂_zip_join (forall₂_zip_join fL (List.Forall₂.cons ty List.Forall₂.nil))
              (List.Forall₂.cons hr2 fR'), ?_⟩,
            by simp, by simp⟩
          · simp only [hx2, Option.some_bind, hk1, hr1, he1, v.type_eq]
          · rw [hdel, List.append_assoc lL, List.singleton_append,
              inter_zip _ _ _ _ _ hlL, hx1]
            simp [interR]
        · simp only [if_neg hb]
          obtain ⟨p1, ab, hm, vp, tab, hab⟩ := merge_children_T v hcL ty tb (by omega) hh0
          have hkR' : ∀ x, kR'.head? = some x → k < x := by
            intro x hx
            cases kR' with
            | nil => simp at hx
            | cons x' kR'' =>
              simp at hx
              subst hx
              cases lR' with
              | nil => simp at hlR'
              | cons l0 lR'' =>
                exact pw_lt hp (P := interL lL kL ++ ly) (Q := lb)
                  (R := l0 ++ interR kR'' lR'') (by simp [interR])
          have etr : interL lL kL ++ (ly ++ k :: lb) ++ interR kR' lR'
              = interL lL kL ++ ly ++ interR (k :: kR') (lb :: lR') := by
            simp [interR]
          obtain ⟨c2, hc2, ht2, hn2⟩ := remove_tail k false (ih2 k) vp hcL hlL fL fR' tab
            (by omega) (by rw [etr]; exact hp) hlt hkR' (lo - 1)
            (by simp at hlo ⊢; omega)
          rw [etr] at ht2
          refine ⟨false, c2, ?_, ht2, ?_, ?_⟩
          · rw [hm]
            simp only [Option.some_bind]
            exact hc2
          · rw [hn2, vp.n_eq, hn]
            simp only [List.length_append, List.length_cons, List.length_nil]
            omega
          · rw [hn2, vp.n_eq, hn]
            simp only [List.length_append, List.length_cons, List.length_nil]
            omega
    · -- the key is not in this node
      simp only [decide_eq_false hfd, Bool.false_eq_true, if_false]
      have hkR : ∀ x, kR.head? = some x → k < x := by
        intro x hx
        have h1 := hge x hx
        have h2 : x ≠ k := fun e => hfd (by rw [hx, e])
        omega
      obtain ⟨node1, kL1, kR1, cL1, c1, cR1, lL1, l1, lR1, hfix, v1, hcL1, hlL1, fL1, fR1, t1,
        hc1n, etr, hkL1, hkR1, hnn1, hnn2⟩ :=
        remove_fix_T hB k v hcL hlL fL fR ty hp hlt hkR hn1 hh0
      have hidx : lowerIdx (kL1 ++ kR1) k = kL1.length := by
        rw [lowerIdx_append _ _ _ hkL1, lowerIdx_eq_zero _ _
          (fun x hx => by have := hkR1 x hx; omega)]
        rfl
      obtain ⟨c2, hc2, ht2, hn2⟩ := remove_tail k true (ih2 k) v1 hcL1 hlL1 fL1 fR1 t1
        hc1n (by rw [etr]; exact hp) hkL1 hkR1 (lo - 1)
        (by rw [← v1.n_eq, hn] at *; omega)
      rw [etr] at ht2
      refine ⟨true, c2, ?_, ht2, by omega, by omega⟩
      rw [hfix]
      simp only [Option.some_bind, get_index_spec v1 k, hidx]
      exact hc2


theorem search_leaf_spec (keys : List (Option Int)) (k : Int) (j0 : Nat)
    (hlive : ∀ j, j ≤ j0 → ∃ x, rd keys j = some x) (hk : rd keys j0 = some k) :
    ∀ (c i : Nat), i ≤ j0 → j0 < i + c →
      ∃ i1, search_leaf keys k c i = some (some i1) ∧ rd keys i1 = some k ∧ i1 ≤ j0 := by
  intro c
  induction c with
  | zero =>
    intro i h1 h2
    omega
  | succ c ih =>
    intro i h1 h2
    obtain ⟨x, hx⟩ := hlive i h1
    by_cases e : k = x
    · refine ⟨i, ?_, by rw [hx, e], h1⟩
      simp [search_leaf, hx, e]
    · have hne : i ≠ j0 := by
        intro hij
        rw [hij, hk] at hx
        exact e (Option.some.inj hx)
      obtain ⟨i1, h3, h4, h5⟩ := ih (i + 1) (by omega) (by omega)
      refine ⟨i1, ?_, h4, h5⟩
      simp [search_leaf, hx, e, h3]

theorem search_internal_spec (keys : List (Option Int)) (ks : List Int) (t : Int)
    (hrd : ∀ i, i < ks.length → rd keys i = ks[i]?) :
    ∀ (c idx : Nat), c + idx = ks.length →
      search_internal keys ks.length t c idx
        = some (if (ks.drop idx)[lowerIdx (ks.drop idx) t]? = some t
            then Sum.inl (idx + lowerIdx (ks.drop idx) t)
            else Sum.inr (idx + lowerIdx (ks.drop idx) t)) := by
  intro c
  induction c with
  | zero =>
    intro idx h
    have : ¬ idx < ks.length := by omega
    simp [search_internal, this, lowerIdx, List.drop_eq_nil_of_le (show ks.length ≤ idx by omega)]
  | succ c ih =>
    intro idx h
    have hlt : idx < ks.length := by omega
    have h1 := hrd idx hlt
    rw [List.getElem?_eq_getElem hlt] at h1
    rw [List.drop_eq_getElem_cons hlt, lowerIdx_cons]
    simp only [search_internal, hlt, if_true, h1, Option.some_bind]
    by_cases hx : ks[idx] < t
    · have hne : ¬ t = ks[idx] := by omega
      have hnlt : ¬ t < ks[idx] := by omega
      rw [if_neg hne, if_neg hnlt, if_pos hx, ih (idx + 1) (by omega)]
      simp only [List.getElem?_cons_succ]
      have e : idx + 1 + lowerIdx (List.drop (idx + 1) ks) t
          = idx + (lowerIdx (List.drop (idx + 1) ks) t + 1) := by omega
      rw [e]
    · rw [if_neg hx]
      by_cases he : t = ks[idx]
      · rw [if_pos he]
        simp [he]
      · have hlt2 : t < ks[idx] := by omega
        rw [if_neg he, if_pos hlt2]
        simp only [List.length_nil, Nat.add_zero, List.getElem?_cons_zero]
        rw [if_neg (fun h => he (Option.some.inj h).symm)]

theorem mem_interL {lL : List (List Int)} {kL : List Int} {x : Int} (h : x ∈ kL)
    (hl : lL.length = kL.length) : x ∈ interL lL kL := by
  induction lL generalizing kL with
  | nil =>
    cases kL with
    | nil => simp at h
    | cons _ _ => simp at hl
  | cons l lL ih =>
    cases kL with
    | nil => simp at h
    | cons k0 kL =>
      simp only [interL, List.mem_append, List.mem_cons]
      rcases List.mem_cons.mp h with rfl | h
      · exact Or.inr (Or.inl rfl)
      · exact Or.inr (Or.inr (ih h (by simpa using hl)))

theorem search_T {B : Nat} (k : Int) : ∀ (h lo : Nat) (c : BTreeNode)
    (l : List Int), T B h lo c l → l.Pairwise (· < ·) → k ∈ l → ∀ fuel, h < fuel →
    ∃ node i, search fuel c k = some (some (node, i)) ∧ rd node.keys i = some k := by
  intro h
  induction h with
  | zero =>
    intro lo c l t hp hk fuel hf
    obtain ⟨v, _⟩ := T_zero.mp t
    obtain ⟨f, rfl⟩ : ∃ f, fuel = f + 1 := ⟨fuel - 1, by omega⟩
    obtain ⟨j0, hj0, hj1⟩ := List.getElem_of_mem hk
    have hle := v.n_le
    obtain ⟨i1, h1, h2, h3⟩ := search_leaf_spec c.keys k j0
      (fun j hj => ⟨(l.get ⟨j, by omega⟩), by rw [v.keys_rd j (by omega), List.getElem?_eq_getElem]; rfl⟩)
      (by rw [v.keys_rd j0 hj0, List.getElem?_eq_getElem, hj1]) c.keys.length 0 (by omega)
      (by rw [v.keys_len]; omega)
    refine ⟨c, i1, ?_, h2⟩
    simp [search, v.type_eq, h1]
  | succ h ih =>
    intro lo c l t hp hk fuel hf
    obtain ⟨ks, cs, ls, v, hlo, hfa, hl⟩ := T_succ.mp t
    obtain ⟨f, rfl⟩ : ∃ f, fuel = f + 1 := ⟨fuel - 1, by omega⟩
    obtain ⟨kL, kR, rfl, hkL, hlt, hge⟩ := lowerIdx_zip ks k
    have hcs := v.cs_len
    rw [if_pos rfl] at hcs
    have hn := v.n_eq
    simp only [List.length_append] at hcs hn
    obtain ⟨cL, y, cR, rfl, hcL⟩ : ∃ cL y cR, cs = cL ++ y :: cR ∧ cL.length = kL.length :=
      ⟨cs.take kL.length, (cs.get ⟨kL.length, by omega⟩), cs.drop (kL.length + 1),
        take_mid_drop cs kL.length _ _ rfl (List.getElem?_eq_getElem _), by simp; omega⟩
    obtain ⟨lL, ly, lR, rfl, hlL, fL, ty, fR⟩ := forall₂_zip_left hfa
    rw [hcL] at hlL
    rw [inter_zip _ _ _ _ _ hlL] at hl
    subst hl
    have hrdy : rd c.edges kL.length = some y := by rw [← hcL]; exact rd_zip_mid v
    have hty : ¬ NodeType.INTERNAL = NodeType.LEAF := by decide
    have hsi := search_internal_spec c.keys (kL ++ kR) k v.keys_rd (kL ++ kR).length 0 (by omega)
    rw [← v.n_eq] at hsi
    simp only [List.drop_zero, Nat.zero_add, ← hkL] at hsi
    simp only [search, v.type_eq, hty, if_false, hsi, Option.some_bind]
    by_cases hfd : (kL ++ kR)[kL.length]? = some k
    · rw [if_pos hfd]
      exact ⟨c, kL.length, rfl, by rw [v.keys_rd _ (by
        obtain ⟨h1, _⟩ := List.getElem?_eq_some.mp hfd
        exact h1), hfd]⟩
    · rw [if_neg hfd]
      simp only [hrdy, Option.some_bind]
      have hkR : ∀ x, kR.head? = some x → k < x := by
        intro x hx
        have h1 := hge x hx
        have h2 : x ≠ k := by
          intro e
          apply hfd
          rw [List.getElem?_append_right (le_refl _), Nat.sub_self, ← List.head?_eq_getElem?, hx, e]
        omega
      have hp2 := hp
      rw [List.pairwise_append] at hp2
      obtain ⟨hp1, hp3, _⟩ := hp2
      rw [List.pairwise_append] at hp1
      have hA := interL_lt hp1.1 hlt
      have hC := interR_gt hp3 hkR
      have hky : k ∈ ly := by
        rcases List.mem_append.mp hk with h1 | h1
        · rcases List.mem_append.mp h1 with h2 | h2
          · have := hA k h2
            omega
          · exact h2
        · have := hC k h1
          omega
      exact ih (B - 1) y ly ty hp1.2.1 hky f (by omega)


theorem exists_list {α : Type} (P : Nat → α → Prop) :
    ∀ n, (∀ i, i < n → ∃ x, P i x) → ∃ xs : List α, xs.length = n ∧
      ∀ i x, xs[i]? = some x → P i x := by
  intro n
  induction n with
  | zero =>
    intro _
    exact ⟨[], rfl, fun i x h => by simp at h⟩
  | succ n ih =>
    intro h
    obtain ⟨xs, h1, h2⟩ := ih (fun i hi => h i (by omega))
    obtain ⟨x, hx⟩ := h n (by omega)
    refine ⟨xs ++ [x], by simp [h1], ?_⟩
    intro i y hy
    by_cases hi : i < xs.length
    · rw [List.getElem?_append_left hi] at hy
      exact h2 i y hy
    · rw [List.getElem?_append_right (by omega)] at hy
      have hlen : i - xs.length < [x].length := by
        by_contra hc
        rw [List.getElem?_eq_none (by omega)] at hy
        cases hy
      simp only [List.length_cons, List.length_nil] at hlen
      have e : i - xs.length = 0 := by omega
      rw [e] at hy
      simp at hy
      have e2 : i = n := by omega
      rw [e2, ← hy]
      exact hx

theorem inter_cons_cons (l0 l1 : List Int) (ls : List (List Int)) (k0 : Int) (ks : List Int) :
    inter (l0 :: l1 :: ls) (k0 :: ks) = l0 ++ k0 :: inter (l1 :: ls) ks := by
  simp [inter, interR]

theorem inter_pairwise_aux : ∀ (ks : List Int) (ls : List (List Int)) (lb : Option Int),
    ls.length = ks.length + 1 → ks.Pairwise (· < ·) → (∀ l ∈ ls, l.Pairwise (· < ·)) →
    (∀ (i : Nat) (l : List Int) (y : Int), ls[i]? = some l → ks[i]? = some y →
      ∀ x ∈ l, x < y) →
    (∀ (i : Nat) (l : List Int) (y : Int), ls[i + 1]? = some l → ks[i]? = some y →
      ∀ x ∈ l, y < x) →
    (∀ b, lb = some b → (∀ y ∈ ks, b < y) ∧
      (∀ l : List Int, ls[0]? = some l → ∀ x ∈ l, b < x)) →
    (inter ls ks).Pairwise (· < ·) ∧ (∀ b, lb = some b → ∀ x ∈ inter ls ks, b < x) := by
  intro ks
  induction ks with
  | nil =>
    intro ls lb hlen _ hls _ _ hlb
    obtain ⟨l0, rfl⟩ : ∃ l0, ls = [l0] := by
      rcases ls with _ | ⟨l0, _ | ⟨l1, r⟩⟩
      · simp at hlen
      · exact ⟨l0, rfl⟩
      · simp at hlen
    simp only [inter, interR, List.append_nil]
    exact ⟨hls l0 (by simp), fun b hb x hx => (hlb b hb).2 l0 rfl x hx⟩
  | cons k0 ks ih =>
    intro ls lb hlen hks hls hR hL hlb
    obtain ⟨l0, l1, ls2, rfl⟩ : ∃ l0 l1 ls2, ls = l0 :: l1 :: ls2 := by
      rcases ls with _ | ⟨l0, _ | ⟨l1, r⟩⟩
      · simp at hlen
      · simp at hlen
      · exact ⟨l0, l1, r, rfl⟩
    rw [inter_cons_cons]
    obtain ⟨ih1, ih2⟩ := ih (l1 :: ls2) (some k0) (by simpa using hlen)
      (List.pairwise_cons.mp hks).2 (fun l hl => hls l (List.mem_cons_of_mem _ hl))
      (fun i l y h1 h2 => hR (i + 1) l y (by simpa using h1) (by simpa using h2))
      (fun i l y h1 h2 => hL (i + 1) l y (by simpa using h1) (by simpa using h2))
      (fun b hb => by
        cases hb
        exact ⟨(List.pairwise_cons.mp hks).1, fun l hl x hx => hL 0 l k0 (by simpa using hl)
          (by simp) x hx⟩)
    have h0 : ∀ x ∈ l0, x < k0 := hR 0 l0 k0 (by simp) (by simp)
    have hgt := ih2 k0 rfl
    refine ⟨?_, ?_⟩
    · rw [List.pairwise_append]
      refine ⟨hls l0 (by simp), List.pairwise_cons.mpr ⟨hgt, ih1⟩, ?_⟩
      intro x hx y hy
      have := h0 x hx
      rcases List.mem_cons.mp hy with rfl | hy
      · exact this
      · have := hgt y hy
        omega
    · intro b hb x hx
      obtain ⟨hb1, hb2⟩ := hlb b hb
      rcases List.mem_append.mp hx with hx | hx
      · exact hb2 l0 rfl x hx
      · have hbk := hb1 k0 (by simp)
        rcases List.mem_cons.mp hx with rfl | hx
        · exact hbk
        · have := hgt x hx
          omega

theorem interR_sublist : ∀ (ks : List Int) (ls : List (List Int)), ls.length = ks.length →
    ks.Sublist (interR ks ls) := by
  intro ks
  induction ks with
  | nil => intro ls _; simp
  | cons k0 ks ih =>
    intro ls hlen
    cases ls with
    | nil => simp at hlen
    | cons l ls =>
      simp only [interR]
      exact List.Sublist.cons₂ _
        ((ih ls (by simpa using hlen)).trans (List.sublist_append_right _ _))

theorem keys_pairwise {ls : List (List Int)} {ks : List Int}
    (hlen : ls.length = ks.length + 1) (hp : (inter ls ks).Pairwise (· < ·)) :
    ks.Pairwise (· < ·) := by
  cases ls with
  | nil => simp at hlen
  | cons l ls =>
    simp only [inter] at hp
    exact ((List.pairwise_append.mp hp).2.1).sublist
      (interR_sublist ks ls (by simpa using hlen))

theorem view_keysSorted {B : Nat} {c : BTreeNode} {ty : NodeType} {ks : List Int}
    {cs : List BTreeNode} (v : View B c ty ks cs) (hp : ks.Pairwise (· < ·)) : KeysSorted c := by
  refine ⟨fun i hi => ⟨(ks.get ⟨i, by rw [← v.n_eq]; exact hi⟩), by
    rw [v.keys_rd i (by rw [← v.n_eq]; exact hi), List.getElem?_eq_getElem]; rfl⟩, ?_⟩
  intro i j x y hij hj hx hy
  rw [v.n_eq] at hj
  rw [v.keys_rd i (by omega), List.getElem?_eq_getElem (by omega)] at hx
  rw [v.keys_rd j hj, List.getElem?_eq_getElem hj] at hy
  cases hx
  cases hy
  exact List.pairwise_iff_getElem.mp hp i j (by omega) hj hij

theorem keysSorted_list {c : BTreeNode} (hs : KeysSorted c) :
    ∃ ks : List Int, ks.length = c.n ∧ (∀ i, i < ks.length → rd c.keys i = ks[i]?) ∧
      ks.Pairwise (· < ·) := by
  obtain ⟨ks, h1, h2⟩ := exists_list (fun i x => rd c.keys i = some x) c.n hs.1
  have hrd : ∀ i, i < ks.length → rd c.keys i = ks[i]? := by
    intro i hi
    rw [List.getElem?_eq_getElem hi]
    exact h2 i _ (List.getElem?_eq_getElem hi)
  refine ⟨ks, h1, hrd, ?_⟩
  rw [List.pairwise_iff_getElem]
  intro i j hi hj hij
  exact hs.2 i j _ _ hij (by omega) (h2 i _ (List.getElem?_eq_getElem hi))
    (h2 j _ (List.getElem?_eq_getElem hj))


theorem WF_zero {B : Nat} {isRoot : Bool} {c : BTreeNode} :
    WellFormedNode B isRoot 0 c ↔ (c.type = NodeType.LEAF ∧ ArraysOK B c ∧
      (isRoot = true ∨ B - 1 ≤ c.n) ∧ c.n ≤ 2 * B - 1 ∧ KeysSorted c) := by
  rw [WellFormedNode]

theorem WF_succ {B h : Nat} {isRoot : Bool} {c : BTreeNode} :
    WellFormedNode B isRoot (h + 1) c ↔ (c.type = NodeType.INTERNAL ∧ ArraysOK B c ∧
      (isRoot = true ∨ B - 1 ≤ c.n) ∧ 1 ≤ c.n ∧ c.n ≤ 2 * B - 1 ∧ KeysSorted c ∧
      ∀ i, i ≤ c.n → ∃ d l, rd c.edges i = some d ∧ WellFormedNode B false h d ∧
        for_all (h + 1) d = some l ∧
        ∀ x ∈ l, (∀ y, i < c.n → rd c.keys i = some y → x < y) ∧
          (∀ y, 0 < i → rd c.keys (i - 1) = some y → y < x)) := by
  rw [WellFormedNode]

/-- A node satisfying the invariants is a `T` tree with an increasing in-order sequence. -/
theorem WF_T {B : Nat} (hB : 2 ≤ B) : ∀ (h : Nat) (isRoot : Bool) (c : BTreeNode),
    WellFormedNode B isRoot h c →
      ∃ l, T B h (if isRoot = true then 0 else B - 1) c l ∧ l.Pairwise (· < ·) := by
  intro h
  induction h with
  | zero =>
    intro isRoot c hw
    obtain ⟨hty, ⟨hk, he⟩, hcnt, hle, hs⟩ := WF_zero.mp hw
    obtain ⟨ks, h1, h2, h3⟩ := keysSorted_list hs
    refine ⟨ks, T_zero.mpr ⟨⟨hty, h1.symm, by omega, hk, he, h2, by simp, by simp⟩, ?_⟩, h3⟩
    rcases hcnt with hr | hr
    · simp [hr]
    · split <;> omega
  | succ h ih =>
    intro isRoot c hw
    obtain ⟨hty, ⟨hk, he⟩, hcnt, hn1, hle, hs, hch⟩ := WF_succ.mp hw
    obtain ⟨ks, h1, h2, h3⟩ := keysSorted_list hs
    obtain ⟨ps, hp1, hp2⟩ := exists_list (fun i (p : BTreeNode × List Int) =>
      rd c.edges i = some p.1 ∧ WellFormedNode B false h p.1 ∧ for_all (h + 1) p.1 = some p.2 ∧
        ∀ x ∈ p.2, (∀ y, i < c.n → rd c.keys i = some y → x < y) ∧
          (∀ y, 0 < i → rd c.keys (i - 1) = some y → y < x)) (c.n + 1)
      (fun i hi => by
        obtain ⟨d, l, hd⟩ := hch i (by omega)
        exact ⟨(d, l), hd⟩)
    have hq : ∀ p ∈ ps, T B h (B - 1) p.1 p.2 ∧ p.2.Pairwise (· < ·) := by
      intro p hp
      obtain ⟨i, hi, rfl⟩ := List.getElem_of_mem hp
      obtain ⟨_, hw1, hf1, _⟩ := hp2 i _ (List.getElem?_eq_getElem hi)
      obtain ⟨l1, t1, pw1⟩ := ih false _ hw1
      simp only [Bool.false_eq_true, if_false] at t1
      have hf2 := T_for_all hB h (B - 1) _ l1 t1 (Or.inr (by have := (T_n t1).1; omega)) (h + 1)
        (by omega)
      rw [hf1] at hf2
      cases hf2
      exact ⟨t1, pw1⟩
    have hks_get : ∀ i y, ks[i]? = some y → i < c.n ∧ rd c.keys i = some y := by
      intro i y hy
      obtain ⟨hi, _⟩ := List.getElem?_eq_some.mp hy
      exact ⟨by omega, by rw [h2 i hi, hy]⟩
    have hls_get : ∀ (i : Nat) (l : List Int), (ps.map Prod.snd)[i]? = some l →
        ∃ p : BTreeNode × List Int, ps[i]? = some p ∧ p.2 = l := by
      intro i l hl
      rw [List.getElem?_map] at hl
      cases hpi : ps[i]? with
      | none => rw [hpi] at hl; cases hl
      | some p =>
        rw [hpi] at hl
        exact ⟨p, rfl, Option.some.inj hl⟩
    have hinter := inter_pairwise_aux ks (ps.map Prod.snd) none (by simp [hp1, h1]) h3
      (fun l hl => by
        obtain ⟨p, hp, rfl⟩ := List.mem_map.mp hl
        exact (hq p hp).2)
      (fun i l y hl hy x hx => by
        obtain ⟨p, hpi, rfl⟩ := hls_get i l hl
        obtain ⟨hi, hrk⟩ := hks_get i y hy
        exact ((hp2 i p hpi).2.2.2 x hx).1 y hi hrk)
      (fun i l y hl hy x hx => by
        obtain ⟨p, hpi, rfl⟩ := hls_get (i + 1) l hl
        obtain ⟨hi, hrk⟩ := hks_get i y hy
        exact ((hp2 (i + 1) p hpi).2.2.2 x hx).2 y (by omega) (by simpa using hrk))
      (fun b hb => by cases hb)
    refine ⟨inter (ps.map Prod.snd) ks, T_succ.mpr ⟨ks, ps.map Prod.fst, ps.map Prod.snd,
      ⟨hty, h1.symm, by omega, hk, he, h2, ?_, by simp [hp1, h1]⟩, ?_, ?_, rfl⟩, hinter.1⟩
    · intro i hi
      simp only [List.length_map] at hi
      rw [List.getElem?_map, List.getElem?_eq_getElem hi]
      exact (hp2 i _ (List.getElem?_eq_getElem hi)).1
    · rcases hcnt with hr | hr
      · simp [hr]
      · split <;> omega
    · rw [List.forall₂_map_left_iff, List.forall₂_map_right_iff, List.forall₂_same]
      exact fun p hp => (hq p hp).1

/-- A `T` tree with an increasing in-order sequence satisfies the invariants. -/
theorem T_WF {B : Nat} (hB : 2 ≤ B) : ∀ (h : Nat) (isRoot : Bool) (lo : Nat) (c : BTreeNode)
    (l : List Int), T B h lo c l → l.Pairwise (· < ·) → (isRoot = true ∨ B - 1 ≤ c.n) →
    (h = 0 ∨ 1 ≤ c.n) → WellFormedNode B isRoot h c := by
  intro h
  induction h with
  | zero =>
    intro isRoot lo c l t hp hcnt _
    obtain ⟨v, _⟩ := T_zero.mp t
    exact WF_zero.mpr ⟨v.type_eq, ⟨v.keys_len, v.edges_len⟩, hcnt, by rw [v.n_eq]; exact v.n_le,
      view_keysSorted v hp⟩
  | succ h ih =>
    intro isRoot lo c l t hp hcnt hn1
    obtain ⟨ks, cs, ls, v, _, hfa, hl⟩ := T_succ.mp t
    have hcs := v.cs_len
    rw [if_pos rfl] at hcs
    have hls := hfa.length_eq
    subst hl
    have hn := v.n_eq
    refine WF_succ.mpr ⟨v.type_eq, ⟨v.keys_len, v.edges_len⟩, hcnt, by omega,
      by rw [v.n_eq]; exact v.n_le, view_keysSorted v (keys_pairwise (by omega) hp), ?_⟩
    intro i hi
    obtain ⟨cL, y, cR, rfl, hcL⟩ : ∃ cL y cR, cs = cL ++ y :: cR ∧ cL.length = i :=
      ⟨cs.take i, (cs.get ⟨i, by omega⟩), cs.drop (i + 1),
        take_mid_drop cs i _ _ rfl (List.getElem?_eq_getElem _), by simp; omega⟩
    obtain ⟨lL, ly, lR, rfl, hlL, fL, ty, fR⟩ := forall₂_zip_left hfa
    obtain ⟨kL, kR, rfl, hkL⟩ : ∃ kL kR, ks = kL ++ kR ∧ kL.length = i :=
      ⟨ks.take i, ks.drop i, (List.take_append_drop _ _).symm, by simp; omega⟩
    rw [inter_zip _ _ _ _ _ (by omega)] at hp
    have hyn := T_n ty
    have hp2 := hp
    rw [List.pairwise_append] at hp2
    obtain ⟨hp1, hp3, hp4⟩ := hp2
    rw [List.pairwise_append] at hp1
    simp only [List.length_append, List.length_cons] at hcs hls hn
    have hlR : lR.length = kR.length := by
      have := fR.length_eq
      omega
    refine ⟨y, ly, by rw [← hcL]; exact rd_zip_mid v,
      ih false (B - 1) y ly ty hp1.2.1 (Or.inr hyn.1) (Or.inr (by omega)),
      T_for_all hB h (B - 1) y ly ty (Or.inr (by omega)) (h + 1) (by omega), ?_⟩
    intro x hx
    refine ⟨?_, ?_⟩
    · intro z hz1 hz2
      rw [v.keys_rd i (by simp; omega), List.getElem?_append_right (by omega), hkL,
        Nat.sub_self] at hz2
      obtain ⟨kR', rfl⟩ : ∃ kR', kR = z :: kR' := by
        cases kR with
        | nil => simp at hz2
        | cons a kR' =>
          simp at hz2
          exact ⟨kR', by rw [hz2]⟩
      obtain ⟨l0, lR', rfl⟩ : ∃ l0 lR', lR = l0 :: lR' := by
        cases lR with
        | nil => simp at hlR
        | cons a r => exact ⟨a, r, rfl⟩
      exact hp4 x (List.mem_append_right _ hx) z (by simp [interR])
    · intro z hz1 hz2
      rw [v.keys_rd (i - 1) (by simp; omega), List.getElem?_append_left (by omega)] at hz2
      exact hp1.2.2 z (mem_interL (List.getElem?_mem hz2) (by omega)) x hx


theorem insSpec_eq_orderedInsert (k : Int) : ∀ (l : List Int), l.Pairwise (· < ·) →
    insSpec k l = List.orderedInsert (· ≤ ·) k l := by
  intro l
  induction l with
  | nil => intro _; rfl
  | cons b l ih =>
    intro hp
    obtain ⟨hb, hl⟩ := List.pairwise_cons.mp hp
    rw [List.orderedInsert]
    by_cases hkb : k ≤ b
    · rw [if_pos hkb]
      have := insSpec_zip_nil k [] (b :: l) (by simp) (by
        intro x hx
        rcases List.mem_cons.mp hx with rfl | hx
        · exact hkb
        · have := hb x hx
          omega)
      simpa using this
    · rw [if_neg hkb, ← ih hl]
      have hbk : b < k := by omega
      simp [insSpec, List.filter_cons, hbk]

theorem delSpec_eq_erase (k : Int) (l : List Int) (hp : l.Pairwise (· < ·)) :
    delSpec k l = l.erase k := by
  have hnd : l.Nodup := hp.imp (fun h => by omega)
  rw [hnd.erase_eq_filter]
  unfold delSpec
  congr 1
  funext x
  by_cases h : x = k <;> simp [h]

theorem insSpec_pairwise (k : Int) (l : List Int) (hp : l.Pairwise (· < ·)) (hk : k ∉ l) :
    (insSpec k l).Pairwise (· < ·) := by
  unfold insSpec
  rw [List.pairwise_append]
  refine ⟨hp.filter _, List.pairwise_cons.mpr ⟨?_, hp.filter _⟩, ?_⟩
  · intro x hx
    obtain ⟨h1, h2⟩ := List.mem_filter.mp hx
    simp at h2
    have : x ≠ k := fun e => hk (e ▸ h1)
    omega
  · intro x hx y hy
    obtain ⟨_, h2⟩ := List.mem_filter.mp hx
    simp at h2
    rcases List.mem_cons.mp hy with rfl | hy
    · exact h2
    · obtain ⟨_, h4⟩ := List.mem_filter.mp hy
      simp at h4
      omega

theorem delSpec_pairwise (k : Int) (l : List Int) (hp : l.Pairwise (· < ·)) :
    (delSpec k l).Pairwise (· < ·) := hp.filter _

theorem mem_insSpec (k : Int) (l : List Int) (x : Int) : x ∈ insSpec k l ↔ x = k ∨ x ∈ l := by
  simp only [insSpec, List.mem_append, List.mem_cons, List.mem_filter, decide_eq_true_eq]
  constructor
  · rintro (⟨h, _⟩ | rfl | ⟨h, _⟩)
    · exact Or.inr h
    · exact Or.inl rfl
    · exact Or.inr h
  · rintro (rfl | h)
    · exact Or.inr (Or.inl rfl)
    · by_cases hx : x < k
      · exact Or.inl ⟨h, hx⟩
      · exact Or.inr (Or.inr ⟨h, hx⟩)

/-- Reading of a well-formed non-empty tree. -/
theorem wf_root {B h : Nat} (hB : 2 ≤ B) {r : BTreeNode} (hw : WellFormedNode B true h r) :
    ∃ l, T B h 0 r l ∧ l.Pairwise (· < ·) ∧ (h = 0 ∨ 1 ≤ r.n) := by
  obtain ⟨l, t, hp⟩ := WF_T hB h true r hw
  simp only [if_true] at t
  refine ⟨l, t, hp, ?_⟩
  cases h with
  | zero => exact Or.inl rfl
  | succ h => exact Or.inr (WF_succ.mp hw).2.2.2.1

theorem singleton_T (B : Nat) (hB : 2 ≤ B) (k : Int) :
    ∃ r, BTreeNode.singleton B k = some r ∧ T B 0 0 r [k] ∧ r.n = 1 := by
  obtain ⟨ks, h1, h2, h3⟩ := wr_spec (a := List.replicate (2 * B - 1) (none : Option Int))
    (i := 0) k (by simp; omega)
  refine ⟨BTreeNode.mk NodeType.LEAF 1 ks (List.replicate (2 * B) none), by
    simp [BTreeNode.singleton, h1], T_zero.mpr ⟨⟨rfl, rfl, by simp; omega, by simpa using h2,
      by simp, ?_, by simp, by simp⟩, by simp⟩, rfl⟩
  intro i hi
  simp only [List.length_cons, List.length_nil] at hi
  have : i = 0 := by omega
  subst this
  simp [h3]

theorem root_split_T {B h : Nat} (hB : 2 ≤ B) {r : BTreeNode} {l : List Int}
    (t : T B h 0 r l) (hfull : r.n = 2 * B - 1) :
    ∃ edges0 p1, wr (BTreeNode.new B).edges 0 r = some edges0 ∧
      split_child B (BTreeNode.mk NodeType.INTERNAL (BTreeNode.new B).n (BTreeNode.new B).keys
        edges0) 0 = some p1 ∧ T B (h + 1) 1 p1 l ∧ p1.n = 1 := by
  obtain ⟨e0, h1, h2, h3⟩ := wr_spec (a := (BTreeNode.new B).edges) (i := 0) r
    (by simp [BTreeNode.new]; omega)
  have v : View B (BTreeNode.mk NodeType.INTERNAL (BTreeNode.new B).n (BTreeNode.new B).keys e0)
      NodeType.INTERNAL ([] ++ []) ([] ++ r :: []) := by
    refine ⟨rfl, rfl, by simp, by simp [BTreeNode.new], by simp [h2, BTreeNode.new], ?_, ?_,
      by simp⟩
    · intro i hi
      simp at hi
    · intro i hi
      simp only [List.nil_append, List.length_cons, List.length_nil] at hi
      have : i = 0 := by omega
      subst this
      simp [h3]
  obtain ⟨p1, y1, z, m, l1, l2, hs, vp, ty1, tz, hl, _, _⟩ :=
    split_child_T (h := h) (by omega) v rfl (by simp; omega) (T_relo t (B - 1) (by omega)) hfull
  refine ⟨e0, p1, h1, hs, T_succ.mpr ⟨[m], [y1, z], [l1, l2], by simpa using vp, by simp,
    List.Forall₂.cons ty1 (List.Forall₂.cons tz List.Forall₂.nil), ?_⟩, ?_⟩
  · rw [hl]
    simp [inter, interR]
  · rw [vp.n_eq]
    simp


/-! ## The tree object and its root pointer -/

@[simp] theorem BTree.root_mk (r : Option BTreeNode) : (BTree.mk r).root = r := rfl

@[simp] theorem BTree.deleted_mk (r : Option BTreeNode) : (BTree.mk r).deleted = false := rfl

theorem BTree.eq_mk {t : BTree} {r : Option BTreeNode} (hr : t.root = r)
    (hd : t.deleted = false) : t = BTree.mk r := by
  cases t
  simp only [BTree.mk] at hr hd ⊢
  rw [hr, hd]

/-- The root of a well-formed non-empty tree has not been deleted. -/
theorem wf_live {B h : Nat} {t : BTree} {r : BTreeNode} (hwf : t.WellFormedAt B h)
    (hr : t.root = some r) : t.deleted = false ∧ WellFormedNode B true h r := by
  simpa [BTree.WellFormedAt, hr] using hwf

theorem wf_mk {B h : Nat} {r : BTreeNode} (hw : WellFormedNode B true h r) :
    (BTree.mk (some r)).WellFormedAt B h :=
  ⟨rfl, hw⟩

theorem tree_insert_empty {B : Nat} (hB : 2 ≤ B) {t : BTree} (hr : t.root = none) (k : Int)
    (fuel : Nat) :
    ∃ r1, BTree.insert B fuel t k = some (true, BTree.mk (some r1)) ∧ T B 0 0 r1 [k] ∧
      r1.n = 1 := by
  obtain ⟨r1, h1, h2, h3⟩ := singleton_T B hB k
  exact ⟨r1, by simp [BTree.insert, hr, h1], h2, h3⟩

theorem tree_insert_root {B h : Nat} (hB : 2 ≤ B) {t : BTree} {r : BTreeNode} {l : List Int}
    (hr : t.root = some r) (hd : t.deleted = false) (tr : T B h 0 r l)
    (hp : l.Pairwise (· < ·))
    (hn : h = 0 ∨ 1 ≤ r.n) (k : Int) (fuel : Nat) (hf : h + 1 < fuel) :
    ∃ r1 h1, BTree.insert B fuel t k = some (true, BTree.mk (some r1)) ∧
      T B h1 0 r1 (insSpec k l) ∧ 1 ≤ r1.n ∧ h1 = (if r.n = 2 * B - 1 then h + 1 else h) := by
  have hrn := T_n tr
  by_cases hfull : r.n = 2 * B - 1
  · obtain ⟨e0, p1, h1, h2, h3, h4⟩ := root_split_T hB tr hfull
    obtain ⟨c1, hc1, hc2, hc3⟩ := insert_T hB k (h + 1) 1 p1 l h3 (by omega) hp fuel hf
    refine ⟨c1, h + 1, ?_, T_relo hc2 0 (by omega), (T_n hc2).1, by rw [if_pos hfull]⟩
    simp only [BTree.insert, hr, hd, Bool.false_eq_true, if_false, Option.bind_eq_bind,
      if_pos (show 2 * B - 1 ≤ r.n by omega), h1, Option.some_bind, h2, hc1]
  · obtain ⟨c1, hc1, hc2, hc3⟩ := insert_T hB k h r.n r l (T_relo tr r.n (le_refl _))
      (by omega) hp fuel (by omega)
    have hc1n := (T_n hc2).1
    refine ⟨c1, h, ?_, T_relo hc2 0 (by omega), ?_, by rw [if_neg hfull]⟩
    · simp only [BTree.insert, hr, hd, Bool.false_eq_true, if_false, Option.bind_eq_bind,
        if_neg (show ¬ 2 * B - 1 ≤ r.n by omega), Option.some_bind, hc1]
    · rcases hn with h0 | h0
      · subst h0
        obtain ⟨v, _⟩ := T_zero.mp hc2
        rw [v.n_eq]
        simp [insSpec]
        omega
      · omega

/-- `BTree::remove` on a tree whose root is a leaf or an internal node over leaves: the
node-level call returns; when it leaves an internal root without keys the tree object is
left pointing to the child in slot 0, which `delete prev_root` has released; otherwise the
root is the node left by the node-level call. -/
theorem tree_remove_root {B h : Nat} (hB : 2 ≤ B) {t : BTree} {r : BTreeNode} {l : List Int}
    (hr : t.root = some r) (hd : t.deleted = false) (hh : h ≤ 1) (tr : T B h 0 r l)
    (hp : l.Pairwise (· < ·)) (hn : h = 0 ∨ 1 ≤ r.n) (k : Int) (fuel : Nat) (hf : h < fuel) :
    ∃ b c1, BTreeNode.remove B fuel r k = some (b, c1) ∧ T B h 0 c1 (delSpec k l) ∧
      ((c1.n = 0 ∧ c1.type = NodeType.INTERNAL) → h = 1 ∧ ∃ d, rd c1.edges 0 = some d ∧
        BTree.remove B fuel t k = some (true, BTree.make (some d) true)) ∧
      (¬ (c1.n = 0 ∧ c1.type = NodeType.INTERNAL) →
        BTree.remove B fuel t k = some (true, BTree.mk (some c1)) ∧ (h = 0 ∨ 1 ≤ c1.n)) := by
  obtain ⟨b, c1, hc1, hc2, hc3, hc4⟩ := remove_T hB h 0 r l k hh tr hp hn fuel hf
  simp only [Nat.zero_sub] at hc2
  have hty := T_type hc2
  refine ⟨b, c1, hc1, hc2, fun hcol => ?_, fun hcol => ?_⟩
  · cases h with
    | zero =>
      simp only [if_true] at hty
      rw [hty] at hcol
      exact absurd hcol.2 (by decide)
    | succ h =>
      obtain ⟨ks, cs, ls, v, _, hfa, hl⟩ := T_succ.mp hc2
      have hks : ks = [] := List.length_eq_zero.mp (by rw [← v.n_eq]; exact hcol.1)
      subst hks
      have hcs := v.cs_len
      rw [if_pos rfl] at hcs
      obtain ⟨d, rfl⟩ : ∃ d, cs = [d] := by
        rcases cs with _ | ⟨d, _ | ⟨e, r⟩⟩
        · simp at hcs
        · exact ⟨d, rfl⟩
        · simp at hcs
      have hrd : rd c1.edges 0 = some d := rd_zip_mid (show View B _ _ _ ([] ++ _ :: _) from v)
      refine ⟨by omega, d, hrd, ?_⟩
      simp [BTree.remove, hr, hd, hc1, hcol.1, hcol.2, hrd]
  · refine ⟨?_, ?_⟩
    · simp only [BTree.remove, hr, hd, Bool.false_eq_true, if_false, hc1, Option.bind_eq_bind,
        Option.some_bind, if_neg hcol]
    · cases h with
      | zero => exact Or.inl rfl
      | succ h =>
        simp only [Nat.add_one_ne_zero, if_false] at hty
        right
        by_contra h0
        exact hcol ⟨by omega, hty⟩

theorem sampleLeaf_T (ks : List Int) (h1 : 1 ≤ ks.length) (h3 : ks.length ≤ 3) :
    T 2 0 1 (sampleLeaf ks) ks := by
  refine T_zero.mpr ⟨⟨rfl, rfl, by omega, by simp [sampleLeaf]; omega, by simp [sampleLeaf],
    ?_, by simp, by simp⟩, h1⟩
  intro i hi
  simp only [sampleLeaf, BTreeNode.keys_mk, rd]
  rw [List.getElem?_append_left (by simpa using hi), List.getElem?_map,
    List.getElem?_eq_getElem hi]
  rfl

theorem sampleRoot_T (x : Int) (a b : List Int) (ha1 : 1 ≤ a.length) (ha3 : a.length ≤ 3)
    (hb1 : 1 ≤ b.length) (hb3 : b.length ≤ 3) :
    T 2 1 0 (BTreeNode.mk NodeType.INTERNAL 1 [some x, none, none]
      [some (sampleLeaf a), some (sampleLeaf b), none, none]) (a ++ x :: b) := by
  refine T_succ.mpr ⟨[x], [sampleLeaf a, sampleLeaf b], [a, b],
    ⟨rfl, rfl, by simp, rfl, rfl, ?_, ?_, by simp⟩, by simp,
    List.Forall₂.cons (sampleLeaf_T a ha1 ha3)
      (List.Forall₂.cons (sampleLeaf_T b hb1 hb3) List.Forall₂.nil), by simp [inter, interR]⟩
  · intro i hi
    simp only [List.length_cons, List.length_nil] at hi
    have : i = 0 := by omega
    subst this
    rfl
  · intro i hi
    simp only [List.length_cons, List.length_nil] at hi
    have : i = 0 ∨ i = 1 := by omega
    rcases this with rfl | rfl <;> rfl

theorem sampleTreeA_wf : sampleTreeA.WellFormedAt 2 1 :=
  ⟨rfl, T_WF (by decide) 1 true 0 _ _ (sampleRoot_T 2 [1] [3] (by decide) (by decide)
    (by decide) (by decide)) (by decide) (Or.inl rfl) (Or.inr (by decide))⟩

theorem sampleTreeB_wf : sampleTreeB.WellFormedAt 2 1 :=
  ⟨rfl, T_WF (by decide) 1 true 0 _ _ (sampleRoot_T 3 [1, 2] [4, 5] (by decide) (by decide)
    (by decide) (by decide)) (by decide) (Or.inl rfl) (Or.inr (by decide))⟩



theorem wr_same {α : Type} {a : List (Option α)} {i : Nat} {v : α} (h : rd a i = some v) :
    wr a i v = some a := by
  have hlt := rd_isSome_lt h
  rw [wr_eq v hlt]
  congr 1
  apply List.ext_getElem?
  intro j
  rw [List.getElem?_set]
  by_cases e : i = j
  · subst e
    rw [if_pos rfl]
    simp only [hlt, if_true]
    simp only [rd] at h
    rw [List.getElem?_eq_getElem hlt] at h ⊢
    simp only [Option.join] at h
    rw [← h]
    rfl
  · rw [if_neg e]

theorem keys_subset_inter {ls : List (List Int)} {ks : List Int}
    (hlen : ls.length = ks.length + 1) : ∀ x ∈ ks, x ∈ inter ls ks := by
  cases ls with
  | nil => simp at hlen
  | cons l ls =>
    intro x hx
    simp only [inter, List.mem_append]
    exact Or.inr ((interR_sublist ks ls (by simpa using hlen)).subset hx)

/-- Removing a key that is not stored leaves a subtree as it is when no child on the way
down holds fewer than `B` keys. -/
theorem remove_unchanged_T {B : Nat} (k : Int) : ∀ (h lo : Nat) (c : BTreeNode)
    (l : List Int), T B h lo c l → k ∉ l → ∀ fuel, h < fuel → no_fix_path B k fuel c →
    ∃ r, BTreeNode.remove B fuel c k = some (r, c) := by
  intro h
  induction h with
  | zero =>
    intro lo c l t hk fuel hf _
    obtain ⟨v, _⟩ := T_zero.mp t
    obtain ⟨f, rfl⟩ : ∃ f, fuel = f + 1 := ⟨fuel - 1, by omega⟩
    have hfound : found_at c (lowerIdx l k) k = some false := by
      unfold found_at
      by_cases hlt : lowerIdx l k < c.n
      · rw [if_pos hlt, v.keys_rd _ (by rw [← v.n_eq]; exact hlt),
          List.getElem?_eq_getElem (by rw [← v.n_eq]; exact hlt)]
        have hlt2 : lowerIdx l k < l.length := by rw [← v.n_eq]; exact hlt
        have : l[lowerIdx l k] ≠ k :=
          fun e => hk (e ▸ List.getElem_mem _)
        simp [this]
      · rw [if_neg hlt]
    refine ⟨false, ?_⟩
    simp only [BTreeNode.remove, get_index_spec v k, Option.bind_eq_bind, Option.some_bind,
      hfound, Bool.false_eq_true, if_false, v.type_eq, if_true]
  | succ h ih =>
    intro lo c l t hk fuel hf hpath
    obtain ⟨ks, cs, ls, v, _, hfa, hl⟩ := T_succ.mp t
    obtain ⟨f, rfl⟩ : ∃ f, fuel = f + 1 := ⟨fuel - 1, by omega⟩
    have hcs := v.cs_len
    rw [if_pos rfl] at hcs
    have hls := hfa.length_eq
    have hty : ¬ NodeType.INTERNAL = NodeType.LEAF := by decide
    have hfound : found_at c (lowerIdx ks k) k = some false := by
      unfold found_at
      by_cases hlt : lowerIdx ks k < c.n
      · rw [if_pos hlt, v.keys_rd _ (by rw [← v.n_eq]; exact hlt),
          List.getElem?_eq_getElem (by rw [← v.n_eq]; exact hlt)]
        have hlt2 : lowerIdx ks k < ks.length := by rw [← v.n_eq]; exact hlt
        have : ks[lowerIdx ks k] ≠ k := by
          intro e
          apply hk
          rw [hl]
          exact keys_subset_inter (by omega) _ (e ▸ List.getElem_mem _)
        simp [this]
      · rw [if_neg hlt]
    simp only [no_fix_path, v.type_eq, hty, false_or, get_index_spec v k] at hpath
    obtain ⟨idx, d, hidx, hrd, hdn, hpd⟩ := hpath
    cases hidx
    have hlt : lowerIdx ks k < cs.length := by
      have := lowerIdx_le ks k
      omega
    have hd : cs[lowerIdx ks k]? = some d := by rw [← v.edges_rd _ hlt]; exact hrd
    obtain ⟨ld, hld⟩ : ∃ ld, ls[lowerIdx ks k]? = some ld :=
      ⟨(ls.get ⟨lowerIdx ks k, by omega⟩), List.getElem?_eq_getElem _⟩
    have htd : T B h (B - 1) d ld := by
      obtain ⟨h1, e1⟩ := List.getElem?_eq_some.mp hd
      obtain ⟨h2, e2⟩ := List.getElem?_eq_some.mp hld
      rw [← e1, ← e2]
      exact hfa.get h1 h2
    have hkd : k ∉ ld := by
      intro hmem
      apply hk
      rw [hl]
      have hi := lowerIdx_le ks k
      generalize lowerIdx ks k = i at hi hld
      have e1 := take_mid_drop ls i (i + 1) ld rfl hld
      have e2 : ks = ks.take i ++ ks.drop i := (List.take_append_drop _ _).symm
      rw [e1, e2, inter_zip _ _ _ _ _ (by
        simp only [List.length_take]
        omega)]
      simp [hmem]
    obtain ⟨r, hr⟩ := ih (B - 1) d ld htd hkd f (by omega) hpd
    refine ⟨true, ?_⟩
    simp only [BTreeNode.remove, get_index_spec v k, Option.bind_eq_bind, Option.some_bind,
      hfound, Bool.false_eq_true, if_false, v.type_eq, hty, remove_fix, hrd,
      if_neg (show ¬ d.n < B by omega), hr, wr_same hrd]
    rw [← v.type_eq, BTreeNode.eta]

/-! ## Depth, and the loops of the test driver -/


/-- The depth of a `T` tree is its height. -/
theorem T_depth {B : Nat} : ∀ (h lo : Nat) (c : BTreeNode) (l : List Int), T B h lo c l →
    ∀ fuel, h < fuel → depth fuel c = some h := by
  intro h
  induction h with
  | zero =>
    intro lo c l t fuel hf
    obtain ⟨v, _⟩ := T_zero.mp t
    obtain ⟨f, rfl⟩ : ∃ f, fuel = f + 1 := ⟨fuel - 1, by omega⟩
    simp [depth, v.type_eq]
  | succ h ih =>
    intro lo c l t fuel hf
    obtain ⟨ks, cs, ls, v, _, hfa, _⟩ := T_succ.mp t
    obtain ⟨f, rfl⟩ : ∃ f, fuel = f + 1 := ⟨fuel - 1, by omega⟩
    have hcs := v.cs_len
    rw [if_pos rfl] at hcs
    obtain ⟨d, cR, rfl⟩ : ∃ d cR, cs = d :: cR := by
      cases cs with
      | nil => simp at hcs
      | cons d cR => exact ⟨d, cR, rfl⟩
    obtain ⟨ld, lR, td, _, _⟩ := List.forall₂_cons_left_iff.mp hfa
    have hrd : rd c.edges 0 = some d := rd_zip_mid (show View B _ _ _ ([] ++ _ :: _) from v)
    have hty : ¬ NodeType.INTERNAL = NodeType.LEAF := by decide
    simp only [depth, v.type_eq, hty, if_false, hrd, Option.some_bind,
      ih (B - 1) d ld td f (by omega), Option.map_some']
    congr 1
    omega

/-- The depth of a subtree satisfying the invariants at height `h` is `h`. -/
theorem wf_depth {B h : Nat} (hB : 2 ≤ B) {isRoot : Bool} {c : BTreeNode}
    (hw : WellFormedNode B isRoot h c) (fuel : Nat) (hf : h < fuel) : depth fuel c = some h := by
  obtain ⟨l, t, _⟩ := WF_T hB h isRoot c hw
  exact T_depth h _ c l t fuel hf

/-- Reading of a well-formed tree: its in-order sequence is strictly increasing. -/
theorem wf_for_all {B h : Nat} (hB : 2 ≤ B) {t : BTree} (hwf : t.WellFormedAt B h) (fuel : Nat)
    (hf : h < fuel) : ∃ l, t.for_all fuel = some l ∧ l.Pairwise (· < ·) := by
  cases hr : t.root with
  | none => exact ⟨[], by simp [BTree.for_all, hr], List.Pairwise.nil⟩
  | some r =>
    obtain ⟨hd, hw⟩ := wf_live hwf hr
    obtain ⟨l, tr, hp, hn⟩ := wf_root hB hw
    exact ⟨l, by simpa [BTree.for_all, hr, hd] using T_for_all hB h 0 r l tr hn fuel hf, hp⟩

/-- One `insert` of a key that is not stored, on a well-formed tree. -/
theorem wf_insert_step {B h : Nat} (hB : 2 ≤ B) {t : BTree} (hwf : t.WellFormedAt B h)
    (k : Int) (fuel : Nat) (hf : h + 1 < fuel) {l : List Int} (hfa : t.for_all fuel = some l)
    (hk : k ∉ l) :
    ∃ r1 h1, BTree.insert B fuel t k = some (true, BTree.mk (some r1)) ∧
      (BTree.mk (some r1)).WellFormedAt B h1 ∧ h1 ≤ h + 1 ∧
      (BTree.mk (some r1)).for_all fuel = some (insSpec k l) := by
  cases hr : t.root with
  | none =>
    have hl : l = [] := by
      simp only [BTree.for_all, hr] at hfa
      cases hfa
      rfl
    subst hl
    obtain ⟨r1, h1, h2, h3⟩ := tree_insert_empty hB hr k fuel
    refine ⟨r1, 0, h1, wf_mk (T_WF hB 0 true 0 r1 [k] h2 (by simp) (Or.inl rfl) (Or.inl rfl)),
      by omega, ?_⟩
    simpa [BTree.for_all, insSpec] using T_for_all hB 0 0 r1 [k] h2 (Or.inl rfl) fuel (by omega)
  | some r =>
    obtain ⟨hd, hw⟩ := wf_live hwf hr
    obtain ⟨l0, tr, hp, hn⟩ := wf_root hB hw
    have hfa0 := T_for_all hB h 0 r l0 tr hn fuel (by omega)
    simp only [BTree.for_all, hr, hd, Bool.false_eq_true, if_false] at hfa
    rw [hfa0] at hfa
    cases hfa
    obtain ⟨r1, h1, hi, ht, hn1, hh⟩ := tree_insert_root hB hr hd tr hp hn k fuel hf
    have hh1 : h1 ≤ h + 1 := by rw [hh]; split <;> omega
    refine ⟨r1, h1, hi, wf_mk (T_WF hB h1 true 0 r1 _ ht (insSpec_pairwise k _ hp hk)
      (Or.inl rfl) (Or.inr hn1)), hh1, ?_⟩
    simpa [BTree.for_all] using T_for_all hB h1 0 r1 _ ht (Or.inr hn1) fuel (by omega)

/-- One `remove` on a well-formed tree whose root is a leaf or an internal node over leaves:
the call returns; unless it has collapsed the root, which leaves the tree object with a
deleted root, the tree is well formed at the same height and holds the keys it held before
without `k`.  The root of a tree of height 0 never collapses. -/
theorem wf_remove_step {B h : Nat} (hB : 2 ≤ B) {t : BTree} (hwf : t.WellFormedAt B h)
    (hh : h ≤ 1) (k : Int) (fuel : Nat) (hf : h < fuel) {l : List Int}
    (hfa : t.for_all fuel = some l) :
    ∃ b t1, BTree.remove B fuel t k = some (b, t1) ∧
      ((h = 0 ∨ t1.deleted = false) → t1.WellFormedAt B h ∧
        t1.for_all fuel = some (delSpec k l) ∧ (t.root ≠ none → t1.root ≠ none)) := by
  cases hr : t.root with
  | none =>
    have hl : l = [] := by
      simp only [BTree.for_all, hr] at hfa
      cases hfa
      rfl
    subst hl
    exact ⟨false, t, by simp [BTree.remove, hr], fun _ => ⟨hwf,
      by simp [BTree.for_all, hr, delSpec], fun hne => absurd rfl hne⟩⟩
  | some r =>
    obtain ⟨hd, hw⟩ := wf_live hwf hr
    obtain ⟨l0, tr, hp, hn⟩ := wf_root hB hw
    have hfa0 := T_for_all hB h 0 r l0 tr hn fuel (by omega)
    simp only [BTree.for_all, hr, hd, Bool.false_eq_true, if_false] at hfa
    rw [hfa0] at hfa
    cases hfa
    obtain ⟨b, c1, hc1, ht, hcol, hnocol⟩ := tree_remove_root hB hr hd hh tr hp hn k fuel hf
    by_cases hc : c1.n = 0 ∧ c1.type = NodeType.INTERNAL
    · obtain ⟨h1, d, hrd, hrem⟩ := hcol hc
      refine ⟨true, _, hrem, fun hlive => ?_⟩
      rcases hlive with h0 | h0
      · omega
      · simp at h0
    · obtain ⟨hrem, hn1⟩ := hnocol hc
      refine ⟨true, _, hrem, fun _ => ⟨wf_mk (T_WF hB h true 0 c1 _ ht (delSpec_pairwise k _ hp)
        (Or.inl rfl) hn1), ?_, fun _ => by simp⟩⟩
      have := T_for_all hB h 0 c1 _ ht hn1 fuel (by omega)
      simpa [BTree.for_all] using this

/-- The insertion loop of the driver on a well-formed tree: distinct keys that are not stored
are all inserted and the tree stays well formed. -/
theorem insert_keys_wf {B : Nat} (hB : 2 ≤ B) (fuel : Nat) : ∀ (ks : List Int) (t : BTree)
    (h : Nat) (l : List Int), t.WellFormedAt B h → h + ks.length < fuel →
    t.for_all fuel = some l → ks.Nodup → (∀ k ∈ ks, k ∉ l) →
    ∃ t1 h1 l1, BTree.insert_keys B fuel t ks = some t1 ∧ t1.WellFormedAt B h1 ∧
      h1 ≤ h + ks.length ∧ t1.for_all fuel = some l1 ∧ (∀ x, x ∈ l1 ↔ x ∈ l ∨ x ∈ ks) ∧
      (ks ≠ [] → t1.root ≠ none) := by
  intro ks
  induction ks with
  | nil =>
    intro t h l hwf _ hfa _ _
    exact ⟨t, h, l, rfl, hwf, by simp, hfa, by simp, fun hne => absurd rfl hne⟩
  | cons k ks ih =>
    intro t h l hwf hf hfa hnd hk
    simp only [List.length_cons] at hf
    obtain ⟨hk1, hnd1⟩ := List.nodup_cons.mp hnd
    obtain ⟨r1, h1, hi, hwf1, hh1, hfa1⟩ := wf_insert_step hB hwf k fuel (by omega) hfa
      (hk k (List.mem_cons_self _ _))
    obtain ⟨t2, h2, l2, hi2, hwf2, hh2, hfa2, hmem, _⟩ := ih _ h1 _ hwf1 (by omega) hfa1 hnd1
      (fun x hx hx1 => by
        rcases (mem_insSpec k l x).mp hx1 with e | e
        · exact hk1 (e ▸ hx)
        · exact hk x (List.mem_cons_of_mem _ hx) e)
    refine ⟨t2, h2, l2, ?_, hwf2, by simp only [List.length_cons]; omega, hfa2, ?_, ?_⟩
    · simp only [BTree.insert_keys, hi, Option.some_bind, hi2]
    · intro x
      rw [hmem x, mem_insSpec, List.mem_cons]
      tauto
    · intro _
      cases ks with
      | nil =>
        simp only [BTree.insert_keys] at hi2
        cases hi2
        simp
      | cons k2 ks2 => exact (by assumption : _ → t2.root ≠ none) (by simp)

/-- The removal loop of the driver on a well-formed tree whose root is a leaf: every call
returns, the root stays a leaf, and the keys left are the stored keys that are not in the
list. -/
theorem remove_keys_wf {B : Nat} (hB : 2 ≤ B) (fuel : Nat) : ∀ (ds : List Int) (t : BTree)
    (l : List Int), t.WellFormedAt B 0 → 0 < fuel → t.for_all fuel = some l →
    ∃ t1, BTree.remove_keys B fuel t ds = some t1 ∧ t1.WellFormedAt B 0 ∧
      t1.for_all fuel = some (l.filter (fun x => decide (x ∉ ds))) ∧
      (t.root ≠ none → t1.root ≠ none) := by
  intro ds
  induction ds with
  | nil =>
    intro t l hwf _ hfa
    exact ⟨t, rfl, hwf, by simpa using hfa, fun hne => hne⟩
  | cons k ds ih =>
    intro t l hwf hf hfa
    obtain ⟨b, t1, hi, hrest⟩ := wf_remove_step hB hwf (by omega) k fuel hf hfa
    obtain ⟨hwf1, hfa1, hroot1⟩ := hrest (Or.inl rfl)
    obtain ⟨t2, hi2, hwf2, hfa2, hroot2⟩ := ih t1 _ hwf1 hf hfa1
    refine ⟨t2, ?_, hwf2, ?_, fun hne => hroot2 (hroot1 hne)⟩
    · simp only [BTree.remove_keys, hi, Option.some_bind, hi2]
    · rw [hfa2, delSpec, List.filter_filter]
      congr 1
      apply List.filter_congr
      intro x _
      by_cases e : x = k <;> simp [e]

/-- A well-formed non-empty tree that stores no key is a single leaf with `n = 0`. -/
theorem wf_empty_leaf {B h : Nat} (hB : 2 ≤ B) {r : BTreeNode} (hw : WellFormedNode B true h r)
    (fuel : Nat) (hf : h < fuel) (hfa : for_all fuel r = some []) :
    h = 0 ∧ r.type = NodeType.LEAF ∧ r.n = 0 := by
  obtain ⟨l, tr, hp, hn⟩ := wf_root hB hw
  have hfa0 := T_for_all hB h 0 r l tr hn fuel hf
  rw [hfa] at hfa0
  cases hfa0
  cases h with
  | zero =>
    obtain ⟨v, _⟩ := T_zero.mp tr
    exact ⟨rfl, v.type_eq, by rw [v.n_eq]; rfl⟩
  | succ h =>
    exfalso
    obtain ⟨ks, cs, ls, v, _, hfa1, hl⟩ := T_succ.mp tr
    have hcs := v.cs_len
    rw [if_pos rfl] at hcs
    have hls := hfa1.length_eq
    rcases hn with h0 | h0
    · cases h0
    · rw [v.n_eq] at h0
      cases ks with
      | nil => simp at h0
      | cons x ks =>
        have hmem : x ∈ inter ls (x :: ks) :=
          keys_subset_inter (by omega) x (List.mem_cons_self _ _)
        rw [← hl] at hmem
        cases hmem

/-- In a subtree satisfying the invariants, a node above the leaves holds a key. -/
theorem wf_hn {B h : Nat} {isRoot : Bool} {c : BTreeNode} (hw : WellFormedNode B isRoot h c) :
    h = 0 ∨ 1 ≤ c.n := by
  cases h with
  | zero => exact Or.inl rfl
  | succ h => exact Or.inr (WF_succ.mp hw).2.2.2.1

/-- The height of a well-formed non-empty tree is what `depth` returns. -/
theorem wf_at_depth {B h d : Nat} (hB : 2 ≤ B) {t : BTree} {r : BTreeNode}
    (hwf : t.WellFormedAt B h) (hr : t.root = some r) (fuel : Nat) (hf : h < fuel)
    (hd : t.depth fuel = some (some d)) : h = d := by
  obtain ⟨hlive, hw⟩ := wf_live hwf hr
  have hd2 := wf_depth hB hw fuel hf
  simp only [BTree.depth, hr, hlive, Bool.false_eq_true, if_false, hd2, Option.map_some',
    Option.some.injEq] at hd
  exact hd

/-- A node seen at the child slot `i`: keys and children on either side of the slot. -/
theorem T_zip_at {B h lo : Nat} {p y : BTreeNode} {l : List Int} (t : T B (h + 1) lo p l)
    {i : Nat} (hi : i ≤ p.n) (hy : rd p.edges i = some y) :
    ∃ kL kR cL cR lL ly lR, View B p NodeType.INTERNAL (kL ++ kR) (cL ++ y :: cR) ∧
      kL.length = i ∧ cL.length = kL.length ∧ lL.length = kL.length ∧
      List.Forall₂ (T B h (B - 1)) cL lL ∧ T B h (B - 1) y ly ∧
      List.Forall₂ (T B h (B - 1)) cR lR ∧ l = interL lL kL ++ ly ++ interR kR lR ∧
      lo ≤ (kL ++ kR).length := by
  obtain ⟨ks, cs, ls, v, hlo, hfa, hl⟩ := T_succ.mp t
  have hcs := v.cs_len
  rw [if_pos rfl] at hcs
  have hin : i ≤ ks.length := by rw [← v.n_eq]; exact hi
  have hci : cs[i]? = some y := by rw [← v.edges_rd i (by omega)]; exact hy
  have ek : ks = ks.take i ++ ks.drop i := (List.take_append_drop _ _).symm
  have ec := take_mid_drop cs i (i + 1) y rfl hci
  have hkl : (ks.take i).length = i := by simp; omega
  have hcl : (cs.take i).length = (ks.take i).length := by simp; omega
  rw [ec] at hfa
  obtain ⟨lL, ly, lR, rfl, hlL, fL, ty, fR⟩ := forall₂_zip_left hfa
  rw [hcl] at hlL
  refine ⟨ks.take i, ks.drop i, cs.take i, cs.drop (i + 1), lL, ly, lR, ?_, hkl, hcl, hlL, fL,
    ty, fR, ?_, ?_⟩
  · rw [← ek, ← ec]; exact v
  · rw [hl]
    conv_lhs => rw [ek]
    exact inter_zip _ _ _ _ _ hlL
  · rw [← ek]; exact hlo

/-- After `split_child` on a full child, a `T` tree is a `T` tree of the same height with the
same in-order sequence, and holds one key more. -/
theorem split_child_keeps_T {B h lo : Nat} (hB : 2 ≤ B) {p y : BTreeNode} {l : List Int}
    (t : T B (h + 1) lo p l) (hn : p.n < 2 * B - 1) {i : Nat} (hi : i ≤ p.n)
    (hy : rd p.edges i = some y) (hfull : y.n = 2 * B - 1) :
    ∃ p1, split_child B p i = some p1 ∧ T B (h + 1) (lo + 1) p1 l ∧ p1.n = p.n + 1 := by
  obtain ⟨kL, kR, cL, cR, lL, ly, lR, v, hkL, hcL, hlL, fL, ty, fR, hl, hlo⟩ := T_zip_at t hi hy
  have hn2 : (kL ++ kR).length < 2 * B - 1 := by rw [← v.n_eq]; exact hn
  obtain ⟨p1, y1, z, m, l1, l2, hs, v1, ty1, tz, hly, _, _⟩ :=
    split_child_T (by omega) v hcL hn2 ty hfull
  rw [hkL] at hs
  refine ⟨p1, hs, T_succ.mpr ⟨kL ++ m :: kR, cL ++ y1 :: z :: cR, lL ++ l1 :: l2 :: lR, v1, ?_,
    forall₂_zip_join fL (List.Forall₂.cons ty1 (List.Forall₂.cons tz fR)), ?_⟩, ?_⟩
  · simp only [List.length_append, List.length_cons] at hlo ⊢
    omega
  · have e : kL ++ m :: kR = kL ++ ([m] ++ kR) := by simp
    rw [hl, hly, e, inter_zip _ _ _ _ _ hlL]
    simp [interR]
  · rw [v1.n_eq, v.n_eq]
    simp only [List.length_append, List.length_cons]
    omega

/-- The sample node `x` over the leaves `a` and `b` satisfies the invariants for `B = 2`. -/
theorem sampleRoot_wf (x : Int) (a b : List Int) (ha1 : 1 ≤ a.length) (ha3 : a.length ≤ 3)
    (hb1 : 1 ≤ b.length) (hb3 : b.length ≤ 3) (hp : (a ++ x :: b).Pairwise (· < ·)) :
    WellFormedNode 2 true 1 (sampleRoot x a b) :=
  T_WF (by decide) 1 true 0 _ _ (sampleRoot_T x a b ha1 ha3 hb1 hb3) hp (Or.inl rfl)
    (Or.inr (by simp [sampleRoot]))

/-- What `split_child` stores in the slot of the child it splits, and in `type` and `n`. -/
theorem split_child_inv {B : Nat} {p p1 y : BTreeNode} {i : Nat}
    (hs : split_child B p i = some p1) (hy : rd p.edges i = some y) :
    rd p1.edges i = some (BTreeNode.mk y.type (B - 1) y.keys y.edges) ∧ p1.type = p.type ∧
      p1.n = p.n + 1 := by
  have key : ∀ (pe2 pe3 : List (Option BTreeNode)) (pk2 : List (Option Int)),
      wr pe2 i (BTreeNode.mk y.type (B - 1) y.keys y.edges) = some pe3 →
      BTreeNode.mk p.type (p.n + 1) pk2 pe3 = p1 →
      rd p1.edges i = some (BTreeNode.mk y.type (B - 1) y.keys y.edges) ∧ p1.type = p.type ∧
        p1.n = p.n + 1 := by
    intro pe2 pe3 pk2 h3 e
    subst e
    refine ⟨?_, rfl, rfl⟩
    have hlt : i < pe2.length := by
      by_contra hc
      simp [wr, hc] at h3
    obtain ⟨a1, h4, _, h5⟩ := wr_spec (a := pe2) (i := i)
      (BTreeNode.mk y.type (B - 1) y.keys y.edges) hlt
    rw [h3] at h4
    cases h4
    simp [h5 i]
  unfold split_child at hs
  simp only [hy, Option.bind_eq_bind, Option.some_bind] at hs
  by_cases hty : y.type = NodeType.INTERNAL
  · simp only [hty, if_true, Option.bind_eq_some, Option.some.injEq] at hs
    obtain ⟨zkeys, _, zedges, _, pe1, _, pk1, _, pe2, _, m, _, pk2, _, pe3, h3, e⟩ := hs
    rw [← hty] at h3
    exact key _ _ _ h3 e
  · simp only [hty, if_false, Option.bind_eq_some, Option.some.injEq] at hs
    obtain ⟨zkeys, _, pe1, _, pk1, _, pe2, _, m, _, pk2, _, pe3, h3, e⟩ := hs
    exact key _ _ _ h3 e

/-- One-level reading of a `T` tree. -/
theorem T_view {B h lo : Nat} {c : BTreeNode} {l : List Int} (t : T B h lo c l) :
    ∃ ks cs, View B c c.type ks cs := by
  cases h with
  | zero =>
    obtain ⟨v, _⟩ := T_zero.mp t
    exact ⟨l, [], by rw [v.type_eq]; exact v⟩
  | succ h =>
    obtain ⟨ks, cs, _, v, _⟩ := T_succ.mp t
    exact ⟨ks, cs, by rw [v.type_eq]; exact v⟩

/-! ## `get_index` on an ascending key array -/

theorem range_filter_lt (n idx : Nat) :
    ((List.range n).filter (fun j => decide (j < idx))).length = min idx n := by
  induction n with
  | zero => simp
  | succ n ih =>
    rw [List.range_succ, List.filter_append, List.length_append, ih]
    by_cases h : n < idx
    · simp [h]
      omega
    · simp [h]
      omega

/-- What `get_index` returns on a node whose live keys are the list `ks`, in ascending
order. -/
theorem get_index_sorted {node : BTreeNode} {ks : List Int} (t : Int) (hn : ks.length = node.n)
    (hrd : ∀ i, i < ks.length → rd node.keys i = ks[i]?) (hs : ks.Pairwise (· ≤ ·)) :
    get_index node t = some (lowerIdx ks t) ∧
      (∀ j, j < lowerIdx ks t → ∃ x, rd node.keys j = some x ∧ x < t) ∧
      (∀ j, lowerIdx ks t ≤ j → j < node.n → ∃ x, rd node.keys j = some x ∧ t ≤ x) ∧
      node.count_below t = lowerIdx ks t := by
  have hle := lowerIdx_le ks t
  have hlow : ∀ j, j < lowerIdx ks t → ∃ x, rd node.keys j = some x ∧ x < t := by
    intro j hj
    have hj2 : j < ks.length := by omega
    refine ⟨ks[j], by rw [hrd j hj2, List.getElem?_eq_getElem hj2], ?_⟩
    apply lowerIdx_take_lt ks t
    rw [List.mem_iff_getElem?]
    exact ⟨j, by rw [List.getElem?_take_of_lt hj, List.getElem?_eq_getElem hj2]⟩
  have hhigh : ∀ j, lowerIdx ks t ≤ j → j < node.n →
      ∃ x, rd node.keys j = some x ∧ t ≤ x := by
    intro j hj1 hj2
    have hj3 : j < ks.length := by omega
    have hi3 : lowerIdx ks t < ks.length := by omega
    refine ⟨ks[j], by rw [hrd j hj3, List.getElem?_eq_getElem hj3], ?_⟩
    have h1 := lowerIdx_get_ge ks t ks[lowerIdx ks t] (List.getElem?_eq_getElem hi3)
    rcases Nat.eq_or_lt_of_le hj1 with e | e
    · have e2 : ks[j] = ks[lowerIdx ks t] := by congr 1; exact e.symm
      rw [e2]
      exact h1
    · have := List.pairwise_iff_getElem.mp hs (lowerIdx ks t) j hi3 hj3 e
      omega
  refine ⟨?_, hlow, hhigh, ?_⟩
  · unfold get_index
    rw [← hn, get_index_loop_spec node.keys ks t hrd ks.length 0 (by omega)]
    simp
  · unfold count_below
    have hc : (List.range node.n).filter (node.key_below t)
        = (List.range node.n).filter (fun j => decide (j < lowerIdx ks t)) := by
      apply List.filter_congr
      intro j hj
      rw [List.mem_range] at hj
      unfold key_below
      by_cases hlt : j < lowerIdx ks t
      · obtain ⟨x, hx1, hx2⟩ := hlow j hlt
        simp [hx1, hx2, hlt]
      · obtain ⟨x, hx1, hx2⟩ := hhigh j (by omega) hj
        simp only [hx1, hlt, decide_False, decide_eq_false_iff_not]
        omega
    rw [hc, range_filter_lt]
    omega

theorem get_index_example_live :
    ∀ i, i < get_index_example.n → ∃ x, rd get_index_example.keys i = some x := by
  intro i hi
  have hi4 : i < 4 := hi
  interval_cases i <;> exact ⟨_, rfl⟩

theorem get_index_example_sorted :
    ∀ i j x y, i < j → j < get_index_example.n → rd get_index_example.keys i = some x →
      rd get_index_example.keys j = some y → x ≤ y := by
  intro i j x y hij hj hx hy
  have hj4 : j < 4 := hj
  interval_cases j <;> interval_cases i <;>
    simp [rd, get_index_example] at hx hy <;> omega

/-! ## The binary search tree -/

namespace TreePtr

theorem search_iff_mem : ∀ (t : TreePtr) (x : Int), Ordered t →
    (search t x = true ↔ x ∈ elements t) := by
  intro t
  induction t with
  | null => intro x _; simp [search, elements]
  | node e l r ihl ihr =>
    intro x ho
    obtain ⟨hl, hr, hol, hor⟩ := ho
    simp only [search, elements, List.mem_append, List.mem_cons]
    by_cases h1 : x = e
    · simp [h1]
    · rw [if_neg h1]
      by_cases h2 : x < e
      · rw [if_pos h2, ihl x hol]
        constructor
        · exact fun h => Or.inl h
        · rintro (h | h | h)
          · exact h
          · exact absurd h h1
          · have := hr x h
            omega
      · rw [if_neg h2, ihr x hor]
        constructor
        · exact fun h => Or.inr (Or.inr h)
        · rintro (h | h | h)
          · have := hl x h
            omega
          · exact absurd h h1
          · exact h

theorem insert_elements : ∀ (t : TreePtr) (k x : Int),
    (x ∈ elements (insert t k).2 ↔ x = k ∨ x ∈ elements t) := by
  intro t
  induction t with
  | null => intro k x; simp [insert, elements]
  | node e l r ihl ihr =>
    intro k x
    simp only [insert]
    by_cases h1 : k = e
    · rw [if_pos h1]
      simp only [elements, List.mem_append, List.mem_cons]
      rw [h1]
      tauto
    · rw [if_neg h1]
      by_cases h2 : k < e
      · rw [if_pos h2]
        simp only [elements, List.mem_append, List.mem_cons, ihl k x]
        tauto
      · rw [if_neg h2]
        simp only [elements, List.mem_append, List.mem_cons, ihr k x]
        tauto

theorem insert_ordered : ∀ (t : TreePtr) (k : Int), Ordered t → Ordered (insert t k).2 := by
  intro t
  induction t with
  | null => intro k _; simp [insert, Ordered, elements]
  | node e l r ihl ihr =>
    intro k ho
    obtain ⟨hl, hr, hol, hor⟩ := ho
    simp only [insert]
    by_cases h1 : k = e
    · rw [if_pos h1]
      exact ⟨hl, hr, hol, hor⟩
    · rw [if_neg h1]
      by_cases h2 : k < e
      · rw [if_pos h2]
        refine ⟨fun x hx => ?_, hr, ihl k hol, hor⟩
        rcases (insert_elements l k x).mp hx with e1 | e1
        · rw [e1]; exact h2
        · exact hl x e1
      · rw [if_neg h2]
        refine ⟨hl, fun x hx => ?_, hol, ihr k hor⟩
        rcases (insert_elements r k x).mp hx with e1 | e1
        · rw [e1]; omega
        · exact hr x e1

theorem insert_result : ∀ (t : TreePtr) (k : Int),
    (insert t k).1 = !search t k := by
  intro t
  induction t with
  | null => intro k; simp [insert, search]
  | node e l r ihl ihr =>
    intro k
    simp only [insert, search]
    by_cases h1 : k = e
    · simp [h1]
    · rw [if_neg h1, if_neg h1]
      by_cases h2 : k < e
      · rw [if_pos h2, if_pos h2]
        exact ihl k
      · rw [if_neg h2, if_neg h2]
        exact ihr k

theorem insert_unchanged : ∀ (t : TreePtr) (k : Int), (insert t k).1 = false →
    (insert t k).2 = t := by
  intro t
  induction t with
  | null => intro k h; simp [insert] at h
  | node e l r ihl ihr =>
    intro k h
    simp only [insert] at h ⊢
    by_cases h1 : k = e
    · rw [if_pos h1]
    · rw [if_neg h1] at h ⊢
      by_cases h2 : k < e
      · rw [if_pos h2] at h ⊢
        simp only at h ⊢
        rw [ihl k h]
      · rw [if_neg h2] at h ⊢
        simp only at h ⊢
        rw [ihr k h]

theorem isNull_false_iff (t : TreePtr) : t.isNull = false ↔ ∃ e l r, t = node e l r := by
  cases t with
  | null => simp [isNull]
  | node e l r => simp [isNull]

theorem isNull_elements (t : TreePtr) (h : t.isNull = true) : elements t = [] := by
  cases t with
  | null => rfl
  | node e l r => simp [isNull] at h

theorem isNull_eq (t : TreePtr) (h : t.isNull = true) : t = null := by
  cases t with
  | null => rfl
  | node e l r => simp [isNull] at h

/-- On a non-null ordered tree `find_rightmost_key` returns the largest element. -/
theorem find_rightmost_key_spec : ∀ (t : TreePtr), t.isNull = false → Ordered t →
    ∃ m, find_rightmost_key t = some m ∧ m ∈ elements t ∧ ∀ x ∈ elements t, x ≤ m := by
  intro t
  induction t with
  | null => intro h; simp [isNull] at h
  | node e l r _ ihr =>
    intro _ ho
    obtain ⟨hl, hr, hol, hor⟩ := ho
    simp only [find_rightmost_key]
    by_cases hn : r.isNull = true
    · rw [if_pos hn]
      refine ⟨e, rfl, by simp [elements], fun x hx => ?_⟩
      simp only [elements, isNull_elements r hn, List.mem_append, List.mem_cons,
        List.not_mem_nil, or_false] at hx
      rcases hx with hx | hx
      · exact le_of_lt (hl x hx)
      · rw [hx]
    · rw [if_neg hn]
      obtain ⟨m, hm1, hm2, hm3⟩ := ihr (by simpa using hn) hor
      refine ⟨m, hm1, by simp [elements, hm2], fun x hx => ?_⟩
      simp only [elements, List.mem_append, List.mem_cons] at hx
      have hem := hr m hm2
      rcases hx with hx | hx | hx
      · have := hl x hx
        omega
      · omega
      · exact hm3 x hx

/-- What `remove` does on an ordered tree. -/
theorem remove_spec : ∀ (t : TreePtr) (k : Int), Ordered t →
    ∃ b t1, remove t k = some (b, t1) ∧ (b = true ↔ k ∈ elements t) ∧ Ordered t1 ∧
      ∀ x, x ∈ elements t1 ↔ (x ∈ elements t ∧ x ≠ k) := by
  intro t
  induction t with
  | null =>
    intro k _
    exact ⟨false, null, rfl, by simp [elements], trivial, by simp [elements]⟩
  | node e l r ihl ihr =>
    intro k ho
    obtain ⟨hl, hr, hol, hor⟩ := ho
    simp only [remove]
    by_cases h1 : k = e
    · subst h1
      rw [if_neg (by simp)]
      have hkl : ∀ x ∈ elements l, x ≠ k := fun x hx => by have := hl x hx; omega
      have hkr : ∀ x ∈ elements r, x ≠ k := fun x hx => by have := hr x hx; omega
      by_cases hnl : l.isNull = true
      · by_cases hnr : r.isNull = true
        · rw [if_pos ⟨hnl, hnr⟩]
          refine ⟨true, null, rfl, by simp [elements], trivial, fun x => ?_⟩
          simp [elements, isNull_elements l hnl, isNull_elements r hnr]
        · rw [if_neg (fun h => hnr h.2), if_pos hnl]
          refine ⟨true, r, rfl, by simp [elements], hor, fun x => ?_⟩
          simp only [elements, isNull_elements l hnl, List.nil_append, List.mem_cons]
          constructor
          · exact fun h => ⟨Or.inr h, hkr x h⟩
          · rintro ⟨h | h, h2⟩
            · exact absurd h h2
            · exact h
      · by_cases hnr : r.isNull = true
        · rw [if_neg (fun h => hnl h.1), if_neg hnl, if_pos hnr]
          refine ⟨true, l, rfl, by simp [elements], hol, fun x => ?_⟩
          simp only [elements, isNull_elements r hnr, List.mem_append, List.mem_cons,
            List.not_mem_nil, or_false]
          constructor
          · exact fun h => ⟨Or.inl h, hkl x h⟩
          · rintro ⟨h | h, h2⟩
            · exact h
            · exact absurd h h2
        · rw [if_neg (fun h => hnl h.1), if_neg hnl, if_neg hnr]
          obtain ⟨m, hm1, hm2, hm3⟩ := find_rightmost_key_spec l (by simpa using hnl) hol
          obtain ⟨b, l1, hr1, _, hol1, hel1⟩ := ihl m hol
          refine ⟨true, node m l1 r, by simp [hm1, hr1], by simp [elements], ?_, fun x => ?_⟩
          · refine ⟨fun x hx => ?_, fun x hx => ?_, hol1, hor⟩
            · obtain ⟨hx1, hx2⟩ := (hel1 x).mp hx
              have := hm3 x hx1
              omega
            · have := hr x hx
              have := hl m hm2
              omega
          · simp only [elements, List.mem_append, List.mem_cons, hel1 x]
            constructor
            · rintro (⟨h, _⟩ | h | h)
              · exact ⟨Or.inl h, hkl x h⟩
              · rw [h]
                exact ⟨Or.inl hm2, hkl m hm2⟩
              · exact ⟨Or.inr (Or.inr h), hkr x h⟩
            · rintro ⟨h | h | h, h2⟩
              · by_cases hxm : x = m
                · exact Or.inr (Or.inl hxm)
                · exact Or.inl ⟨h, hxm⟩
              · exact absurd h h2
              · exact Or.inr (Or.inr h)
    · rw [if_pos h1]
      by_cases h2 : k < e
      · rw [if_pos h2]
        obtain ⟨b, l1, hr1, hb, hol1, hel1⟩ := ihl k hol
        refine ⟨b, node e l1 r, by simp [hr1], ?_, ?_, fun x => ?_⟩
        · rw [hb]
          simp only [elements, List.mem_append, List.mem_cons]
          constructor
          · exact fun h => Or.inl h
          · rintro (h | h | h)
            · exact h
            · exact absurd h h1
            · have := hr k h
              omega
        · exact ⟨fun x hx => hl x ((hel1 x).mp hx).1, hr, hol1, hor⟩
        · simp only [elements, List.mem_append, List.mem_cons, hel1 x]
          constructor
          · rintro (⟨h, h3⟩ | h | h)
            · exact ⟨Or.inl h, h3⟩
            · exact ⟨Or.inr (Or.inl h), by rw [h]; exact fun e1 => h1 e1.symm⟩
            · exact ⟨Or.inr (Or.inr h), by have := hr x h; omega⟩
          · rintro ⟨h | h | h, h3⟩
            · exact Or.inl ⟨h, h3⟩
            · exact Or.inr (Or.inl h)
            · exact Or.inr (Or.inr h)
      · rw [if_neg h2]
        obtain ⟨b, r1, hr1, hb, hor1, her1⟩ := ihr k hor
        refine ⟨b, node e l r1, by simp [hr1], ?_, ?_, fun x => ?_⟩
        · rw [hb]
          simp only [elements, List.mem_append, List.mem_cons]
          constructor
          · exact fun h => Or.inr (Or.inr h)
          · rintro (h | h | h)
            · have := hl k h
              omega
            · exact absurd h h1
            · exact h
        · exact ⟨hl, fun x hx => hr x ((her1 x).mp hx).1, hol, hor1⟩
        · simp only [elements, List.mem_append, List.mem_cons, her1 x]
          constructor
          · rintro (h | h | ⟨h, h3⟩)
            · exact ⟨Or.inl h, by have := hl x h; omega⟩
            · exact ⟨Or.inr (Or.inl h), by rw [h]; exact fun e1 => h1 e1.symm⟩
            · exact ⟨Or.inr (Or.inr h), h3⟩
          · rintro ⟨h | h | h, h3⟩
            · exact Or.inl h
            · exact Or.inr (Or.inl h)
            · exact Or.inr (Or.inr ⟨h, h3⟩)

end TreePtr

theorem sampleBST_ordered : TreePtr.Ordered sampleBST.root := by
  simp [sampleBST, TreePtr.Ordered, TreePtr.elements]

/-! ## The nodes entered by `insert` and `remove` -/

/-- The run of `insert` on a subtree whose root is not full only enters nodes that are not
full. -/
theorem insert_calls_T {B : Nat} (hB : 2 ≤ B) (k : Int) :
    ∀ (h lo : Nat) (c : BTreeNode) (l : List Int), T B h lo c l → c.n < 2 * B - 1 →
      ∀ fuel, h < fuel →
      ∃ log, BTreeNode.insert_calls B fuel c k = some log ∧ log.nodes.head? = some c.n ∧
        log.nodes.length = h + 1 ∧
        (∀ n ∈ log.nodes, n < 2 * B - 1) ∧
        (∀ q ∈ log.splits, q.1 < 2 * B - 1 ∧ q.2 = 2 * B - 1) ∧ log.slot ≤ 2 * B - 2 := by
  intro h
  induction h with
  | zero =>
    intro lo c l t hn fuel hf
    obtain ⟨v, hlo⟩ := T_zero.mp t
    obtain ⟨f, rfl⟩ : ∃ f, fuel = f + 1 := ⟨fuel - 1, by omega⟩
    have hty : ¬ NodeType.LEAF = NodeType.INTERNAL := by decide
    have hle := lowerIdx_le l k
    refine ⟨InsertCalls.mk [c.n] [] (max (lowerIdx l k) c.n), ?_, rfl, rfl, ?_, ?_, ?_⟩
    · simp only [BTreeNode.insert_calls, get_index_spec v k, Option.bind_eq_bind,
        Option.some_bind, v.type_eq, hty, if_false]
    · intro n hn1
      simp only [List.mem_singleton] at hn1
      omega
    · intro q hq
      cases hq
    · have := v.n_eq
      simp only
      omega
  | succ h ih =>
    intro lo c l t hn fuel hf
    obtain ⟨ks, cs, ls, v, hlo, hfa, hl⟩ := T_succ.mp t
    obtain ⟨f, rfl⟩ : ∃ f, fuel = f + 1 := ⟨fuel - 1, by omega⟩
    obtain ⟨kL, kR, rfl, hkL, hlt, hge⟩ := lowerIdx_zip ks k
    have hcs := v.cs_len
    rw [if_pos rfl] at hcs
    simp only [List.length_append] at hcs
    obtain ⟨cL, y, cR, rfl, hcL⟩ : ∃ cL y cR, cs = cL ++ y :: cR ∧ cL.length = kL.length :=
      ⟨cs.take kL.length, (cs.get ⟨kL.length, by omega⟩), cs.drop (kL.length + 1),
        take_mid_drop cs kL.length _ _ rfl (List.getElem?_eq_getElem _), by simp; omega⟩
    obtain ⟨lL, ly, lR, rfl, hlL, fL, ty, fR⟩ := forall₂_zip_left hfa
    have hn2 : (kL ++ kR).length < 2 * B - 1 := by rw [← v.n_eq]; exact hn
    have hrdy : rd c.edges (lowerIdx (kL ++ kR) k) = some y := by
      rw [← hkL, ← hcL]; exact rd_zip_mid v
    simp only [BTreeNode.insert_calls, get_index_spec v k, Option.bind_eq_bind, Option.some_bind,
      v.type_eq, if_true, hrdy]
    have fin : ∀ (c1 : BTreeNode) (sp : List (Nat × Nat)), c1.n < 2 * B - 1 →
        (∃ l1, T B h (B - 1) c1 l1) → (∀ q ∈ sp, q.1 < 2 * B - 1 ∧ q.2 = 2 * B - 1) →
        ∃ log, ((BTreeNode.insert_calls B f c1 k).bind fun rest =>
            some (InsertCalls.mk (c.n :: rest.nodes) (sp ++ rest.splits) rest.slot)) = some log ∧
          log.nodes.head? = some c.n ∧ log.nodes.length = h + 1 + 1 ∧
          (∀ n ∈ log.nodes, n < 2 * B - 1) ∧
          (∀ q ∈ log.splits, q.1 < 2 * B - 1 ∧ q.2 = 2 * B - 1) ∧ log.slot ≤ 2 * B - 2 := by
      intro c1 sp hc1 ht1 hsp
      obtain ⟨l1, t1⟩ := ht1
      obtain ⟨log, e1, _, e2, e3, e4, e5⟩ := ih (B - 1) c1 l1 t1 hc1 f (by omega)
      refine ⟨InsertCalls.mk (c.n :: log.nodes) (sp ++ log.splits) log.slot, by rw [e1]; rfl,
        rfl, by simp [e2], ?_, ?_, e5⟩
      · intro n hn1
        rcases List.mem_cons.mp hn1 with e | e
        · rw [e]; exact hn
        · exact e3 n e
      · intro q hq
        rcases List.mem_append.mp hq with e | e
        · exact hsp q e
        · exact e4 q e
    by_cases hfull : y.n = 2 * B - 1
    · simp only [if_pos hfull]
      obtain ⟨p1, y1, z, m, l1, l2, hs, v1, ty1, tz, hly, hy1, hz⟩ :=
        split_child_T (by omega) v hcL hn2 ty hfull
      rw [← hkL, hs]
      simp only [Option.some_bind, get_index_spec v1 k]
      have hsp : ∀ q ∈ [(c.n, y.n)], q.1 < 2 * B - 1 ∧ q.2 = 2 * B - 1 := by
        intro q hq
        simp only [List.mem_singleton] at hq
        rw [hq]
        exact ⟨hn, hfull⟩
      by_cases hm : m < k
      · have e1 : lowerIdx (kL ++ m :: kR) k = cL.length + 1 := by
          rw [lowerIdx_append _ _ _ hlt, lowerIdx_cons, if_pos hm, lowerIdx_eq_zero _ _ hge, hcL]
        rw [e1, rd_edge_mid2 v1]
        simp only [Option.some_bind]
        exact fin z _ (by omega) ⟨l2, tz⟩ hsp
      · have e1 : lowerIdx (kL ++ m :: kR) k = cL.length := by
          rw [lowerIdx_append _ _ _ hlt, lowerIdx_cons, if_neg hm, hcL]
          rfl
        rw [e1, rd_zip_mid v1]
        simp only [Option.some_bind]
        exact fin y1 _ (by omega) ⟨l1, ty1⟩ hsp
    · simp only [if_neg hfull, Option.some_bind, hrdy]
      have hyn := (T_n ty).2
      exact fin y [] (by omega) ⟨ly, ty⟩ (fun q hq => by cases hq)

/-! ## The rebalancing operations seen from the parent -/

theorem borrow_from_right_T1 {B h : Nat} (hB : 1 ≤ B) {p a b : BTreeNode} {kL kR : List Int}
    {s : Int} {cL cR : List BTreeNode} {la lb : List Int}
    (v : View B p NodeType.INTERNAL (kL ++ s :: kR) (cL ++ a :: b :: cR))
    (hc : cL.length = kL.length)
    (ta : T B h (B - 1) a la) (tb : T B h (B - 1) b lb)
    (han : a.n < 2 * B - 1) (hbn : 1 ≤ b.n) :
    ∃ p1 a1 b1 bk lpre lb1, borrow_from_right p kL.length = some p1 ∧
      View B p1 NodeType.INTERNAL (kL ++ bk :: kR) (cL ++ a1 :: b1 :: cR) ∧
      lb = lpre ++ bk :: lb1 ∧
      T B h (B - 1) a1 (la ++ s :: lpre) ∧ T B h 0 b1 lb1 ∧ a1.n = a.n + 1 ∧
      b1.n + 1 = b.n := by
  cases h with
  | zero =>
    obtain ⟨va, _⟩ := T_zero.mp ta
    obtain ⟨vb, _⟩ := T_zero.mp tb
    have hbl : lb.length = b.n := vb.n_eq.symm
    obtain ⟨bk, bks, rfl⟩ : ∃ bk bks, lb = bk :: bks := by
      cases lb with
      | nil => simp at hbl; omega
      | cons x xs => exact ⟨x, xs, rfl⟩
    obtain ⟨p1, a1, b1, h1, h2, h3, h4⟩ := borrow_from_right_view v hc va vb
      (by rw [← va.n_eq]; exact han)
    simp only [List.take_nil, List.drop_nil, List.append_nil] at h3 h4
    simp only [List.length_cons] at hbl
    refine ⟨p1, a1, b1, bk, [], bks, h1, h2, rfl, T_zero.mpr ⟨h3, by simp; omega⟩,
      T_zero.mpr ⟨h4, by omega⟩, ?_, ?_⟩
    · rw [h3.n_eq, va.n_eq]
      simp
    · rw [h4.n_eq, vb.n_eq]
      simp
  | succ h =>
    obtain ⟨aks, acs, als, va, hloa, fa, hla⟩ := T_succ.mp ta
    obtain ⟨bks0, bcs, bls, vb, hlob, fb, hlb⟩ := T_succ.mp tb
    have hbl : bks0.length = b.n := vb.n_eq.symm
    obtain ⟨bk, bks, rfl⟩ : ∃ bk bks, bks0 = bk :: bks := by
      cases bks0 with
      | nil => simp at hbl; omega
      | cons x xs => exact ⟨x, xs, rfl⟩
    obtain ⟨p1, a1, b1, h1, h2, h3, h4⟩ := borrow_from_right_view v hc va vb
      (by rw [← va.n_eq]; exact han)
    have hacs := va.cs_len
    have hbcs := vb.cs_len
    rw [if_pos rfl] at hacs hbcs
    have hals := fa.length_eq
    have hbls := fb.length_eq
    simp only [List.length_cons] at hbl hbcs
    obtain ⟨bl0, bl1, bls2, rfl⟩ : ∃ bl0 bl1 bls2, bls = bl0 :: bl1 :: bls2 := by
      rcases bls with _ | ⟨x, _ | ⟨y, r⟩⟩
      · simp only [List.length_nil] at hbls
        omega
      · simp only [List.length_cons, List.length_nil] at hbls
        omega
      · exact ⟨x, y, r, rfl⟩
    obtain ⟨bc0, bcs1, rfl⟩ : ∃ bc0 bcs1, bcs = bc0 :: bcs1 := by
      cases bcs with
      | nil => simp at hbcs
      | cons x xs => exact ⟨x, xs, rfl⟩
    have fb0 := (List.forall₂_cons.mp fb).1
    have fb1 := (List.forall₂_cons.mp fb).2
    simp only [List.take_succ_cons, List.take_zero, List.drop_succ_cons, List.drop_zero] at h3 h4
    refine ⟨p1, a1, b1, bk, bl0, inter (bl1 :: bls2) bks, h1, h2, ?_,
      T_succ.mpr ⟨_, _, als ++ [bl0], h3, by simp; omega,
        forall₂_zip_join fa (List.Forall₂.cons fb0 List.Forall₂.nil), ?_⟩,
      T_succ.mpr ⟨_, _, _, h4, by omega, fb1, rfl⟩, ?_, ?_⟩
    · rw [hlb]
      simp [inter, interR]
    · rw [inter_split als [bl0] aks [] s (by omega) (by simp), hla]
      simp [inter, interR]
    · rw [h3.n_eq, va.n_eq]
      simp
    · rw [h4.n_eq, vb.n_eq]
      simp

theorem borrow_from_left_T1 {B h : Nat} (hB : 1 ≤ B) {p a b : BTreeNode} {kL kR : List Int}
    {s : Int} {cL cR : List BTreeNode} {la lb : List Int}
    (v : View B p NodeType.INTERNAL (kL ++ s :: kR) (cL ++ b :: a :: cR))
    (hc : cL.length = kL.length)
    (ta : T B h (B - 1) a la) (tb : T B h (B - 1) b lb)
    (han : a.n < 2 * B - 1) (hbn : 1 ≤ b.n) :
    ∃ p1 a1 b1 bk lb1 lsuf, borrow_from_left p (kL.length + 1) = some p1 ∧
      View B p1 NodeType.INTERNAL (kL ++ bk :: kR) (cL ++ b1 :: a1 :: cR) ∧
      lb = lb1 ++ bk :: lsuf ∧
      T B h (B - 1) a1 (lsuf ++ s :: la) ∧ T B h 0 b1 lb1 ∧ a1.n = a.n + 1 ∧
      b1.n + 1 = b.n := by
  cases h with
  | zero =>
    obtain ⟨va, _⟩ := T_zero.mp ta
    obtain ⟨vb, _⟩ := T_zero.mp tb
    have hbl : lb.length = b.n := vb.n_eq.symm
    obtain ⟨bks, bk, rfl⟩ : ∃ bks bk, lb = bks ++ [bk] := by
      rcases List.eq_nil_or_concat lb with h | ⟨bks, bk, h⟩
      · rw [h] at hbl; simp at hbl; omega
      · exact ⟨bks, bk, by rw [h, List.concat_eq_append]⟩
    obtain ⟨p1, a1, b1, h1, h2, h3, h4⟩ := borrow_from_left_view v hc va vb
      (by rw [← va.n_eq]; exact han)
    simp only [List.take_nil, List.drop_nil, List.append_nil] at h3 h4
    simp only [List.length_append, List.length_cons, List.length_nil] at hbl
    refine ⟨p1, a1, b1, bk, bks, [], h1, h2, rfl, T_zero.mpr ⟨h3, by simp; omega⟩,
      T_zero.mpr ⟨h4, by omega⟩, ?_, ?_⟩
    · rw [h3.n_eq, va.n_eq]
      simp
    · rw [h4.n_eq, vb.n_eq]
      simp
  | succ h =>
    obtain ⟨aks, acs, als, va, hloa, fa, hla⟩ := T_succ.mp ta
    obtain ⟨bks0, bcs, bls, vb, hlob, fb, hlb⟩ := T_succ.mp tb
    have hbl : bks0.length = b.n := vb.n_eq.symm
    obtain ⟨bks, bk, rfl⟩ : ∃ bks bk, bks0 = bks ++ [bk] := by
      rcases List.eq_nil_or_concat bks0 with h | ⟨bks, bk, h⟩
      · rw [h] at hbl; simp at hbl; omega
      · exact ⟨bks, bk, by rw [h, List.concat_eq_append]⟩
    obtain ⟨p1, a1, b1, h1, h2, h3, h4⟩ := borrow_from_left_view v hc va vb
      (by rw [← va.n_eq]; exact han)
    have hacs := va.cs_len
    have hbcs := vb.cs_len
    rw [if_pos rfl] at hacs hbcs
    have hals := fa.length_eq
    have hbls := fb.length_eq
    simp only [List.length_append, List.length_cons, List.length_nil] at hbl hbcs
    have fb1 := List.forall₂_take (bks.length + 1) fb
    have fb2 := List.forall₂_drop (bks.length + 1) fb
    obtain ⟨bll, hbll⟩ : ∃ bll, bls.drop (bks.length + 1) = [bll] := by
      refine ⟨(bls.get ⟨bks.length + 1, by omega⟩), ?_⟩
      rw [List.drop_eq_getElem_cons (by omega), List.drop_eq_nil_of_le (by omega)]; rfl
    rw [hbll] at fb2
    obtain ⟨al0, als1, rfl⟩ : ∃ al0 als1, als = al0 :: als1 := by
      cases als with
      | nil =>
        simp only [List.length_nil] at hals
        omega
      | cons x xs => exact ⟨x, xs, rfl⟩
    refine ⟨p1, a1, b1, bk, inter (bls.take (bks.length + 1)) bks, bll, h1, h2, ?_,
      T_succ.mpr ⟨_, _, [bll] ++ al0 :: als1, h3, by simp; omega,
        forall₂_zip_join fb2 fa, ?_⟩,
      T_succ.mpr ⟨_, _, _, h4, by omega, fb1, rfl⟩, ?_, ?_⟩
    · rw [hlb]
      conv_lhs => rw [← List.take_append_drop (bks.length + 1) bls, hbll]
      rw [inter_split (bls.take (bks.length + 1)) [bll] bks [] bk (by simp; omega) (by simp)]
      simp [inter, interR]
    · rw [hla]
      simp [inter, interR]
    · rw [h3.n_eq, va.n_eq]
      simp
    · rw [h4.n_eq, vb.n_eq]
      simp

/-- What `for_all` yields on an internal node with at least one key, from what it yields on
the children. -/
theorem view_for_all {B : Nat} {c : BTreeNode} {ks : List Int} {cs : List BTreeNode}
    {ls : List (List Int)} (f : Nat) (v : View B c NodeType.INTERNAL ks cs)
    (hn1 : 1 ≤ ks.length)
    (hfa2 : List.Forall₂ (fun c l => for_all f c = some l) cs ls) :
    for_all (f + 1) c = some (inter ls ks) := by
  have hcs := v.cs_len
  rw [if_pos rfl] at hcs
  have hls := hfa2.length_eq
  have hlast : ∃ cl ll, cs[ks.length]? = some cl ∧ ls[ks.length]? = some ll ∧
      for_all f cl = some ll := by
    refine ⟨(cs.get ⟨ks.length, by omega⟩), (ls.get ⟨ks.length, by omega⟩),
      List.getElem?_eq_getElem _, List.getElem?_eq_getElem _, hfa2.get _ _⟩
  obtain ⟨cl, ll, hc1, hc2, hc3⟩ := hlast
  have hnot : ¬ c.n < 1 := by rw [v.n_eq]; omega
  have hty : ¬ NodeType.INTERNAL = NodeType.LEAF := by decide
  simp only [for_all, v.type_eq, hty, if_false, hnot, forUp, Nat.sub_zero,
    Option.bind_eq_bind]
  rw [v.n_eq, for_all_internal_loop (for_all f) c.keys c.edges ks cs ls v.keys_rd v.edges_rd
    hfa2 hcs ks.length 0 [] (by omega)]
  simp only [Option.some_bind, v.edges_rd ks.length (by omega), hc1, hc3, List.nil_append,
    List.drop_zero]
  have e := take_mid_drop ls ks.length (ks.length + 1) ll rfl hc2
  have e2 : ls.drop (ks.length + 1) = [] := List.drop_eq_nil_of_le (by omega)
  rw [e2] at e
  conv_rhs => rw [e, ← List.append_nil ks]
  rw [inter_zip _ _ _ _ _ (by simp; omega)]
  simp [interR]

/-- What `for_all` yields on the children of a `T` tree. -/
theorem forall₂_T_for_all {B h : Nat} (hB : 2 ≤ B) {cs : List BTreeNode}
    {ls : List (List Int)} (hfa : List.Forall₂ (T B h (B - 1)) cs ls) (f : Nat) (hf : h < f) :
    List.Forall₂ (fun c l => for_all f c = some l) cs ls := by
  refine hfa.imp ?_
  intro c1 l1 t1
  exact T_for_all hB h (B - 1) c1 l1 t1 (Or.inr (by have := (T_n t1).1; omega)) f hf

/-- A node seen at two adjacent child slots `e` and `e + 1`. -/
theorem T_zip_at2 {B h lo : Nat} {p a b : BTreeNode} {l : List Int} (t : T B (h + 1) lo p l)
    {e : Nat} (he : e < p.n) (ha : rd p.edges e = some a) (hb : rd p.edges (e + 1) = some b) :
    ∃ kL s kR cL cR lL la lb lR,
      View B p NodeType.INTERNAL (kL ++ s :: kR) (cL ++ a :: b :: cR) ∧
      kL.length = e ∧ cL.length = kL.length ∧ lL.length = kL.length ∧
      List.Forall₂ (T B h (B - 1)) cL lL ∧ T B h (B - 1) a la ∧ T B h (B - 1) b lb ∧
      List.Forall₂ (T B h (B - 1)) cR lR ∧
      l = interL lL kL ++ la ++ s :: (lb ++ interR kR lR) ∧ lo ≤ (kL ++ s :: kR).length := by
  obtain ⟨kL, kR0, cL, cR0, lL, la, lR0, v, hkL, hcL, hlL, fL, ta, fR0, hl, hlo⟩ :=
    T_zip_at t (Nat.le_of_lt he) ha
  have hn := v.n_eq
  have hcs := v.cs_len
  rw [if_pos rfl] at hcs
  simp only [List.length_append, List.length_cons] at hn hcs
  obtain ⟨s, kR, rfl, hkR⟩ := exists_cons_of_length kR0 (kR0.length - 1) (by omega)
  obtain ⟨b0, cR, rfl, hcR⟩ := exists_cons_of_length cR0 kR.length (by
    simp only [List.length_cons] at hcs
    omega)
  have hb0 : rd p.edges (cL.length + 1) = some b0 := rd_edge_mid2 v
  rw [hcL, hkL, hb] at hb0
  cases hb0
  obtain ⟨lb, lR, tb, fR, rfl⟩ := List.forall₂_cons_left_iff.mp fR0
  refine ⟨kL, s, kR, cL, cR, lL, la, lb, lR, v, hkL, hcL, hlL, fL, ta, tb, fR, ?_, hlo⟩
  rw [hl]
  simp [interR]

theorem getElem?_append_add {α : Type} (X Y : List α) (j : Nat) :
    (X ++ Y)[X.length + j]? = Y[j]? := by
  rw [List.getElem?_append_right (by omega)]
  congr 1
  omega

theorem getElem?_zip_add1 {α : Type} (X Y : List α) (x : α) (j : Nat) :
    (X ++ x :: Y)[X.length + 1 + j]? = Y[j]? := by
  have e : X.length + 1 + j = X.length + (j + 1) := by omega
  rw [e, getElem?_append_add, List.getElem?_cons_succ]

theorem getElem?_zip_add2 {α : Type} (X Y : List α) (x y : α) (j : Nat) :
    (X ++ x :: y :: Y)[X.length + 2 + j]? = Y[j]? := by
  have e : X.length + 2 + j = X.length + (j + 1 + 1) := by omega
  rw [e, getElem?_append_add, List.getElem?_cons_succ, List.getElem?_cons_succ]

/-- The two children named in a view of adjacent slots have the same kind, and can be read
at one level. -/
theorem T_views2 {B h : Nat} {a b : BTreeNode} {la lb : List Int}
    (ta : T B h (B - 1) a la) (tb : T B h (B - 1) b lb) :
    ∃ aks acs bks bcs, View B a a.type aks acs ∧ View B b a.type bks bcs := by
  obtain ⟨aks, acs, va⟩ := T_view ta
  obtain ⟨bks, bcs, vb⟩ := T_view tb
  have e : b.type = a.type := by rw [T_type ta, T_type tb]
  rw [e] at vb
  exact ⟨aks, acs, bks, bcs, va, vb⟩

theorem sampleInner_T : T 2 2 0 sampleInner [1, 2, 3, 4, 5, 6, 7] :=
  T_succ.mpr ⟨[4], [sampleRoot 2 [1] [3], sampleRoot 6 [5] [7]], [[1, 2, 3], [5, 6, 7]],
    ⟨rfl, rfl, by decide, rfl, rfl,
      fun i hi => by
        have h0 : i = 0 := by simpa using hi
        subst h0
        rfl,
      fun i hi => by
        have h2 : i < 2 := by simpa using hi
        interval_cases i <;> rfl,
      by simp⟩,
    by simp,
    List.Forall₂.cons
      (T_relo (sampleRoot_T 2 [1] [3] (by decide) (by decide) (by decide) (by decide)) 1
        (Nat.le_refl 1))
      (List.Forall₂.cons
        (T_relo (sampleRoot_T 6 [5] [7] (by decide) (by decide) (by decide) (by decide)) 1
          (Nat.le_refl 1))
        List.Forall₂.nil),
    by simp [inter, interR]⟩

theorem sampleInner_wf : WellFormedNode 2 true 2 sampleInner :=
  T_WF (by decide) 2 true 0 _ _ sampleInner_T (by decide) (Or.inl rfl) (Or.inr (by decide))

/-! ## The red-black tree -/

/-- On a node without children `RBNode::insert` hands back the node as it is: the node made
for `t` by the recursive call is released from `n->left` or `n->right` and its pointer is
dropped. -/
theorem RBNode.insert_childless (fuel : Nat) (k : Int) (c : color_t) (t : Int) :
    RBNode.insert (fuel + 2) (RBPtr.node k c RBPtr.null RBPtr.null) t
      = some (RBPtr.null, RBPtr.node k c RBPtr.null RBPtr.null) := by
  have h0 : ∀ f, RBNode.insert (f + 1) RBPtr.null t
      = some (RBPtr.null, RBPtr.node t RED RBPtr.null RBPtr.null) := by
    intro f
    simp [RBNode.insert, RBPtr.isNull]
  rw [RBNode.insert]
  simp only [RBPtr.isNull, Bool.false_eq_true, if_false, RBNode.insert_flip, RBPtr.get_left,
    RBPtr.get_right, Option.some_bind, RBNode.is_red, Bool.and_self, RBPtr.get_key, h0,
    RBPtr.set_left, RBPtr.set_right]
  by_cases h1 : t < k
  · have h2 : ¬ t > k := by omega
    simp [h1, h2, h0, RBPtr.set_left, RBPtr.set_right, RBNode.insert_rotate_left,
      RBNode.insert_rotate_right, RBPtr.get_left,
      RBPtr.get_right, RBNode.is_red, RBPtr.get_key]
  · by_cases h2 : t > k
    · simp [h1, h2, h0, RBPtr.set_left, RBPtr.set_right, RBNode.insert_rotate_left,
      RBNode.insert_rotate_right, RBPtr.get_left,
        RBPtr.get_right, RBNode.is_red, RBPtr.get_key]
    · simp [h1, h2, h0, RBPtr.set_left, RBPtr.set_right, RBNode.insert_rotate_left,
      RBNode.insert_rotate_right, RBPtr.get_left,
        RBPtr.get_right, RBNode.is_red, RBPtr.get_key]

theorem RBTree.insert_single (fuel : Nat) (k t : Int) :
    RBTree.insert (fuel + 2) (RBTree.single k) t = some (true, RBTree.single k) := by
  simp [RBTree.insert, RBTree.single, RBPtr.isNull, RBNode.insert_childless, RBPtr.get_color]

theorem RBTree.insert_keys_single (fuel : Nat) (k : Int) (ks : List Int) :
    RBTree.insert_keys (fuel + 2) (RBTree.single k) ks = some (RBTree.single k) := by
  induction ks with
  | nil => rfl
  | cons t ks ih => simp [RBTree.insert_keys, RBTree.insert_single, ih]

theorem RBTree.contains_single (k t : Int) :
    (RBTree.single k).contains t = true ↔ t = k := by
  simp [RBTree.contains, RBTree.single, RBPtr.isNull, RBNode.contains]

/-! ## Trees whose root is a leaf, and a sample node of height 3 -/

theorem insSpec_length (k : Int) (l : List Int) : (insSpec k l).length = l.length + 1 := by
  induction l with
  | nil => rfl
  | cons x l ih =>
    simp only [insSpec, List.length_append, List.length_cons] at ih ⊢
    by_cases h : x < k
    · simp only [List.filter_cons, h, decide_True, if_true, not_true_eq_false, decide_False,
        List.length_cons] at ih ⊢
      simp at ih ⊢
      omega
    · simp only [List.filter_cons, h, decide_True, if_true, not_false_eq_true, decide_False,
        List.length_cons] at ih ⊢
      simp at ih ⊢
      omega

/-- One `insert` of a key that is not stored into a well-formed tree whose root is absent or a
leaf with fewer than `2B - 1` keys: the root is a leaf afterwards. -/
theorem wf_insert_step_leaf {B : Nat} (hB : 2 ≤ B) {t : BTree} (hwf : t.WellFormedAt B 0)
    (k : Int) (fuel : Nat) (hf : 1 < fuel) {l : List Int} (hfa : t.for_all fuel = some l)
    (hk : k ∉ l) (hlen : l.length < 2 * B - 1) :
    ∃ r1, BTree.insert B fuel t k = some (true, BTree.mk (some r1)) ∧
      (BTree.mk (some r1)).WellFormedAt B 0 ∧
      (BTree.mk (some r1)).for_all fuel = some (insSpec k l) := by
  cases hr : t.root with
  | none =>
    have hl : l = [] := by
      simp only [BTree.for_all, hr] at hfa
      cases hfa
      rfl
    subst hl
    obtain ⟨r1, h1, h2, h3⟩ := tree_insert_empty hB hr k fuel
    refine ⟨r1, h1, wf_mk (T_WF hB 0 true 0 r1 [k] h2 (by simp) (Or.inl rfl) (Or.inl rfl)), ?_⟩
    simpa [BTree.for_all, insSpec] using T_for_all hB 0 0 r1 [k] h2 (Or.inl rfl) fuel (by omega)
  | some r =>
    obtain ⟨hd, hw⟩ := wf_live hwf hr
    obtain ⟨l0, tr, hp, hn⟩ := wf_root hB hw
    have hfa0 := T_for_all hB 0 0 r l0 tr hn fuel (by omega)
    simp only [BTree.for_all, hr, hd, Bool.false_eq_true, if_false] at hfa
    rw [hfa0] at hfa
    cases hfa
    obtain ⟨r1, h1, hi, ht, hn1, hh⟩ := tree_insert_root hB hr hd tr hp hn k fuel hf
    have hrn := (T_zero.mp tr).1.n_eq
    rw [if_neg (by omega)] at hh
    subst hh
    refine ⟨r1, hi, wf_mk (T_WF hB 0 true 0 r1 _ ht (insSpec_pairwise k _ hp hk)
      (Or.inl rfl) (Or.inr hn1)), ?_⟩
    simpa [BTree.for_all] using T_for_all hB 0 0 r1 _ ht (Or.inr hn1) fuel (by omega)

/-- The insertion loop of the driver on a well-formed tree whose root is absent or a leaf, with
distinct keys that are not stored and fit into the leaf: all are inserted and the root is a
leaf afterwards. -/
theorem insert_keys_leaf {B : Nat} (hB : 2 ≤ B) (fuel : Nat) (hf : 1 < fuel) :
    ∀ (ks : List Int) (t : BTree) (l : List Int), t.WellFormedAt B 0 →
    t.for_all fuel = some l → l.length + ks.length ≤ 2 * B - 1 → ks.Nodup →
    (∀ k ∈ ks, k ∉ l) →
    ∃ t1 l1, BTree.insert_keys B fuel t ks = some t1 ∧ t1.WellFormedAt B 0 ∧
      t1.for_all fuel = some l1 ∧ (∀ x, x ∈ l1 ↔ x ∈ l ∨ x ∈ ks) ∧
      (ks ≠ [] → t1.root ≠ none) := by
  intro ks
  induction ks with
  | nil =>
    intro t l hwf hfa _ _ _
    exact ⟨t, l, rfl, hwf, hfa, by simp, fun hne => absurd rfl hne⟩
  | cons k ks ih =>
    intro t l hwf hfa hlen hnd hk
    simp only [List.length_cons] at hlen
    obtain ⟨hk1, hnd1⟩ := List.nodup_cons.mp hnd
    obtain ⟨r1, hi, hwf1, hfa1⟩ := wf_insert_step_leaf hB hwf k fuel hf hfa
      (hk k (List.mem_cons_self _ _)) (by omega)
    obtain ⟨t2, l2, hi2, hwf2, hfa2, hmem, hroot⟩ := ih _ _ hwf1 hfa1
      (by rw [insSpec_length]; omega) hnd1
      (fun x hx hx1 => by
        rcases (mem_insSpec k l x).mp hx1 with e | e
        · exact hk1 (e ▸ hx)
        · exact hk x (List.mem_cons_of_mem _ hx) e)
    refine ⟨t2, l2, ?_, hwf2, hfa2, ?_, ?_⟩
    · simp only [BTree.insert_keys, hi, Option.some_bind, hi2]
    · intro x
      rw [hmem x, mem_insSpec, List.mem_cons]
      tauto
    · intro _
      cases ks with
      | nil =>
        simp only [BTree.insert_keys] at hi2
        cases hi2
        simp
      | cons k2 ks2 => exact hroot (by simp)

theorem sampleNode_T {h : Nat} (ks : List Int) (cs : List BTreeNode) (ls : List (List Int))
    (hk1 : 1 ≤ ks.length) (hk3 : ks.length ≤ 3) (hcs : cs.length = ks.length + 1)
    (hfa : List.Forall₂ (T 2 h 1) cs ls) : T 2 (h + 1) 1 (sampleNode ks cs) (inter ls ks) := by
  refine T_succ.mpr ⟨ks, cs, ls, ⟨rfl, rfl, by omega, by simp [sampleNode]; omega,
    by simp [sampleNode]; omega, ?_, ?_, by simp [hcs]⟩, hk1, hfa, rfl⟩
  · intro i hi
    simp only [sampleNode, BTreeNode.keys_mk, rd]
    rw [List.getElem?_append_left (by simpa using hi), List.getElem?_map,
      List.getElem?_eq_getElem hi]
    rfl
  · intro i hi
    simp only [sampleNode, BTreeNode.edges_mk, rd]
    rw [List.getElem?_append_left (by simpa using hi), List.getElem?_map,
      List.getElem?_eq_getElem hi]
    rfl

theorem sampleDeep_T : T 2 3 1 sampleDeep
    [1, 2, 3, 4, 5, 6, 7, 8, 9, 10, 11, 12, 14, 16, 18, 20, 22, 24, 26] :=
  sampleNode_T [12] _ [[1, 2, 3, 4, 5, 6, 7, 8, 9, 10, 11], [14, 16, 18, 20, 22, 24, 26]]
    (by decide) (by decide) rfl
    (List.Forall₂.cons
      (sampleNode_T [4, 8] _ [[1, 2, 3], [5, 6, 7], [9, 10, 11]] (by decide) (by decide) rfl
        (List.Forall₂.cons
          (T_relo (sampleRoot_T 2 [1] [3] (by decide) (by decide) (by decide) (by decide)) 1
            (Nat.le_refl 1))
          (List.Forall₂.cons
            (T_relo (sampleRoot_T 6 [5] [7] (by decide) (by decide) (by decide) (by decide)) 1
              (Nat.le_refl 1))
            (List.Forall₂.cons
              (T_relo (sampleRoot_T 10 [9] [11] (by decide) (by decide) (by decide)
                (by decide)) 1 (Nat.le_refl 1))
              List.Forall₂.nil))))
      (List.Forall₂.cons
        (sampleNode_T [20] _ [[14, 16, 18], [22, 24, 26]] (by decide) (by decide) rfl
          (List.Forall₂.cons
            (T_relo (sampleRoot_T 16 [14] [18] (by decide) (by decide) (by decide)
              (by decide)) 1 (Nat.le_refl 1))
            (List.Forall₂.cons
              (T_relo (sampleRoot_T 24 [22] [26] (by decide) (by decide) (by decide)
                (by decide)) 1 (Nat.le_refl 1))
              List.Forall₂.nil)))
        List.Forall₂.nil))

theorem sampleDeep_wf (isRoot : Bool) : WellFormedNode 2 isRoot 3 sampleDeep :=
  T_WF (by decide) 3 isRoot 1 _ _ sampleDeep_T (by decide) (Or.inr (by decide))
    (Or.inr (by decide))

/-! ## Results on `BTree.insert` and `BTree.remove` -/

/-- C1: for every `B >= 2`, every well-formed tree of height `h` (or empty tree) and every
key `k`, with a recursion budget above `h + 1`: `for_all` yields the stored keys `l` in
strictly increasing order and, when `k` is not among them, `insert` returns and afterwards
`for_all` yields `l` with `k` inserted at its sorted position, a strictly increasing list
holding exactly `k` and the previous keys. -/
theorem BTree.insert_inorder (B : Nat) (hB : 2 ≤ B) (t : BTree) (h : Nat)
    (hwf : t.WellFormedAt B h) (k : Int) (fuel : Nat) (hfuel : h + 1 < fuel) :
    ∃ l, t.for_all fuel = some l ∧ l.Sorted (· < ·) ∧
      (k ∉ l → ∃ r t1, BTree.insert B fuel t k = some (r, t1) ∧
        t1.for_all fuel = some (l.orderedInsert (· ≤ ·) k) ∧
        (l.orderedInsert (· ≤ ·) k).Sorted (· < ·) ∧
        ∀ x, x ∈ l.orderedInsert (· ≤ ·) k ↔ x = k ∨ x ∈ l) := by
  cases hr : t.root with
  | none =>
    refine ⟨[], by simp [BTree.for_all, hr], List.sorted_nil, fun _ => ?_⟩
    obtain ⟨r1, h1, h2, h3⟩ := tree_insert_empty hB hr k fuel
    refine ⟨true, _, h1, ?_, by simp, by simp⟩
    simpa [BTree.for_all] using T_for_all hB 0 0 r1 [k] h2 (Or.inl rfl) fuel (by omega)
  | some r =>
    obtain ⟨hd, hw⟩ := wf_live hwf hr
    obtain ⟨l, tr, hp, hn⟩ := wf_root hB hw
    refine ⟨l, by simpa [BTree.for_all, hr, hd] using T_for_all hB h 0 r l tr hn fuel (by omega),
      hp, fun hk => ?_⟩
    obtain ⟨r1, h1, hi, ht, hn1, hh⟩ := tree_insert_root hB hr hd tr hp hn k fuel hfuel
    have hh1 : h1 ≤ h + 1 := by rw [hh]; split <;> omega
    have hfa := T_for_all hB h1 0 r1 _ ht (Or.inr hn1) fuel (by omega)
    rw [insSpec_eq_orderedInsert k l hp] at hfa
    refine ⟨true, _, hi, by simpa [BTree.for_all] using hfa, ?_, ?_⟩
    · rw [← insSpec_eq_orderedInsert k l hp]
      exact insSpec_pairwise k l hp hk
    · intro x
      rw [← insSpec_eq_orderedInsert k l hp]
      exact mem_insSpec k l x

/-- Witness of C1: inserting 6 into the sample tree `[3]` over `[1, 2]` and `[4, 5]`. -/
theorem BTree.insert_inorder_witness :
    sampleTreeB.WellFormedAt 2 1 ∧
    ∃ l, sampleTreeB.for_all 3 = some l ∧ l.Sorted (· < ·) ∧
      ((6 : Int) ∉ l → ∃ r t1, BTree.insert 2 3 sampleTreeB 6 = some (r, t1) ∧
        t1.for_all 3 = some (l.orderedInsert (· ≤ ·) 6) ∧
        (l.orderedInsert (· ≤ ·) 6).Sorted (· < ·) ∧
        ∀ x, x ∈ l.orderedInsert (· ≤ ·) 6 ↔ x = 6 ∨ x ∈ l) :=
  ⟨sampleTreeB_wf, BTree.insert_inorder 2 (by decide) sampleTreeB 1 sampleTreeB_wf 6 3
    (by decide)⟩

/-- C2, evaluated for `B = 2`.  On the well-formed tree `[2]` over the leaves `[1]` and `[3]`,
`remove(2)` of the stored key 2 merges the two leaves, removes 2 from the merged leaf and
collapses the root: `root` is set to the leaf `[1, 3]`, and `delete prev_root` releases that
leaf together with the old root.  The tree is left with a root that has been deleted, and
`for_all` on it is undefined with every recursion budget instead of yielding `[1, 3]`.  On the
well-formed tree of height 2 with root `[4]` over `[2]` and `[6]`, `remove(7)` of the stored
key 7 is undefined with every recursion budget: it merges the two internal nodes, which
releases the leaves `[5]` and `[7]`, and then enters the released leaf `[7]`. -/
theorem BTree.remove_stored_key_deletes_root :
    sampleTreeA.WellFormedAt 2 1 ∧ sampleTreeA.for_all 3 = some [1, 2, 3] ∧
    (∃ t1 r1 d, BTree.remove 2 3 sampleTreeA 2 = some (true, t1) ∧ t1.root = some r1 ∧
      BTreeNode.for_all 1 r1 = some [1, 3] ∧
      BTree.remove_root_deleted 2 3 sampleTreeA 2 = some d ∧ r1 ∈ d ∧ t1.deleted = true ∧
      ∀ fuel, t1.for_all fuel = none) ∧
    (BTree.mk (some sampleInner)).WellFormedAt 2 2 ∧
    (BTree.mk (some sampleInner)).for_all 3 = some [1, 2, 3, 4, 5, 6, 7] ∧
    ∀ fuel, BTree.remove 2 fuel (BTree.mk (some sampleInner)) 7 = none :=
  ⟨sampleTreeA_wf, rfl,
    ⟨_, _, _, rfl, rfl, rfl, rfl, List.mem_iff_getElem?.mpr ⟨0, rfl⟩, rfl, fun _ => rfl⟩,
    wf_mk sampleInner_wf, rfl,
    fun fuel => by
      cases fuel with
      | zero => rfl
      | succ f =>
        cases f with
        | zero => rfl
        | succ f => rfl⟩

/-- C3: `insert` preserves the B-tree invariants: for every `B >= 2`, every well-formed tree
of height `h` (or empty tree) and every key `k` not stored in it, with a recursion budget
above `h + 1`, `insert` returns a non-empty tree that is well formed at some height: sorted
keys in every node, separators strictly between the keys of the adjacent subtrees, key
counts in `[B - 1, 2B - 1]` below the root and at most `2B - 1` in the root, `n + 1`
children in every internal node and all leaves at the same depth. -/
theorem BTree.insert_keeps_invariants (B : Nat) (hB : 2 ≤ B) (t : BTree) (h : Nat)
    (hwf : t.WellFormedAt B h) (k : Int) (fuel : Nat) (hfuel : h + 1 < fuel)
    (hk : ∀ l, t.for_all fuel = some l → k ∉ l) :
    ∃ r t1 r1 h1, BTree.insert B fuel t k = some (r, t1) ∧ t1.root = some r1 ∧
      t1.WellFormedAt B h1 := by
  cases hr : t.root with
  | none =>
    obtain ⟨r1, h1, h2, h3⟩ := tree_insert_empty hB hr k fuel
    exact ⟨true, _, r1, 0, h1, rfl, wf_mk (T_WF hB 0 true 0 r1 [k] h2 (by simp) (Or.inl rfl)
      (Or.inl rfl))⟩
  | some r =>
    obtain ⟨hd, hw⟩ := wf_live hwf hr
    obtain ⟨l, tr, hp, hn⟩ := wf_root hB hw
    have hfa0 : t.for_all fuel = some l := by
      simpa [BTree.for_all, hr, hd] using T_for_all hB h 0 r l tr hn fuel (by omega)
    obtain ⟨r1, h1, hi, ht, hn1, hh⟩ := tree_insert_root hB hr hd tr hp hn k fuel hfuel
    refine ⟨true, _, r1, h1, hi, rfl, ?_⟩
    exact wf_mk (T_WF hB h1 true 0 r1 _ ht (insSpec_pairwise k l hp (hk l hfa0)) (Or.inl rfl)
      (Or.inr hn1))

/-- Witness of C3: inserting 6 into the sample tree `[3]` over `[1, 2]` and `[4, 5]`. -/
theorem BTree.insert_keeps_invariants_witness :
    sampleTreeB.WellFormedAt 2 1 ∧ (∀ l, sampleTreeB.for_all 3 = some l → (6 : Int) ∉ l) ∧
    ∃ r t1 r1 h1, BTree.insert 2 3 sampleTreeB 6 = some (r, t1) ∧ t1.root = some r1 ∧
      t1.WellFormedAt 2 h1 :=
  ⟨sampleTreeB_wf, fun l hl => by cases hl; decide,
    BTree.insert_keeps_invariants 2 (by decide) sampleTreeB 1 sampleTreeB_wf 6 3 (by decide)
      (fun l hl => by cases hl; decide)⟩

/-- C4, evaluated for `B = 2` on the well-formed tree `[2]` over the leaves `[1]` and `[3]`:
`remove(1)` merges the two leaves, removes 1 from the merged leaf and collapses the root;
`delete prev_root` releases the new root, which is still in slot 0 of the old root.  The tree
after the call has a root that has been deleted: it is well formed at no height, and `depth`
and `for_all` on it are undefined with every recursion budget. -/
theorem BTree.remove_breaks_invariants :
    sampleTreeA.WellFormedAt 2 1 ∧
    ∃ t1 r1 d, BTree.remove 2 3 sampleTreeA 1 = some (true, t1) ∧ t1.root = some r1 ∧
      BTree.remove_root_deleted 2 3 sampleTreeA 1 = some d ∧ r1 ∈ d ∧ t1.deleted = true ∧
      (∀ h, ¬ t1.WellFormedAt 2 h) ∧ (∀ fuel, t1.depth fuel = none) ∧
      ∀ fuel, t1.for_all fuel = none :=
  ⟨sampleTreeA_wf, _, _, _, rfl, rfl, rfl, List.mem_iff_getElem?.mpr ⟨0, rfl⟩, rfl,
    fun _ hw => absurd hw.1 (by decide), fun _ => rfl, fun _ => rfl⟩

/-- C5 as stated fails, on `B = 3`: `insert(5)` on the empty tree returns `true` and stores
5; a second `insert(5)` returns `true` again, not `false`, and stores 5 a second time. -/
theorem BTree.insert_stored_key_returns_true :
    ∃ t1 t2, BTree.insert 3 2 (BTree.mk none) 5 = some (true, t1) ∧
      t1.for_all 2 = some [5] ∧ BTree.insert 3 2 t1 5 = some (true, t2) ∧
      t2.for_all 2 = some [5, 5] :=
  ⟨_, _, rfl, rfl, rfl, rfl⟩

/-- C5 as amended: for every `B >= 2`, every well-formed tree of height `h` (or empty tree)
and every key `k`, stored or not, with a recursion budget above `h + 1`: `insert(k)` returns
`true` and stores `k`; the in-order sequence afterwards is the previous one with `k` put at
its sorted position, so `k` occurs once more than before. -/
theorem BTree.insert_always_true (B : Nat) (hB : 2 ≤ B) (t : BTree) (h : Nat)
    (hwf : t.WellFormedAt B h) (k : Int) (fuel : Nat) (hfuel : h + 1 < fuel) :
    ∃ l t1, t.for_all fuel = some l ∧ BTree.insert B fuel t k = some (true, t1) ∧
      t1.for_all fuel = some (l.orderedInsert (· ≤ ·) k) ∧
      (l.orderedInsert (· ≤ ·) k).count k = l.count k + 1 := by
  have hcount : ∀ l : List Int, (l.orderedInsert (· ≤ ·) k).count k = l.count k + 1 := by
    intro l
    rw [(List.perm_orderedInsert (· ≤ ·) k l).count_eq]
    simp
  cases hr : t.root with
  | none =>
    obtain ⟨r1, h1, h2, h3⟩ := tree_insert_empty hB hr k fuel
    refine ⟨[], _, by simp [BTree.for_all, hr], h1, ?_, hcount []⟩
    simpa [BTree.for_all] using T_for_all hB 0 0 r1 [k] h2 (Or.inl rfl) fuel (by omega)
  | some r =>
    obtain ⟨hd, hw⟩ := wf_live hwf hr
    obtain ⟨l, tr, hp, hn⟩ := wf_root hB hw
    obtain ⟨r1, h1, hi, ht, hn1, hh⟩ := tree_insert_root hB hr hd tr hp hn k fuel hfuel
    have hh1 : h1 ≤ h + 1 := by rw [hh]; split <;> omega
    have hfa := T_for_all hB h1 0 r1 _ ht (Or.inr hn1) fuel (by omega)
    rw [insSpec_eq_orderedInsert k l hp] at hfa
    exact ⟨l, _, by simpa [BTree.for_all, hr, hd] using T_for_all hB h 0 r l tr hn fuel (by omega),
      hi, by simpa [BTree.for_all] using hfa, hcount l⟩

/-- Witness of the amended C5: inserting the stored key 3 into the sample tree `[3]` over
`[1, 2]` and `[4, 5]`. -/
theorem BTree.insert_always_true_witness :
    sampleTreeB.WellFormedAt 2 1 ∧
    ∃ l t1, sampleTreeB.for_all 3 = some l ∧ BTree.insert 2 3 sampleTreeB 3 = some (true, t1) ∧
      t1.for_all 3 = some (l.orderedInsert (· ≤ ·) 3) ∧
      (l.orderedInsert (· ≤ ·) 3).count 3 = l.count 3 + 1 :=
  ⟨sampleTreeB_wf, BTree.insert_always_true 2 (by decide) sampleTreeB 1 sampleTreeB_wf 3 3
    (by decide)⟩

/-- C6 as stated fails, on the well-formed `B = 2` sample tree `[3]` over `[1, 2]` and
`[4, 5]`: after `insert(6)` the in-order sequence is `[1, 2, 3, 4, 5, 6]`; after a second
`insert(6)` it is `[1, 2, 3, 4, 5, 6, 6]`, not the sequence left by the first call. -/
theorem BTree.insert_twice_changes_inorder :
    sampleTreeB.WellFormedAt 2 1 ∧
    ∃ r1 t1 r2 t2, BTree.insert 2 3 sampleTreeB 6 = some (r1, t1) ∧
      BTree.insert 2 3 t1 6 = some (r2, t2) ∧
      t1.for_all 3 = some [1, 2, 3, 4, 5, 6] ∧ t2.for_all 3 = some [1, 2, 3, 4, 5, 6, 6] ∧
      t2.for_all 3 ≠ t1.for_all 3 :=
  ⟨sampleTreeB_wf, _, _, _, _, rfl, rfl, rfl, rfl, by decide⟩

/-- C6 as amended: for every `B >= 2`, every well-formed tree of height `h` (or empty tree)
and every key `k` not stored in it, with a recursion budget above `h + 2`: two calls of
`insert(k)` in a row both return `true`; after the first the in-order sequence is the
previous one with `k` at its sorted position, after the second it holds `k` a second time at
the same position, so `k` occurs exactly twice. -/
theorem BTree.insert_twice_stores_twice (B : Nat) (hB : 2 ≤ B) (t : BTree) (h : Nat)
    (hwf : t.WellFormedAt B h) (k : Int) (fuel : Nat) (hfuel : h + 2 < fuel) :
    ∃ l, t.for_all fuel = some l ∧ (k ∉ l → ∃ t1 t2,
      BTree.insert B fuel t k = some (true, t1) ∧ BTree.insert B fuel t1 k = some (true, t2) ∧
      t1.for_all fuel = some (l.orderedInsert (· ≤ ·) k) ∧
      t2.for_all fuel = some ((l.orderedInsert (· ≤ ·) k).orderedInsert (· ≤ ·) k) ∧
      ((l.orderedInsert (· ≤ ·) k).orderedInsert (· ≤ ·) k).count k = 2) := by
  have hcount : ∀ l : List Int, (l.orderedInsert (· ≤ ·) k).count k = l.count k + 1 := by
    intro l
    rw [(List.perm_orderedInsert (· ≤ ·) k l).count_eq]
    simp
  have hsecond : ∀ (r1 : BTreeNode) (h1 : Nat) (l : List Int), h1 ≤ h + 1 →
      T B h1 0 r1 (insSpec k l) → 1 ≤ r1.n → l.Pairwise (· < ·) → k ∉ l →
      ∃ t2, BTree.insert B fuel (BTree.mk (some r1)) k = some (true, t2) ∧
        t2.for_all fuel = some ((l.orderedInsert (· ≤ ·) k).orderedInsert (· ≤ ·) k) := by
    intro r1 h1 l hh1 ht hn1 hp hk
    have hp1 := insSpec_pairwise k l hp hk
    obtain ⟨r2, h2, hi2, ht2, hn2, hh2⟩ := tree_insert_root hB (t := BTree.mk (some r1)) rfl rfl ht
      hp1 (Or.inr hn1) k fuel (by omega)
    have hh3 : h2 ≤ h1 + 1 := by rw [hh2]; split <;> omega
    have hfa := T_for_all hB h2 0 r2 _ ht2 (Or.inr hn2) fuel (by omega)
    rw [insSpec_eq_orderedInsert k _ hp1, insSpec_eq_orderedInsert k l hp] at hfa
    exact ⟨_, hi2, by simpa [BTree.for_all] using hfa⟩
  cases hr : t.root with
  | none =>
    refine ⟨[], by simp [BTree.for_all, hr], fun hk => ?_⟩
    obtain ⟨r1, h1, h2, h3⟩ := tree_insert_empty hB hr k fuel
    obtain ⟨t2, hi2, hfa2⟩ := hsecond r1 0 [] (by omega) h2 (by omega) List.Pairwise.nil hk
    refine ⟨_, t2, h1, hi2, ?_, hfa2, by rw [hcount, hcount]; simp⟩
    simpa [BTree.for_all] using T_for_all hB 0 0 r1 [k] h2 (Or.inl rfl) fuel (by omega)
  | some r =>
    obtain ⟨hd, hw⟩ := wf_live hwf hr
    obtain ⟨l, tr, hp, hn⟩ := wf_root hB hw
    refine ⟨l, by simpa [BTree.for_all, hr, hd] using T_for_all hB h 0 r l tr hn fuel (by omega),
      fun hk => ?_⟩
    obtain ⟨r1, h1, hi, ht, hn1, hh⟩ := tree_insert_root hB hr hd tr hp hn k fuel (by omega)
    have hh1 : h1 ≤ h + 1 := by rw [hh]; split <;> omega
    obtain ⟨t2, hi2, hfa2⟩ := hsecond r1 h1 l hh1 ht hn1 hp hk
    have hfa := T_for_all hB h1 0 r1 _ ht (Or.inr hn1) fuel (by omega)
    rw [insSpec_eq_orderedInsert k l hp] at hfa
    refine ⟨_, t2, hi, hi2, by simpa [BTree.for_all] using hfa, hfa2, ?_⟩
    rw [hcount, hcount, List.count_eq_zero_of_not_mem hk]

/-- Witness of the amended C6: inserting 6 twice into the sample tree `[3]` over `[1, 2]`
and `[4, 5]`. -/
theorem BTree.insert_twice_stores_twice_witness :
    sampleTreeB.WellFormedAt 2 1 ∧
    ∃ l, sampleTreeB.for_all 4 = some l ∧ ((6 : Int) ∉ l → ∃ t1 t2,
      BTree.insert 2 4 sampleTreeB 6 = some (true, t1) ∧
      BTree.insert 2 4 t1 6 = some (true, t2) ∧
      t1.for_all 4 = some (l.orderedInsert (· ≤ ·) 6) ∧
      t2.for_all 4 = some ((l.orderedInsert (· ≤ ·) 6).orderedInsert (· ≤ ·) 6) ∧
      ((l.orderedInsert (· ≤ ·) 6).orderedInsert (· ≤ ·) 6).count 6 = 2) :=
  ⟨sampleTreeB_wf, BTree.insert_twice_stores_twice 2 (by decide) sampleTreeB 1 sampleTreeB_wf 6 4
    (by decide)⟩

/-- C7, evaluated on two well-formed `B = 2` sample trees.  On the tree `[2]` over `[1]` and
`[3]`, `remove(5)` of the absent key 5 returns `true`, not `false`.  On the tree `[3]` over
`[1, 2]` and `[4, 5]`, `remove(6)` of the absent key 6 returns `true`, not `false`, and leaves
the tree as it was, with the same stored keys. -/
theorem BTree.remove_absent_key_returns_true :
    sampleTreeA.WellFormedAt 2 1 ∧ sampleTreeA.for_all 3 = some [1, 2, 3] ∧
    (∃ t1, BTree.remove 2 3 sampleTreeA 5 = some (true, t1)) ∧
    sampleTreeB.WellFormedAt 2 1 ∧ sampleTreeB.for_all 3 = some [1, 2, 3, 4, 5] ∧
    BTree.remove 2 3 sampleTreeB 6 = some (true, sampleTreeB) :=
  ⟨sampleTreeA_wf, rfl, ⟨_, rfl⟩, sampleTreeB_wf, rfl, rfl⟩

/-- C8 as stated fails, on the well-formed `B = 2` tree with root `[3]` over the leaves `[1]`
and `[4, 5]`, which does not store 0: `remove(0)` finds only one key in the leaf `[1]` it is
about to enter and makes it borrow from its right sibling before it descends.  The tree
after the call has the root `[4]` over the leaves `[1, 3]` and `[5]`: the same keys, the same
depth, no node released, but not the nodes, keys and children of the tree before the call. -/
theorem BTree.remove_absent_key_restructures :
    (BTree.mk (some (sampleRoot 3 [1] [4, 5]))).WellFormedAt 2 1 ∧
    (BTree.mk (some (sampleRoot 3 [1] [4, 5]))).for_all 3 = some [1, 3, 4, 5] ∧
    ∃ t1 r1 a1 b1, BTree.remove 2 3 (BTree.mk (some (sampleRoot 3 [1] [4, 5]))) 0 = some (true, t1) ∧
      t1 ≠ BTree.mk (some (sampleRoot 3 [1] [4, 5])) ∧ t1.deleted = false ∧
      t1.root = some r1 ∧ r1.n = 1 ∧ rd r1.keys 0 = some 4 ∧
      rd r1.edges 0 = some a1 ∧ rd r1.edges 1 = some b1 ∧
      BTreeNode.for_all 1 a1 = some [1, 3] ∧ BTreeNode.for_all 1 b1 = some [5] ∧
      t1.for_all 3 = some [1, 3, 4, 5] ∧ t1.depth 3 = some (some 1) :=
  ⟨wf_mk (sampleRoot_wf 3 [1] [4, 5] (by decide) (by decide) (by decide) (by decide)
      (by decide)), rfl, _, _, _, _, rfl,
    fun e => absurd (congrArg (fun t => t.root.bind (fun r => rd r.keys 0)) e) (by decide),
    rfl, rfl, rfl, rfl, rfl, rfl, rfl, rfl, rfl, rfl⟩

/-- C8 as amended: for every `B >= 2`, every well-formed tree of height `h` and every key
`k` not stored in it, with a recursion budget above `h`: if no child that the removal
descends into holds fewer than `B` keys, `remove(k)` returns and the tree after the call is
identical to the tree before it, in every node, key slot and child slot. -/
theorem BTree.remove_absent_key_unchanged (B : Nat) (hB : 2 ≤ B) (t : BTree) (h : Nat)
    (hwf : t.WellFormedAt B h) (k : Int) (fuel : Nat) (hfuel : h < fuel)
    (hk : ∀ l, t.for_all fuel = some l → k ∉ l)
    (hpath : ∀ r, t.root = some r → no_fix_path B k fuel r) :
    ∃ res, BTree.remove B fuel t k = some (res, t) := by
  cases hr : t.root with
  | none => exact ⟨false, by simp [BTree.remove, hr]⟩
  | some r =>
    obtain ⟨hd, hw⟩ := wf_live hwf hr
    obtain ⟨l, tr, hp, hn⟩ := wf_root hB hw
    have hfa0 : t.for_all fuel = some l := by
      simpa [BTree.for_all, hr, hd] using T_for_all hB h 0 r l tr hn fuel (by omega)
    obtain ⟨b, hb⟩ := remove_unchanged_T k h 0 r l tr (hk l hfa0) fuel hfuel (hpath r hr)
    have hty := T_type tr
    have hnc : ¬ (r.n = 0 ∧ r.type = NodeType.INTERNAL) := by
      rintro ⟨h1, h2⟩
      rcases hn with h0 | h0
      · rw [h0, if_pos rfl, h2] at hty
        cases hty
      · omega
    refine ⟨true, ?_⟩
    rw [BTree.eq_mk hr hd]
    simp only [BTree.remove, hb, Option.bind_eq_bind, Option.some_bind, if_neg hnc,
      Bool.false_eq_true, if_false]

/-- Witness of the amended C8: removing the absent key 6 from the sample tree `[3]` over
`[1, 2]` and `[4, 5]`, whose last leaf holds `B = 2` keys. -/
theorem BTree.remove_absent_key_unchanged_witness :
    sampleTreeB.WellFormedAt 2 1 ∧ (∀ l, sampleTreeB.for_all 3 = some l → (6 : Int) ∉ l) ∧
    (∀ r, sampleTreeB.root = some r → no_fix_path 2 6 3 r) ∧
    ∃ res, BTree.remove 2 3 sampleTreeB 6 = some (res, sampleTreeB) :=
  ⟨sampleTreeB_wf, fun l hl => by cases hl; decide,
    fun r hr => by
      cases hr
      exact Or.inr ⟨1, sampleLeaf [4, 5], rfl, rfl, by decide, Or.inl rfl⟩,
    BTree.remove_absent_key_unchanged 2 (by decide) sampleTreeB 1 sampleTreeB_wf 6 3 (by decide)
      (fun l hl => by cases hl; decide)
      (fun r hr => by
        cases hr
        exact Or.inr ⟨1, sampleLeaf [4, 5], rfl, rfl, by decide, Or.inl rfl⟩)⟩

/-- C9, evaluated for `B = 2` on the tree reached from the empty tree by `insert` of 1, 2, 3, 4
and `remove` of 4 and 3.  After `remove(4)` the tree holds 1, 2, 3 and `search` on its root
finds each of them.  `remove(3)` then merges the two leaves and collapses the root, and
`delete prev_root` releases the new root, the leaf `[1, 2]`: the reachable tree that holds the
keys 1 and 2, inserted and never removed, has a root that has been deleted, so the node that
`search(root, k)` is called with is a released node; `for_all` on the tree is undefined with
every recursion budget. -/
theorem BTree.search_on_deleted_root :
    ∃ t0 t1 r1 t2 r2 d,
      BTree.insert_keys 2 3 (BTree.mk none) [1, 2, 3, 4] = some t0 ∧
      BTree.remove 2 3 t0 4 = some (true, t1) ∧ t1.for_all 3 = some [1, 2, 3] ∧
      t1.root = some r1 ∧ t1.deleted = false ∧
      (∀ k ∈ [1, 2, 3], ∃ node i,
        BTreeNode.search 3 r1 k = some (some (node, i)) ∧ rd node.keys i = some k) ∧
      BTree.remove 2 3 t1 3 = some (true, t2) ∧ BTree.Reachable 2 t2 ∧
      t2.root = some r2 ∧ BTreeNode.for_all 1 r2 = some [1, 2] ∧
      BTree.remove_root_deleted 2 3 t1 3 = some d ∧ r2 ∈ d ∧ t2.deleted = true ∧
      ∀ fuel, t2.for_all fuel = none :=
  ⟨_, _, _, _, _, _, rfl, rfl, rfl, rfl, rfl,
    fun k hk => by
      simp only [List.mem_cons, List.mem_singleton, List.not_mem_nil, or_false] at hk
      rcases hk with rfl | rfl | rfl <;> exact ⟨_, _, rfl, rfl⟩,
    rfl,
    BTree.Reachable.remove 3
      (BTree.Reachable.remove 4
        (BTree.Reachable.insert 4
          (BTree.Reachable.insert 3
            (BTree.Reachable.insert 2
              (BTree.Reachable.insert 1 BTree.Reachable.empty
                ⟨0, fun _ _ => ⟨[], true, rfl, by simp, rfl⟩⟩)
              ⟨1, fun fuel hf => by
                obtain ⟨f, rfl⟩ : ∃ f, fuel = f + 1 := ⟨fuel - 1, by omega⟩
                exact ⟨[1], true, rfl, by decide, rfl⟩⟩)
            ⟨1, fun fuel hf => by
              obtain ⟨f, rfl⟩ : ∃ f, fuel = f + 1 := ⟨fuel - 1, by omega⟩
              exact ⟨[1, 2], true, rfl, by decide, rfl⟩⟩)
          ⟨2, fun fuel hf => by
            obtain ⟨f, rfl⟩ : ∃ f, fuel = f + 2 := ⟨fuel - 2, by omega⟩
            exact ⟨[1, 2, 3], true, rfl, by decide, rfl⟩⟩)
        ⟨2, fun fuel hf => by
          obtain ⟨f, rfl⟩ : ∃ f, fuel = f + 2 := ⟨fuel - 2, by omega⟩
          exact ⟨true, rfl⟩⟩)
      ⟨2, fun fuel hf => by
        obtain ⟨f, rfl⟩ : ∃ f, fuel = f + 2 := ⟨fuel - 2, by omega⟩
        exact ⟨true, rfl⟩⟩,
    rfl, rfl, rfl, List.mem_iff_getElem?.mpr ⟨0, rfl⟩, rfl, fun _ => rfl⟩

/-- C10, evaluated on `B = 3`: after `insert(5)` on the empty tree and `remove(5)`, the root
is a leaf with `n = 0` and no live key, yet `search(root, 5)` reports a hit at slot 0, the
slot that still holds the removed 5. -/
theorem BTreeNode.search_finds_removed_key :
    ∃ t1 t2 r2, BTree.insert 3 2 (BTree.mk none) 5 = some (true, t1) ∧
      BTree.remove 3 2 t1 5 = some (true, t2) ∧ t2.for_all 2 = some [] ∧
      t2.root = some r2 ∧ r2.n = 0 ∧ BTreeNode.search 2 r2 5 = some (some (r2, 0)) :=
  ⟨_, _, _, rfl, rfl, rfl, rfl, rfl, rfl⟩

/-! ## Results on the scenarios, on depth and on the extreme keys -/

/-- C11: with `B = 3`, inserting 18, 26, 15, 16, 42, 70, 57, 93, 22 in that order into the empty
tree returns a tree whose `depth()` is 1, whose `find_leftmost_key()` is 15, whose
`find_rightmost_key()` is 93 and whose in-order traversal is
`[15, 16, 18, 22, 26, 42, 57, 70, 93]`. -/
theorem BTree.sample_scenario :
    ∃ t, BTree.insert_keys 3 3 (BTree.mk none) [18, 26, 15, 16, 42, 70, 57, 93, 22] = some t ∧
      t.depth 3 = some (some 1) ∧ t.find_leftmost_key 3 = some (some 15) ∧
      t.find_rightmost_key 3 = some (some 93) ∧
      t.for_all 3 = some [15, 16, 18, 22, 26, 42, 57, 70, 93] :=
  ⟨_, rfl, rfl, rfl, rfl, rfl⟩

/-- C12: from the `B = 3` tree built by inserting 18, 26, 15, 16, 42, 70, 57, 93, 22, the calls
`remove(42)` and `remove(18)` both return `true`; afterwards `search` on the root reports 42
and 18 not found, reports each of 15, 16, 22, 26, 57, 70, 93 found at a slot holding that
key, and the tree satisfies the B-tree invariants with every leaf one level below the root. -/
theorem BTree.deletion_scenario :
    ∃ t0 t1 t2 r2,
      BTree.insert_keys 3 10 (BTree.mk none) [18, 26, 15, 16, 42, 70, 57, 93, 22] = some t0 ∧
      BTree.remove 3 10 t0 42 = some (true, t1) ∧ BTree.remove 3 10 t1 18 = some (true, t2) ∧
      t2.root = some r2 ∧ BTreeNode.search 10 r2 42 = some none ∧
      BTreeNode.search 10 r2 18 = some none ∧
      (∀ k ∈ [15, 16, 22, 26, 57, 70, 93], ∃ node i,
        BTreeNode.search 10 r2 k = some (some (node, i)) ∧ rd node.keys i = some k) ∧
      t2.for_all 10 = some [15, 16, 22, 26, 57, 70, 93] ∧
      t2.WellFormedAt 3 1 ∧ t2.depth 10 = some (some 1) := by
  have hE : ∃ t0 t1 t2 r0 r2,
      BTree.insert_keys 3 10 (BTree.mk none) [18, 26, 15, 16, 42, 70, 57, 93, 22] = some t0 ∧
      BTree.remove 3 10 t0 42 = some (true, t1) ∧ BTree.remove 3 10 t1 18 = some (true, t2) ∧
      t2.root = some r2 ∧ BTreeNode.search 10 r2 42 = some none ∧
      BTreeNode.search 10 r2 18 = some none ∧
      (∀ k ∈ [15, 16, 22, 26, 57, 70, 93], ∃ node i,
        BTreeNode.search 10 r2 k = some (some (node, i)) ∧ rd node.keys i = some k) ∧
      t2.for_all 10 = some [15, 16, 22, 26, 57, 70, 93] ∧
      t2.depth 10 = some (some 1) ∧ t0.root = some r0 ∧ t0.depth 10 = some (some 1) ∧
      t1.deleted = false ∧ t2.deleted = false :=
    ⟨_, _, _, _, _, rfl, rfl, rfl, rfl, rfl, rfl, fun k hk => by
      simp only [List.mem_cons, List.mem_singleton, List.not_mem_nil, or_false] at hk
      rcases hk with rfl | rfl | rfl | rfl | rfl | rfl | rfl <;> exact ⟨_, _, rfl, rfl⟩,
      rfl, rfl, rfl, rfl, rfl, rfl⟩
  obtain ⟨t0, t1, t2, r0, r2, e0, e1, e2, e3, s42, s18, sk, hfa, hd, hr0, hd0, hl1, hl2⟩ := hE
  refine ⟨t0, t1, t2, r2, e0, e1, e2, e3, s42, s18, sk, hfa, ?_, hd⟩
  obtain ⟨t0', h0, l0, i0, wf0, hh0, fa0, _, _⟩ := insert_keys_wf (B := 3) (by decide) 10
    [18, 26, 15, 16, 42, 70, 57, 93, 22] (BTree.mk none) 0 [] (by simp [BTree.WellFormedAt])
    (by decide) rfl (by decide) (by simp)
  rw [e0] at i0
  cases i0
  have hh : h0 = 1 := wf_at_depth (by decide) wf0 hr0 10
    (by simp only [List.length_cons, List.length_nil] at hh0; omega) hd0
  subst hh
  obtain ⟨b1, t1', i1, himp1⟩ := wf_remove_step (by decide) wf0 (le_refl 1) 42 10 (by decide) fa0
  rw [e1] at i1
  cases i1
  obtain ⟨wf1, fa1, _⟩ := himp1 (Or.inr hl1)
  obtain ⟨b2, t2', i2, himp2⟩ := wf_remove_step (by decide) wf1 (le_refl 1) 18 10 (by decide) fa1
  rw [e2] at i2
  cases i2
  exact (himp2 (Or.inr hl2)).1

/-- C13, evaluated on the scenario `B = 2`, insert 1 to 7, remove 1, 2, 3, 4: the tree is then
well formed with `depth()` 1 and holds 5, 6, 7 under the root `[6]`.  `remove(5)` merges the
two leaves and leaves the root internal with `n = 0`; the root collapses: `root` is set to
the leaf `[6, 7]`, and `delete prev_root` releases that leaf, which is still in slot 0 of the
old root.  The tree is left with a root that has been deleted, and `depth()` on it is
undefined with every recursion budget instead of returning 0. -/
theorem BTree.remove_collapse_deletes_new_root :
    ∃ t0 t1 t2 r2 d,
      BTree.insert_keys 2 8 (BTree.mk none) [1, 2, 3, 4, 5, 6, 7] = some t0 ∧
      t0.depth 8 = some (some 1) ∧
      BTree.remove_keys 2 8 t0 [1, 2, 3, 4] = some t1 ∧ t1.WellFormedAt 2 1 ∧
      t1.for_all 8 = some [5, 6, 7] ∧ t1.depth 8 = some (some 1) ∧
      BTree.remove 2 8 t1 5 = some (true, t2) ∧ t2.root = some r2 ∧
      BTreeNode.for_all 1 r2 = some [6, 7] ∧
      BTree.remove_root_deleted 2 8 t1 5 = some d ∧ r2 ∈ d ∧ t2.deleted = true ∧
      ∀ fuel, t2.depth fuel = none := by
  have hE : ∃ t0 a1 a2 a3 t1 t2 r0 r2 d,
      BTree.insert_keys 2 8 (BTree.mk none) [1, 2, 3, 4, 5, 6, 7] = some t0 ∧
      t0.root = some r0 ∧ t0.depth 8 = some (some 1) ∧
      BTree.remove 2 8 t0 1 = some (true, a1) ∧ a1.deleted = false ∧
      BTree.remove 2 8 a1 2 = some (true, a2) ∧ a2.deleted = false ∧
      BTree.remove 2 8 a2 3 = some (true, a3) ∧ a3.deleted = false ∧
      BTree.remove 2 8 a3 4 = some (true, t1) ∧ t1.deleted = false ∧
      BTree.remove_keys 2 8 t0 [1, 2, 3, 4] = some t1 ∧
      t1.for_all 8 = some [5, 6, 7] ∧ t1.depth 8 = some (some 1) ∧
      BTree.remove 2 8 t1 5 = some (true, t2) ∧ t2.root = some r2 ∧
      BTreeNode.for_all 1 r2 = some [6, 7] ∧
      BTree.remove_root_deleted 2 8 t1 5 = some d ∧ r2 ∈ d ∧ t2.deleted = true ∧
      ∀ fuel, t2.depth fuel = none :=
    ⟨_, _, _, _, _, _, _, _, _, rfl, rfl, rfl, rfl, rfl, rfl, rfl, rfl, rfl, rfl, rfl, rfl, rfl,
      rfl, rfl, rfl, rfl, rfl, List.mem_iff_getElem?.mpr ⟨0, rfl⟩, rfl, fun _ => rfl⟩
  obtain ⟨t0, a1, a2, a3, t1, t2, r0, r2, d, e0, hr0, hd0, e1, l1, e2, l2, e3, l3, e4, l4, ek,
    hfa, hd1, e5, hr2, hfr, hdel, hmem, hdl, hdep⟩ := hE
  refine ⟨t0, t1, t2, r2, d, e0, hd0, ek, ?_, hfa, hd1, e5, hr2, hfr, hdel, hmem, hdl, hdep⟩
  obtain ⟨t0', h0, l0, i0, wf0, hh0, fa0, _, _⟩ := insert_keys_wf (B := 2) (by decide) 8
    [1, 2, 3, 4, 5, 6, 7] (BTree.mk none) 0 [] (by simp [BTree.WellFormedAt])
    (by decide) rfl (by decide) (by simp)
  rw [e0] at i0
  cases i0
  have hh : h0 = 1 := wf_at_depth (by decide) wf0 hr0 8
    (by simp only [List.length_cons, List.length_nil] at hh0; omega) hd0
  subst hh
  obtain ⟨b1, t1', i1, himp1⟩ := wf_remove_step (by decide) wf0 (le_refl 1) 1 8 (by decide) fa0
  rw [e1] at i1
  cases i1
  obtain ⟨wf1, fa1, _⟩ := himp1 (Or.inr l1)
  obtain ⟨b2, t2', i2, himp2⟩ := wf_remove_step (by decide) wf1 (le_refl 1) 2 8 (by decide) fa1
  rw [e2] at i2
  cases i2
  obtain ⟨wf2, fa2, _⟩ := himp2 (Or.inr l2)
  obtain ⟨b3, t3', i3, himp3⟩ := wf_remove_step (by decide) wf2 (le_refl 1) 3 8 (by decide) fa2
  rw [e3] at i3
  cases i3
  obtain ⟨wf3, fa3, _⟩ := himp3 (Or.inr l3)
  obtain ⟨b4, t4', i4, himp4⟩ := wf_remove_step (by decide) wf3 (le_refl 1) 4 8 (by decide) fa3
  rw [e4] at i4
  cases i4
  exact (himp4 (Or.inr l4)).1

/-- C14: for every `B >= 2` and every subtree satisfying the invariants at height `h`, with a
recursion budget above `h + 1`: its depth is `h`; when the node is the root of a tree,
`BTree.insert` of any key returns a tree whose `depth()` is `h + 1` if the root held
`2B - 1` keys before the call and `h` otherwise; and `split_child` applied to a full child
of the node, when the node is internal and not full, returns a node of the same depth `h`. -/
theorem BTree.insert_depth (B : Nat) (hB : 2 ≤ B) (isRoot : Bool) (h : Nat) (p : BTreeNode)
    (hwf : WellFormedNode B isRoot h p) (fuel : Nat) (hfuel : h + 1 < fuel) :
    BTreeNode.depth fuel p = some h ∧
    (isRoot = true → ∀ k, ∃ t1, BTree.insert B fuel (BTree.mk (some p)) k = some (true, t1) ∧
      (BTree.mk (some p)).depth fuel = some (some h) ∧
      t1.depth fuel = some (some (if p.n = 2 * B - 1 then h + 1 else h))) ∧
    (∀ idx y, p.type = NodeType.INTERNAL → p.n < 2 * B - 1 → idx ≤ p.n →
      rd p.edges idx = some y → y.n = 2 * B - 1 →
      ∃ p1, split_child B p idx = some p1 ∧ BTreeNode.depth fuel p1 = some h) := by
  obtain ⟨l, t, hp⟩ := WF_T hB h isRoot p hwf
  have hd := T_depth h _ p l t fuel (by omega)
  refine ⟨hd, fun hroot k => ?_, fun idx y hty hn hi hy hfull => ?_⟩
  · subst hroot
    simp only [if_true] at t
    obtain ⟨r1, h1, hi, ht, _, hh⟩ := tree_insert_root hB (t := BTree.mk (some p)) rfl rfl t hp
      (wf_hn hwf) k fuel hfuel
    have hh1 : h1 ≤ h + 1 := by rw [hh]; split <;> omega
    have hd1 := T_depth h1 _ r1 _ ht fuel (by omega)
    exact ⟨_, hi, by simp [BTree.depth, hd], by simp [BTree.depth, hd1, hh]⟩
  · cases h with
    | zero =>
      have := T_type t
      rw [if_pos rfl, hty] at this
      cases this
    | succ h =>
      obtain ⟨p1, hs, t1, _⟩ := split_child_keeps_T hB t hn hi hy hfull
      exact ⟨p1, hs, T_depth (h + 1) _ p1 l t1 fuel (by omega)⟩

/-- Witness of C14, for `B = 2`: the root `[2]` over the leaves `[1]` and `[3, 4, 5]`, whose
second child is full.  `insert(6)` leaves `depth()` at 1 and `split_child` on the full child
leaves the depth of the node at 1; on the full leaf root `[1, 2, 3]`, `insert(4)` splits the
root and `depth()` goes from 0 to 1. -/
theorem BTree.insert_depth_witness :
    WellFormedNode 2 true 1 (sampleRoot 2 [1] [3, 4, 5]) ∧
    (∃ t1, BTree.insert 2 3 (BTree.mk (some (sampleRoot 2 [1] [3, 4, 5]))) 6 = some (true, t1) ∧
      t1.depth 3 = some (some 1)) ∧
    (∃ p1, split_child 2 (sampleRoot 2 [1] [3, 4, 5]) 1 = some p1 ∧
      BTreeNode.depth 3 p1 = some 1) ∧
    (∃ t1, BTree.insert 2 3 (BTree.mk (some (sampleLeaf [1, 2, 3]))) 4 = some (true, t1) ∧
      (BTree.mk (some (sampleLeaf [1, 2, 3]))).depth 3 = some (some 0) ∧
      t1.depth 3 = some (some 1)) ∧
    (BTreeNode.depth 3 (sampleRoot 2 [1] [3, 4, 5]) = some 1 ∧
    (true = true → ∀ k, ∃ t1,
      BTree.insert 2 3 (BTree.mk (some (sampleRoot 2 [1] [3, 4, 5]))) k = some (true, t1) ∧
      (BTree.mk (some (sampleRoot 2 [1] [3, 4, 5]))).depth 3 = some (some 1) ∧
      t1.depth 3 = some (some (if (sampleRoot 2 [1] [3, 4, 5]).n = 2 * 2 - 1 then 1 + 1 else 1))) ∧
    (∀ idx y, (sampleRoot 2 [1] [3, 4, 5]).type = NodeType.INTERNAL →
      (sampleRoot 2 [1] [3, 4, 5]).n < 2 * 2 - 1 → idx ≤ (sampleRoot 2 [1] [3, 4, 5]).n →
      rd (sampleRoot 2 [1] [3, 4, 5]).edges idx = some y → y.n = 2 * 2 - 1 →
      ∃ p1, split_child 2 (sampleRoot 2 [1] [3, 4, 5]) idx = some p1 ∧
        BTreeNode.depth 3 p1 = some 1)) :=
  ⟨sampleRoot_wf 2 [1] [3, 4, 5] (by decide) (by decide) (by decide) (by decide) (by decide),
    ⟨_, rfl, rfl⟩, ⟨_, rfl, rfl⟩, ⟨_, rfl, rfl, rfl⟩,
    BTree.insert_depth 2 (by decide) true 1 (sampleRoot 2 [1] [3, 4, 5])
      (sampleRoot_wf 2 [1] [3, 4, 5] (by decide) (by decide) (by decide) (by decide) (by decide))
      3 (by decide)⟩

/-- C15 as stated fails, on `B = 3`: after `insert(5)` on the empty tree and `remove(5)` the
tree holds no key, yet its root is not absent: it is a leaf with `n = 0` that has not been
released, and `depth()` returns 0, not "no value". -/
theorem BTree.emptied_tree_has_leaf_root :
    ∃ t1 t2 r, BTree.insert 3 2 (BTree.mk none) 5 = some (true, t1) ∧
      BTree.remove 3 2 t1 5 = some (true, t2) ∧ t2.for_all 2 = some [] ∧
      t2.root = some r ∧ t2.deleted = false ∧ r.type = NodeType.LEAF ∧ r.n = 0 ∧
      t2.depth 2 = some (some 0) ∧ t2.depth 2 ≠ some none :=
  ⟨_, _, _, rfl, rfl, rfl, rfl, rfl, rfl, rfl, rfl, by decide⟩

/-- C15 as amended: a tree with absent root holds no key and its `depth()` returns no value,
but the converse fails.  For every `B >= 2`, every non-empty list `ks` of at most `2B - 1`
distinct keys, which fit into one leaf, and every list `ds` that contains all of them, with a
recursion budget above 1: inserting the keys of `ks` into the empty tree and then removing
the keys of `ds` returns a tree that holds no key and whose root is present and not released,
a leaf with `n = 0`; its `depth()` is 0. -/
theorem BTree.emptied_tree_keeps_root (B : Nat) (hB : 2 ≤ B) (ks ds : List Int) (fuel : Nat)
    (hfuel : 1 < fuel) (hne : ks ≠ []) (hlen : ks.length ≤ 2 * B - 1) (hnd : ks.Nodup)
    (hsub : ∀ x ∈ ks, x ∈ ds) :
    (BTree.mk none).for_all fuel = some [] ∧ (BTree.mk none).depth fuel = some none ∧
    ∃ t1 t2 r, BTree.insert_keys B fuel (BTree.mk none) ks = some t1 ∧
      BTree.remove_keys B fuel t1 ds = some t2 ∧ t2.for_all fuel = some [] ∧
      t2.root = some r ∧ t2.deleted = false ∧ r.type = NodeType.LEAF ∧ r.n = 0 ∧
      t2.depth fuel = some (some 0) := by
  refine ⟨rfl, rfl, ?_⟩
  obtain ⟨t1, l1, i1, wf1, hfa1, hmem1, hroot1⟩ := insert_keys_leaf hB fuel hfuel ks
    (BTree.mk none) [] (by simp [BTree.WellFormedAt]) rfl (by simpa using hlen) hnd (by simp)
  obtain ⟨t2, i2, wf2, hfa2, hroot2⟩ := remove_keys_wf hB fuel ds t1 l1 wf1 (by omega) hfa1
  have hl : l1.filter (fun x => decide (x ∉ ds)) = [] := by
    rw [List.filter_eq_nil_iff]
    intro x hx
    have := (hmem1 x).mp hx
    simp only [List.not_mem_nil, false_or] at this
    simpa using hsub x this
  rw [hl] at hfa2
  cases hr : t2.root with
  | none => exact absurd hr (hroot2 (hroot1 hne))
  | some r =>
    obtain ⟨hd, hw⟩ := wf_live wf2 hr
    have hfa3 : BTreeNode.for_all fuel r = some [] := by
      simpa [BTree.for_all, hr, hd] using hfa2
    obtain ⟨_, hty, hn⟩ := wf_empty_leaf hB hw fuel (by omega) hfa3
    have hdep := wf_depth hB hw fuel (by omega)
    exact ⟨t1, t2, r, i1, i2, hfa2, hr, hd, hty, hn, by simp [BTree.depth, hr, hd, hdep]⟩

/-- Witness of the amended C15, for `B = 3`: the keys 18, 26, 15, 16, 42 are inserted and then
removed in the order 15, 42, 18, 26, 16. -/
theorem BTree.emptied_tree_keeps_root_witness :
    (BTree.mk none).for_all 2 = some [] ∧ (BTree.mk none).depth 2 = some none ∧
    ∃ t1 t2 r,
      BTree.insert_keys 3 2 (BTree.mk none) [18, 26, 15, 16, 42] = some t1 ∧
      BTree.remove_keys 3 2 t1 [15, 42, 18, 26, 16] = some t2 ∧
      t2.for_all 2 = some [] ∧ t2.root = some r ∧ t2.deleted = false ∧
      r.type = NodeType.LEAF ∧ r.n = 0 ∧ t2.depth 2 = some (some 0) :=
  BTree.emptied_tree_keeps_root 3 (by decide) [18, 26, 15, 16, 42] [15, 42, 18, 26, 16] 2
    (by decide) (by decide) (by decide) (by decide) (by decide)

/-- C16: for every `B >= 2` and every well-formed tree of height `h`, with a recursion budget
above `h`: `for_all` yields the stored keys `l` in strictly increasing order; on a tree with
absent root `find_leftmost_key` and `find_rightmost_key` both return no value; and when `l`
is not empty, `find_leftmost_key` returns its first element, `find_rightmost_key` returns its
last element, and every stored key lies between the two. -/
theorem BTree.extreme_keys (B : Nat) (hB : 2 ≤ B) (t : BTree) (h : Nat)
    (hwf : t.WellFormedAt B h) (fuel : Nat) (hfuel : h < fuel) :
    ∃ l, t.for_all fuel = some l ∧ l.Sorted (· < ·) ∧
      (t.root = none →
        t.find_leftmost_key fuel = some none ∧ t.find_rightmost_key fuel = some none) ∧
      (l ≠ [] → ∃ lo hi, l.head? = some lo ∧ l.getLast? = some hi ∧
        t.find_leftmost_key fuel = some (some lo) ∧
        t.find_rightmost_key fuel = some (some hi) ∧ ∀ x ∈ l, lo ≤ x ∧ x ≤ hi) := by
  cases hr : t.root with
  | none =>
    exact ⟨[], by simp [BTree.for_all, hr], List.sorted_nil,
      fun _ => by simp [BTree.find_leftmost_key, BTree.find_rightmost_key, hr],
      fun hne => absurd rfl hne⟩
  | some r =>
    obtain ⟨hd, hw⟩ := wf_live hwf hr
    obtain ⟨l, tr, hp, hn⟩ := wf_root hB hw
    refine ⟨l, by simpa [BTree.for_all, hr, hd] using T_for_all hB h 0 r l tr hn fuel hfuel, hp,
      fun hc => (by cases hc), fun hne => ?_⟩
    have hn1 : 1 ≤ r.n := by
      rcases hn with h0 | h0
      · subst h0
        obtain ⟨v, _⟩ := T_zero.mp tr
        rw [v.n_eq]
        cases l with
        | nil => exact absurd rfl hne
        | cons x l => simp
      · exact h0
    obtain ⟨lo, l1, e1, hlo⟩ := T_leftmost hB h 0 r l tr hn1 fuel hfuel
    obtain ⟨hi, l2, e2, hhi⟩ := T_rightmost hB h 0 r l tr hn1 fuel hfuel
    refine ⟨lo, hi, by rw [e1]; rfl, by rw [e2]; simp,
      by simp [BTree.find_leftmost_key, hr, hd, hlo],
      by simp [BTree.find_rightmost_key, hr, hd, hhi],
      fun x hx => ⟨?_, ?_⟩⟩
    · rw [e1] at hx hp
      rcases List.mem_cons.mp hx with rfl | hx1
      · exact le_refl _
      · exact le_of_lt ((List.pairwise_cons.mp hp).1 x hx1)
    · rw [e2] at hx hp
      rcases List.mem_append.mp hx with hx1 | hx1
      · exact le_of_lt ((List.pairwise_append.mp hp).2.2 x hx1 hi (by simp))
      · simp only [List.mem_singleton] at hx1
        rw [hx1]

/-- Witness of C16: the sample tree `[3]` over `[1, 2]` and `[4, 5]`, whose smallest key is 1
and whose largest key is 5. -/
theorem BTree.extreme_keys_witness :
    sampleTreeB.WellFormedAt 2 1 ∧
    sampleTreeB.find_leftmost_key 2 = some (some 1) ∧
    sampleTreeB.find_rightmost_key 2 = some (some 5) ∧
    ∃ l, sampleTreeB.for_all 2 = some l ∧ l.Sorted (· < ·) ∧
      (sampleTreeB.root = none → sampleTreeB.find_leftmost_key 2 = some none ∧
        sampleTreeB.find_rightmost_key 2 = some none) ∧
      (l ≠ [] → ∃ lo hi, l.head? = some lo ∧ l.getLast? = some hi ∧
        sampleTreeB.find_leftmost_key 2 = some (some lo) ∧
        sampleTreeB.find_rightmost_key 2 = some (some hi) ∧ ∀ x ∈ l, lo ≤ x ∧ x ≤ hi) :=
  ⟨sampleTreeB_wf, rfl, rfl,
    BTree.extreme_keys 2 (by decide) sampleTreeB 1 sampleTreeB_wf 2 (by decide)⟩

/-- C17, evaluated on `B = 3`.  The tree reached by `insert(5)` and `remove(5)` holds no key
and its root is a leaf with `n = 0`: `find_rightmost_key()` reads `keys[n - 1]`, the slot
`2 ^ 64 - 1` of an array of 5 slots, which is undefined, with every recursion budget, and
`find_leftmost_key()` returns 5, read from slot 0, which is not a live slot. -/
theorem BTree.find_rightmost_key_reads_outside :
    ∃ t1 t2 r, BTree.insert 3 1 (BTree.mk none) 5 = some (true, t1) ∧
      BTree.remove 3 1 t1 5 = some (true, t2) ∧ BTree.Reachable 3 t2 ∧
      t2.for_all 1 = some [] ∧ t2.root = some r ∧ t2.deleted = false ∧
      r.type = NodeType.LEAF ∧ r.n = 0 ∧
      szSub r.n 1 = 2 ^ 64 - 1 ∧ r.keys.length = 5 ∧
      (∀ fuel, t2.find_rightmost_key fuel = none) ∧
      t2.find_leftmost_key 1 = some (some 5) :=
  ⟨_, _, _, rfl, rfl,
    BTree.Reachable.remove 5
      (BTree.Reachable.insert 5 BTree.Reachable.empty
        ⟨0, fun _ _ => ⟨[], true, rfl, by simp, rfl⟩⟩)
      ⟨1, fun fuel hf => by
        obtain ⟨f, rfl⟩ : ∃ f, fuel = f + 1 := ⟨fuel - 1, by omega⟩
        exact ⟨true, rfl⟩⟩,
    rfl, rfl, rfl, rfl, rfl, rfl, rfl,
    fun fuel => by
      cases fuel with
      | zero => rfl
      | succ f => rfl,
    rfl⟩

/-- C19, evaluated for `B = 2`.  Root collapse: on the tree `[2]` over the leaves `[1]` and
`[3]`, `remove(5)` merges the leaves and makes the merged leaf the new root; `delete
prev_root` then runs the destructor of the old root, an internal node with `n = 0` whose slot
0 still points to the new root, and releases the new root with it: the tree is left with a
root that has been deleted.  Merge: on the tree built by inserting 1 to 9, whose root `[4]`
has the internal children `[2]` and `[6]`, the call `merge_children(root, 0)` made by
`remove(1)` copies the two children of `[6]` into slots 2 and 3 of the merged node, which
then holds 3 keys; `delete sibling` runs the destructor of `[6]`, whose slots still point to
them, and releases both: slots 2 and 3 of the merged node hold pointers to released nodes
and can no longer be read. -/
theorem BTree.remove_deletes_reachable_nodes :
    (∃ t1 r1 d, BTree.remove 2 3 sampleTreeA 5 = some (true, t1) ∧ t1.root = some r1 ∧
      BTree.remove_root_deleted 2 3 sampleTreeA 5 = some d ∧ r1 ∈ d ∧ t1.deleted = true) ∧
    ∃ t r child sibling g1 g2 copied r1 merged d,
      BTree.insert_keys 2 4 (BTree.mk none) [1, 2, 3, 4, 5, 6, 7, 8, 9] = some t ∧
      t.root = some r ∧ t.deleted = false ∧
      BTreeNode.remove_fix 2 r 0 = BTreeNode.merge_children r 0 ∧
      rd r.edges 0 = some child ∧ child.type = NodeType.INTERNAL ∧ child.n = 1 ∧
      rd r.edges 1 = some sibling ∧ sibling.type = NodeType.INTERNAL ∧ sibling.n = 1 ∧
      rd sibling.edges 0 = some g1 ∧ rd sibling.edges 1 = some g2 ∧
      forUp 0 (sibling.n + 1) (copyToBody sibling.edges (child.n + 1)) child.edges =
        some copied ∧
      rd copied 2 = some g1 ∧ rd copied 3 = some g2 ∧
      BTreeNode.merge_children_deleted 4 r 0 = some d ∧ g1 ∈ d ∧ g2 ∈ d ∧
      BTreeNode.merge_children r 0 = some r1 ∧ rd r1.edges 0 = some merged ∧
      merged.type = NodeType.INTERNAL ∧ merged.n = 3 ∧
      rd merged.edges 2 = none ∧ rd merged.edges 3 = none :=
  ⟨⟨_, _, _, rfl, rfl, rfl, List.mem_iff_getElem?.mpr ⟨0, rfl⟩, rfl⟩,
    ⟨_, _, _, _, _, _, _, _, _, _, rfl, rfl, rfl, rfl, rfl, rfl, rfl, rfl, rfl, rfl, rfl, rfl,
      rfl, rfl, rfl, rfl,
      List.mem_iff_getElem?.mpr ⟨0, rfl⟩, List.mem_iff_getElem?.mpr ⟨1, rfl⟩,
      rfl, rfl, rfl, rfl, rfl, rfl⟩⟩

/-- C20 as stated fails, for `B = 2`, on the parent that `BTree::insert` builds over the full
root leaf `[1, 2, 3]`: an internal node with `n = 0` whose slot 0 holds the leaf.  `for_all`
on the parent visits nothing before `split_child(parent, 0)`, because it returns at once on
an internal node with `n < 1`, and visits 1, 2, 3 afterwards: the traversal of the parent's
subtree is not unchanged. -/
theorem BTreeNode.split_child_changes_for_all :
    ∃ edges0 p p1, wr (BTreeNode.new 2).edges 0 (sampleLeaf [1, 2, 3]) = some edges0 ∧
      p = BTreeNode.mk NodeType.INTERNAL (BTreeNode.new 2).n (BTreeNode.new 2).keys edges0 ∧
      p.n = 0 ∧ rd p.edges 0 = some (sampleLeaf [1, 2, 3]) ∧ (sampleLeaf [1, 2, 3]).n = 2 * 2 - 1 ∧
      BTreeNode.split_child 2 p 0 = some p1 ∧ BTreeNode.for_all 2 p = some [] ∧
      BTreeNode.for_all 2 p1 = some [1, 2, 3] ∧
      BTree.insert 2 2 (BTree.mk (some (sampleLeaf [1, 2, 3]))) 4 =
        (BTreeNode.insert 2 2 p1 4).map (fun r => (r.1, BTree.mk (some r.2))) :=
  ⟨_, _, _, rfl, rfl, rfl, rfl, rfl, rfl, rfl, rfl, rfl⟩

/-- C20 as amended: for every `B >= 2`, every internal node `p` with `n < 2B - 1` keys whose
children are subtrees of height `h` with between `B - 1` and `2B - 1` keys in every node, and
every index `i <= n` whose child `y` holds exactly `2B - 1` keys, `split_child(p, i)`
returns, and afterwards: `y` has `n = B - 1` and unchanged arrays, so it keeps its first
`B - 1` keys and, if internal, its first `B` children; the new node `z`, of the same kind as
`y`, holds the former keys `B .. 2B - 2` of `y` and, if internal, its former children
`B .. 2B - 1`; `p.keys[i]` is the former key `B - 1` of `y`; `p.edges[i]` is `y` and
`p.edges[i + 1]` is `z`; the former keys `i ..` and children `i + 1 ..` of `p` are one slot
further right and those before them are where they were; `p.n` has grown by one; and
`for_all` on `p` visits the same keys `l` in the same order as before when `p` held at least
one key, whereas on a `p` that held no key it visited nothing before the call. -/
theorem BTreeNode.split_child_post (B : Nat) (hB : 2 ≤ B) (h lo : Nat) (p y : BTreeNode)
    (l : List Int) (i : Nat) (ht : T B (h + 1) lo p l) (hn : p.n < 2 * B - 1) (hi : i ≤ p.n)
    (hy : rd p.edges i = some y) (hfull : y.n = 2 * B - 1) (fuel : Nat) (hfuel : h + 1 < fuel) :
    ∃ p1 y1 z, BTreeNode.split_child B p i = some p1 ∧ p1.type = p.type ∧ p1.n = p.n + 1 ∧
      rd p1.edges i = some y1 ∧ rd p1.edges (i + 1) = some z ∧
      y1 = BTreeNode.mk y.type (B - 1) y.keys y.edges ∧ z.type = y.type ∧ z.n = B - 1 ∧
      (∀ j, j < B - 1 → rd z.keys j = rd y.keys (j + B)) ∧
      (y.type = NodeType.INTERNAL → ∀ j, j < B → rd z.edges j = rd y.edges (j + B)) ∧
      rd p1.keys i = rd y.keys (B - 1) ∧
      (∀ j, j < i → rd p1.keys j = rd p.keys j) ∧
      (∀ j, i ≤ j → j < p.n → rd p1.keys (j + 1) = rd p.keys j) ∧
      (∀ j, j < i → rd p1.edges j = rd p.edges j) ∧
      (∀ j, i < j → j ≤ p.n → rd p1.edges (j + 1) = rd p.edges j) ∧
      BTreeNode.for_all fuel p1 = some l ∧ (1 ≤ p.n → BTreeNode.for_all fuel p = some l) ∧
      (p.n = 0 → BTreeNode.for_all fuel p = some []) := by
  obtain ⟨kL, kR, cL, cR, lL, ly, lR, v, hkL, hcL, hlL, fL, ty, fR, hl, hlo⟩ := T_zip_at ht hi hy
  have hn2 : (kL ++ kR).length < 2 * B - 1 := by rw [← v.n_eq]; exact hn
  obtain ⟨yks, ycs, vy⟩ := T_view ty
  have hyfull : yks.length = 2 * B - 1 := by rw [← vy.n_eq]; exact hfull
  obtain ⟨p1, y1, z, m, hs, hm, v1, vy1, vz⟩ := split_child_view (by omega) v hcL hn2 vy hyfull
  rw [hkL] at hs
  obtain ⟨p1', hs', t1, hn1⟩ := split_child_keeps_T hB ht hn hi hy hfull
  rw [hs] at hs'
  cases hs'
  obtain ⟨he, hty1, _⟩ := split_child_inv hs hy
  have hpn : p.n = kL.length + kR.length := by rw [v.n_eq]; simp
  have hcs := v.cs_len
  rw [if_pos rfl] at hcs
  simp only [List.length_append, List.length_cons] at hcs
  have hyi : rd p1.edges i = some y1 := by
    have := rd_zip_mid v1
    rwa [hcL, hkL] at this
  have hy1 : y1 = BTreeNode.mk y.type (B - 1) y.keys y.edges := by
    rw [hyi] at he
    exact Option.some.inj he
  have hzi : rd p1.edges (i + 1) = some z := by
    have v2 : View B p1 NodeType.INTERNAL (kL ++ m :: kR) ((cL ++ [y1]) ++ z :: cR) := by
      simpa using v1
    have := rd_zip_mid v2
    simpa [hcL, hkL] using this
  refine ⟨p1, y1, z, hs, hty1, hn1, hyi, hzi, hy1, vz.type_eq, ?_, ?_, ?_, ?_, ?_, ?_, ?_, ?_,
    T_for_all hB (h + 1) _ p1 l t1 (Or.inr (by omega)) fuel hfuel,
    fun h1 => T_for_all hB (h + 1) lo p l ht (Or.inr h1) fuel hfuel, fun h0 => ?_⟩
  · rw [vz.n_eq, List.length_drop, hyfull]
    omega
  · intro j hj
    rw [vz.keys_rd j (by rw [List.length_drop, hyfull]; omega), vy.keys_rd (j + B) (by omega),
      List.getElem?_drop, Nat.add_comm]
  · intro hty j hj
    have hyc := vy.cs_len
    rw [if_pos hty] at hyc
    rw [vz.edges_rd j (by rw [List.length_drop, hyc]; omega), vy.edges_rd (j + B) (by omega),
      List.getElem?_drop, Nat.add_comm]
  · rw [v1.keys_rd i (by simp; omega), vy.keys_rd (B - 1) (by omega), hm, ← hkL,
      getElem?_zip_mid]
  · intro j hj
    rw [v1.keys_rd j (by simp; omega), v.keys_rd j (by simp; omega),
      List.getElem?_append_left (by omega), List.getElem?_append_left (by omega)]
  · intro j hj1 hj2
    rw [v1.keys_rd (j + 1) (by simp; omega), v.keys_rd j (by simp; omega),
      List.getElem?_append_right (by omega), List.getElem?_append_right (by omega)]
    have e : j + 1 - kL.length = (j - kL.length) + 1 := by omega
    rw [e, List.getElem?_cons_succ]
  · intro j hj
    rw [v1.edges_rd j (by simp; omega), v.edges_rd j (by simp; omega),
      List.getElem?_append_left (by omega), List.getElem?_append_left (by omega)]
  · intro j hj1 hj2
    rw [v1.edges_rd (j + 1) (by simp; omega), v.edges_rd j (by simp; omega),
      List.getElem?_append_right (by omega), List.getElem?_append_right (by omega)]
    obtain ⟨d, rfl⟩ : ∃ d, j = cL.length + 1 + d := ⟨j - cL.length - 1, by omega⟩
    have e1 : cL.length + 1 + d + 1 - cL.length = d + 1 + 1 := by omega
    have e2 : cL.length + 1 + d - cL.length = d + 1 := by omega
    rw [e1, e2, List.getElem?_cons_succ, List.getElem?_cons_succ, List.getElem?_cons_succ]
  · obtain ⟨f, rfl⟩ : ∃ f, fuel = f + 1 := ⟨fuel - 1, by omega⟩
    have hty : ¬ NodeType.INTERNAL = NodeType.LEAF := by decide
    simp [BTreeNode.for_all, v.type_eq, hty, h0]

/-- Witness of the amended C20, for `B = 2`: the node `[2]` over the leaves `[1]` and
`[3, 4, 5]`, split at its full second child. -/
theorem BTreeNode.split_child_post_witness :
    T 2 1 0 (sampleRoot 2 [1] [3, 4, 5]) [1, 2, 3, 4, 5] ∧
    (sampleRoot 2 [1] [3, 4, 5]).n < 2 * 2 - 1 ∧ 1 ≤ (sampleRoot 2 [1] [3, 4, 5]).n ∧
    rd (sampleRoot 2 [1] [3, 4, 5]).edges 1 = some (sampleLeaf [3, 4, 5]) ∧
    (sampleLeaf [3, 4, 5]).n = 2 * 2 - 1 ∧
    ∃ p1 y1 z, BTreeNode.split_child 2 (sampleRoot 2 [1] [3, 4, 5]) 1 = some p1 ∧
      p1.type = (sampleRoot 2 [1] [3, 4, 5]).type ∧
      p1.n = (sampleRoot 2 [1] [3, 4, 5]).n + 1 ∧
      rd p1.edges 1 = some y1 ∧ rd p1.edges (1 + 1) = some z ∧
      y1 = BTreeNode.mk (sampleLeaf [3, 4, 5]).type (2 - 1) (sampleLeaf [3, 4, 5]).keys
        (sampleLeaf [3, 4, 5]).edges ∧
      z.type = (sampleLeaf [3, 4, 5]).type ∧ z.n = 2 - 1 ∧
      (∀ j, j < 2 - 1 → rd z.keys j = rd (sampleLeaf [3, 4, 5]).keys (j + 2)) ∧
      ((sampleLeaf [3, 4, 5]).type = NodeType.INTERNAL →
        ∀ j, j < 2 → rd z.edges j = rd (sampleLeaf [3, 4, 5]).edges (j + 2)) ∧
      rd p1.keys 1 = rd (sampleLeaf [3, 4, 5]).keys (2 - 1) ∧
      (∀ j, j < 1 → rd p1.keys j = rd (sampleRoot 2 [1] [3, 4, 5]).keys j) ∧
      (∀ j, 1 ≤ j → j < (sampleRoot 2 [1] [3, 4, 5]).n →
        rd p1.keys (j + 1) = rd (sampleRoot 2 [1] [3, 4, 5]).keys j) ∧
      (∀ j, j < 1 → rd p1.edges j = rd (sampleRoot 2 [1] [3, 4, 5]).edges j) ∧
      (∀ j, 1 < j → j ≤ (sampleRoot 2 [1] [3, 4, 5]).n →
        rd p1.edges (j + 1) = rd (sampleRoot 2 [1] [3, 4, 5]).edges j) ∧
      BTreeNode.for_all 2 p1 = some [1, 2, 3, 4, 5] ∧
      (1 ≤ (sampleRoot 2 [1] [3, 4, 5]).n →
        BTreeNode.for_all 2 (sampleRoot 2 [1] [3, 4, 5]) = some [1, 2, 3, 4, 5]) ∧
      ((sampleRoot 2 [1] [3, 4, 5]).n = 0 →
        BTreeNode.for_all 2 (sampleRoot 2 [1] [3, 4, 5]) = some []) :=
  ⟨sampleRoot_T 2 [1] [3, 4, 5] (by decide) (by decide) (by decide) (by decide), by decide,
    by decide, rfl, rfl,
    BTreeNode.split_child_post 2 (by decide) 0 0 (sampleRoot 2 [1] [3, 4, 5])
      (sampleLeaf [3, 4, 5]) [1, 2, 3, 4, 5] 1
      (sampleRoot_T 2 [1] [3, 4, 5] (by decide) (by decide) (by decide) (by decide)) (by decide)
      (by decide) rfl rfl 2 (by decide)⟩

/-! ## The nodes entered by `insert` and `remove` -/

/-- C21: for every `B >= 2`, every well-formed tree of height `h` and every key `k`, with a
recursion budget above `h + 1`: `insert(k)` returns, and on its way down every node on which
`BTreeNode::insert` is invoked holds fewer than `2B - 1` keys at the moment of the call (there
is one such call per level when the tree is not empty), every call of `split_child` is on a
parent with fewer than `2B - 1` keys and a child with exactly `2B - 1` keys, and the highest
key slot that the leaf branch writes is at most `2B - 2`. -/
theorem BTree.insert_enters_nonfull (B : Nat) (hB : 2 ≤ B) (t : BTree) (h : Nat)
    (hwf : t.WellFormedAt B h) (k : Int) (fuel : Nat) (hfuel : h + 1 < fuel) :
    ∃ r t1 log, BTree.insert B fuel t k = some (r, t1) ∧
      BTree.insert_calls B fuel t k = some log ∧
      (∀ n ∈ log.nodes, n < 2 * B - 1) ∧
      (∀ q ∈ log.splits, q.1 < 2 * B - 1 ∧ q.2 = 2 * B - 1) ∧ log.slot ≤ 2 * B - 2 ∧
      (∀ root, t.root = some root →
        log.nodes.length = (if root.n = 2 * B - 1 then h + 2 else h + 1)) := by
  cases hr : t.root with
  | none =>
    obtain ⟨r1, h1, _, _⟩ := tree_insert_empty hB hr k fuel
    refine ⟨true, _, InsertCalls.mk [] [] 0, h1, by simp [BTree.insert_calls, hr],
      fun n hn => (by cases hn), fun q hq => (by cases hq), Nat.zero_le _,
      fun root hroot => (by cases hroot)⟩
  | some r =>
    obtain ⟨hd, hw⟩ := wf_live hwf hr
    obtain ⟨l, tr, hp, hn⟩ := wf_root hB hw
    obtain ⟨r1, h1, hi, _, _, _⟩ := tree_insert_root hB hr hd tr hp hn k fuel hfuel
    have hrn := T_n tr
    by_cases hfull : r.n = 2 * B - 1
    · obtain ⟨e0, p1, h2, h3, h4, h5⟩ := root_split_T hB tr hfull
      obtain ⟨log, e1, _, e2, e3, e4, e5⟩ := insert_calls_T hB k (h + 1) 1 p1 l h4 (by omega)
        fuel hfuel
      refine ⟨true, _, InsertCalls.mk log.nodes ([((BTreeNode.new B).n, r.n)] ++ log.splits)
        log.slot, hi, ?_, e3, ?_, e5, fun root hroot => ?_⟩
      · simp only [BTree.insert_calls, hr, hd, Bool.false_eq_true, if_false,
          Option.bind_eq_bind, if_pos (show 2 * B - 1 ≤ r.n by omega), h2, Option.some_bind,
          h3, e1]
      · intro q hq
        rcases List.mem_append.mp hq with e | e
        · simp only [List.mem_singleton] at e
          rw [e]
          exact ⟨by simp [BTreeNode.new]; omega, hfull⟩
        · exact e4 q e
      · cases hroot
        rw [if_pos hfull]
        exact e2
    · obtain ⟨log, e1, _, e2, e3, e4, e5⟩ := insert_calls_T hB k h 0 r l tr (by omega)
        fuel (by omega)
      refine ⟨true, _, InsertCalls.mk log.nodes ([] ++ log.splits) log.slot, hi, ?_, e3, ?_, e5,
        fun root hroot => ?_⟩
      · simp only [BTree.insert_calls, hr, hd, Bool.false_eq_true, if_false,
          Option.bind_eq_bind, if_neg (show ¬ 2 * B - 1 ≤ r.n by omega), Option.some_bind, e1]
      · simpa using e4
      · cases hroot
        rw [if_neg hfull]
        exact e2

/-- Witness of C21, for `B = 2`: `insert(6)` on the sample tree `[3]` over `[1, 2]` and
`[4, 5]` enters the root with 1 key and a leaf with 2 keys and splits nothing; on the tree
`[2]` over `[1]` and `[3, 4, 5]` it splits the full leaf first, then enters a leaf with 1
key. -/
theorem BTree.insert_enters_nonfull_witness :
    sampleTreeB.WellFormedAt 2 1 ∧
    BTree.insert_calls 2 3 sampleTreeB 6 = some (InsertCalls.mk [1, 2] [] 2) ∧
    BTree.insert_calls 2 3 (BTree.mk (some (sampleRoot 2 [1] [3, 4, 5]))) 6
      = some (InsertCalls.mk [1, 1] [(1, 3)] 1) ∧
    ∃ r t1 log, BTree.insert 2 3 sampleTreeB 6 = some (r, t1) ∧
      BTree.insert_calls 2 3 sampleTreeB 6 = some log ∧
      (∀ n ∈ log.nodes, n < 2 * 2 - 1) ∧
      (∀ q ∈ log.splits, q.1 < 2 * 2 - 1 ∧ q.2 = 2 * 2 - 1) ∧ log.slot ≤ 2 * 2 - 2 ∧
      (∀ root, sampleTreeB.root = some root →
        log.nodes.length = (if root.n = 2 * 2 - 1 then 1 + 2 else 1 + 1)) :=
  ⟨sampleTreeB_wf, rfl, rfl,
    BTree.insert_enters_nonfull 2 (by decide) sampleTreeB 1 sampleTreeB_wf 6 3 (by decide)⟩

/-- C22, evaluated for `B = 2` on the well-formed tree of height 2 with root `[4]` over the
internal nodes `[2]` and `[6]`.  `remove(7)` finds one key in the child `[6]` it is about to
enter and calls `merge_children(root, 0)`; `delete sibling` releases the node `[6]` and, by
its destructor, its two leaves, among them the leaf `[7]`.  The recursive call on the merged
node, which holds 3 keys, looks for 7 at index 3 and tests `edges[3]->n < B`: slot 3 holds the
pointer to the released leaf `[7]`.  The next node that `remove` enters is a released node,
not a node with at least `B` keys, and the call is undefined with every recursion budget. -/
theorem BTree.remove_enters_deleted_node :
    (BTree.mk (some sampleInner)).WellFormedAt 2 2 ∧
    ∃ child sibling g d r1 merged,
      get_index sampleInner 7 = some 1 ∧ sampleInner.n = 1 ∧
      BTreeNode.remove_fix 2 sampleInner 1 = BTreeNode.merge_children sampleInner 0 ∧
      rd sampleInner.edges 0 = some child ∧ rd sampleInner.edges 1 = some sibling ∧
      child.type = NodeType.INTERNAL ∧ sibling.type = NodeType.INTERNAL ∧
      sibling.n = 1 ∧ rd sibling.edges 1 = some g ∧ BTreeNode.for_all 1 g = some [7] ∧
      BTreeNode.merge_children_deleted 3 sampleInner 0 = some d ∧ g ∈ d ∧
      BTreeNode.merge_children sampleInner 0 = some r1 ∧ get_index r1 7 = some 0 ∧
      rd r1.edges 0 = some merged ∧ merged.type = NodeType.INTERNAL ∧ merged.n = 3 ∧
      get_index merged 7 = some 3 ∧ found_at merged 3 7 = some false ∧
      rd merged.edges 3 = none ∧ BTreeNode.remove_fix 2 merged 3 = none ∧
      (∀ fuel, BTreeNode.remove 2 fuel merged 7 = none) ∧
      ∀ fuel, BTree.remove 2 fuel (BTree.mk (some sampleInner)) 7 = none :=
  ⟨wf_mk sampleInner_wf, _, _, _, _, _, _, rfl, rfl, rfl, rfl, rfl, rfl, rfl, rfl, rfl, rfl,
    rfl, List.mem_iff_getElem?.mpr ⟨1, rfl⟩, rfl, rfl, rfl, rfl, rfl, rfl, rfl, rfl, rfl,
    fun fuel => by
      cases fuel with
      | zero => rfl
      | succ f => rfl,
    fun fuel => by
      cases fuel with
      | zero => rfl
      | succ f =>
        cases f with
        | zero => rfl
        | succ f => rfl⟩

/-! ## Postconditions of the rebalancing operations -/

/-- C23, evaluated for `B = 2` on the well-formed node `[4]` over the internal nodes `[2]`,
with the leaves `[1]` and `[3]`, and `[6]`, with the leaves `[5]` and `[7]`; the two children
hold 2 keys together.  `merge_children(node, 0)` copies the keys 4 and 6 and the two children
of `[6]` into the child `[2]`, slots 2 and 3; `delete sibling` then runs the destructor of
`[6]`, whose slots still point to the two leaves, and releases both.  The merged node holds
the keys 2, 4, 6 and its own former children, but its slots 2 and 3 hold pointers to released
nodes, not the sibling's children, and `for_all` on it is undefined with every recursion
budget. -/
theorem BTreeNode.merge_children_deletes_moved_children :
    WellFormedNode 2 true 2 sampleInner ∧ sampleInner.n = 1 ∧
    BTreeNode.for_all 3 sampleInner = some [1, 2, 3, 4, 5, 6, 7] ∧
    ∃ child sibling g1 g2 copied d p1 merged,
      rd sampleInner.edges 0 = some child ∧ rd sampleInner.edges 1 = some sibling ∧
      child.n + sibling.n ≤ 2 * 2 - 2 ∧
      child.type = NodeType.INTERNAL ∧ sibling.type = NodeType.INTERNAL ∧
      rd sibling.edges 0 = some g1 ∧ rd sibling.edges 1 = some g2 ∧
      forUp 0 (sibling.n + 1) (copyToBody sibling.edges (child.n + 1)) child.edges
        = some copied ∧
      rd copied 2 = some g1 ∧ rd copied 3 = some g2 ∧
      BTreeNode.merge_children_deleted 3 sampleInner 0 = some d ∧ g1 ∈ d ∧ g2 ∈ d ∧
      BTreeNode.merge_children sampleInner 0 = some p1 ∧ p1.n = 0 ∧
      rd p1.edges 0 = some merged ∧ merged.n = 3 ∧
      rd merged.keys 0 = some 2 ∧ rd merged.keys 1 = some 4 ∧ rd merged.keys 2 = some 6 ∧
      rd merged.edges 0 = rd child.edges 0 ∧ rd merged.edges 1 = rd child.edges 1 ∧
      rd merged.edges 2 = none ∧ rd merged.edges 3 = none ∧
      ∀ fuel, BTreeNode.for_all fuel merged = none :=
  ⟨sampleInner_wf, rfl, rfl, _, _, _, _, _, _, _, _, rfl, rfl, by decide, rfl, rfl, rfl, rfl,
    rfl, rfl, rfl, rfl, List.mem_iff_getElem?.mpr ⟨0, rfl⟩, List.mem_iff_getElem?.mpr ⟨1, rfl⟩,
    rfl, rfl, rfl, rfl, rfl, rfl, rfl, rfl, rfl, rfl, rfl,
    fun fuel => by
      cases fuel with
      | zero => rfl
      | succ f =>
        cases f with
        | zero => rfl
        | succ f => rfl⟩

/-- C24 as stated fails, for `B = 2`, on the node `[4]` over the internal nodes `[2]` and
`[6]`, each over two leaves of one key: the right sibling `[6]` holds one key, and after
`borrow_from_right(node, 0)` it is an internal node with `n = 0` and one child, the leaf
`[7]`, on which `for_all` returns at once; `for_all` on the node visited 1 .. 7 before the
call and visits 1 .. 6 afterwards. -/
theorem BTreeNode.borrow_from_right_changes_for_all :
    ∃ p1 b1, WellFormedNode 2 true 2 sampleInner ∧
      (sampleRoot 2 [1] [3]).n < 2 * 2 - 1 ∧ 1 ≤ (sampleRoot 6 [5] [7]).n ∧
      rd sampleInner.edges 0 = some (sampleRoot 2 [1] [3]) ∧
      rd sampleInner.edges 1 = some (sampleRoot 6 [5] [7]) ∧
      BTreeNode.borrow_from_right sampleInner 0 = some p1 ∧
      BTreeNode.for_all 3 sampleInner = some [1, 2, 3, 4, 5, 6, 7] ∧
      BTreeNode.for_all 3 p1 = some [1, 2, 3, 4, 5, 6] ∧
      rd p1.edges 1 = some b1 ∧ b1.type = NodeType.INTERNAL ∧ b1.n = 0 ∧
      rd b1.edges 0 = some (sampleLeaf [7]) :=
  ⟨_, _, sampleInner_wf, by decide, by decide, rfl, rfl, rfl, rfl, rfl, rfl, rfl, rfl, rfl⟩

/-- C24 as amended: for every `B >= 2`, every internal node `p` whose children are subtrees of
height `h` with between `B - 1` and `2B - 1` keys in every node (so that every child holds
at least one key), and every index `e < p.n` whose child `a = edges[e]` holds fewer than
`2B - 1` keys, with `b = edges[e + 1]`, `borrow_from_right(p, e)` returns, and afterwards: the
keys of the child are its former keys followed by the former `keys[e]` of `p`; `keys[e]` of
`p` is the former first key of `b`; the keys of `b` are its former keys without the first;
if the children are internal the former first child of `b` is the new last child of `a` and
the other children of `b` are one slot further left; the child holds one key more, `b` one
key fewer, `p` as many as before, with its other keys and children where they were; and
`for_all` on `p` visits the same keys `l` in the same order as before when `b` is a leaf or
held at least two keys, whereas an internal `b` that held one key is left with `n = 0` and
`for_all` visits nothing in it. -/
theorem BTreeNode.borrow_from_right_post (B : Nat) (hB : 2 ≤ B) (h lo : Nat)
    (p a b : BTreeNode) (l : List Int) (e : Nat) (ht : T B (h + 1) lo p l) (he : e < p.n)
    (ha : rd p.edges e = some a) (hb : rd p.edges (e + 1) = some b)
    (han : a.n < 2 * B - 1) (fuel : Nat) (hfuel : h + 1 < fuel) :
    ∃ p1 a1 b1, BTreeNode.borrow_from_right p e = some p1 ∧ p1.type = p.type ∧ p1.n = p.n ∧
      1 ≤ b.n ∧ rd p1.edges e = some a1 ∧ rd p1.edges (e + 1) = some b1 ∧
      a1.type = a.type ∧ b1.type = b.type ∧ a1.n = a.n + 1 ∧ b1.n + 1 = b.n ∧
      (∀ j, j < a.n → rd a1.keys j = rd a.keys j) ∧ rd a1.keys a.n = rd p.keys e ∧
      rd p1.keys e = rd b.keys 0 ∧
      (∀ j, j + 1 < b.n → rd b1.keys j = rd b.keys (j + 1)) ∧
      (a.type = NodeType.INTERNAL → (∀ j, j ≤ a.n → rd a1.edges j = rd a.edges j) ∧
        rd a1.edges (a.n + 1) = rd b.edges 0 ∧
        ∀ j, j + 1 ≤ b.n → rd b1.edges j = rd b.edges (j + 1)) ∧
      (∀ j, j < p.n → j ≠ e → rd p1.keys j = rd p.keys j) ∧
      (∀ j, j ≤ p.n → j ≠ e → j ≠ e + 1 → rd p1.edges j = rd p.edges j) ∧
      BTreeNode.for_all fuel p = some l ∧
      (b.type = NodeType.LEAF ∨ 2 ≤ b.n → BTreeNode.for_all fuel p1 = some l) ∧
      (b.type = NodeType.INTERNAL → b.n = 1 → BTreeNode.for_all fuel b1 = some []) := by
  obtain ⟨kL, s, kR, cL, cR, lL, la, lb, lR, v, hkL, hcL, hlL, fL, ta, tb, fR, hl, hlo⟩ :=
    T_zip_at2 ht he ha hb
  obtain ⟨aks, acs, bks0, bcs, va, vb0⟩ := T_views2 ta tb
  have hb1 : 1 ≤ b.n := by have := (T_n tb).1; omega
  have han0 := va.n_eq
  have hbn0 := vb0.n_eq
  obtain ⟨bk0, bks, rfl⟩ : ∃ bk0 bks, bks0 = bk0 :: bks := by
    cases bks0 with
    | nil => simp at hbn0; omega
    | cons x xs => exact ⟨x, xs, rfl⟩
  have hpn := v.n_eq
  have hcs := v.cs_len
  rw [if_pos rfl] at hcs
  simp only [List.length_append, List.length_cons] at hpn hcs hbn0
  obtain ⟨p1, a1, b1, h1, vp, va1, vb1⟩ := borrow_from_right_view v hcL va vb0 (by omega)
  obtain ⟨p1', a1', b1', bk, lpre, lb1, h1', vp', hlb, ta1, tb1, ha1n, hb1n⟩ :=
    borrow_from_right_T1 (by omega) v hcL ta tb han hb1
  rw [h1] at h1'
  cases h1'
  have hra : rd p1.edges e = some a1 := by
    have := rd_zip_mid vp
    rwa [hcL, hkL] at this
  have hra' : rd p1.edges e = some a1' := by
    have := rd_zip_mid vp'
    rwa [hcL, hkL] at this
  rw [hra] at hra'
  cases hra'
  have hrb : rd p1.edges (e + 1) = some b1 := by
    have := rd_edge_mid2 vp
    rwa [hcL, hkL] at this
  have hrb' : rd p1.edges (e + 1) = some b1' := by
    have := rd_edge_mid2 vp'
    rwa [hcL, hkL] at this
  rw [hrb] at hrb'
  cases hrb'
  rw [hkL] at h1
  obtain ⟨f, rfl⟩ : ∃ f, fuel = f + 1 := ⟨fuel - 1, by omega⟩
  have hbty : b.type = a.type := vb0.type_eq
  refine ⟨p1, a1, b1, h1, by rw [vp.type_eq, v.type_eq], by rw [vp.n_eq, v.n_eq]; simp, hb1,
    hra, hrb, va1.type_eq, by rw [vb1.type_eq, hbty], ha1n, hb1n, ?_, ?_, ?_, ?_, ?_, ?_, ?_,
    T_for_all hB (h + 1) lo p l ht (Or.inr (by omega)) (f + 1) hfuel, fun hc => ?_,
    fun hty h1n => ?_⟩
  · intro j hj
    rw [va1.keys_rd j (by simp; omega), va.keys_rd j (by omega),
      List.getElem?_append_left (by omega)]
  · rw [va1.keys_rd a.n (by simp; omega), han0, getElem?_zip_mid, ← hkL, rd_key_mid v]
  · rw [← hkL, rd_key_mid vp, vb0.keys_rd 0 (by simp)]
    simp
  · intro j hj
    rw [vb1.keys_rd j (by omega), vb0.keys_rd (j + 1) (by simp; omega),
      List.getElem?_cons_succ]
  · intro hty
    have hacs := va.cs_len
    have hbcs := vb0.cs_len
    rw [if_pos hty] at hacs hbcs
    simp only [List.length_cons] at hbcs
    refine ⟨?_, ?_, ?_⟩
    · intro j hj
      rw [va1.edges_rd j (by simp; omega), va.edges_rd j (by omega),
        List.getElem?_append_left (by omega)]
    · have e1 : a.n + 1 = acs.length + 0 := by omega
      rw [va1.edges_rd _ (by simp; omega), vb0.edges_rd 0 (by omega), e1, getElem?_append_add,
        List.getElem?_take]
      simp
    · intro j hj
      rw [vb1.edges_rd j (by simp; omega), vb0.edges_rd (j + 1) (by omega),
        List.getElem?_drop, Nat.add_comm]
  · intro j hj hne
    rcases Nat.lt_or_gt_of_ne hne with hlt | hgt
    · rw [vp.keys_rd j (by simp; omega), v.keys_rd j (by simp; omega),
        List.getElem?_append_left (by omega), List.getElem?_append_left (by omega)]
    · obtain ⟨d, rfl⟩ : ∃ d, j = kL.length + 1 + d := ⟨j - kL.length - 1, by omega⟩
      rw [vp.keys_rd _ (by simp; omega), v.keys_rd _ (by simp; omega), getElem?_zip_add1,
        getElem?_zip_add1]
  · intro j hj hne hne1
    rcases Nat.lt_or_gt_of_ne hne with hlt | hgt
    · rw [vp.edges_rd j (by simp; omega), v.edges_rd j (by simp; omega),
        List.getElem?_append_left (by omega), List.getElem?_append_left (by omega)]
    · obtain ⟨d, rfl⟩ : ∃ d, j = cL.length + 2 + d := ⟨j - cL.length - 2, by omega⟩
      rw [vp.edges_rd _ (by simp; omega), v.edges_rd _ (by simp; omega), getElem?_zip_add2,
        getElem?_zip_add2]
  · have hfb : BTreeNode.for_all f b1 = some lb1 := by
      refine T_for_all hB h 0 b1 lb1 tb1 ?_ f (by omega)
      rcases hc with hc | hc
      · cases h with
        | zero => exact Or.inl rfl
        | succ h =>
          obtain ⟨_, _, _, vv, _⟩ := T_succ.mp tb
          rw [vv.type_eq] at hc
          cases hc
      · exact Or.inr (by omega)
    have hfa : BTreeNode.for_all f a1 = some (la ++ s :: lpre) :=
      T_for_all hB h (B - 1) a1 _ ta1 (Or.inr (by omega)) f (by omega)
    have hbk : bk0 = bk := by
      have e1 := rd_key_mid vp
      rw [rd_key_mid vp'] at e1
      exact (Option.some.inj e1).symm
    have hall := view_for_all f vp (by simp only [List.length_append, List.length_cons]; omega)
      (forall₂_zip_join (forall₂_T_for_all hB fL f (by omega))
        (List.Forall₂.cons hfa (List.Forall₂.cons hfb
          (forall₂_T_for_all hB fR f (by omega)))))
    rw [hall, hl, hlb, inter_zip _ _ _ _ _ hlL, hbk]
    simp [interR]
  · have hty2 : ¬ NodeType.INTERNAL = NodeType.LEAF := by decide
    have h0 : b1.n = 0 := by omega
    have hb1ty : b1.type = NodeType.INTERNAL := by rw [vb1.type_eq, ← hbty, hty]
    simp [BTreeNode.for_all, hb1ty, hty2, h0]

/-- Witness of the amended C24, for `B = 2`: the node `[3]` over the leaves `[1]` and
`[4, 5]`, where the leaf `[1]` borrows from its right sibling. -/
theorem BTreeNode.borrow_from_right_post_witness :
    T 2 1 0 (sampleRoot 3 [1] [4, 5]) [1, 3, 4, 5] ∧ 0 < (sampleRoot 3 [1] [4, 5]).n ∧
    rd (sampleRoot 3 [1] [4, 5]).edges 0 = some (sampleLeaf [1]) ∧
    rd (sampleRoot 3 [1] [4, 5]).edges (0 + 1) = some (sampleLeaf [4, 5]) ∧
    (sampleLeaf [1]).n < 2 * 2 - 1 ∧
    ∃ p1 a1 b1, BTreeNode.borrow_from_right (sampleRoot 3 [1] [4, 5]) 0 = some p1 ∧
      p1.type = (sampleRoot 3 [1] [4, 5]).type ∧ p1.n = (sampleRoot 3 [1] [4, 5]).n ∧
      1 ≤ (sampleLeaf [4, 5]).n ∧ rd p1.edges 0 = some a1 ∧ rd p1.edges (0 + 1) = some b1 ∧
      a1.type = (sampleLeaf [1]).type ∧ b1.type = (sampleLeaf [4, 5]).type ∧
      a1.n = (sampleLeaf [1]).n + 1 ∧ b1.n + 1 = (sampleLeaf [4, 5]).n ∧
      (∀ j, j < (sampleLeaf [1]).n → rd a1.keys j = rd (sampleLeaf [1]).keys j) ∧
      rd a1.keys (sampleLeaf [1]).n = rd (sampleRoot 3 [1] [4, 5]).keys 0 ∧
      rd p1.keys 0 = rd (sampleLeaf [4, 5]).keys 0 ∧
      (∀ j, j + 1 < (sampleLeaf [4, 5]).n →
        rd b1.keys j = rd (sampleLeaf [4, 5]).keys (j + 1)) ∧
      ((sampleLeaf [1]).type = NodeType.INTERNAL →
        (∀ j, j ≤ (sampleLeaf [1]).n → rd a1.edges j = rd (sampleLeaf [1]).edges j) ∧
        rd a1.edges ((sampleLeaf [1]).n + 1) = rd (sampleLeaf [4, 5]).edges 0 ∧
        ∀ j, j + 1 ≤ (sampleLeaf [4, 5]).n →
          rd b1.edges j = rd (sampleLeaf [4, 5]).edges (j + 1)) ∧
      (∀ j, j < (sampleRoot 3 [1] [4, 5]).n → j ≠ 0 →
        rd p1.keys j = rd (sampleRoot 3 [1] [4, 5]).keys j) ∧
      (∀ j, j ≤ (sampleRoot 3 [1] [4, 5]).n → j ≠ 0 → j ≠ 0 + 1 →
        rd p1.edges j = rd (sampleRoot 3 [1] [4, 5]).edges j) ∧
      BTreeNode.for_all 2 (sampleRoot 3 [1] [4, 5]) = some [1, 3, 4, 5] ∧
      ((sampleLeaf [4, 5]).type = NodeType.LEAF ∨ 2 ≤ (sampleLeaf [4, 5]).n →
        BTreeNode.for_all 2 p1 = some [1, 3, 4, 5]) ∧
      ((sampleLeaf [4, 5]).type = NodeType.INTERNAL → (sampleLeaf [4, 5]).n = 1 →
        BTreeNode.for_all 2 b1 = some []) :=
  ⟨sampleRoot_T 3 [1] [4, 5] (by decide) (by decide) (by decide) (by decide), by decide, rfl,
    rfl, by decide,
    BTreeNode.borrow_from_right_post 2 (by decide) 0 0 (sampleRoot 3 [1] [4, 5])
      (sampleLeaf [1]) (sampleLeaf [4, 5]) [1, 3, 4, 5] 0
      (sampleRoot_T 3 [1] [4, 5] (by decide) (by decide) (by decide) (by decide)) (by decide)
      rfl rfl (by decide) 2 (by decide)⟩

/-- C25 as stated fails, for `B = 2`, on the node `[4]` over the internal nodes `[2]` and
`[6]`, each over two leaves of one key: the left sibling `[2]` holds one key, and after
`borrow_from_left(node, 1)` it is an internal node with `n = 0` and one child, the leaf
`[1]`, on which `for_all` returns at once; `for_all` on the node visited 1 .. 7 before the
call and visits 2 .. 7 afterwards. -/
theorem BTreeNode.borrow_from_left_changes_for_all :
    ∃ p1 b1, WellFormedNode 2 true 2 sampleInner ∧
      (sampleRoot 6 [5] [7]).n < 2 * 2 - 1 ∧ 1 ≤ (sampleRoot 2 [1] [3]).n ∧
      rd sampleInner.edges 1 = some (sampleRoot 6 [5] [7]) ∧
      rd sampleInner.edges 0 = some (sampleRoot 2 [1] [3]) ∧
      BTreeNode.borrow_from_left sampleInner 1 = some p1 ∧
      BTreeNode.for_all 3 sampleInner = some [1, 2, 3, 4, 5, 6, 7] ∧
      BTreeNode.for_all 3 p1 = some [2, 3, 4, 5, 6, 7] ∧
      rd p1.edges 0 = some b1 ∧ b1.type = NodeType.INTERNAL ∧ b1.n = 0 ∧
      rd b1.edges 0 = some (sampleLeaf [1]) :=
  ⟨_, _, sampleInner_wf, by decide, by decide, rfl, rfl, rfl, rfl, rfl, rfl, rfl, rfl, rfl⟩

/-- C25 as amended: for every `B >= 2`, every internal node `p` whose children are subtrees of
height `h` with between `B - 1` and `2B - 1` keys in every node (so that every child holds
at least one key), and every index `e` with `1 <= e <= p.n` whose child `a = edges[e]` holds
fewer than `2B - 1` keys, with `b = edges[e - 1]`, `borrow_from_left(p, e)` returns, and
afterwards: the keys of the child are the former `keys[e - 1]` of `p` followed by its former
keys; `keys[e - 1]` of `p` is the former last key of `b`; the other keys of `b` are where
they were; if the children are internal the former last child of `b` is the new first
child of `a`, before the former children of `a`, and the other children of `b` are where
they were; the child holds one key more, `b` one key fewer, `p` as many as before, with its
other keys and children where they were; and `for_all` on `p` visits the same keys `l` in
the same order as before when `b` is a leaf or held at least two keys, whereas an internal
`b` that held one key is left with `n = 0` and `for_all` visits nothing in it. -/
theorem BTreeNode.borrow_from_left_post (B : Nat) (hB : 2 ≤ B) (h lo : Nat)
    (p a b : BTreeNode) (l : List Int) (e : Nat) (ht : T B (h + 1) lo p l) (he1 : 1 ≤ e)
    (he : e ≤ p.n) (ha : rd p.edges e = some a) (hb : rd p.edges (e - 1) = some b)
    (han : a.n < 2 * B - 1) (fuel : Nat) (hfuel : h + 1 < fuel) :
    ∃ p1 a1 b1, BTreeNode.borrow_from_left p e = some p1 ∧ p1.type = p.type ∧ p1.n = p.n ∧
      1 ≤ b.n ∧ rd p1.edges e = some a1 ∧ rd p1.edges (e - 1) = some b1 ∧
      a1.type = a.type ∧ b1.type = b.type ∧ a1.n = a.n + 1 ∧ b1.n + 1 = b.n ∧
      rd a1.keys 0 = rd p.keys (e - 1) ∧ (∀ j, j < a.n → rd a1.keys (j + 1) = rd a.keys j) ∧
      rd p1.keys (e - 1) = rd b.keys (b.n - 1) ∧
      (∀ j, j + 1 < b.n → rd b1.keys j = rd b.keys j) ∧
      (a.type = NodeType.INTERNAL → rd a1.edges 0 = rd b.edges b.n ∧
        (∀ j, j ≤ a.n → rd a1.edges (j + 1) = rd a.edges j) ∧
        ∀ j, j < b.n → rd b1.edges j = rd b.edges j) ∧
      (∀ j, j < p.n → j ≠ e - 1 → rd p1.keys j = rd p.keys j) ∧
      (∀ j, j ≤ p.n → j ≠ e - 1 → j ≠ e → rd p1.edges j = rd p.edges j) ∧
      BTreeNode.for_all fuel p = some l ∧
      (b.type = NodeType.LEAF ∨ 2 ≤ b.n → BTreeNode.for_all fuel p1 = some l) ∧
      (b.type = NodeType.INTERNAL → b.n = 1 → BTreeNode.for_all fuel b1 = some []) := by
  obtain ⟨e0, rfl⟩ : ∃ e0, e = e0 + 1 := ⟨e - 1, by omega⟩
  rw [Nat.add_sub_cancel] at hb ⊢
  obtain ⟨kL, s, kR, cL, cR, lL, lb, la, lR, v, hkL, hcL, hlL, fL, tb, ta, fR, hl, hlo⟩ :=
    T_zip_at2 ht (show e0 < p.n by omega) hb ha
  obtain ⟨bks0, bcs, aks, acs, vb0, va0⟩ := T_views2 tb ta
  have hbty : b.type = a.type := by
    have e1 := va0.type_eq
    exact e1.symm
  have va : View B a a.type aks acs := by rw [hbty] at va0; exact va0
  have vb1' : View B b a.type bks0 bcs := by rw [hbty] at vb0; exact vb0
  have hb1 : 1 ≤ b.n := by have := (T_n tb).1; omega
  have han0 := va.n_eq
  have hbn0 := vb0.n_eq
  obtain ⟨bks, bk0, rfl⟩ : ∃ bks bk0, bks0 = bks ++ [bk0] := by
    rcases List.eq_nil_or_concat bks0 with h0 | ⟨bks, bk, h0⟩
    · rw [h0] at hbn0; simp at hbn0; omega
    · exact ⟨bks, bk, by rw [h0, List.concat_eq_append]⟩
  have hpn := v.n_eq
  have hcs := v.cs_len
  rw [if_pos rfl] at hcs
  simp only [List.length_append, List.length_cons, List.length_nil] at hpn hcs hbn0
  obtain ⟨p1, a1, b1, h1, vp, va1, vb1⟩ := borrow_from_left_view v hcL va vb1' (by omega)
  obtain ⟨p1', a1', b1', bk, lb1, lsuf, h1', vp', hlb, ta1, tb1, ha1n, hb1n⟩ :=
    borrow_from_left_T1 (by omega) v hcL ta tb han hb1
  rw [h1] at h1'
  cases h1'
  have hrb : rd p1.edges e0 = some b1 := by
    have := rd_zip_mid vp
    rwa [hcL, hkL] at this
  have hrb' : rd p1.edges e0 = some b1' := by
    have := rd_zip_mid vp'
    rwa [hcL, hkL] at this
  rw [hrb] at hrb'
  cases hrb'
  have hra : rd p1.edges (e0 + 1) = some a1 := by
    have := rd_edge_mid2 vp
    rwa [hcL, hkL] at this
  have hra' : rd p1.edges (e0 + 1) = some a1' := by
    have := rd_edge_mid2 vp'
    rwa [hcL, hkL] at this
  rw [hra] at hra'
  cases hra'
  rw [hkL] at h1
  obtain ⟨f, rfl⟩ : ∃ f, fuel = f + 1 := ⟨fuel - 1, by omega⟩
  refine ⟨p1, a1, b1, h1, by rw [vp.type_eq, v.type_eq], by rw [vp.n_eq, v.n_eq]; simp, hb1,
    hra, hrb, va1.type_eq, by rw [vb1.type_eq, hbty], ha1n, hb1n, ?_, ?_, ?_, ?_, ?_, ?_, ?_,
    T_for_all hB (h + 1) lo p l ht (Or.inr (by omega)) (f + 1) hfuel, fun hc => ?_,
    fun hty h1n => ?_⟩
  · rw [va1.keys_rd 0 (by simp), ← hkL, rd_key_mid v]
    simp
  · intro j hj
    rw [va1.keys_rd (j + 1) (by simp; omega), va.keys_rd j (by omega),
      List.getElem?_cons_succ]
  · have e1 : b.n - 1 = bks.length := by omega
    rw [← hkL, rd_key_mid vp, e1, vb0.keys_rd _ (by simp), getElem?_zip_mid]
  · intro j hj
    rw [vb1.keys_rd j (by omega), vb0.keys_rd j (by simp; omega),
      List.getElem?_append_left (by omega)]
  · intro hty
    have hacs := va.cs_len
    have hbcs := vb1'.cs_len
    rw [if_pos hty] at hacs hbcs
    simp only [List.length_append, List.length_cons, List.length_nil] at hbcs
    refine ⟨?_, ?_, ?_⟩
    · rw [va1.edges_rd 0 (by simp; omega), vb0.edges_rd b.n (by omega),
        List.getElem?_append_left (by simp; omega), List.getElem?_drop, hbn0]
    · intro j hj
      have e1 : (List.drop (bks.length + 1) bcs).length = 1 := by simp; omega
      have e2 : j + 1 = (List.drop (bks.length + 1) bcs).length + j := by omega
      rw [va1.edges_rd _ (by simp; omega), va.edges_rd j (by omega), e2, getElem?_append_add]
    · intro j hj
      rw [vb1.edges_rd j (by simp; omega), vb0.edges_rd j (by omega), List.getElem?_take]
      simp
      omega
  · intro j hj hne
    rcases Nat.lt_or_gt_of_ne hne with hlt | hgt
    · rw [vp.keys_rd j (by simp; omega), v.keys_rd j (by simp; omega),
        List.getElem?_append_left (by omega), List.getElem?_append_left (by omega)]
    · obtain ⟨d, rfl⟩ : ∃ d, j = kL.length + 1 + d := ⟨j - kL.length - 1, by omega⟩
      rw [vp.keys_rd _ (by simp; omega), v.keys_rd _ (by simp; omega), getElem?_zip_add1,
        getElem?_zip_add1]
  · intro j hj hne hne1
    rcases Nat.lt_or_gt_of_ne hne with hlt | hgt
    · rw [vp.edges_rd j (by simp; omega), v.edges_rd j (by simp; omega),
        List.getElem?_append_left (by omega), List.getElem?_append_left (by omega)]
    · obtain ⟨d, rfl⟩ : ∃ d, j = cL.length + 2 + d := ⟨j - cL.length - 2, by omega⟩
      rw [vp.edges_rd _ (by simp; omega), v.edges_rd _ (by simp; omega), getElem?_zip_add2,
        getElem?_zip_add2]
  · have hfb : BTreeNode.for_all f b1 = some lb1 := by
      refine T_for_all hB h 0 b1 lb1 tb1 ?_ f (by omega)
      rcases hc with hc | hc
      · cases h with
        | zero => exact Or.inl rfl
        | succ h =>
          obtain ⟨_, _, _, vv, _⟩ := T_succ.mp tb
          rw [vv.type_eq] at hc
          cases hc
      · exact Or.inr (by omega)
    have hfa : BTreeNode.for_all f a1 = some (lsuf ++ s :: la) :=
      T_for_all hB h (B - 1) a1 _ ta1 (Or.inr (by omega)) f (by omega)
    have hbk : bk0 = bk := by
      have e1 := rd_key_mid vp
      rw [rd_key_mid vp'] at e1
      exact (Option.some.inj e1).symm
    have hall := view_for_all f vp (by simp only [List.length_append, List.length_cons]; omega)
      (forall₂_zip_join (forall₂_T_for_all hB fL f (by omega))
        (List.Forall₂.cons hfb (List.Forall₂.cons hfa
          (forall₂_T_for_all hB fR f (by omega)))))
    rw [hall, hl, hlb, inter_zip _ _ _ _ _ hlL, hbk]
    simp [interR]
  · have hty2 : ¬ NodeType.INTERNAL = NodeType.LEAF := by decide
    have h0 : b1.n = 0 := by omega
    have hb1ty : b1.type = NodeType.INTERNAL := by rw [vb1.type_eq, ← hbty, hty]
    simp [BTreeNode.for_all, hb1ty, hty2, h0]

/-- Witness of the amended C25, for `B = 2`: the node `[3]` over the leaves `[1, 2]` and
`[4]`, where the leaf `[4]` borrows from its left sibling. -/
theorem BTreeNode.borrow_from_left_post_witness :
    T 2 1 0 (sampleRoot 3 [1, 2] [4]) [1, 2, 3, 4] ∧ 1 ≤ 1 ∧ 1 ≤ (sampleRoot 3 [1, 2] [4]).n ∧
    rd (sampleRoot 3 [1, 2] [4]).edges 1 = some (sampleLeaf [4]) ∧
    rd (sampleRoot 3 [1, 2] [4]).edges (1 - 1) = some (sampleLeaf [1, 2]) ∧
    (sampleLeaf [4]).n < 2 * 2 - 1 ∧
    ∃ p1 a1 b1, BTreeNode.borrow_from_left (sampleRoot 3 [1, 2] [4]) 1 = some p1 ∧
      p1.type = (sampleRoot 3 [1, 2] [4]).type ∧ p1.n = (sampleRoot 3 [1, 2] [4]).n ∧
      1 ≤ (sampleLeaf [1, 2]).n ∧ rd p1.edges 1 = some a1 ∧ rd p1.edges (1 - 1) = some b1 ∧
      a1.type = (sampleLeaf [4]).type ∧ b1.type = (sampleLeaf [1, 2]).type ∧
      a1.n = (sampleLeaf [4]).n + 1 ∧ b1.n + 1 = (sampleLeaf [1, 2]).n ∧
      rd a1.keys 0 = rd (sampleRoot 3 [1, 2] [4]).keys (1 - 1) ∧
      (∀ j, j < (sampleLeaf [4]).n → rd a1.keys (j + 1) = rd (sampleLeaf [4]).keys j) ∧
      rd p1.keys (1 - 1) = rd (sampleLeaf [1, 2]).keys ((sampleLeaf [1, 2]).n - 1) ∧
      (∀ j, j + 1 < (sampleLeaf [1, 2]).n → rd b1.keys j = rd (sampleLeaf [1, 2]).keys j) ∧
      ((sampleLeaf [4]).type = NodeType.INTERNAL →
        rd a1.edges 0 = rd (sampleLeaf [1, 2]).edges (sampleLeaf [1, 2]).n ∧
        (∀ j, j ≤ (sampleLeaf [4]).n → rd a1.edges (j + 1) = rd (sampleLeaf [4]).edges j) ∧
        ∀ j, j < (sampleLeaf [1, 2]).n → rd b1.edges j = rd (sampleLeaf [1, 2]).edges j) ∧
      (∀ j, j < (sampleRoot 3 [1, 2] [4]).n → j ≠ 1 - 1 →
        rd p1.keys j = rd (sampleRoot 3 [1, 2] [4]).keys j) ∧
      (∀ j, j ≤ (sampleRoot 3 [1, 2] [4]).n → j ≠ 1 - 1 → j ≠ 1 →
        rd p1.edges j = rd (sampleRoot 3 [1, 2] [4]).edges j) ∧
      BTreeNode.for_all 2 (sampleRoot 3 [1, 2] [4]) = some [1, 2, 3, 4] ∧
      ((sampleLeaf [1, 2]).type = NodeType.LEAF ∨ 2 ≤ (sampleLeaf [1, 2]).n →
        BTreeNode.for_all 2 p1 = some [1, 2, 3, 4]) ∧
      ((sampleLeaf [1, 2]).type = NodeType.INTERNAL → (sampleLeaf [1, 2]).n = 1 →
        BTreeNode.for_all 2 b1 = some []) :=
  ⟨sampleRoot_T 3 [1, 2] [4] (by decide) (by decide) (by decide) (by decide), by decide,
    by decide, rfl, rfl, by decide,
    BTreeNode.borrow_from_left_post 2 (by decide) 0 0 (sampleRoot 3 [1, 2] [4])
      (sampleLeaf [4]) (sampleLeaf [1, 2]) [1, 2, 3, 4] 1
      (sampleRoot_T 3 [1, 2] [4] (by decide) (by decide) (by decide) (by decide)) (by decide)
      (by decide) rfl rfl (by decide) 2 (by decide)⟩

/-- C26, evaluated for `B = 2` on the well-formed node of height 3 with the key 12 over the
internal nodes `[4, 8]` and `[20]`.  `remove(12)` finds 12 at index 0; the left child
`[4, 8]` holds `B = 2` keys, so `keys[0]` is set to its rightmost key 11 and `remove(11)` is
called on the left child.  There the child `[10]` to enter holds one key and is merged into
its left sibling `[6]`: `delete sibling` releases `[10]` and, by its destructor, its leaves
`[9]` and `[11]`.  The call on the merged node `[6, 8, 10]` looks for 11 at index 3 and tests
`edges[3]->n < B`, where slot 3 holds the pointer to the released leaf `[11]`: `remove(12)` is
undefined with every recursion budget. -/
theorem BTreeNode.remove_predecessor_enters_deleted_node :
    WellFormedNode 2 true 3 sampleDeep ∧ sampleDeep.type = NodeType.INTERNAL ∧
    ∃ left child sibling g d left1 merged,
      get_index sampleDeep 12 = some 0 ∧ rd sampleDeep.keys 0 = some 12 ∧
      rd sampleDeep.edges 0 = some left ∧ 2 ≤ left.n ∧
      find_rightmost_key 3 left = some 11 ∧
      get_index left 11 = some 2 ∧ left.n = 2 ∧
      BTreeNode.remove_fix 2 left 2 = BTreeNode.merge_children left 1 ∧
      rd left.edges 1 = some child ∧ rd left.edges 2 = some sibling ∧
      child.type = NodeType.INTERNAL ∧ sibling.type = NodeType.INTERNAL ∧
      sibling.n = 1 ∧ rd sibling.edges 1 = some g ∧ BTreeNode.for_all 1 g = some [11] ∧
      BTreeNode.merge_children_deleted 3 left 1 = some d ∧ g ∈ d ∧
      BTreeNode.merge_children left 1 = some left1 ∧ get_index left1 11 = some 1 ∧
      rd left1.edges 1 = some merged ∧ merged.type = NodeType.INTERNAL ∧ merged.n = 3 ∧
      get_index merged 11 = some 3 ∧ found_at merged 3 11 = some false ∧
      rd merged.edges 3 = none ∧ BTreeNode.remove_fix 2 merged 3 = none ∧
      (∀ fuel, BTreeNode.remove 2 fuel left 11 = none) ∧
      ∀ fuel, BTreeNode.remove 2 fuel sampleDeep 12 = none :=
  ⟨sampleDeep_wf true, rfl, _, _, _, _, _, _, _, rfl, rfl, rfl, by decide, rfl, rfl, rfl, rfl,
    rfl, rfl, rfl, rfl, rfl, rfl, rfl, rfl, List.mem_iff_getElem?.mpr ⟨1, rfl⟩, rfl, rfl, rfl,
    rfl, rfl, rfl, rfl, rfl, rfl,
    fun fuel => by
      cases fuel with
      | zero => rfl
      | succ f =>
        cases f with
        | zero => rfl
        | succ f => rfl,
    fun fuel => by
      cases fuel with
      | zero => rfl
      | succ f =>
        cases f with
        | zero => rfl
        | succ f =>
          cases f with
          | zero => rfl
          | succ f =>
            cases f with
            | zero => rfl
            | succ f => rfl⟩

/-! ## `get_index` and the removal of an absent key -/

/-- C27: for every node whose `n` live key slots have been written and hold an ascending
sequence, and every `t`: `get_index(t)` returns an index `idx <= n` such that every live key
before `idx` is strictly smaller than `t` and every live key from `idx` on is at least `t`;
`idx` is therefore the smallest index with `idx = n` or `keys[idx] >= t`, and it is the
number of live keys strictly smaller than `t`. -/
theorem BTreeNode.get_index_position (node : BTreeNode) (t : Int)
    (hlive : ∀ i, i < node.n → ∃ x, rd node.keys i = some x)
    (hsorted : ∀ i j x y, i < j → j < node.n → rd node.keys i = some x →
      rd node.keys j = some y → x ≤ y) :
    ∃ idx, BTreeNode.get_index node t = some idx ∧ idx ≤ node.n ∧
      (∀ j, j < idx → ∃ x, rd node.keys j = some x ∧ x < t) ∧
      (∀ j, idx ≤ j → j < node.n → ∃ x, rd node.keys j = some x ∧ t ≤ x) ∧
      node.count_below t = idx := by
  obtain ⟨ks, h1, h2⟩ := exists_list (fun i x => rd node.keys i = some x) node.n hlive
  have hrd : ∀ i, i < ks.length → rd node.keys i = ks[i]? := by
    intro i hi
    rw [List.getElem?_eq_getElem hi]
    exact h2 i _ (List.getElem?_eq_getElem hi)
  have hs : ks.Pairwise (· ≤ ·) := by
    rw [List.pairwise_iff_getElem]
    intro i j hi hj hij
    exact hsorted i j _ _ hij (by omega) (h2 i _ (List.getElem?_eq_getElem hi))
      (h2 j _ (List.getElem?_eq_getElem hj))
  obtain ⟨e1, e2, e3, e4⟩ := get_index_sorted t h1 hrd hs
  exact ⟨lowerIdx ks t, e1, by rw [← h1]; exact lowerIdx_le ks t, e2, e3, e4⟩

/-- Witness of C27: the node `[ 3 | 9 | 13 | 27 ]` of the comment above `get_index`, for which
the function returns 0, 1, 2, 3, 4 on 2, 5, 10, 19, 31. -/
theorem BTreeNode.get_index_position_witness :
    (∀ i, i < get_index_example.n → ∃ x, rd get_index_example.keys i = some x) ∧
    (∀ i j x y, i < j → j < get_index_example.n → rd get_index_example.keys i = some x →
      rd get_index_example.keys j = some y → x ≤ y) ∧
    BTreeNode.get_index get_index_example 2 = some 0 ∧
    BTreeNode.get_index get_index_example 5 = some 1 ∧
    BTreeNode.get_index get_index_example 10 = some 2 ∧
    BTreeNode.get_index get_index_example 19 = some 3 ∧
    BTreeNode.get_index get_index_example 31 = some 4 ∧
    ∃ idx, BTreeNode.get_index get_index_example 10 = some idx ∧ idx ≤ get_index_example.n ∧
      (∀ j, j < idx → ∃ x, rd get_index_example.keys j = some x ∧ x < 10) ∧
      (∀ j, idx ≤ j → j < get_index_example.n →
        ∃ x, rd get_index_example.keys j = some x ∧ 10 ≤ x) ∧
      get_index_example.count_below 10 = idx :=
  ⟨get_index_example_live, get_index_example_sorted, rfl, rfl, rfl, rfl, rfl,
    BTreeNode.get_index_position get_index_example 10 get_index_example_live
      get_index_example_sorted⟩

/-- C28, evaluated for `B = 2` on the well-formed tree `[2]` over the leaves `[1]` and `[3]`,
which does not store 5: `remove(5)` merges the two leaves before it descends and collapses
the root; `root` is set to the merged leaf `[1, 2, 3]`, and `delete prev_root` releases that
leaf, which is still in slot 0 of the old root.  The tree is left with a root that has been
deleted, and `for_all` on it is undefined with every recursion budget instead of yielding
`[1, 2, 3]`. -/
theorem BTree.remove_absent_key_deletes_root :
    sampleTreeA.WellFormedAt 2 1 ∧ sampleTreeA.for_all 3 = some [1, 2, 3] ∧
    ∃ t1 r1 d, BTree.remove 2 3 sampleTreeA 5 = some (true, t1) ∧ t1.root = some r1 ∧
      BTreeNode.for_all 1 r1 = some [1, 2, 3] ∧
      BTree.remove_root_deleted 2 3 sampleTreeA 5 = some d ∧ r1 ∈ d ∧ t1.deleted = true ∧
      ∀ fuel, t1.for_all fuel = none :=
  ⟨sampleTreeA_wf, rfl, _, _, _, rfl, rfl, rfl, rfl, List.mem_iff_getElem?.mpr ⟨0, rfl⟩, rfl,
    fun _ => rfl⟩

/-! ## The binary search tree as a set -/

/-- C29: for every binary search tree satisfying the BST ordering and every key `k`:
`insert(k)` returns `true` exactly when `search(k)` was `false` before the call; the tree
after the call satisfies the BST ordering; `search(x)` on it is `true` exactly for `x = k` and
for the keys found before; and when the call returns `false` the tree is unchanged. -/
theorem BST.insert_set_semantics (t : BST) (k : Int) (ho : TreePtr.Ordered t.root) :
    ((t.insert k).1 = true ↔ t.search k = false) ∧ TreePtr.Ordered (t.insert k).2.root ∧
    (∀ x, (t.insert k).2.search x = true ↔ (x = k ∨ t.search x = true)) ∧
    ((t.insert k).1 = false → (t.insert k).2 = t) := by
  refine ⟨?_, TreePtr.insert_ordered t.root k ho, fun x => ?_, fun h => ?_⟩
  · simp only [BST.insert, BST.search, TreePtr.insert_result]
    cases TreePtr.search t.root k <;> simp
  · simp only [BST.insert, BST.search]
    rw [TreePtr.search_iff_mem _ x (TreePtr.insert_ordered t.root k ho),
      TreePtr.insert_elements, TreePtr.search_iff_mem _ x ho]
  · simp only [BST.insert] at h ⊢
    rw [TreePtr.insert_unchanged t.root k h]

/-- Witness of C29: on the tree with 5 at the root, 3 and 8 below it and 4 below 3,
`insert(6)` returns `true` and `insert(4)` returns `false`. -/
theorem BST.insert_set_semantics_witness :
    TreePtr.Ordered sampleBST.root ∧ (sampleBST.insert 6).1 = true ∧
    (sampleBST.insert 4).1 = false ∧
    (((sampleBST.insert 6).1 = true ↔ sampleBST.search 6 = false) ∧
    TreePtr.Ordered (sampleBST.insert 6).2.root ∧
    (∀ x, (sampleBST.insert 6).2.search x = true ↔ (x = 6 ∨ sampleBST.search x = true)) ∧
    ((sampleBST.insert 6).1 = false → (sampleBST.insert 6).2 = sampleBST)) :=
  ⟨sampleBST_ordered, rfl, rfl, BST.insert_set_semantics sampleBST 6 sampleBST_ordered⟩

/-- C30: for every binary search tree satisfying the BST ordering and every key `k`:
`remove(k)` returns, with `true` exactly when `search(k)` was `true` before the call; the tree
after the call satisfies the BST ordering; `search(k)` on it is `false` and `search(x)` for
every `x != k` is what it was before the call; and when `k` is at a node with two children,
that node gets the rightmost key of its left subtree, which is its largest element, and the
left subtree is the one left by removing that key from it. -/
theorem BST.remove_set_semantics (t : BST) (k : Int) (ho : TreePtr.Ordered t.root) :
    ∃ b t1, t.remove k = some (b, t1) ∧ (b = true ↔ t.search k = true) ∧
      TreePtr.Ordered t1.root ∧ t1.search k = false ∧
      (∀ x, x ≠ k → t1.search x = t.search x) ∧
      (∀ l r, t.root = TreePtr.node k l r → l.isNull = false → r.isNull = false →
        ∃ m b1 l1, TreePtr.find_rightmost_key l = some m ∧ (∀ x ∈ l.elements, x ≤ m) ∧
          TreePtr.remove l m = some (b1, l1) ∧ t1.root = TreePtr.node m l1 r) := by
  obtain ⟨b, r1, h1, h2, h3, h4⟩ := TreePtr.remove_spec t.root k ho
  refine ⟨b, BST.mk r1, by simp [BST.remove, h1], ?_, h3, ?_, fun x hx => ?_,
    fun l r hroot hl hr => ?_⟩
  · rw [h2, BST.search, TreePtr.search_iff_mem _ k ho]
  · have hn : ¬ (TreePtr.search r1 k = true) := by
      rw [TreePtr.search_iff_mem _ k h3, h4 k]
      exact fun h => h.2 rfl
    simpa [BST.search] using hn
  · have hiff : TreePtr.search r1 x = true ↔ TreePtr.search t.root x = true := by
      rw [TreePtr.search_iff_mem _ x h3, h4 x, TreePtr.search_iff_mem _ x ho]
      exact ⟨fun h => h.1, fun h => ⟨h, hx⟩⟩
    simp only [BST.search]
    cases e1 : TreePtr.search r1 x <;> cases e2 : TreePtr.search t.root x <;> simp_all
  · rw [hroot] at ho h1
    obtain ⟨_, _, hol, _⟩ := ho
    obtain ⟨m, hm1, _, hm3⟩ := TreePtr.find_rightmost_key_spec l hl hol
    obtain ⟨b1, l1, hr1, _⟩ := TreePtr.remove_spec l m hol
    refine ⟨m, b1, l1, hm1, hm3, hr1, ?_⟩
    simp only [TreePtr.remove, ne_eq, not_true_eq_false, if_false, hl, hr, Bool.false_eq_true,
      false_and, hm1, Option.some_bind, hr1, Option.map_some', Option.some.injEq,
      Prod.mk.injEq] at h1
    exact h1.2.symm

/-- Witness of C30: on the tree with 5 at the root, 3 and 8 below it and 4 below 3,
`remove(5)` returns `true` and leaves 4 at the root, with 3 and 8 below it. -/
theorem BST.remove_set_semantics_witness :
    TreePtr.Ordered sampleBST.root ∧
    sampleBST.remove 5 = some (true, BST.mk (TreePtr.node 4
      (TreePtr.node 3 TreePtr.null TreePtr.null) (TreePtr.node 8 TreePtr.null TreePtr.null))) ∧
    ∃ b t1, sampleBST.remove 5 = some (b, t1) ∧ (b = true ↔ sampleBST.search 5 = true) ∧
      TreePtr.Ordered t1.root ∧ t1.search 5 = false ∧
      (∀ x, x ≠ 5 → t1.search x = sampleBST.search x) ∧
      (∀ l r, sampleBST.root = TreePtr.node 5 l r → l.isNull = false → r.isNull = false →
        ∃ m b1 l1, TreePtr.find_rightmost_key l = some m ∧ (∀ x ∈ l.elements, x ≤ m) ∧
          TreePtr.remove l m = some (b1, l1) ∧ t1.root = TreePtr.node m l1 r) :=
  ⟨sampleBST_ordered, rfl, BST.remove_set_semantics sampleBST 5 sampleBST_ordered⟩

/-! ## Insertion into the red-black tree -/

/-- C31 fails: in the model in which `release` leaves the released pointer null and a
pointer that is returned and not stored is lost, the tree reached from the empty tree by
`insert` of `k0` and then of any list of keys `ks` is the one black node `k0`; `insert(k)`
on it returns `true` and leaves it as it is, so afterwards `contains(k)` is `true` only for
`k = k0`, while every key contained before the call is still contained.  After `insert(82)`
and `insert(116)` on the empty tree, `contains(116)` is `false` and `contains(82)` is
`true`. -/
theorem RBTree.insert_loses_key (k0 : Int) (ks : List Int) (k : Int) (fuel : Nat) :
    RBTree.insert_keys (fuel + 2) (RBTree.mk RBPtr.null) (k0 :: ks)
      = some (RBTree.single k0) ∧
    RBTree.insert (fuel + 2) (RBTree.single k0) k = some (true, RBTree.single k0) ∧
    ((RBTree.single k0).contains k = true ↔ k = k0) ∧
    RBTree.insert_keys 2 (RBTree.mk RBPtr.null) [82, 116] = some (RBTree.single 82) ∧
    RBNode.insert 1 RBPtr.null 116
      = some (RBPtr.null, RBPtr.node 116 RED RBPtr.null RBPtr.null) ∧
    RBNode.insert 2 (RBTree.single 82).root 116 = some (RBPtr.null, (RBTree.single 82).root) ∧
    (RBTree.single 82).contains 116 = false ∧ (RBTree.single 82).contains 82 = true := by
  refine ⟨?_, RBTree.insert_single fuel k0 k, RBTree.contains_single k0 k, rfl, rfl, rfl, rfl,
    rfl⟩
  have h1 : RBTree.insert (fuel + 2) (RBTree.mk RBPtr.null) k0 = some (true, RBTree.single k0) := by
    simp [RBTree.insert, RBTree.single, RBPtr.isNull]
  simp [RBTree.insert_keys, h1, RBTree.insert_keys_single]

